import Mathlib

/-!
# graple: the sub-graph mining engine

A shallow embedding of the collectors, the support measure, the memo of
supported extensions, the walk, the sampling driver, the extension of
embeddings, the transition matrices, the maximal filter and the line
reader and loader of graphs of `timtadh/graple`, followed by theorems on the
properties that its specification states.

Conventions of the embedding.

* A Go `[]byte` is a list of bytes (`Bytes`); where the source tells a nil
  slice from a non-nil one the slice is an `Option Bytes`, `none` being nil.
* A Go slice of pointers to sub-graphs (`partition`) is a list of sub-graphs; a
  nil partition is the empty list.
* A run-time panic (index out of range, calling a nil function value,
  `log.Fatal`, `log.Panic`) is the result `none` of a function returning
  `Option`, or the error `Fault.panic`. Where a deferred `recover` makes the
  difference, for `PrMatrices`, the type `Halt` tells a panic of the calling
  goroutine from the end of the program.
* A loop or recursion without a bound of its own takes a step bound (fuel);
  the error `Fault.outOfFuel` says that the bound was reached, not that the
  program has ended.
* Values sent on a channel are the items of a list; where goroutines run in
  parallel, the order in which their results arrive is a parameter, and so
  is how much the goroutines of the shards have received when the stores are
  read (`minerEnv.received`).
* The `int` of Go has 64 bits, except in `hashInt`, which takes the width.
* A Go iterator (a closure that returns the next item and the next closure, or
  nils at the end) is the list of the items it has yet to yield; a nil
  iterator is `none`.
* Sizes converted with `float64(...)` are compared as natural numbers: the
  conversion is exact below `2^53`.
* The graph library `goiso`, the B+tree and the sets of the libraries are not
  part of the repository: their methods are inputs of the definitions
  (`GraphLib`, `SubGraphOps`, `SetCodec`, a `Lattice`, `RemoveEdge`,
  `jsonLib`) or are embedded by what they return. The concrete libraries
  among the definitions (`exampleLib`, `toyLib`, `sizedLib`, `toyJson`) serve
  to instantiate the theorems.
-/

namespace Graple

/-! ## Data model -/

/-- A Go byte slice. -/
abbrev Bytes := List (Fin 256)

/-- Vertex of a sub-graph (`goiso.Vertex`): `Idx` is the slot inside the
sub-graph, `Id` the identity of the vertex in the host graph. -/
structure Vertex where
  Idx : Int
  Id : Int
  Color : Int
deriving DecidableEq, Repr

/-- Edge of a sub-graph (`goiso.Edge`). -/
structure Edge where
  Src : Int
  Targ : Int
  Color : Int
deriving DecidableEq, Repr

/-- An embedding (`goiso.SubGraph`): its vertex slots and its edges. -/
structure SubGraph where
  V : List Vertex
  E : List Edge
deriving DecidableEq, Repr

/-- The Go type `partition`, a slice of embeddings (`[]*goiso.SubGraph`). -/
abbrev partition := List SubGraph

/-! ## `set.MapSet` over a `set.SortedSet`

`VertexSets` uses the map-set of the data-structures library: a set of
key/value entries ordered by key, at most one entry per key. -/

/-- The entries of a `set.MapSet` built on a `set.SortedSet`, in ascending key
order. Keys are `types.Int`, values the `int` index stored by `VertexSets`. -/
structure MapSet where
  entries : List (Int × Nat)
deriving DecidableEq, Repr

namespace MapSet

/-- The empty map-set, `set.NewMapSet(set.NewSortedSet(n))`. -/
def empty : MapSet := ⟨[]⟩

/-- Membership test `Has(key)`. -/
def Has (s : MapSet) (key : Int) : Bool :=
  s.entries.any (fun e => e.1 == key)

/-- Insertion of an entry at its place in the key order; an entry whose key is
present is left as it is. -/
def insertEntry (key : Int) (value : Nat) : List (Int × Nat) → List (Int × Nat)
  | [] => [(key, value)]
  | e :: rest =>
    if key < e.1 then (key, value) :: e :: rest
    else if key = e.1 then e :: rest
    else e :: insertEntry key value rest

/-- The operation `Put(key, value)`. -/
def Put (s : MapSet) (key : Int) (value : Nat) : MapSet :=
  ⟨insertEntry key value s.entries⟩

/-- The operation `Size()`. -/
def Size (s : MapSet) : Nat := s.entries.length

/-- The values yielded by the iterator `Values()`, in key order. -/
def Values (s : MapSet) : List Nat := s.entries.map Prod.snd

end MapSet

/-! ## `mine/sample.go`: `srange`, `min` -/

/-- The function `srange(size)`: the slice `0, 1, ..., size-1`. -/
def srange (size : Nat) : List Int :=
  (List.range size).map Int.ofNat

/-- The loop of `min`: `acc` is `(arg, min)`. -/
def minLoop (f : Int → Nat) : List Int → Int × Nat → Int × Nat
  | [], acc => acc
  | i :: rest, acc =>
    let d := f i
    if d < acc.2 ∨ acc.1 < 0 then minLoop f rest (i, d) else minLoop f rest acc

/-- The function `min(items, f)`: `arg` starts at `-1` and `min` at zero. -/
def min (items : List Int) (f : Int → Nat) : Int × Nat :=
  minLoop f items (-1, 0)

/-! ## `mine/support.go`: `VertexSets`, `MinimumImageSupport` -/

/-- Inner loop of `VertexSets` for slot `i`, over the embeddings from index
`j` on. The access `sg.V[i]` panics when the embedding has no slot `i`. -/
def slotSetFrom (i : Nat) : Nat → partition → MapSet → Option MapSet
  | _, [], set => some set
  | j, sg :: rest, set =>
    match sg.V[i]? with
    | none => none
    | some v =>
      if !set.Has v.Id then slotSetFrom i (j + 1) rest (set.Put v.Id j)
      else slotSetFrom i (j + 1) rest set

/-- The function `VertexSets(sgs)`: one map-set per vertex slot of `sgs[0]`, from vertex id
to the first index `j` whose embedding has that id in the slot. -/
def VertexSets (sgs : partition) : Option (List MapSet) :=
  match sgs with
  | [] => some []
  | sg0 :: _ => (List.range sg0.V.length).mapM (fun i => slotSetFrom i 0 sgs MapSet.empty)

/-- The function `MinimumImageSupport(sgs)`. -/
def MinimumImageSupport (sgs : partition) : Option partition :=
  if sgs.length ≤ 1 then some sgs
  else
    match VertexSets sgs with
    | none => none
    | some sets =>
      let r := min (srange sets.length) (fun i => ((sets[i.toNat]?).map MapSet.Size).getD 0)
      if r.1 < 0 then none
      else
        match sets[r.1.toNat]? with
        | none => none
        | some s => s.Values.mapM (fun idx => sgs[idx]?)

/-- The vertex id in slot `i` of the `j`-th embedding, when there is one. -/
def slotId (sgs : partition) (i j : Nat) : Option Int :=
  match sgs[j]? with
  | none => none
  | some sg => (sg.V[i]?).map Vertex.Id

/-- The vertex ids seen in slot `i`, one per embedding that has the slot. -/
def slotIds (sgs : partition) (i : Nat) : List Int :=
  sgs.filterMap (fun sg => (sg.V[i]?).map Vertex.Id)

/-- The number of distinct host-graph vertex ids in slot `i` of a partition. -/
def imageSize (sgs : partition) (i : Nat) : Nat :=
  (slotIds sgs i).dedup.length

/-! ## Auxiliary definitions for the proofs about `MinimumImageSupport` -/

/-- The key list of a list of entries. -/
def keysOf (l : List (Int × Nat)) : List Int := l.map Prod.fst

/-- The inner loop of `VertexSets` as it acts on the ids of one slot. -/
def buildFrom : Nat → List Int → MapSet → MapSet
  | _, [], set => set
  | j, id :: rest, set =>
    if !set.Has id then buildFrom (j + 1) rest (set.Put id j) else buildFrom (j + 1) rest set

/-- The accumulator of `min` after the indices below `s`: nothing seen yet, or
the least index at which `g` is minimal on `[0, s)`. -/
def MinAt (g : Nat → Nat) (s : Nat) (acc : Int × Nat) : Prop :=
  (acc.1 = -1 ∧ s = 0) ∨
    ∃ a, a < s ∧ acc.1 = (a : Int) ∧ acc.2 = g a ∧ (∀ i, i < s → g a ≤ g i) ∧
      ∀ i, i < a → g a < g i

/-! ## The graph library

The engine calls the graph library (goiso) for the canonical short label of an
embedding and for its serialization; the three functions are parameters of the
embedding. -/

/-- The functions of the graph library that the stores and collectors use:
`sg.ShortLabel()`, `sg.Serialize()` and `goiso.DeserializeSubGraph(g, bytes)`
for the host graph `g` of the engine. -/
structure GraphLib where
  ShortLabel : SubGraph → Bytes
  Serialize : SubGraph → Bytes
  DeserializeSubGraph : Bytes → SubGraph

/-! ## The B+tree of the block-file library

The stores of `store/` wrap a B+tree of the fs2 library. It is a collaborator
of the engine; the model follows the contract of section 6 of the
specification: an ordered multimap from byte keys to byte values in which keys
may repeat. Entries are kept in ascending key order; among the entries of one
key the tree of the library yields the entry added last first. -/

/-- The entries of a B+tree, in iteration order. -/
structure BpTree where
  entries : List (Bytes × Bytes)
deriving DecidableEq, Repr

namespace BpTree

/-- The empty tree, `bptree.New`. -/
def empty : BpTree := ⟨[]⟩

/-- Insertion of an entry after the entries whose key is smaller, before the
entries of its own key. -/
def insertEntry (key value : Bytes) : List (Bytes × Bytes) → List (Bytes × Bytes)
  | [] => [(key, value)]
  | e :: rest =>
    if key ≤ e.1 then (key, value) :: e :: rest
    else e :: insertEntry key value rest

/-- The operation `Add(key, value)`. -/
def Add (t : BpTree) (key value : Bytes) : BpTree :=
  ⟨insertEntry key value t.entries⟩

/-- The operation `Has(key)`. -/
def Has (t : BpTree) (key : Bytes) : Bool :=
  t.entries.any (fun e => e.1 == key)

/-- The operation `Count(key)`. -/
def Count (t : BpTree) (key : Bytes) : Nat :=
  (t.entries.filter (fun e => e.1 == key)).length

/-- The entries that the iterator `Find(key)` yields. -/
def Find (t : BpTree) (key : Bytes) : List (Bytes × Bytes) :=
  t.entries.filter (fun e => e.1 == key)

/-- The keys that the iterator `Keys()` yields: ascending, each key once. -/
def Keys (t : BpTree) : List Bytes :=
  (t.entries.map Prod.fst).dedup

/-- The entries that `Iterate()` yields. -/
def Iterate (t : BpTree) : List (Bytes × Bytes) := t.entries

/-- The entries that `Backward()` yields. -/
def Backward (t : BpTree) : List (Bytes × Bytes) := t.entries.reverse

/-- The operation `Remove(key, where)`: the entries of `key` whose value
satisfies `where` are removed. -/
def Remove (t : BpTree) (key : Bytes) (pred : Bytes → Bool) : BpTree :=
  ⟨t.entries.filter (fun e => !(e.1 == key && pred e.2))⟩

/-- The operation `Size()`. -/
def Size (t : BpTree) : Nat := t.entries.length

end BpTree

/-! ## `store/fs.go`: the sub-graph store `Fs2BpTree` -/

/-- The state of an `Fs2BpTree`: its B+tree, from label to serialized
embedding. -/
structure Fs2BpTree where
  bpt : BpTree
deriving DecidableEq, Repr

namespace Fs2BpTree

/-- A new store, `newFs2BpTree`. -/
def empty : Fs2BpTree := ⟨BpTree.empty⟩

/-- The function `Size()`. -/
def Size (self : Fs2BpTree) : Nat := self.bpt.Size

/-- The function `Has(key)`. -/
def Has (self : Fs2BpTree) (key : Bytes) : Bool := self.bpt.Has key

/-- The function `Count(key)`. -/
def Count (self : Fs2BpTree) (key : Bytes) : Nat := self.bpt.Count key

/-- The function `Add(key, sg)`: the serialized embedding is added under `key`; the method
panics when the tree does not have the key afterwards. -/
def Add (lib : GraphLib) (self : Fs2BpTree) (key : Bytes) (sg : SubGraph) : Option Fs2BpTree :=
  let value := lib.Serialize sg
  let bpt := self.bpt.Add key value
  if bpt.Has key then some ⟨bpt⟩ else none

/-- The items of a `kvIter` over raw entries: each value is deserialized. -/
def kvIter (lib : GraphLib) (kvi : List (Bytes × Bytes)) : List (Bytes × SubGraph) :=
  kvi.map (fun e => (e.1, lib.DeserializeSubGraph e.2))

/-- The items that the iterator `Find(key)` yields. -/
def Find (lib : GraphLib) (self : Fs2BpTree) (key : Bytes) : List (Bytes × SubGraph) :=
  kvIter lib (self.bpt.Find key)

/-- The keys that the iterator `Keys()` yields. -/
def Keys (self : Fs2BpTree) : List Bytes := self.bpt.Keys

/-- The items that `Iterate()` yields. -/
def Iterate (lib : GraphLib) (self : Fs2BpTree) : List (Bytes × SubGraph) :=
  kvIter lib self.bpt.Iterate

/-- The items that `Backward()` yields. -/
def Backward (lib : GraphLib) (self : Fs2BpTree) : List (Bytes × SubGraph) :=
  kvIter lib self.bpt.Backward

end Fs2BpTree

/-! ## `store/fs_unique.go`: the uniqueness index `Fs2UniqueIndex` -/

/-- The state of an `Fs2UniqueIndex`: a B+tree whose keys are serialized
embeddings and whose values are empty. -/
structure Fs2UniqueIndex where
  bpt : BpTree
deriving DecidableEq, Repr

namespace Fs2UniqueIndex

/-- A new index, `newFs2UniqueIndex`. -/
def empty : Fs2UniqueIndex := ⟨BpTree.empty⟩

/-- The function `Has(sg)`. -/
def Has (lib : GraphLib) (self : Fs2UniqueIndex) (sg : SubGraph) : Bool :=
  self.bpt.Has (lib.Serialize sg)

/-- The function `Add(sg)`: panics when the tree does not have the key afterwards. -/
def Add (lib : GraphLib) (self : Fs2UniqueIndex) (sg : SubGraph) : Option Fs2UniqueIndex :=
  let key := lib.Serialize sg
  let bpt := self.bpt.Add key []
  if bpt.Has key then some ⟨bpt⟩ else none

end Fs2UniqueIndex

/-! ## `mine/collectors.go`: collect actions -/

/-- The Go struct `labelGraph`. -/
structure labelGraph where
  label : Bytes
  sg : SubGraph
deriving DecidableEq, Repr

/-- The store and the uniqueness index that the collector of one shard
writes. -/
structure Shard where
  tree : Fs2BpTree
  unique : Fs2UniqueIndex
deriving DecidableEq, Repr

/-- A shard with a new store and a new index. -/
def Shard.empty : Shard := ⟨Fs2BpTree.empty, Fs2UniqueIndex.empty⟩

/-- A `CollectAction`: the closures of the source capture the store and the
index, here they are passed and returned. -/
abbrev CollectAction := labelGraph → Shard → Option Shard

/-- The function `TreeAdd(tree)`. -/
def TreeAdd (lib : GraphLib) : CollectAction := fun lg s =>
  match s.tree.Add lib lg.label lg.sg with
  | none => none
  | some tree => some { s with tree := tree }

/-- The function `CheckCount(tree, limit, action)`. -/
def CheckCount (limit : Int) (action : CollectAction) : CollectAction := fun lg s =>
  if (s.tree.Count lg.label : Int) ≤ limit then action lg s else some s

/-- The function `CheckUnique(unique, action)`. -/
def CheckUnique (lib : GraphLib) (action : CollectAction) : CollectAction := fun lg s =>
  if !s.unique.Has lib lg.sg then
    match s.unique.Add lib lg.sg with
    | none => none
    | some unique => action lg { s with unique := unique }
  else some s

/-- The function `BasicCollector(action)` run on the items that its channel delivers. -/
def BasicCollector (action : CollectAction) : List labelGraph → Shard → Option Shard
  | [], s => some s
  | lg :: rest, s =>
    match action lg s with
    | none => none
    | some s' => BasicCollector action rest s'

/-- The collector that `makeCollectors` gives to every shard. -/
def shardCollector (lib : GraphLib) : CollectAction :=
  CheckUnique lib (TreeAdd lib)

/-- The serialized embeddings held by a store, in iteration order. -/
def storedValues (s : Shard) : List Bytes := s.tree.bpt.entries.map Prod.snd

/-- The keys of a uniqueness index. -/
def indexKeys (s : Shard) : List Bytes := s.unique.bpt.entries.map Prod.fst

/-! ## Results of runs that may panic or exceed the step bound -/

/-- Ways in which a run of the model ends without a result: a run-time panic
of the program, or the step bound of the model reached (the program is still
running). -/
inductive Fault where
  | panic
  | outOfFuel
deriving DecidableEq, Repr

/-! ## `mine/collectors.go`: `keysFromTrees` -/

/-- A `store.BytesIterator`: a nil function value, or a closure with the keys
it has yet to yield. -/
abbrev BytesIterator := Option (List Bytes)

/-- One call of a non-nil key iterator: the next key and the iterator, or
`nil, nil` at the end of the keys. -/
def nextKey : List Bytes → Option Bytes × BytesIterator
  | [] => (none, none)
  | k :: rest => (some k, some rest)

/-- The function `bytes.Equal(a, b)`; a nil slice equals an empty one. -/
def bytesEqual (a b : Option Bytes) : Bool :=
  a.getD [] == b.getD []

/-- The test `bytes.Compare(a, b) <= 0`: lexicographic order, a nil slice
compares as an empty one. -/
def bytesCompareLE (a b : Option Bytes) : Bool :=
  decide (a.getD [] ≤ b.getD [])

/-- The variables that the closures `getMin` and `kit` of `keysFromTrees`
capture. -/
structure keysState where
  its : List BytesIterator
  peek : List (Option Bytes)
  last : Option Bytes
deriving DecidableEq, Repr

/-- The loop of `getMin` over the indices of `peek`; `min` is `none` for the
initial `-1`. -/
def getMinLoop (peek : List (Option Bytes)) : List Nat → Option Nat → Option Nat
  | [], min => min
  | i :: rest, min =>
    if (peek.getD i none).isNone then getMinLoop peek rest min
    else
      match min with
      | none => getMinLoop peek rest (some i)
      | some m =>
        if bytesCompareLE (peek.getD i none) (peek.getD m none) then
          getMinLoop peek rest (some i)
        else getMinLoop peek rest (some m)

/-- The closure `getMin`. -/
def getMin (peek : List (Option Bytes)) : Option Nat :=
  getMinLoop peek (List.range peek.length) none

/-- The loop of the closure `kit`, entered with the current `item`. The result
is the key returned, `none` when `kit` returns `nil, nil`. -/
def kitLoop : Nat → keysState → Option Bytes → Except Fault (Option Bytes × keysState)
  | 0, _, _ => .error .outOfFuel
  | fuel + 1, st, item =>
    if bytesEqual item st.last then
      match getMin st.peek with
      | none => .ok (none, st)
      | some min =>
        match st.its.getD min none with
        | none => .error .panic
        | some it =>
          let r := nextKey it
          kitLoop fuel { st with peek := st.peek.set min r.1, its := st.its.set min r.2 }
            (st.peek.getD min none)
    else .ok (item, { st with last := item })

/-- The closure `kit`: `item = last`, then the loop. -/
def kit (fuel : Nat) (st : keysState) : Except Fault (Option Bytes × keysState) :=
  kitLoop fuel st st.last

/-- The function `keysFromTrees(trees)`: the state captured by the iterator it returns. -/
def keysFromTrees (trees : List Fs2BpTree) : keysState :=
  { its := trees.map (fun tree => (nextKey tree.Keys).2),
    peek := trees.map (fun tree => (nextKey tree.Keys).1),
    last := none }

/-- The keys that a consumer of the iterator receives, by the loop
`for k, keys := kit(); keys != nil; k, keys = keys()`. -/
def drainKeys : Nat → keysState → Except Fault (List Bytes)
  | 0, _ => .error .outOfFuel
  | fuel + 1, st =>
    match kit (fuel + 1) st with
    | .error e => .error e
    | .ok (none, _) => .ok []
    | .ok (some k, st') =>
      match drainKeys fuel st' with
      | .error e => .error e
      | .ok ks => .ok (k :: ks)

/-- The number of keys that all streams together hold. -/
def totalKeys (streams : List (List Bytes)) : Nat :=
  (streams.map List.length).sum

/-- The captured state that corresponds to streams of which the head has been
read into `peek`. -/
def keysStateOf (streams : List (List Bytes)) (last : Option Bytes) : keysState :=
  { its := streams.map (fun s => (nextKey s).2),
    peek := streams.map (fun s => (nextKey s).1),
    last := last }

/-- The accumulator of `getMin` after the indices below `s`. -/
def GetMinAt (peek : List (Option Bytes)) (s : Nat) (acc : Option Nat) : Prop :=
  match acc with
  | none => ∀ i, i < s → peek.getD i none = none
  | some m => m < s ∧ ∃ p, peek.getD m none = some p ∧
      ∀ i, i < s → ∀ q, peek.getD i none = some q → p ≤ q

/-! ## `mine/bufiter.go`: `bufferedIterator` -/

/-- A `store.Iterator`: a nil function value, or a closure with the
(key, embedding) items it has yet to yield. -/
abbrev Iterator := Option (List (Bytes × SubGraph))

/-- One call of a non-nil store iterator: the next item and the iterator, or
nils at the end of the items. -/
def nextItem : List (Bytes × SubGraph) → Option (Bytes × SubGraph) × Iterator
  | [] => (none, none)
  | x :: rest => (some x, some rest)

/-- The closure `fillBuf`; the first argument counts the iterations that the
loop `for i := 0; i < bufSize && it != nil; i++` has left. -/
def fillBuf : Nat → List (Bytes × SubGraph) → Iterator → List (Bytes × SubGraph) × Iterator
  | 0, buf, it => (buf, it)
  | _ + 1, buf, none => (buf, none)
  | n + 1, buf, some items =>
    match nextItem items with
    | (some x, some it') => fillBuf n (buf ++ [x]) (some it')
    | (_, it') => fillBuf n buf it'

/-- The variables that the closure `bit` of `bufferedIterator` captures. A
`bufSize` that is not positive is the size `0`. -/
structure bufferedIter where
  bufSize : Nat
  buf : List (Bytes × SubGraph)
  it : Iterator
deriving DecidableEq, Repr

/-- The function `bufferedIterator(it, bufSize)`: the buffer is filled once before the
iterator is returned. -/
def bufferedIterator (it : Iterator) (bufSize : Nat) : bufferedIter :=
  let r := fillBuf bufSize [] it
  { bufSize := bufSize, buf := r.1, it := r.2 }

/-- The closure `bit`: the item popped from the end of the buffer, or `none`
for `nil, nil, nil`; with an empty buffer and a live iterator the buffer is
filled and `bit` calls itself. -/
def bit : Nat → bufferedIter → Except Fault (Option (Bytes × SubGraph) × bufferedIter)
  | 0, _ => .error .outOfFuel
  | fuel + 1, st =>
    if st.buf.length > 0 then
      match st.buf.getLast? with
      | none => .error .panic
      | some item => .ok (some item, { st with buf := st.buf.dropLast })
    else if st.it.isNone then .ok (none, st)
    else
      let r := fillBuf st.bufSize st.buf st.it
      bit fuel { st with buf := r.1, it := r.2 }

/-- The items that a consumer of a buffered iterator receives, by the loop
`for k, e, next := bit(); next != nil; k, e, next = next()`. -/
def drainBuffered : Nat → bufferedIter → Except Fault (List (Bytes × SubGraph))
  | 0, _ => .error .outOfFuel
  | fuel + 1, st =>
    match bit (fuel + 1) st with
    | .error e => .error e
    | .ok (none, _) => .ok []
    | .ok (some x, st') =>
      match drainBuffered fuel st' with
      | .error e => .error e
      | .ok xs => .ok (x :: xs)

/-- The consumer loop run with a step bound that is enough for every buffer
size of at least one item: the number of items left, and two. -/
def bufferedIter.items (st : bufferedIter) : Except Fault (List (Bytes × SubGraph)) :=
  drainBuffered (st.buf.length + (st.it.getD []).length + 2) st

/-- A list cut into at most `fuel` consecutive chunks of `n` items; the last
chunk may be shorter. -/
def chunksAux {α : Type} (n : Nat) : Nat → List α → List (List α)
  | 0, _ => []
  | fuel + 1, xs =>
    match xs with
    | [] => []
    | x :: rest => (x :: rest).take n :: chunksAux n fuel ((x :: rest).drop n)

/-- A list cut into consecutive chunks of `n` items; the last chunk may be
shorter. -/
def chunks {α : Type} (n : Nat) (xs : List α) : List (List α) :=
  chunksAux n xs.length xs

/-! ## `mine/collectors.go`: `hash` and the `ParHashCollector` -/

/-- The 32-bit FNV-1a hash of `hash/fnv`: from the offset basis, every byte
is xor-ed in and the sum multiplied by the prime, modulo `2^32`. -/
def fnv32a (bytes : Bytes) : Nat :=
  bytes.foldl (fun h b => ((h ^^^ b.val) * 16777619) % 2 ^ 32) 2166136261

/-- The function `hash(bytes)`: the 32-bit sum converted to `int`, for the
`int` of a 64-bit platform, on which the conversion keeps the value; `hashInt`
is the conversion for an `int` of any width. -/
def hash (bytes : Bytes) : Int :=
  (fnv32a bytes : Int)

/-- The state of a `ParHashCollector`: the stores and indexes of the shards,
and for every channel of `chs` the items sent and not yet received, oldest
first. The capacity of a channel restricts when `send` can proceed, not what
it does. -/
structure ParHashCollector where
  graphs : List Fs2BpTree
  unique : List Fs2UniqueIndex
  chs : List (List labelGraph)
deriving DecidableEq, Repr

/-- The function `MakeParHashCollector(N, ...)`: `N` new stores, indexes and channels. -/
def MakeParHashCollector (N : Nat) : ParHashCollector :=
  { graphs := List.replicate N Fs2BpTree.empty,
    unique := List.replicate N Fs2UniqueIndex.empty,
    chs := List.replicate N [] }

namespace ParHashCollector

/-- The index `hash(label) % len(c.chs)` as it is used to index a slice: the
remainder of Go truncates toward zero; a zero length and a negative index
panic. -/
def shardIndex (c : ParHashCollector) (label : Bytes) : Option Nat :=
  if c.chs.length = 0 then none
  else
    let idx := Int.tmod (hash label) (c.chs.length : Int)
    if idx < 0 then none else some idx.toNat

/-- The function `send(sg)`: the pair of the short label and the embedding is put on the
channel of the shard `hash(label) % len(c.chs)`. -/
def send (lib : GraphLib) (c : ParHashCollector) (sg : SubGraph) : Option ParHashCollector :=
  let label := lib.ShortLabel sg
  match c.shardIndex label with
  | none => none
  | some idx =>
    match c.chs[idx]? with
    | none => none
    | some ch => some { c with chs := c.chs.set idx (ch ++ [⟨label, sg⟩]) }

/-- One step of the collector goroutine of shard `i`: the oldest item of its
channel is received and consumed by `CheckUnique(unique, TreeAdd(tree))`.
With nothing to receive the goroutine waits and the state is as before. -/
def receive (lib : GraphLib) (c : ParHashCollector) (i : Nat) : Option ParHashCollector :=
  match c.chs[i]?, c.graphs[i]?, c.unique[i]? with
  | some (lg :: pending), some tree, some unique =>
    match shardCollector lib lg ⟨tree, unique⟩ with
    | none => none
    | some s =>
      some { graphs := c.graphs.set i s.tree, unique := c.unique.set i s.unique,
             chs := c.chs.set i pending }
  | _, _, _ => some c

/-- The function `Find(key)`: the buffered iterator over the items that the store of the
shard `hash(key) % len(c.chs)` finds for the key. -/
def Find (lib : GraphLib) (c : ParHashCollector) (key : Bytes) : Option bufferedIter :=
  match c.shardIndex key with
  | none => none
  | some idx =>
    match c.graphs[idx]? with
    | none => none
    | some t => some (bufferedIterator (some (t.Find lib key)) 10)

/-- The items that a consumer of `Find(key)` receives. -/
def found (lib : GraphLib) (c : ParHashCollector) (key : Bytes) :
    Except Fault (List (Bytes × SubGraph)) :=
  match c.Find lib key with
  | none => .error .panic
  | some it => it.items

end ParHashCollector

/-- What happens to a `ParHashCollector`: a caller sends an embedding, or the
goroutine of a shard receives an item. -/
inductive CollectorEvent where
  | send (sg : SubGraph)
  | receive (i : Nat)
deriving DecidableEq, Repr

/-- The state after a sequence of events. -/
def runCollector (lib : GraphLib) : List CollectorEvent → ParHashCollector → Option ParHashCollector
  | [], c => some c
  | CollectorEvent.send sg :: rest, c =>
    match c.send lib sg with
    | none => none
    | some c' => runCollector lib rest c'
  | CollectorEvent.receive i :: rest, c =>
    match c.receive lib i with
    | none => none
    | some c' => runCollector lib rest c'

/-- The shard `hash(k) mod N` that owns the label `k` among `N` shards. -/
def shardOf (N : Nat) (k : Bytes) : Nat :=
  (hash k % (N : Int)).toNat

/-- The embedding `e` is stored under its short label in the store of the
shard that owns the label. -/
def Stored (lib : GraphLib) (N : Nat) (c : ParHashCollector) (e : SubGraph) : Prop :=
  ∃ t, c.graphs[shardOf N (lib.ShortLabel e)]? = some t ∧
    (lib.ShortLabel e, lib.Serialize e) ∈ t.bpt.entries

/-- The invariant of a `ParHashCollector` of `N` shards to which embeddings
that satisfy `Sent` are sent: every item on a channel and every entry of a
store carries the short label of a sent embedding and sits in the shard that
owns the label, and the keys of an index are values of the store of its
shard. -/
def CollectorInv (lib : GraphLib) (N : Nat) (Sent : SubGraph → Prop)
    (c : ParHashCollector) : Prop :=
  c.graphs.length = N ∧ c.unique.length = N ∧ c.chs.length = N ∧
  (∀ (i : Nat) (ch : List labelGraph) (lg : labelGraph), c.chs[i]? = some ch → lg ∈ ch →
    Sent lg.sg ∧ lg.label = lib.ShortLabel lg.sg ∧ shardOf N lg.label = i) ∧
  (∀ (i : Nat) (t : Fs2BpTree) (e : Bytes × Bytes), c.graphs[i]? = some t → e ∈ t.bpt.entries →
    ∃ sg, Sent sg ∧ e = (lib.ShortLabel sg, lib.Serialize sg) ∧ shardOf N e.1 = i) ∧
  (∀ (i : Nat) (u : Fs2UniqueIndex) (t : Fs2BpTree), c.unique[i]? = some u → c.graphs[i]? = some t →
    ∀ k ∈ u.bpt.entries.map Prod.fst, k ∈ t.bpt.entries.map Prod.snd)

/-! ## `set.SortedSet` of byte slices

The sets of labels of the miner are sorted sets of `types.ByteSlice` of the
data-structures library: the items in ascending lexicographic order, each
once. -/

/-- The items of a `set.SortedSet` of byte slices, in ascending order. -/
structure SortedSet where
  items : List Bytes
deriving DecidableEq, Repr

namespace SortedSet

/-- The empty set, `set.NewSortedSet(n)`. -/
def empty : SortedSet := ⟨[]⟩

/-- Insertion of an item at its place in the order; an item that is present
is not inserted again. -/
def insertItem (item : Bytes) : List Bytes → List Bytes
  | [] => [item]
  | x :: rest =>
    if item < x then item :: x :: rest
    else if item = x then x :: rest
    else x :: insertItem item rest

/-- The operation `Add(item)`. -/
def Add (s : SortedSet) (item : Bytes) : SortedSet :=
  ⟨insertItem item s.items⟩

/-- The operation `Size()`. -/
def Size (s : SortedSet) : Nat := s.items.length

/-- The operation `Random()`, for the number `r` that the random source
gives: an error for the empty set, otherwise the item at index
`r mod Size()`. -/
def Random (s : SortedSet) (r : Nat) : Option Bytes :=
  if s.items.length = 0 then none else s.items[r % s.items.length]?

end SortedSet

/-! ## `store/sets.go`: the map from labels to sets of labels `Fs2Sets` -/

/-- The binary encoding of sorted sets of the data-structures library, used
by `serializeBytesSet` and `deserializeBytesSet`; `none` is an error. -/
structure SetCodec where
  MarshalBinary : SortedSet → Option Bytes
  UnmarshalBinary : Bytes → Option SortedSet

/-- The state of an `Fs2Sets`: a B+tree from label to serialized set. -/
structure Fs2Sets where
  bpt : BpTree
deriving DecidableEq, Repr

namespace Fs2Sets

/-- A new map, `newFs2Sets`. -/
def empty : Fs2Sets := ⟨BpTree.empty⟩

/-- The function `Has(key)`. -/
def Has (s : Fs2Sets) (key : Bytes) : Bool := s.bpt.Has key

/-- The function `Put(key, set)` for a set that is not nil: the entries of the key are
removed, the serialized set is added; an error of the serialization and a
missing key afterwards end the program. -/
def Put (codec : SetCodec) (s : Fs2Sets) (key : Bytes) (set : SortedSet) : Option Fs2Sets :=
  let bpt := if s.bpt.Has key then s.bpt.Remove key (fun _ => true) else s.bpt
  match codec.MarshalBinary set with
  | none => none
  | some value =>
    let bpt := bpt.Add key value
    if bpt.Has key then some ⟨bpt⟩ else none

/-- The callback of `Get` run by `DoFind` on the entries of the key: every
value is deserialized, an error ends the program, the last set is kept. -/
def getLoop (codec : SetCodec) : List (Bytes × Bytes) → Option SortedSet → Option SortedSet
  | [], set => set
  | e :: rest, _ =>
    match codec.UnmarshalBinary e.2 with
    | none => none
    | some s => getLoop codec rest (some s)

/-- The function `Get(key)`: the set found for the key; the program panics when there is
none. -/
def Get (codec : SetCodec) (s : Fs2Sets) (key : Bytes) : Option SortedSet :=
  getLoop codec (s.bpt.Find key) none

end Fs2Sets

/-! ## `mine/random_walk.go`: the miner -/

/-- The fields of a `RandomWalkMiner` that the walk reads and writes. -/
structure RandomWalkMiner where
  Support : Int
  MinVertices : Int
  startingPoints : SortedSet
  AllEmbeddings : ParHashCollector
  extended : Fs2Sets
  supportedExtensions : Fs2Sets
deriving DecidableEq, Repr

namespace RandomWalkMiner

/-- The function `partition(key)`: the embeddings that `AllEmbeddings.Find(key)` yields,
filtered by `MinimumImageSupport`. -/
def partition (lib : GraphLib) (m : RandomWalkMiner) (key : Bytes) : Except Fault partition :=
  match m.AllEmbeddings.found lib key with
  | .error e => .error e
  | .ok items =>
    match MinimumImageSupport (items.map Prod.snd) with
    | none => .error .panic
    | some part => .ok part

/-- The length of the partition of a key, zero when `partition` fails. -/
def partitionLen (lib : GraphLib) (m : RandomWalkMiner) (key : Bytes) : Nat :=
  match m.partition lib key with
  | .ok part => part.length
  | .error _ => 0

/-- The tests of the workers of `supportedKeys` on the candidate keys: every
key with the length of its partition; a panic of a worker ends the program. -/
def testKeys (lib : GraphLib) (m : RandomWalkMiner) :
    List Bytes → Except Fault (List (Bytes × Nat))
  | [] => .ok []
  | key :: rest =>
    match m.partition lib key with
    | .error e => .error e
    | .ok part =>
      match testKeys lib m rest with
      | .error e => .error e
      | .ok tested => .ok ((key, part.length) :: tested)

/-- What `supportedKeys` returns: the set, the miner afterwards, and the keys
whose partition was scanned by the call. -/
structure supportedKeysResult where
  supKeys : SortedSet
  miner : RandomWalkMiner
  scanned : List Bytes
deriving DecidableEq, Repr

/-- The function `supportedKeys(from, keys)`. With an entry for `from` in
`supportedExtensions` the entry is returned. Otherwise the workers test
`len(partition(key)) >= Support` for every candidate key and forward the keys
that pass; `sched` is the order in which the forwarded keys arrive on the
channel `partKeys`; the arriving keys are added to a new sorted set, which is
stored for `from` and returned. -/
def supportedKeys (lib : GraphLib) (codec : SetCodec) (sched : List Bytes → List Bytes)
    (m : RandomWalkMiner) (fromKey : Bytes) (keys : SortedSet) :
    Except Fault supportedKeysResult :=
  if m.supportedExtensions.Has fromKey then
    match m.supportedExtensions.Get codec fromKey with
    | none => .error .panic
    | some supKeys => .ok ⟨supKeys, m, []⟩
  else
    match testKeys lib m keys.items with
    | .error e => .error e
    | .ok tested =>
      let partKeys := sched ((tested.filter (fun kp => m.Support ≤ (kp.2 : Int))).map Prod.fst)
      let supKeys := partKeys.foldl SortedSet.Add SortedSet.empty
      match m.supportedExtensions.Put codec fromKey supKeys with
      | none => .error .panic
      | some sets => .ok ⟨supKeys, { m with supportedExtensions := sets }, keys.items⟩

end RandomWalkMiner

/-! ## `mine/random_walk.go`: `sample` -/

/-- The result of `sample`: the number of tries returned, the labels
published on the channel `Report` before it was closed, and the number of
calls of `walk`. -/
structure sampleResult where
  tries : Nat
  report : List Bytes
  walks : Nat
deriving DecidableEq, Repr

/-- The loop `retry` of `sample`. The `n`-th call of `m.walk()` returns
`walk n`; `fuel` bounds the iterations of the loop, which has no bound of its
own. The result is the state with the label published. -/
def RandomWalkMiner.sampleRetry (lib : GraphLib) (m : RandomWalkMiner) (walk : Nat → Graple.partition) :
    Nat → sampleResult → Except Fault sampleResult
  | 0, _ => .error .outOfFuel
  | fuel + 1, st =>
    let tries := st.tries + 1
    let part := walk st.walks
    let st' : sampleResult := { st with tries := tries, walks := st.walks + 1 }
    if (part.length : Int) < m.Support then m.sampleRetry lib walk fuel st'
    else
      match part[0]? with
      | none => .error .panic
      | some first =>
        if (first.V.length : Int) < m.MinVertices then m.sampleRetry lib walk fuel st'
        else
          let label := lib.ShortLabel first
          if part.all (fun sg => bytesEqual (some label) (some (lib.ShortLabel sg))) then
            .ok { st' with report := st'.report ++ [label] }
          else m.sampleRetry lib walk fuel st'

/-- The loop `for i := 0; i < size; i++` of `sample`, with `n` iterations
left. -/
def RandomWalkMiner.sampleLoop (lib : GraphLib) (m : RandomWalkMiner) (walk : Nat → Graple.partition)
    (fuel : Nat) : Nat → sampleResult → Except Fault sampleResult
  | 0, st => .ok st
  | n + 1, st =>
    match m.sampleRetry lib walk fuel st with
    | .error e => .error e
    | .ok st' => m.sampleLoop lib walk fuel n st'

/-- The function `sample(size)` of a miner whose embeddings are initialized: the loop,
then `close(m.Report)` and the return of `tries`. -/
def RandomWalkMiner.sample (lib : GraphLib) (m : RandomWalkMiner) (walk : Nat → Graple.partition)
    (fuel : Nat) (size : Int) : Except Fault sampleResult :=
  m.sampleLoop lib walk fuel size.toNat ⟨0, [], 0⟩

/-- The label is the short label of the first embedding of the partition,
which has at least `Support` embeddings that all have this label and whose
first embedding has at least `MinVertices` vertices. -/
def ValidSample (lib : GraphLib) (m : RandomWalkMiner) (part : Graple.partition)
    (label : Bytes) : Prop :=
  ∃ first rest, part = first :: rest ∧ label = lib.ShortLabel first ∧
    m.Support ≤ (part.length : Int) ∧ m.MinVertices ≤ (first.V.length : Int) ∧
    ∀ sg ∈ part, lib.ShortLabel sg = label

/-- The invariant of the loops of `sample`: every try was one call of `walk`,
and every label published is a valid sample of an earlier call. -/
def SampleInv (lib : GraphLib) (m : RandomWalkMiner) (walk : Nat → Graple.partition)
    (st : sampleResult) : Prop :=
  st.walks = st.tries ∧
    ∀ label ∈ st.report, ∃ t, t < st.walks ∧ ValidSample lib m (walk t) label

/-! ## `mine/random_walk.go`: `randomPartition`, `walk` -/

/-- What the walk takes from outside the miner: the graph library, the
encoding of sets, the order in which the workers of `supportedKeys` forward
their keys, the method `extensions`, and the random source.

`extensions(sgs)` is given by what it returns and what it writes: the set of
extension labels, and the fields `AllEmbeddings` and `extended` of the miner
afterwards. `rand n` is the `n`-th number drawn from the random source. -/
structure walkEnv where
  lib : GraphLib
  codec : SetCodec
  sched : List Bytes → List Bytes
  extensions : RandomWalkMiner → Graple.partition →
    Except Fault (SortedSet × ParHashCollector × Fs2Sets)
  rand : Nat → Nat

/-- The call `m.extensions(sgs)`: the set returned and the miner afterwards. -/
def RandomWalkMiner.callExtensions (env : walkEnv) (m : RandomWalkMiner)
    (sgs : Graple.partition) : Except Fault (SortedSet × RandomWalkMiner) :=
  match env.extensions m sgs with
  | .error e => .error e
  | .ok (keys, all, extended) => .ok (keys, { m with AllEmbeddings := all, extended := extended })

/-- The function `randomPartition(from, keys)` with the random number `r`: the empty (nil)
partition when there is no supported key, otherwise the partition of a
supported key picked at random. -/
def RandomWalkMiner.randomPartition (env : walkEnv) (m : RandomWalkMiner) (fromKey : Bytes)
    (keys : SortedSet) (r : Nat) : Except Fault (Graple.partition × RandomWalkMiner) :=
  match m.supportedKeys env.lib env.codec env.sched fromKey keys with
  | .error e => .error e
  | .ok res =>
    if (res.supKeys.Size : Int) ≤ 0 then .ok ([], res.miner)
    else
      match res.supKeys.Random r with
      | none => .error .panic
      | some key =>
        match res.miner.partition env.lib key with
        | .error e => .error e
        | .ok part => .ok (part, res.miner)

/-- The function `randomInitialPartition()` with the random number `r`. -/
def RandomWalkMiner.randomInitialPartition (env : walkEnv) (m : RandomWalkMiner) (r : Nat) :
    Except Fault Graple.partition :=
  match m.startingPoints.Random r with
  | none => .error .panic
  | some key => m.partition env.lib key

/-- The result of `walk`: the partition `node` returned, with the last
partition `next` drawn by `randomPartition`, the partitions assigned to
`node` inside the loop, the miner afterwards and the count of random numbers
drawn. -/
structure walkResult where
  node : Graple.partition
  next : Graple.partition
  adopted : List Graple.partition
  miner : RandomWalkMiner
  draws : Nat
deriving DecidableEq, Repr

/-- The loop `for len(next) >= m.Support` of `walk`; `fuel` bounds its
iterations. -/
def RandomWalkMiner.walkLoop (env : walkEnv) :
    Nat → RandomWalkMiner → Graple.partition → Graple.partition → List Graple.partition → Nat →
      Except Fault walkResult
  | 0, _, _, _, _, _ => .error .outOfFuel
  | fuel + 1, m, node, next, adopted, draws =>
    if m.Support ≤ (next.length : Int) then
      match m.callExtensions env next with
      | .error e => .error e
      | .ok (exts, m1) =>
        match next[0]? with
        | none => .error .panic
        | some n0 =>
          match m1.randomPartition env (env.lib.ShortLabel n0) exts (env.rand draws) with
          | .error e => .error e
          | .ok (next', m2) =>
            if m2.Support ≤ (next'.length : Int) then
              match next'[0]? with
              | none => .error .panic
              | some x0 =>
                if x0.E.length = n0.E.length then
                  .ok ⟨next, next', adopted ++ [next], m2, draws + 1⟩
                else
                  RandomWalkMiner.walkLoop env fuel m2 next next' (adopted ++ [next]) (draws + 1)
            else RandomWalkMiner.walkLoop env fuel m2 next next' (adopted ++ [next]) (draws + 1)
    else .ok ⟨node, next, adopted, m, draws⟩

/-- The function `walk()`. -/
def RandomWalkMiner.walk (env : walkEnv) (fuel : Nat) (m : RandomWalkMiner) :
    Except Fault walkResult :=
  match m.randomInitialPartition env (env.rand 0) with
  | .error e => .error e
  | .ok node =>
    match m.callExtensions env node with
    | .error e => .error e
    | .ok (exts, m1) =>
      match node[0]? with
      | none => .error .panic
      | some n0 =>
        match m1.randomPartition env (env.lib.ShortLabel n0) exts (env.rand 1) with
        | .error e => .error e
        | .ok (next, m2) => RandomWalkMiner.walkLoop env fuel m2 node next [] 2

/-- The walk stops at `node` with the last partition `next` drawn: `next` has
fewer than `Support` embeddings, or its first embedding has as many edges as
the first embedding of `node`. -/
def WalkStop (Support : Int) (node next : Graple.partition) : Prop :=
  (next.length : Int) < Support ∨
    ∃ x0 n0, next[0]? = some x0 ∧ node[0]? = some n0 ∧ x0.E.length = n0.E.length

/-! ## Examples

Concrete inputs at which the theorems below are instantiated. -/

/-- A partition of three embeddings with two vertex slots each, used to
instantiate the theorems about `MinimumImageSupport`. -/
def exampleEmbeddings : partition :=
  [⟨[⟨0, 5, 0⟩, ⟨1, 7, 0⟩], []⟩, ⟨[⟨0, 3, 0⟩, ⟨1, 7, 0⟩], []⟩, ⟨[⟨0, 5, 0⟩, ⟨1, 8, 0⟩], []⟩]

/-- Three shard stores, one of them empty, used to instantiate the theorem on
`keysFromTrees`. -/
def exampleTrees : List Fs2BpTree :=
  [⟨⟨[([1], []), ([1], [7]), ([3], [])]⟩⟩, ⟨⟨[]⟩⟩, ⟨⟨[([1], []), ([2], [])]⟩⟩]

/-- A graph library for embeddings without edges whose vertices have slot and
color zero and an id below 256: the label is the number of vertices, the
serialization the list of the ids. -/
def exampleLib : GraphLib :=
  { ShortLabel := fun sg => [Fin.ofNat sg.V.length],
    Serialize := fun sg => sg.V.map (fun v => Fin.ofNat v.Id.toNat),
    DeserializeSubGraph := fun bytes => ⟨bytes.map (fun b => ⟨0, (b.val : Int), 0⟩), []⟩ }

/-- The single-vertex embedding of the vertex with the given id. -/
def vertexEmbedding (id : Int) : SubGraph := ⟨[⟨0, id, 0⟩], []⟩

/-- A collector of one shard that has received the single-vertex embeddings
of the vertices 1 and 2. -/
def exampleCollector : ParHashCollector :=
  { graphs := [⟨⟨[([1], [2]), ([1], [1])]⟩⟩],
    unique := [⟨⟨[([1], []), ([2], [])]⟩⟩],
    chs := [[]] }

/-- A sequence of events on a collector of two shards: two sends, and a
reception by each shard. -/
def exampleEvents : List CollectorEvent :=
  [CollectorEvent.send (vertexEmbedding 1),
   CollectorEvent.send ⟨[⟨0, 1, 0⟩, ⟨0, 2, 0⟩], []⟩,
   CollectorEvent.receive 0, CollectorEvent.receive 1]

/-- The decoder of `exampleCodec`: items that follow a byte with their
length. -/
def decodeItems : Nat → Bytes → Option (List Bytes)
  | _, [] => some []
  | 0, _ :: _ => none
  | fuel + 1, n :: rest =>
    if rest.length < n.val then none
    else (decodeItems fuel (rest.drop n.val)).map (fun items => rest.take n.val :: items)

/-- An encoding of sets of labels shorter than 256 bytes: every item after a
byte with its length. -/
def exampleCodec : SetCodec :=
  { MarshalBinary := fun s => some (s.items.flatMap (fun item => Fin.ofNat item.length :: item)),
    UnmarshalBinary := fun bytes => (decodeItems bytes.length bytes).map SortedSet.mk }

/-- A miner with support 2 over `exampleCollector` and with empty memo
tables. -/
def exampleMiner : RandomWalkMiner :=
  { Support := 2, MinVertices := 1, startingPoints := ⟨[[1]]⟩,
    AllEmbeddings := exampleCollector, extended := Fs2Sets.empty,
    supportedExtensions := Fs2Sets.empty }

/-- Two candidate labels, of which the first has a partition of two
embeddings in `exampleMiner` and the second has none. -/
def exampleCandidates : SortedSet := ⟨[[1], [2]]⟩

/-- An environment in which `extensions` finds no extension and the random
source gives zeros. -/
def exampleEnv : walkEnv :=
  { lib := exampleLib, codec := exampleCodec, sched := List.reverse,
    extensions := fun m _ => .ok (⟨[]⟩, m.AllEmbeddings, m.extended),
    rand := fun _ => 0 }

/-- The result of the walk of `exampleMiner` in `exampleEnv`. -/
def exampleWalkResult : walkResult :=
  { node := [vertexEmbedding 1, vertexEmbedding 2], next := [], adopted := [],
    miner := { exampleMiner with supportedExtensions := ⟨⟨[([1], [])]⟩⟩ }, draws := 2 }

/-! ## `mine/random_walk.go`: `probabilities`, `PrMatrices`

`sg.Lattice()` of the graph library returns the lattice of the connected
sub-patterns of an embedding: the nodes `V`, each of them an embedding, the
embedding itself last, and the arcs `E` between the positions of a node and
of a node with one more edge. The lattice is an input of the definitions
below. -/

/-- An arc `goiso.Arc` of a lattice: the positions of its ends in `V`. -/
structure Arc where
  Src : Int
  Targ : Int
deriving DecidableEq, Repr

/-- What `sg.Lattice()` returns (`goiso.Lattice`). -/
structure Lattice where
  V : List SubGraph
  E : List Arc
deriving DecidableEq, Repr

/-- An entry `SparseEntry` of a sparse matrix. The field `Value` of the
source is the float64 `1.0/float64(Inverse)`; it is determined by `Inverse`
and has no field here. -/
structure SparseEntry where
  Row : Int
  Col : Int
  Inverse : Int
deriving DecidableEq, Repr

/-- A sparse matrix `Sparse`. -/
structure Sparse where
  Rows : Int
  Cols : Int
  Entries : List SparseEntry
deriving DecidableEq, Repr

/-- One iteration of the loop of `probabilities`, for the node `sg` at the
position `i` of a lattice of `n` nodes: the value assigned to `P[i]` and the
miner afterwards. The argument `part[0].Label()` of the log call in the
branch `count == 0` panics on an empty partition. -/
def RandomWalkMiner.probability (env : walkEnv) (m : RandomWalkMiner) (n i : Nat)
    (sg : SubGraph) : Except Fault (Int × RandomWalkMiner) :=
  let key := env.lib.ShortLabel sg
  match m.partition env.lib key with
  | .error e => .error e
  | .ok part =>
    match m.callExtensions env part with
    | .error e => .error e
    | .ok (keys, m1) =>
      match m1.supportedKeys env.lib env.codec env.sched key keys with
      | .error e => .error e
      | .ok res =>
        let count := res.supKeys.Size
        if i + 1 = n then .ok (-1, res.miner)
        else if count = 0 then
          match part[0]? with
          | none => .error .panic
          | some _ => .ok (1, res.miner)
        else .ok ((count : Int), res.miner)

/-- The loop `for i, sg := range lattice.V` of `probabilities` from the
position `i` on, over the slice `P`. -/
def RandomWalkMiner.probabilitiesLoop (env : walkEnv) (n : Nat) :
    Nat → List SubGraph → RandomWalkMiner → List Int → Except Fault (List Int × RandomWalkMiner)
  | _, [], m, P => .ok (P, m)
  | i, sg :: rest, m, P =>
    match m.probability env n i sg with
    | .error e => .error e
    | .ok (p, m') => RandomWalkMiner.probabilitiesLoop env n (i + 1) rest m' (P.set i p)

/-- The function `probabilities(lattice)`: the slice `P` and the miner afterwards. -/
def RandomWalkMiner.probabilities (env : walkEnv) (m : RandomWalkMiner) (lattice : Lattice) :
    Except Fault (List Int × RandomWalkMiner) :=
  RandomWalkMiner.probabilitiesLoop env lattice.V.length 0 lattice.V m
    (List.replicate lattice.V.length 0)

/-- The loop `for i, x := range lattice.V` of `PrMatrices` from the position
`i` on: the entries of `u`. -/
def uLoop (n : Nat) (vp : Int) : Nat → List SubGraph → List SparseEntry → List SparseEntry
  | _, [], entries => entries
  | i, x :: rest, entries =>
    if x.V.length = 1 ∧ x.E.length = 0 ∧ (i : Int) < (n : Int) - 1 then
      uLoop n vp (i + 1) rest (entries ++ [⟨0, (i : Int), vp⟩])
    else uLoop n vp (i + 1) rest entries

/-- The index expression `s[i]` of a slice with an index of type int: a panic out of range. -/
def sliceIndex {α : Type} (s : List α) (i : Int) : Option α :=
  if i < 0 then none else s[i.toNat]?

/-- The loop `for _, e := range lattice.E` of `PrMatrices`: the entries of
`Q` and of `R`. -/
def qrLoop (n : Nat) (p : List Int) :
    List Arc → List SparseEntry × List SparseEntry →
      Option (List SparseEntry × List SparseEntry)
  | [], acc => some acc
  | e :: rest, (Q, R) =>
    match sliceIndex p e.Src with
    | none => none
    | some pe =>
      if (n : Int) - 1 ≤ e.Targ then qrLoop n p rest (Q, R ++ [⟨e.Src, 0, pe⟩])
      else qrLoop n p rest (Q ++ [⟨e.Src, e.Targ, pe⟩], R)

/-- What `PrMatrices` returns without an error, and the miner afterwards. -/
structure PrMatricesResult where
  vp : Int
  Q : Sparse
  R : Sparse
  u : Sparse
  miner : RandomWalkMiner
deriving DecidableEq, Repr

/-- The body of `PrMatrices(sg)` for the lattice that `sg.Lattice()`
returns: the matrices returned with a nil error. An error stands for a fault
of the body: of a callee, of `make` with the capacity `-1` for a lattice
without a node, or of the index `p[e.Src]`; `PrMatricesRecover` tells the
faults that the deferred `recover` returns as an error from those that end
the program. -/
def RandomWalkMiner.PrMatrices (env : walkEnv) (m : RandomWalkMiner) (lattice : Lattice) :
    Except Fault PrMatricesResult :=
  match m.probabilities env lattice with
  | .error e => .error e
  | .ok (p, m') =>
    let n := lattice.V.length
    let vp : Int := m'.startingPoints.Size
    if n = 0 then .error .panic
    else
      let u := uLoop n vp 0 lattice.V []
      match qrLoop n p lattice.E ([], []) with
      | none => .error .panic
      | some (Q, R) =>
        .ok { vp := vp, Q := ⟨(n : Int) - 1, (n : Int) - 1, Q⟩, R := ⟨(n : Int) - 1, 1, R⟩,
              u := ⟨1, (n : Int) - 1, u⟩, miner := m' }

/-- The sum of `1/Inverse`, as a rational, over the entries of the row `i`. -/
def rowSum (entries : List SparseEntry) (i : Int) : ℚ :=
  ((entries.filter (fun s => s.Row = i)).map (fun s => (1 : ℚ) / (s.Inverse : ℚ))).sum

/-- The node is a pattern of one vertex and no edge. -/
def isVertexNode (x : SubGraph) : Bool := x.V.length = 1 ∧ x.E.length = 0

/-- The number of arcs of the lattice with the source `i`. -/
def outDegree (lattice : Lattice) (i : Int) : Nat :=
  (lattice.E.filter (fun e => e.Src = i)).length

/-- One iteration of `probabilities` as a relation: from the miner `m` the
node `sg` at the position `i` of `n` gets the value `p`, the miner afterwards
is `m'`, and `c` is the size of the set that `supportedKeys` returned for the
label of the node and the extensions of its partition. -/
def ProbabilityStep (env : walkEnv) (n i : Nat) (sg : SubGraph) (m m' : RandomWalkMiner)
    (c : Nat) (p : Int) : Prop :=
  ∃ part keys m1 res, m.partition env.lib (env.lib.ShortLabel sg) = .ok part ∧
    m.callExtensions env part = .ok (keys, m1) ∧
    m1.supportedKeys env.lib env.codec env.sched (env.lib.ShortLabel sg) keys = .ok res ∧
    m' = res.miner ∧ c = res.supKeys.Size ∧
    p = if i + 1 = n then -1 else Max.max 1 (c : Int)

/-- The miners before every iteration of a run of the loop of
`probabilities`, and the miner after the last one. -/
def probabilityStates (env : walkEnv) (n : Nat) :
    Nat → List SubGraph → RandomWalkMiner → List RandomWalkMiner
  | _, [], m => [m]
  | i, sg :: rest, m =>
    match m.probability env n i sg with
    | .error _ => [m]
    | .ok (_, m') => m :: probabilityStates env n (i + 1) rest m'

/-! ## `mine/random_walk.go`: `initial`, `extend`, `extensions`

The graph `m.Graph` and the methods of the graph library that build
embeddings are inputs of the definitions below. A vertex of an embedding has
its position in the embedding as `Idx` and the position of the graph vertex
in `Graph.V` as `Id`; an edge of `Graph.Kids` or `Graph.Parents` has positions
in `Graph.V` as ends. -/

/-- The fields and the method of `goiso.Graph` that the miner uses. -/
structure Graph where
  V : List Vertex
  Kids : List (List Edge)
  Parents : List (List Edge)
  ColorFrequency : Int → Int

/-- The methods of the graph library that build and inspect embeddings of the
graph: `VertexSubGraph(idx)`, `sg.EdgeExtend(e)`, and `sg.HasEdge` with the
colored arc of the edge `e`. -/
structure SubGraphOps where
  VertexSubGraph : Int → SubGraph
  EdgeExtend : SubGraph → Edge → SubGraph
  HasEdge : SubGraph → Edge → Bool

/-- The closure `add(sg, e)` of `extend`: the extensions it puts on the
channel `extend`, none or one; `none` is a panic of an index of `Graph.V`. -/
def extendAdd (G : Graph) (ops : SubGraphOps) (Support : Int) (sg : SubGraph) (e : Edge) :
    Option (List (SubGraph × Edge)) :=
  if G.ColorFrequency e.Color < Support then some []
  else
    match sliceIndex G.V e.Src with
    | none => none
    | some s =>
      if G.ColorFrequency s.Color < Support then some []
      else
        match sliceIndex G.V e.Targ with
        | none => none
        | some t =>
          if G.ColorFrequency t.Color < Support then some []
          else if !ops.HasEdge sg e then some [(sg, e)] else some []

/-- A loop `for _, e := range edges { add(sg, e) }`. -/
def extendEdges (G : Graph) (ops : SubGraphOps) (Support : Int) (sg : SubGraph) :
    List Edge → Option (List (SubGraph × Edge))
  | [] => some []
  | e :: rest =>
    match extendAdd G ops Support sg e with
    | none => none
    | some a =>
      match extendEdges G ops Support sg rest with
      | none => none
      | some b => some (a ++ b)

/-- The loop `for _, sg := range sgs` of `extend` for the vertex `u` of the
first embedding. -/
def extendSlot (G : Graph) (ops : SubGraphOps) (Support : Int) (u : Vertex) :
    List SubGraph → Option (List (SubGraph × Edge))
  | [] => some []
  | sg :: rest =>
    if (sg.V.length : Int) ≤ u.Idx then extendSlot G ops Support u rest
    else
      match sliceIndex sg.V u.Idx with
      | none => none
      | some v =>
        match sliceIndex G.Kids v.Id, sliceIndex G.Parents v.Id with
        | some kids, some parents =>
          match extendEdges G ops Support sg kids, extendEdges G ops Support sg parents,
            extendSlot G ops Support u rest with
          | some a, some b, some c => some (a ++ b ++ c)
          | _, _, _ => none
        | _, _ => none

/-- The loop `for i := range sgs[0].V` of `extend` over the vertices `us`. -/
def extendSlots (G : Graph) (ops : SubGraphOps) (Support : Int) (sgs : List SubGraph) :
    List Vertex → Option (List (SubGraph × Edge))
  | [] => some []
  | u :: rest =>
    match extendSlot G ops Support u sgs, extendSlots G ops Support sgs rest with
    | some a, some b => some (a ++ b)
    | _, _ => none

/-- The extensions that the producer goroutine of `extend` puts on the
channel `extend`, in its order; `none` is a panic. -/
def extendCandidates (G : Graph) (ops : SubGraphOps) (Support : Int) (sgs : List SubGraph) :
    Option (List (SubGraph × Edge)) :=
  match sgs[0]? with
  | none => none
  | some s0 => extendSlots G ops Support sgs s0.V

/-- The function `extend(sgs, send)` with one worker or more: the embeddings
on which the callback `send` is called, in their order. The workers apply
`EdgeExtend` to the extensions; `esched` is the order in which their results
arrive on the channel `extended`. -/
def extend (G : Graph) (ops : SubGraphOps) (Support : Int)
    (esched : List SubGraph → List SubGraph) (sgs : List SubGraph) : Option (List SubGraph) :=
  match extendCandidates G ops Support sgs with
  | none => none
  | some cands => some (esched (cands.map (fun c => ops.EdgeExtend c.1 c.2)))

/-- The goroutines of all shards receive what is pending on their
channels. -/
def ParHashCollector.settle (lib : GraphLib) (c : ParHashCollector) : Option ParHashCollector :=
  runCollector lib ((List.range c.chs.length).flatMap
    (fun i => List.replicate (c.chs.getD i []).length (CollectorEvent.receive i))) c

/-- The goroutines of the shards `idxs` receive an item each, in this order. -/
def ParHashCollector.receiveAll (lib : GraphLib) (c : ParHashCollector) (idxs : List Nat) :
    Option ParHashCollector :=
  runCollector lib (idxs.map CollectorEvent.receive) c

/-- The receptions by which the goroutines of all shards receive what is
pending on their channels. -/
def ParHashCollector.fullDrain (c : ParHashCollector) : List Nat :=
  (List.range c.chs.length).flatMap (fun i => List.replicate (c.chs.getD i []).length i)

/-- The calls `send(sg)` for the embeddings of a list, in their order. -/
def ParHashCollector.sendAll (lib : GraphLib) (c : ParHashCollector) (sgs : List SubGraph) :
    Option ParHashCollector :=
  runCollector lib (sgs.map CollectorEvent.send) c

/-- What the miner takes from outside for `initial` and `extensions`: the
graph and the library, the encoding of sets, the order `esched` of the
results of the workers of `extend`, and the schedule of the goroutines of the
shards: `received c` lists the shards whose goroutines receive an item, in
their order, between the last send of a call that leaves the collectors in
the state `c` and the next read of the stores. The source does not wait for
these goroutines, so the list may leave items pending. -/
structure minerEnv where
  G : Graph
  ops : SubGraphOps
  lib : GraphLib
  codec : SetCodec
  esched : List SubGraph → List SubGraph
  received : ParHashCollector → List Nat

/-- The function `extensions(sgs)`: the set returned, and the fields
`AllEmbeddings` and `extended` of the miner afterwards. The callback of
`extend` sends the embedding and adds its short label to the set. The source
does not wait for the goroutines of the shards: the collectors returned are
those that the next reader of the stores finds, after the receptions
`env.received`. -/
def RandomWalkMiner.extensions (env : minerEnv) (m : RandomWalkMiner)
    (sgs : Graple.partition) : Except Fault (SortedSet × ParHashCollector × Fs2Sets) :=
  match sgs with
  | [] => .ok (SortedSet.empty, m.AllEmbeddings, m.extended)
  | s0 :: _ =>
    let label := env.lib.ShortLabel s0
    if m.extended.Has label then
      match m.extended.Get env.codec label with
      | none => .error .panic
      | some keys => .ok (keys, m.AllEmbeddings, m.extended)
    else
      match extend env.G env.ops m.Support env.esched sgs with
      | none => .error .panic
      | some esgs =>
        let keys := esgs.foldl (fun ks sg => ks.Add (env.lib.ShortLabel sg)) SortedSet.empty
        match m.AllEmbeddings.sendAll env.lib esgs with
        | none => .error .panic
        | some all =>
          match m.extended.Put env.codec label keys,
              all.receiveAll env.lib (env.received all) with
          | some extended, some all' => .ok (keys, all', extended)
          | _, _ => .error .panic

/-- The embeddings that `initial` sends to its collectors, in their order. -/
def initialSends (G : Graph) (ops : SubGraphOps) (Support : Int) : List SubGraph :=
  (G.V.filter (fun v => decide (Support ≤ G.ColorFrequency v.Color))).map
    (fun v => ops.VertexSubGraph v.Idx)

/-- The function `initial()` for `PLevel` shards: the collectors and the
starting points; `fuel` bounds the steps of the iteration over the keys. The
source reads the keys right after the last send: the goroutines of the
shards have made the receptions `env.received` by then. -/
def RandomWalkMiner.initial (env : minerEnv) (PLevel : Nat) (Support : Int) (fuel : Nat) :
    Except Fault (ParHashCollector × SortedSet) :=
  match (MakeParHashCollector PLevel).sendAll env.lib (initialSends env.G env.ops Support) with
  | none => .error .panic
  | some sent =>
    match sent.receiveAll env.lib (env.received sent) with
    | none => .error .panic
    | some groups =>
      match drainKeys fuel (keysFromTrees groups.graphs) with
      | .error e => .error e
      | .ok keys => .ok (groups, keys.foldl SortedSet.Add SortedSet.empty)

/-- The environment of the walk in which `extensions` is the method of the
miner. -/
def minerEnv.toWalkEnv (env : minerEnv) (sched : List Bytes → List Bytes) (rand : Nat → Nat) :
    walkEnv :=
  { lib := env.lib, codec := env.codec, sched := sched,
    extensions := fun m sgs => m.extensions env sgs, rand := rand }

/-- Every vertex and every edge of the embedding has a color with a
frequency of at least `Support` in the graph. -/
def Frequent (G : Graph) (Support : Int) (sg : SubGraph) : Prop :=
  (∀ v ∈ sg.V, Support ≤ G.ColorFrequency v.Color) ∧
  (∀ e ∈ sg.E, Support ≤ G.ColorFrequency e.Color)

/-- The extension `(sg, e)` passes the tests of the closure `add` of
`extend`: the color of the edge and the colors of the graph vertices at its
ends have a frequency of at least `Support`, and the embedding does not have
the edge. -/
def PassesFilter (G : Graph) (ops : SubGraphOps) (Support : Int) (c : SubGraph × Edge) : Prop :=
  Support ≤ G.ColorFrequency c.2.Color ∧
  (∃ s t, sliceIndex G.V c.2.Src = some s ∧ sliceIndex G.V c.2.Targ = some t ∧
    Support ≤ G.ColorFrequency s.Color ∧ Support ≤ G.ColorFrequency t.Color) ∧
  ops.HasEdge c.1 c.2 = false

/-- The colors of `sg.EdgeExtend(e)` are colors of `sg`, of the edge `e` and
of the graph vertices at the ends of `e`. -/
def ExtendsColors (G : Graph) (ops : SubGraphOps) (sg : SubGraph) (e : Edge) : Prop :=
  ∀ s t, sliceIndex G.V e.Src = some s → sliceIndex G.V e.Targ = some t →
    (∀ w ∈ (ops.EdgeExtend sg e).V,
      (∃ x ∈ sg.V, w.Color = x.Color) ∨ w.Color = s.Color ∨ w.Color = t.Color) ∧
    (∀ f ∈ (ops.EdgeExtend sg e).E, (∃ x ∈ sg.E, f.Color = x.Color) ∨ f.Color = e.Color)

/-! ## A small graph with a library

A graph of seven vertices and six edges with a graph library that is simple
enough to evaluate: the vertices of an embedding are in the order of their
graph vertices, which decides the label of a pattern for the embeddings of
this graph. -/

/-- The edges of `toyGraph`, all of the color 3: `a1→b1`, `a1→b2`, `a2→b3`,
`b1→c1`, `a1→c1`, `a2→c2`. -/
def toyEdges : List Edge :=
  [⟨0, 2, 3⟩, ⟨0, 3, 3⟩, ⟨1, 4, 3⟩, ⟨2, 5, 3⟩, ⟨0, 5, 3⟩, ⟨1, 6, 3⟩]

/-- The vertices of `toyGraph`: `a1 a2` of the color 0, `b1 b2 b3` of the
color 1, `c1 c2` of the color 2. -/
def toyVertices : List Vertex :=
  [⟨0, 0, 0⟩, ⟨1, 1, 0⟩, ⟨2, 2, 1⟩, ⟨3, 3, 1⟩, ⟨4, 4, 1⟩, ⟨5, 5, 2⟩, ⟨6, 6, 2⟩]

/-- The graph: the color frequencies count the vertices and the edges of a
color. -/
def toyGraph : Graph :=
  { V := toyVertices,
    Kids := (List.range 7).map (fun i => toyEdges.filter (fun e => e.Src = (i : Int))),
    Parents := (List.range 7).map (fun i => toyEdges.filter (fun e => e.Targ = (i : Int))),
    ColorFrequency := fun c =>
      if c = 0 then 2 else if c = 1 then 3 else if c = 2 then 2 else if c = 3 then 6 else 0 }

/-- The graph vertex of the vertex at the position `i` of an embedding. -/
def vertexId (sg : SubGraph) (i : Int) : Int :=
  match sliceIndex sg.V i with
  | some v => v.Id
  | none => -1

/-- The position in the embedding of the graph vertex `id`. -/
def vertexPos (V : List Vertex) (id : Int) : Int :=
  match V.find? (fun v => v.Id = id) with
  | some v => v.Idx
  | none => -1

/-- An id is put at its place in an ascending list of ids without it. -/
def insertId (id : Int) : List Int → List Int
  | [] => [id]
  | x :: rest => if id < x then id :: x :: rest else if id = x then x :: rest
    else x :: insertId id rest

/-- An edge is put at its place in a list of edges in the order of their
ends. -/
def insertEdge (e : Edge) : List Edge → List Edge
  | [] => [e]
  | x :: rest =>
    if e.Src < x.Src ∨ (e.Src = x.Src ∧ e.Targ ≤ x.Targ) then e :: x :: rest
    else x :: insertEdge e rest

/-- The embedding of `toyGraph` with the given graph vertices, in ascending
order, and graph edges. -/
def toyEmbedding (ids : List Int) (edges : List Edge) : SubGraph :=
  let V : List Vertex := ids.enum.map (fun iv =>
    ⟨(iv.1 : Int), iv.2, ((sliceIndex toyVertices iv.2).map Vertex.Color).getD (-1)⟩)
  { V := V,
    E := (edges.map (fun e => (⟨vertexPos V e.Src, vertexPos V e.Targ, e.Color⟩ : Edge))).foldr
      insertEdge [] }

/-- The graph edges of an embedding. -/
def graphEdges (sg : SubGraph) : List Edge :=
  sg.E.map (fun f => ⟨vertexId sg f.Src, vertexId sg f.Targ, f.Color⟩)

/-- The methods of the library of `toyGraph`. -/
def toyOps : SubGraphOps :=
  { VertexSubGraph := fun idx => toyEmbedding [idx] [],
    EdgeExtend := fun sg e =>
      toyEmbedding (insertId e.Src (insertId e.Targ (sg.V.map Vertex.Id))) (graphEdges sg ++ [e]),
    HasEdge := fun sg e => (graphEdges sg).any (fun f => f = e) }

/-- The byte of a small number. -/
def toByte (i : Int) : Fin 256 := Fin.ofNat i.toNat

/-- Triples of bytes as edges between positions. -/
def decodeEdges : List (Fin 256) → List Edge
  | s :: t :: c :: rest => ⟨(s.val : Int), (t.val : Int), (c.val : Int)⟩ :: decodeEdges rest
  | _ => []

/-- The first `n` triples of bytes as vertices, and the bytes after them. -/
def decodeVertices : Nat → List (Fin 256) → List Vertex × List (Fin 256)
  | n + 1, i :: d :: c :: rest =>
    let r := decodeVertices n rest
    (⟨(i.val : Int), (d.val : Int), (c.val : Int)⟩ :: r.1, r.2)
  | _, rest => ([], rest)

/-- The library of `toyGraph`: the short label holds the colors of the
vertices and the edges between their positions; the serialization holds the
number of vertices, the vertices and the edges. -/
def toyLib : GraphLib :=
  { ShortLabel := fun sg =>
      sg.V.map (fun v => toByte v.Color) ++ [255] ++
        sg.E.flatMap (fun e => [toByte e.Src, toByte e.Targ, toByte e.Color]),
    Serialize := fun sg =>
      [Fin.ofNat sg.V.length] ++ sg.V.flatMap (fun v => [toByte v.Idx, toByte v.Id, toByte v.Color])
        ++ sg.E.flatMap (fun e => [toByte e.Src, toByte e.Targ, toByte e.Color]),
    DeserializeSubGraph := fun bytes =>
      match bytes with
      | [] => ⟨[], []⟩
      | n :: rest =>
        let r := decodeVertices n.val rest
        ⟨r.1, decodeEdges r.2⟩ }

/-- The environment of the miner of `toyGraph`, with the schedule in which the
goroutines of the shards have received everything sent when the stores are
read. -/
def toyEnv : minerEnv :=
  { G := toyGraph, ops := toyOps, lib := toyLib, codec := exampleCodec, esched := id,
    received := ParHashCollector.fullDrain }

/-- The collector of one shard after `initial` on `toyGraph` with the
support 2: the single-vertex embeddings of all vertices. -/
def toyCollector : ParHashCollector :=
  { graphs := [⟨⟨[([0, 255], [1, 0, 1, 0]), ([0, 255], [1, 0, 0, 0]), ([1, 255], [1, 0, 4, 1]),
      ([1, 255], [1, 0, 3, 1]), ([1, 255], [1, 0, 2, 1]), ([2, 255], [1, 0, 6, 2]),
      ([2, 255], [1, 0, 5, 2])]⟩⟩],
    unique := [⟨⟨[([1, 0, 0, 0], []), ([1, 0, 1, 0], []), ([1, 0, 2, 1], []), ([1, 0, 3, 1], []),
      ([1, 0, 4, 1], []), ([1, 0, 5, 2], []), ([1, 0, 6, 2], [])]⟩⟩],
    chs := [[]] }

/-- The miner of `toyGraph` with the support 2 after `initial`. -/
def toyMiner : RandomWalkMiner :=
  { Support := 2, MinVertices := 1, startingPoints := ⟨[[0, 255], [1, 255], [2, 255]]⟩,
    AllEmbeddings := toyCollector, extended := Fs2Sets.empty,
    supportedExtensions := Fs2Sets.empty }

/-- The environment of the walk on `toyGraph`. -/
def toyWalkEnv : walkEnv := toyEnv.toWalkEnv id (fun _ => 0)

/-- The lattice of the embedding `a1→b1`: the patterns `a`, `b` and `a→b`. -/
def toyLattice : Lattice :=
  { V := [toyEmbedding [0] [], toyEmbedding [2] [], toyEmbedding [0, 2] [⟨0, 2, 3⟩]],
    E := [⟨0, 2⟩, ⟨1, 2⟩] }

/-- The label of the pattern `a→b` of `toyGraph`. -/
def toyLabelAB : Bytes := [0, 1, 255, 0, 1, 3]

/-- The label of the pattern `b→c` of `toyGraph`. -/
def toyLabelBC : Bytes := [1, 2, 255, 0, 1, 3]

/-- The label of the pattern `a→b→c` of `toyGraph`. -/
def toyLabelABC : Bytes := [0, 1, 2, 255, 0, 1, 3, 1, 2, 3]

/-- The partition of the pattern `b` in `toyMiner`. -/
def toyPartitionB : partition := [toyEmbedding [2] [], toyEmbedding [3] [], toyEmbedding [4] []]

/-- The miner `toyMiner` after `extensions` on the partition of the pattern
`b`: the embeddings of `a→b` and the embedding `b1→c1` are stored. -/
def toyMinerB : RandomWalkMiner :=
  { Support := 2, MinVertices := 1, startingPoints := ⟨[[0, 255], [1, 255], [2, 255]]⟩,
    AllEmbeddings :=
      { graphs := [⟨⟨[([0, 1, 255, 0, 1, 3], [2, 0, 1, 0, 1, 4, 1, 0, 1, 3]),
          ([0, 1, 255, 0, 1, 3], [2, 0, 0, 0, 1, 3, 1, 0, 1, 3]),
          ([0, 1, 255, 0, 1, 3], [2, 0, 0, 0, 1, 2, 1, 0, 1, 3]),
          ([0, 255], [1, 0, 1, 0]), ([0, 255], [1, 0, 0, 0]),
          ([1, 2, 255, 0, 1, 3], [2, 0, 2, 1, 1, 5, 2, 0, 1, 3]),
          ([1, 255], [1, 0, 4, 1]), ([1, 255], [1, 0, 3, 1]), ([1, 255], [1, 0, 2, 1]),
          ([2, 255], [1, 0, 6, 2]), ([2, 255], [1, 0, 5, 2])]⟩⟩],
        unique := [⟨⟨[([1, 0, 0, 0], []), ([1, 0, 1, 0], []), ([1, 0, 2, 1], []),
          ([1, 0, 3, 1], []), ([1, 0, 4, 1], []), ([1, 0, 5, 2], []), ([1, 0, 6, 2], []),
          ([2, 0, 0, 0, 1, 2, 1, 0, 1, 3], []), ([2, 0, 0, 0, 1, 3, 1, 0, 1, 3], []),
          ([2, 0, 1, 0, 1, 4, 1, 0, 1, 3], []), ([2, 0, 2, 1, 1, 5, 2, 0, 1, 3], [])]⟩⟩],
        chs := [[]] },
    extended := ⟨⟨[([1, 255], [6, 0, 1, 255, 0, 1, 3, 6, 1, 2, 255, 0, 1, 3])]⟩⟩,
    supportedExtensions := Fs2Sets.empty }

/-! ## `mine/maximal.go`: `MaximalSubGraphs`

The tree `labels` of the source is a B+tree of the fs2 library in a temporary
file; the method `sg.RemoveEdge(eIdx)` of the graph library is an input. A
key that the iterator of the store yields is not nil. -/

/-- The function `addToLabels(labels, label)`. -/
def addToLabels (labels : BpTree) (label : Bytes) : BpTree :=
  if labels.Has label then labels else labels.Add label [0]

/-- The loop `for eIdx := range sg.E` of `MaximalSubGraphs`: the short label
of the embedding without the edge `eIdx` is added to `labels`, for every
edge. -/
def plantLabels (lib : GraphLib) (RemoveEdge : SubGraph → Nat → SubGraph) (sg : SubGraph)
    (labels : BpTree) : BpTree :=
  (List.range sg.E.length).foldl
    (fun ls eIdx => addToLabels ls (lib.ShortLabel (RemoveEdge sg eIdx))) labels

/-- The variables of the goroutine of `MaximalSubGraphs`, with the keys sent
on the channel `keys` so far. -/
structure maximalState where
  cur : Option Bytes
  had : Bool
  labels : BpTree
  out : List Bytes
deriving DecidableEq, Repr

/-- One iteration of the loop over `all.Backward()`, for the item
`(key, sg)`. -/
def maximalStep (lib : GraphLib) (RemoveEdge : SubGraph → Nat → SubGraph) (st : maximalState)
    (item : Bytes × SubGraph) : maximalState :=
  let changed := st.cur.isSome && !bytesEqual (some item.1) st.cur
  let out := if changed && !st.had then st.out ++ [st.cur.getD []] else st.out
  let had := if changed then false else st.had
  let had := if st.labels.Has item.1 then true else had
  let labels :=
    if !bytesEqual st.cur (some item.1) then plantLabels lib RemoveEdge item.2 st.labels
    else st.labels
  { cur := some item.1, had := had, labels := labels, out := out }

/-- After the loop: `if !had && cur != nil { keys<-cur }`; the result is what
was sent on `keys` when it is closed. -/
def maximalFinish (st : maximalState) : List Bytes :=
  if !st.had && st.cur.isSome then st.out ++ [st.cur.getD []] else st.out

/-- The goroutine of `MaximalSubGraphs` over the items that `all.Backward()`
yields: the keys sent on the channel. -/
def maximalRun (lib : GraphLib) (RemoveEdge : SubGraph → Nat → SubGraph)
    (items : List (Bytes × SubGraph)) : List Bytes :=
  maximalFinish (items.foldl (maximalStep lib RemoveEdge) ⟨none, false, BpTree.empty, []⟩)

/-- The function `MaximalSubGraphs(all, ...)` with a new tree `labels`: the
keys that its channel yields. -/
def MaximalSubGraphs (lib : GraphLib) (RemoveEdge : SubGraph → Nat → SubGraph)
    (all : Fs2BpTree) : List Bytes :=
  maximalRun lib RemoveEdge (all.Backward lib)

/-- The items of groups of embeddings with one key each, group after
group. -/
def expandGroups (groups : List (Bytes × List SubGraph)) : List (Bytes × SubGraph) :=
  groups.flatMap (fun g => g.2.map (fun sg => (g.1, sg)))

/-- The store restricted to the entries whose key is in `M`. -/
def restrictStore (all : Fs2BpTree) (M : List Bytes) : Fs2BpTree :=
  ⟨⟨all.bpt.entries.filter (fun e => decide (e.1 ∈ M))⟩⟩

/-- The iterations of the loop for the items of one group. -/
def groupStep (lib : GraphLib) (RemoveEdge : SubGraph → Nat → SubGraph) (st : maximalState)
    (g : Bytes × List SubGraph) : maximalState :=
  g.2.foldl (fun s sg => maximalStep lib RemoveEdge s (g.1, sg)) st

/-- The tree `labels` after the first item of a group. -/
def groupLabels (lib : GraphLib) (RemoveEdge : SubGraph → Nat → SubGraph) (st : maximalState)
    (g : Bytes × List SubGraph) : BpTree :=
  match g.2 with
  | [] => st.labels
  | sg :: _ =>
    if !bytesEqual st.cur (some g.1) then plantLabels lib RemoveEdge sg st.labels else st.labels

/-- The variable `had` after a group that begins with a new key. -/
def groupHad (lib : GraphLib) (RemoveEdge : SubGraph → Nat → SubGraph) (st : maximalState)
    (g : Bytes × List SubGraph) : Bool :=
  match g.2 with
  | [] => st.had
  | _ :: rest => st.labels.Has g.1 || (!rest.isEmpty && (groupLabels lib RemoveEdge st g).Has g.1)

/-- The keys that the loop sends for groups with keys of their own, each
when its group is over. -/
def emitted (lib : GraphLib) (RemoveEdge : SubGraph → Nat → SubGraph) :
    maximalState → List (Bytes × List SubGraph) → List Bytes
  | _, [] => []
  | st, g :: gs =>
    (if groupHad lib RemoveEdge st g then [] else [g.1]) ++
      emitted lib RemoveEdge (groupStep lib RemoveEdge st g) gs

/-- The loop is before a group with the key `k`: nothing was read yet, or the
current key is another one. -/
def Fresh (st : maximalState) (k : Bytes) : Prop :=
  (st.cur = none ∧ st.had = false) ∨ ∃ c, st.cur = some c ∧ c ≠ k

/-- Every label of the first tree is a label of the second. -/
def SubLabels (a b : BpTree) : Prop := ∀ x, a.Has x = true → b.Has x = true

/-- The loop has not sent the label `kA` and is not about to: the current
key is another one, or `had` is true. -/
def NotSent (kA : Bytes) (st : maximalState) : Prop :=
  kA ∉ st.out ∧ (st.cur = some kA → st.had = true)

/-! ## Stores of patterns of the small graph -/

/-- The method `RemoveEdge` of the library of `toyGraph`: the embedding of
the other edges, or of the first vertex when there is no other edge. -/
def toyRemoveEdge (sg : SubGraph) (eIdx : Nat) : SubGraph :=
  let edges := (graphEdges sg).eraseIdx eIdx
  if edges.isEmpty then toyEmbedding ((sg.V.take 1).map Vertex.Id) []
  else toyEmbedding (edges.foldr (fun e ids => insertId e.Src (insertId e.Targ ids)) []) edges

/-- The library of `toyGraph` with short labels that begin with the number
of edges, so that a pattern with more edges is earlier in a backward
scan. -/
def sizedLib : GraphLib :=
  { ShortLabel := fun sg => Fin.ofNat sg.E.length :: toyLib.ShortLabel sg,
    Serialize := toyLib.Serialize,
    DeserializeSubGraph := toyLib.DeserializeSubGraph }

/-- A store with the pattern `a` (embeddings `a1`, `a2`), the pattern `a→b`
(embedding `a1→b1`) and the pattern `a→b→c` (embedding `a1→b1→c1`). -/
def sizedStore : Fs2BpTree :=
  ⟨⟨[([0, 0, 255], [1, 0, 0, 0]), ([0, 0, 255], [1, 0, 1, 0]),
    ([1, 0, 1, 255, 0, 1, 3], [2, 0, 0, 0, 1, 2, 1, 0, 1, 3]),
    ([2, 0, 1, 2, 255, 0, 1, 3, 1, 2, 3], [3, 0, 0, 0, 1, 2, 1, 2, 5, 2, 0, 1, 3, 1, 2, 3])]⟩⟩

/-- The groups of the backward scan of `sizedStore`. -/
def sizedGroups : List (Bytes × List SubGraph) :=
  [([2, 0, 1, 2, 255, 0, 1, 3, 1, 2, 3], [toyEmbedding [0, 2, 5] [⟨0, 2, 3⟩, ⟨2, 5, 3⟩]]),
   ([1, 0, 1, 255, 0, 1, 3], [toyEmbedding [0, 2] [⟨0, 2, 3⟩]]),
   ([0, 0, 255], [toyEmbedding [1] [], toyEmbedding [0] []])]

/-- A store with the pattern `a` (embedding `a1`) and the pattern `a→b→c`
(embedding `a1→b1→c1`) only. -/
def gapStore : Fs2BpTree :=
  ⟨⟨[([0, 0, 255], [1, 0, 0, 0]),
    ([2, 0, 1, 2, 255, 0, 1, 3, 1, 2, 3], [3, 0, 0, 0, 1, 2, 1, 2, 5, 2, 0, 1, 3, 1, 2, 3])]⟩⟩

/-- The label `x` is the short label of the first embedding of the group
without one of its edges: what the loop adds to `labels` at the group. -/
def FirstPlanted (lib : GraphLib) (RemoveEdge : SubGraph → Nat → SubGraph)
    (g : Bytes × List SubGraph) (x : Bytes) : Prop :=
  ∃ sg rest i, g.2 = sg :: rest ∧ i < sg.E.length ∧ x = lib.ShortLabel (RemoveEdge sg i)

/-! ## `graph/graph.go`: `ProcessLines`

An `io.Reader` is the list of the results of its calls of `Read`; after the
last of them `Read` returns no byte and `io.EOF`. -/

/-- What a call `reader.Read(chunk)` returns: `n` bytes without an error,
`n` bytes with `io.EOF`, or another error. -/
inductive ReadResult where
  | data (chunk : Bytes)
  | eof (chunk : Bytes)
  | fail
deriving DecidableEq, Repr

/-- The closure `parse(buf)` of `ProcessLines`: the line up to the first line
feed with the bytes after it, `none` when `ok` is false. -/
def parse : Bytes → Option (Bytes × Bytes)
  | [] => none
  | b :: rest =>
    if b = 10 then some ([b], rest)
    else
      match parse rest with
      | none => none
      | some (line, obuf) => some (b :: line, obuf)

/-- The closure `read_line()` of `ProcessLines` with the closure
`read_chunk()`: the line, `closed`, and the variable `buf` and the reader
afterwards. A chunk read with `io.EOF` is dropped. -/
def read_line : Bytes → List ReadResult → Except Fault (Bytes × Bool × Bytes × List ReadResult)
  | buf, [] =>
    match parse buf with
    | some (line, obuf) => .ok (line, false, obuf, [])
    | none => .ok (buf, true, buf, [])
  | buf, r :: rest =>
    match parse buf with
    | some (line, obuf) => .ok (line, false, obuf, r :: rest)
    | none =>
      match r with
      | .data chunk =>
        if chunk.length = 0 then .ok (buf, true, buf, rest) else read_line (buf ++ chunk) rest
      | .eof _ => .ok (buf, true, buf, rest)
      | .fail => .error .panic

/-- The loop `for !closed` of `ProcessLines`: the arguments of the calls of
`process`, in their order; `fuel` bounds the iterations. -/
def ProcessLoop : Nat → Bytes → List ReadResult → List Bytes → Except Fault (List Bytes)
  | 0, _, _, _ => .error .outOfFuel
  | fuel + 1, buf, reader, calls =>
    match read_line buf reader with
    | .error e => .error e
    | .ok (line, closed, buf', reader') =>
      if closed then .ok (calls ++ [line]) else ProcessLoop fuel buf' reader' (calls ++ [line])

/-- The function `ProcessLines(reader, process)`: the arguments of the calls of
`process`. -/
def ProcessLines (fuel : Nat) (reader : List ReadResult) : Except Fault (List Bytes) :=
  ProcessLoop fuel [] reader []

/-- The bytes that a reader delivers without an error. -/
def readerContent : List ReadResult → Bytes
  | [] => []
  | .data chunk :: rest => chunk ++ readerContent rest
  | _ :: _ => []

/-- Every call of `Read` but the last returns one byte or more and no
error. -/
def GoodReader (reader : List ReadResult) : Prop :=
  ∀ r ∈ reader, ∃ chunk, r = ReadResult.data chunk ∧ chunk ≠ []

/-! ## `graph/graph.go`: `parseLine`, `LoadGraph`

The callback of `LoadGraph` is given over any pair of functions `LoadVertex`
and `LoadEdge`, each with the graph state afterwards and the error it
returns, `none` when it panics; the functions of the source follow below.
`strings.TrimSpace` and `bytes.TrimSpace` are the input `TrimSpace`. -/

/-- The function `bytes.Split(s, sep)` for a separator of one byte. -/
def splitOn (sep : Fin 256) : Bytes → List Bytes
  | [] => [[]]
  | b :: rest =>
    if b = sep then [] :: splitOn sep rest
    else
      match splitOn sep rest with
      | [] => [[b]]
      | p :: ps => (b :: p) :: ps

/-- The function `parseLine(line)`: the parts before and after the first tab, trimmed; the
index `split[1]` panics on a line without a tab. -/
def parseLine (TrimSpace : Bytes → Bytes) (line : Bytes) : Option (Bytes × Bytes) :=
  match splitOn 9 line with
  | s0 :: s1 :: _ => some (TrimSpace s0, TrimSpace s1)
  | _ => none

/-- An error of the list `ParseErrors` of `LoadGraph`. -/
inductive ParseError where
  | vertex (msg : Bytes)
  | edge (msg : Bytes)
  | unknownLineType (line_type : Bytes)
deriving DecidableEq, Repr

/-- The inputs of `LoadGraph` over graph states of the type `σ`. -/
structure graphLoader (σ : Type) where
  TrimSpace : Bytes → Bytes
  LoadVertex : σ → Bytes → Option (σ × Option Bytes)
  LoadEdge : σ → Bytes → Option (σ × Option Bytes)

/-- The bytes of the string `vertex`. -/
def vertexType : Bytes := [118, 101, 114, 116, 101, 120]

/-- The bytes of the string `edge`. -/
def edgeType : Bytes := [101, 100, 103, 101]

/-- The callback that `LoadGraph` passes to `ProcessLines`, on one line: the
graph state and the list `errors` afterwards. -/
def loadLine {σ : Type} (L : graphLoader σ) (st : σ × List ParseError) (line : Bytes) :
    Option (σ × List ParseError) :=
  if line.length = 0 ∨ (9 : Fin 256) ∉ line then some st
  else
    match parseLine L.TrimSpace line with
    | none => none
    | some (line_type, data) =>
      if line_type = vertexType then
        match L.LoadVertex st.1 data with
        | none => none
        | some (g, none) => some (g, st.2)
        | some (g, some err) => some (g, st.2 ++ [ParseError.vertex err])
      else if line_type = edgeType then
        match L.LoadEdge st.1 data with
        | none => none
        | some (g, none) => some (g, st.2)
        | some (g, some err) => some (g, st.2 ++ [ParseError.edge err])
      else some (st.1, st.2 ++ [ParseError.unknownLineType line_type])

/-- The callback on the lines of the input, in their order. -/
def loadLines {σ : Type} (L : graphLoader σ) :
    σ × List ParseError → List Bytes → Option (σ × List ParseError)
  | st, [] => some st
  | st, line :: rest =>
    match loadLine L st line with
    | none => none
    | some st' => loadLines L st' rest

/-- The function `LoadGraph(...)` on the second reader that `getInput` returns, from the
new graph `g0`: the graph and the list `errors`; the error returned is nil
when the list is empty, and the list otherwise. -/
def LoadGraph {σ : Type} (L : graphLoader σ) (fuel : Nat) (reader : List ReadResult) (g0 : σ) :
    Except Fault (σ × List ParseError) :=
  match ProcessLines fuel reader with
  | .error e => .error e
  | .ok lines =>
    match loadLines L (g0, []) lines with
    | none => .error .panic
    | some r => .ok r

/-- The line has a tab and a line type that is neither `vertex` nor
`edge`. -/
def UnknownLine (TrimSpace : Bytes → Bytes) (line : Bytes) : Option Bytes :=
  if (9 : Fin 256) ∈ line then
    match parseLine TrimSpace line with
    | some (line_type, _) =>
      if line_type = vertexType ∨ line_type = edgeType then none else some line_type
    | none => none
  else none

/-- The entries `Unknown line type` of a list of errors. -/
def unknownEntries (errors : List ParseError) : List Bytes :=
  errors.filterMap (fun e =>
    match e with
    | ParseError.unknownLineType t => some t
    | _ => none)

/-- The white space of ASCII trimmed from both ends. -/
def trimAscii (s : Bytes) : Bytes :=
  ((s.dropWhile (fun b => b.val ∈ [9, 10, 11, 12, 13, 32])).reverse.dropWhile
    (fun b => b.val ∈ [9, 10, 11, 12, 13, 32])).reverse

/-- The miner of `toyGraph` with the support 1 after `initial`. -/
def toyMinerOne : RandomWalkMiner := { toyMiner with Support := 1 }

/-- The miner of `toyGraph` with the support 3 after `initial`: only the
colour of `b1`, `b2`, `b3` is frequent. -/
def toyMinerThree : RandomWalkMiner :=
  { Support := 3, MinVertices := 1, startingPoints := ⟨[[1, 255]]⟩,
    AllEmbeddings :=
      { graphs := [⟨⟨[([1, 255], [1, 0, 4, 1]), ([1, 255], [1, 0, 3, 1]),
          ([1, 255], [1, 0, 2, 1])]⟩⟩],
        unique := [⟨⟨[([1, 0, 2, 1], []), ([1, 0, 3, 1], []), ([1, 0, 4, 1], [])]⟩⟩],
        chs := [[]] },
    extended := Fs2Sets.empty, supportedExtensions := Fs2Sets.empty }

/-! ## `mine/random_walk.go`: `sample` with the calls of `walk` -/

/-- The loop `retry` of `sample` with the calls of `m.walk()` run on the
miner; `draws` random numbers have been drawn before, `wfuel` bounds the loop
of every walk and `fuel` the iterations of `retry`. A fault of `walk` ends the
run: the `log.Fatal` of `randomInitialPartition` on an empty set of starting
points is the fault of `randomInitialPartition`, the program exits and
`Report` is not closed. -/
def RandomWalkMiner.retryWalk (env : walkEnv) (wfuel : Nat) :
    Nat → RandomWalkMiner → Nat → sampleResult →
      Except Fault (RandomWalkMiner × Nat × sampleResult)
  | 0, _, _, _ => .error .outOfFuel
  | fuel + 1, m, draws, st =>
    match m.walk { env with rand := fun n => env.rand (draws + n) } wfuel with
    | .error e => .error e
    | .ok r =>
      let part := r.node
      let st' : sampleResult := { st with tries := st.tries + 1, walks := st.walks + 1 }
      if (part.length : Int) < r.miner.Support then
        RandomWalkMiner.retryWalk env wfuel fuel r.miner (draws + r.draws) st'
      else
        match part[0]? with
        | none => .error .panic
        | some first =>
          if (first.V.length : Int) < r.miner.MinVertices then
            RandomWalkMiner.retryWalk env wfuel fuel r.miner (draws + r.draws) st'
          else
            let label := env.lib.ShortLabel first
            if part.all (fun sg => bytesEqual (some label) (some (env.lib.ShortLabel sg))) then
              .ok (r.miner, draws + r.draws, { st' with report := st'.report ++ [label] })
            else RandomWalkMiner.retryWalk env wfuel fuel r.miner (draws + r.draws) st'

/-- The loop `for i := 0; i < size; i++` of `sample` with the calls of
`m.walk()`, with `n` iterations left. -/
def RandomWalkMiner.sampleWalkLoop (env : walkEnv) (wfuel fuel : Nat) :
    Nat → RandomWalkMiner → Nat → sampleResult → Except Fault sampleResult
  | 0, _, _, st => .ok st
  | n + 1, m, draws, st =>
    match RandomWalkMiner.retryWalk env wfuel fuel m draws st with
    | .error e => .error e
    | .ok (m', draws', st') => RandomWalkMiner.sampleWalkLoop env wfuel fuel n m' draws' st'

/-- The function `sample(size)` of the miner that `RandomWalk` creates, whose
`AllEmbeddings` is nil: `initial`, the loop, then `close(m.Report)`. A result
is the state in which `Report` is closed, with the labels published. -/
def RandomWalkMiner.sampleInitial (env : minerEnv) (sched : List Bytes → List Bytes)
    (rand : Nat → Nat) (PLevel : Nat) (Support MinVertices : Int) (ifuel wfuel fuel : Nat)
    (size : Int) : Except Fault sampleResult :=
  match RandomWalkMiner.initial env PLevel Support ifuel with
  | .error e => .error e
  | .ok (groups, startingPoints) =>
    RandomWalkMiner.sampleWalkLoop (env.toWalkEnv sched rand) wfuel fuel size.toNat
      { Support := Support, MinVertices := MinVertices, startingPoints := startingPoints,
        AllEmbeddings := groups, extended := Fs2Sets.empty,
        supportedExtensions := Fs2Sets.empty }
      0 ⟨0, [], 0⟩

/-- A path `a→b→c` in which every color is the color of one vertex or of one
edge. -/
def pathGraph : Graph :=
  { V := [⟨0, 0, 0⟩, ⟨1, 1, 1⟩, ⟨2, 2, 2⟩],
    Kids := [[⟨0, 1, 3⟩], [⟨1, 2, 4⟩], []],
    Parents := [[], [⟨0, 1, 3⟩], [⟨1, 2, 4⟩]],
    ColorFrequency := fun c => if 0 ≤ c ∧ c ≤ 4 then 1 else 0 }

/-- The methods of the library of `pathGraph`, in which the color of a vertex
is its id. -/
def pathOps : SubGraphOps :=
  { VertexSubGraph := fun idx => ⟨[⟨0, idx, idx⟩], []⟩,
    EdgeExtend := fun sg e =>
      let V : List Vertex :=
        (insertId e.Src (insertId e.Targ (sg.V.map Vertex.Id))).enum.map
          (fun iv => ⟨(iv.1 : Int), iv.2, iv.2⟩)
      { V := V,
        E := ((graphEdges sg ++ [e]).map
          (fun f => (⟨vertexPos V f.Src, vertexPos V f.Targ, f.Color⟩ : Edge))).foldr
            insertEdge [] },
    HasEdge := fun sg e => (graphEdges sg).any (fun f => f = e) }

/-- The environment of the miner of `pathGraph`, with the schedule in which
the goroutines of the shards have received everything sent when the stores
are read. -/
def pathEnv : minerEnv :=
  { G := pathGraph, ops := pathOps, lib := toyLib, codec := exampleCodec, esched := id,
    received := ParHashCollector.fullDrain }

/-- The environment of the miner of `pathGraph` with the schedule in which the
goroutine of shard 0 has received two items when the stores are read. -/
def pathLateEnv : minerEnv := { pathEnv with received := fun _ => [0, 0] }

/-! ## Further small graphs

The library of `toyGraph` for any table of vertices: the vertices of an
embedding are in the order of their graph vertices. -/

/-- The embedding with the given graph vertices, in ascending order, and
graph edges, for the vertices `vs` of a graph. -/
def tableEmbedding (vs : List Vertex) (ids : List Int) (edges : List Edge) : SubGraph :=
  let V : List Vertex := ids.enum.map (fun iv =>
    ⟨(iv.1 : Int), iv.2, ((sliceIndex vs iv.2).map Vertex.Color).getD (-1)⟩)
  { V := V,
    E := (edges.map (fun e => (⟨vertexPos V e.Src, vertexPos V e.Targ, e.Color⟩ : Edge))).foldr
      insertEdge [] }

/-- The methods of the library of a graph with the vertices `vs`. -/
def tableOps (vs : List Vertex) : SubGraphOps :=
  { VertexSubGraph := fun idx => tableEmbedding vs [idx] [],
    EdgeExtend := fun sg e =>
      tableEmbedding vs (insertId e.Src (insertId e.Targ (sg.V.map Vertex.Id)))
        (graphEdges sg ++ [e]),
    HasEdge := fun sg e => (graphEdges sg).any (fun f => f = e) }

/-- The graph with the vertices `vs`, the edges `es` and the color
frequencies `freq`. -/
def tableGraph (vs : List Vertex) (es : List Edge) (freq : Int → Int) : Graph :=
  { V := vs,
    Kids := (List.range vs.length).map (fun i => es.filter (fun e => e.Src = (i : Int))),
    Parents := (List.range vs.length).map (fun i => es.filter (fun e => e.Targ = (i : Int))),
    ColorFrequency := freq }

/-- The vertices of `branchGraph`: `a1 a2` of the color 0, `b1 b2 b3` of the
color 1, `c1` of the color 2 and `d1` of the color 3. -/
def branchVertices : List Vertex :=
  [⟨0, 0, 0⟩, ⟨1, 1, 0⟩, ⟨2, 2, 1⟩, ⟨3, 3, 1⟩, ⟨4, 4, 1⟩, ⟨5, 5, 2⟩, ⟨6, 6, 3⟩]

/-- The edges of `branchGraph`, all of the color 4: `a1→b1`, `a1→b2`,
`a2→b3`, `b1→c1`, `b2→d1`. -/
def branchEdges : List Edge :=
  [⟨0, 2, 4⟩, ⟨0, 3, 4⟩, ⟨1, 4, 4⟩, ⟨2, 5, 4⟩, ⟨3, 6, 4⟩]

/-- A graph in which the two embeddings `a1→b1` and `a1→b2` of the pattern
`a→b` share their vertex `a1` and extend to different patterns. -/
def branchGraph : Graph :=
  tableGraph branchVertices branchEdges (fun c =>
    if c = 0 then 2 else if c = 1 then 3 else if c = 2 then 1 else if c = 3 then 1
    else if c = 4 then 5 else 0)

/-- The environment of the miner of `branchGraph`, with the schedule in which
the goroutines of the shards have received everything sent when the stores
are read. -/
def branchEnv : minerEnv :=
  { G := branchGraph, ops := tableOps branchVertices, lib := toyLib, codec := exampleCodec,
    esched := id, received := ParHashCollector.fullDrain }

/-- The vertices of `forkGraph`: `a1 … a4` of the color 0, `b1 b2` of the
color 1 and `c1 c2` of the color 2. -/
def forkVertices : List Vertex :=
  [⟨0, 0, 0⟩, ⟨1, 1, 0⟩, ⟨2, 2, 0⟩, ⟨3, 3, 0⟩, ⟨4, 4, 1⟩, ⟨5, 5, 1⟩, ⟨6, 6, 2⟩, ⟨7, 7, 2⟩]

/-- The edges of `forkGraph`, all of the color 3: `a1→b1`, `a2→b2`, `a3→c1`,
`a4→c2`. -/
def forkEdges : List Edge := [⟨0, 4, 3⟩, ⟨1, 5, 3⟩, ⟨2, 6, 3⟩, ⟨3, 7, 3⟩]

/-- A graph in which the patterns `a→b` and `a→c` have two embeddings each
and no vertex has both edges. -/
def forkGraph : Graph :=
  tableGraph forkVertices forkEdges (fun c =>
    if c = 0 then 4 else if c = 1 then 2 else if c = 2 then 2 else if c = 3 then 4 else 0)

/-- The environment of the miner of `forkGraph`, with the schedule in which
the goroutines of the shards have received everything sent when the stores
are read. -/
def forkEnv : minerEnv :=
  { G := forkGraph, ops := tableOps forkVertices, lib := toyLib, codec := exampleCodec,
    esched := id, received := ParHashCollector.fullDrain }

/-- The lattice of the embedding `a1→b1` of `forkGraph`: the patterns `a`,
`b` and `a→b`. -/
def forkLattice : Lattice :=
  { V := [tableEmbedding forkVertices [0] [], tableEmbedding forkVertices [4] [],
      tableEmbedding forkVertices [0, 4] [⟨0, 4, 3⟩]],
    E := [⟨0, 2⟩, ⟨1, 2⟩] }

/-- The environment of the walk on `forkGraph`, with the random source that
gives 0. -/
def forkWalkEnv : walkEnv := forkEnv.toWalkEnv id (fun _ => 0)

/-- The miner of `forkGraph` with the support 2 after `initial`. -/
def forkMiner : RandomWalkMiner :=
  match RandomWalkMiner.initial forkEnv 1 2 20 with
  | .ok r =>
    { Support := 2, MinVertices := 1, startingPoints := r.2, AllEmbeddings := r.1,
      extended := Fs2Sets.empty, supportedExtensions := Fs2Sets.empty }
  | .error _ =>
    { Support := 2, MinVertices := 1, startingPoints := SortedSet.empty,
      AllEmbeddings := MakeParHashCollector 1, extended := Fs2Sets.empty,
      supportedExtensions := Fs2Sets.empty }

/-- The miner `forkMiner` after one call of `walk`. -/
def forkSampled : RandomWalkMiner :=
  match forkMiner.walk forkWalkEnv 10 with
  | .ok r => r.miner
  | .error _ => forkMiner

/-- The partition `next` is what `randomPartition` draws, with the random
number `r`, for the extensions of the partition `node`: `walk` calls
`extensions(node)` on the miner `m` and then `randomPartition` with the short
label of the first embedding of `node`, which leaves the miner `m'`. -/
def DrawnFrom (env : walkEnv) (m : RandomWalkMiner) (node next : Graple.partition)
    (m' : RandomWalkMiner) (r : Nat) : Prop :=
  ∃ n0 exts m1, node[0]? = some n0 ∧ m.callExtensions env node = .ok (exts, m1) ∧
    m1.randomPartition env (env.lib.ShortLabel n0) exts r = .ok (next, m')

/-- Every partition of the list but the first is drawn by `randomPartition`
for the extensions of the partition before it. -/
def DrawChain (env : walkEnv) (l : List Graple.partition) : Prop :=
  ∀ i p q, l[i]? = some p → l[i + 1]? = some q → ∃ mp mq r, DrawnFrom env mp p q mq r

/-- The function `hash(bytes)` on a platform whose `int` has `bits` bits: the
conversion `int(h.Sum32())` keeps the low `bits` bits of the sum and reads
them as a signed number. With 64 bits this is `hash`; with 32 bits a sum of
`2^31` or more becomes negative. -/
def hashInt (bits : Nat) (bytes : Bytes) : Int :=
  let s := fnv32a bytes % 2 ^ bits
  if s < 2 ^ (bits - 1) then (s : Int) else (s : Int) - 2 ^ bits

/-- The index `hash(label) % N` of `send` and of `Find` for `N` shards on a
platform whose `int` has `bits` bits, as it is used to index a slice: a zero
length and a negative index panic. -/
def shardIndexInt (bits N : Nat) (label : Bytes) : Option Nat :=
  if N = 0 then none
  else
    let idx := Int.tmod (hashInt bits label) (N : Int)
    if idx < 0 then none else some idx.toNat

/-! ## `mine/random_walk.go`: the deferred `recover` of `PrMatrices`

`PrMatrices` defers a function that calls `recover`. It catches a panic of
the goroutine that runs `PrMatrices`. It does not catch `log.Fatal`, which
`assert_ok` of `store/` calls on an error and which ends the program, and it
does not catch a panic of another goroutine: of a worker or the producer of
`extend`, of a worker of `supportedKeys`, or of the goroutine of a shard. -/

/-- Ways in which the body of `PrMatrices` ends without a result: a panic in
the goroutine that runs it; the end of the program, by `log.Fatal` or by a
panic in another goroutine; or the step bound of the model reached. -/
inductive Halt where
  | panic
  | exit
  | outOfFuel
deriving DecidableEq, Repr

/-- A fault raised in the goroutine of the caller. -/
def Fault.here : Fault → Halt
  | .panic => .panic
  | .outOfFuel => .outOfFuel

/-- A fault raised in another goroutine, or by `log.Fatal`. -/
def Fault.elsewhere : Fault → Halt
  | .panic => .exit
  | .outOfFuel => .outOfFuel

/-- The function `extensions(sgs)` with the place of its faults. An error of
`extended.Get` or of `extended.Put` goes to `assert_ok`; `extend` runs its
producer and its workers in goroutines of their own, and the goroutines of
the shards receive what is sent; the callback that calls `send` runs in the
goroutine of the caller, where the index `c.chs[idx]` can panic. -/
def RandomWalkMiner.extensionsHalt (env : minerEnv) (m : RandomWalkMiner)
    (sgs : Graple.partition) : Except Halt (SortedSet × RandomWalkMiner) :=
  match sgs with
  | [] => .ok (SortedSet.empty, m)
  | s0 :: _ =>
    let label := env.lib.ShortLabel s0
    if m.extended.Has label then
      match m.extended.Get env.codec label with
      | none => .error .exit
      | some keys => .ok (keys, m)
    else
      match extend env.G env.ops m.Support env.esched sgs with
      | none => .error .exit
      | some esgs =>
        let keys := esgs.foldl (fun ks sg => ks.Add (env.lib.ShortLabel sg)) SortedSet.empty
        match m.AllEmbeddings.sendAll env.lib esgs with
        | none => .error .panic
        | some all =>
          match m.extended.Put env.codec label keys,
              all.receiveAll env.lib (env.received all) with
          | some extended, some all' =>
            .ok (keys, { m with AllEmbeddings := all', extended := extended })
          | _, _ => .error .exit

/-- One iteration of the loop of `probabilities` with the place of its
faults: `partition(key)` and the index `part[0]` run in the goroutine of the
caller; `supportedKeys` calls `partition` in its workers and `assert_ok` in
`Get` and `Put`. -/
def RandomWalkMiner.probabilityHalt (env : minerEnv) (sched : List Bytes → List Bytes)
    (m : RandomWalkMiner) (n i : Nat) (sg : SubGraph) : Except Halt (Int × RandomWalkMiner) :=
  let key := env.lib.ShortLabel sg
  match m.partition env.lib key with
  | .error e => .error e.here
  | .ok part =>
    match m.extensionsHalt env part with
    | .error h => .error h
    | .ok (keys, m1) =>
      match m1.supportedKeys env.lib env.codec sched key keys with
      | .error e => .error e.elsewhere
      | .ok res =>
        let count := res.supKeys.Size
        if i + 1 = n then .ok (-1, res.miner)
        else if count = 0 then
          match part[0]? with
          | none => .error .panic
          | some _ => .ok (1, res.miner)
        else .ok ((count : Int), res.miner)

/-- The loop of `probabilities` from the position `i` on, with the place of
its faults. -/
def RandomWalkMiner.probabilitiesLoopHalt (env : minerEnv) (sched : List Bytes → List Bytes)
    (n : Nat) :
    Nat → List SubGraph → RandomWalkMiner → List Int → Except Halt (List Int × RandomWalkMiner)
  | _, [], m, P => .ok (P, m)
  | i, sg :: rest, m, P =>
    match m.probabilityHalt env sched n i sg with
    | .error e => .error e
    | .ok (p, m') =>
      RandomWalkMiner.probabilitiesLoopHalt env sched n (i + 1) rest m' (P.set i p)

/-- The body of `PrMatrices(sg)` for the lattice that `sg.Lattice()` returns,
with the place of its faults: `make` with the capacity `-1` for a lattice
without a node and the index `p[e.Src]` panic in the goroutine of the
caller. -/
def RandomWalkMiner.PrMatricesBody (env : minerEnv) (sched : List Bytes → List Bytes)
    (m : RandomWalkMiner) (lattice : Lattice) : Except Halt PrMatricesResult :=
  match RandomWalkMiner.probabilitiesLoopHalt env sched lattice.V.length 0 lattice.V m
      (List.replicate lattice.V.length 0) with
  | .error e => .error e
  | .ok (p, m') =>
    let n := lattice.V.length
    let vp : Int := m'.startingPoints.Size
    if n = 0 then .error .panic
    else
      let u := uLoop n vp 0 lattice.V []
      match qrLoop n p lattice.E ([], []) with
      | none => .error .panic
      | some (Q, R) =>
        .ok { vp := vp, Q := ⟨(n : Int) - 1, (n : Int) - 1, Q⟩, R := ⟨(n : Int) - 1, 1, R⟩,
              u := ⟨1, (n : Int) - 1, u⟩, miner := m' }

/-- How a call of `PrMatrices` ends: it returns its matrices and a nil error;
it returns the error that the deferred `recover` makes of a panic; the
program has ended and the call does not return; or the step bound of the
model is reached. -/
inductive PrMatricesEnd where
  | returned (r : PrMatricesResult)
  | recovered
  | ended
  | outOfFuel
deriving DecidableEq, Repr

/-- The function `PrMatrices(sg)` with its deferred `recover`. -/
def RandomWalkMiner.PrMatricesRecover (env : minerEnv) (sched : List Bytes → List Bytes)
    (m : RandomWalkMiner) (lattice : Lattice) : PrMatricesEnd :=
  match m.PrMatricesBody env sched lattice with
  | .ok r => .returned r
  | .error .panic => .recovered
  | .error .exit => .ended
  | .error .outOfFuel => .outOfFuel

/-- An encoding of sets whose serialization fails. -/
def failingCodec : SetCodec :=
  { MarshalBinary := fun _ => none, UnmarshalBinary := fun _ => none }

/-- The environment `toyEnv` with an encoding of sets whose serialization
fails. -/
def toyFailEnv : minerEnv := { toyEnv with codec := failingCodec }

/-- The fault of a halt when the place of the fault is forgotten. -/
def Halt.toFault : Halt → Fault
  | .panic => .panic
  | .exit => .panic
  | .outOfFuel => .outOfFuel

/-- A result with the place of its fault forgotten. -/
def forgetPlace {α : Type} : Except Halt α → Except Fault α
  | .ok a => .ok a
  | .error h => .error h.toFault

/-! ## `graph/graph.go`: `LoadVertex`, `LoadEdge`

`ParseJson` decodes with `encoding/json` and `UseNumber`; the decoder and the
conversion `json.Number.Int64` are inputs. The graph of the graph library and
the hash table `vids` are given by the calls that they record; the errors of
`vids.Put` and of `nodeAttrs.Add` do not occur in the model. A type assertion
`obj[key].(T)` on a value that is absent or of another type panics. -/

/-- A value of a decoded JSON object: a `json.Number` with its text, a
string, or a value of another type. -/
inductive JsonValue where
  | number (text : Bytes)
  | string (s : Bytes)
  | other
deriving DecidableEq, Repr

/-- A `JsonObject`, the map from keys to values. -/
abbrev JsonObject := List (Bytes × JsonValue)

/-- The inputs of `LoadVertex` and `LoadEdge`: `TrimSpace`, the decoder
`ParseJson` and the conversion `Int64` of `json.Number`, each with the error
it returns. -/
structure jsonLib where
  TrimSpace : Bytes → Bytes
  ParseJson : Bytes → Except Bytes JsonObject
  Int64 : Bytes → Except Bytes Int

/-- The arguments `supportAttr` and `nodeAttrs` of `LoadGraph`: the name of
the attribute, and whether `nodeAttrs` is not nil. -/
structure loadConfig where
  supportAttr : Bytes
  nodeAttrs : Bool
deriving DecidableEq, Repr

/-- What `LoadGraph` builds: the vertices added to the graph with their id
and label, the index of a vertex being its position; the hash table `vids`
from ids to vertices; the edges added between vertices with their label; the
entries added to `nodeAttrs`; and the map `supportAttrs`. -/
structure loadState where
  V : List (Int × Bytes)
  vids : List (Int × Nat)
  E : List (Nat × Nat × Bytes)
  nodeAttrs : List (Nat × Bytes)
  supportAttrs : List (Nat × Bytes)
deriving DecidableEq, Repr

/-- The state of `LoadGraph` before the first line. -/
def loadState.empty : loadState := ⟨[], [], [], [], []⟩

/-- The bytes of the key `id`. -/
def idKey : Bytes := [105, 100]

/-- The bytes of the key `label`. -/
def labelKey : Bytes := [108, 97, 98, 101, 108]

/-- The bytes of the key `src`. -/
def srcKey : Bytes := [115, 114, 99]

/-- The bytes of the key `targ`. -/
def targKey : Bytes := [116, 97, 114, 103]

/-- The error of `vids.Get` for a key that the table does not have, and the
error of `LoadVertex` for a vertex without the attribute `supportAttr`. -/
def missingError : Bytes := [109, 105, 115, 115, 105, 110, 103]

/-- The function `LoadVertex(g, supportAttr, vids, nodeAttrs, supportAttrs, data)`: the
state afterwards and the error returned, `none` when a type assertion
panics. -/
def LoadVertex (L : jsonLib) (cfg : loadConfig) (g : loadState) (data : Bytes) :
    Option (loadState × Option Bytes) :=
  match L.ParseJson data with
  | .error err => some (g, some err)
  | .ok obj =>
    match obj.lookup idKey with
    | some (JsonValue.number text) =>
      match L.Int64 text with
      | .error err => some (g, some err)
      | .ok id =>
        match obj.lookup labelKey with
        | some (JsonValue.string s) =>
          let idx := g.V.length
          let g1 : loadState :=
            { g with V := g.V ++ [(id, L.TrimSpace s)],
                     vids := (id, idx) :: g.vids.filter (fun kv => kv.1 ≠ id) }
          if cfg.nodeAttrs then
            let g2 : loadState := { g1 with nodeAttrs := g1.nodeAttrs ++ [(idx, data)] }
            if cfg.supportAttr ≠ [] then
              match obj.lookup cfg.supportAttr with
              | none => some (g2, some missingError)
              | some (JsonValue.string a) =>
                some ({ g2 with supportAttrs :=
                  (idx, a) :: g2.supportAttrs.filter (fun kv => kv.1 ≠ idx) }, none)
              | some _ => none
            else some (g2, none)
          else some (g1, none)
        | _ => none
    | _ => none

/-- The function `LoadEdge(g, vids, data)`: the state afterwards and the error returned,
`none` when a type assertion panics. -/
def LoadEdge (L : jsonLib) (g : loadState) (data : Bytes) : Option (loadState × Option Bytes) :=
  match L.ParseJson data with
  | .error err => some (g, some err)
  | .ok obj =>
    match obj.lookup srcKey with
    | some (JsonValue.number stext) =>
      match L.Int64 stext with
      | .error err => some (g, some err)
      | .ok src =>
        match obj.lookup targKey with
        | some (JsonValue.number ttext) =>
          match L.Int64 ttext with
          | .error err => some (g, some err)
          | .ok targ =>
            match obj.lookup labelKey with
            | some (JsonValue.string s) =>
              match g.vids.lookup src with
              | none => some (g, some missingError)
              | some u =>
                match g.vids.lookup targ with
                | none => some (g, some missingError)
                | some v => some ({ g with E := g.E ++ [(u, v, L.TrimSpace s)] }, none)
            | _ => none
        | _ => none
    | _ => none

/-- The inputs of `LoadGraph` with the functions `LoadVertex` and `LoadEdge`
of the source. -/
def sourceLoader (L : jsonLib) (cfg : loadConfig) : graphLoader loadState :=
  { TrimSpace := L.TrimSpace, LoadVertex := LoadVertex L cfg, LoadEdge := LoadEdge L }

/-- A type assertion of `LoadVertex` or of `LoadEdge` panics on the line: the
line has a tab, its line type is `vertex` or `edge`, and the function of the
line type panics on its data. -/
def linePanics (L : jsonLib) (cfg : loadConfig) (line : Bytes) : Bool :=
  if (9 : Fin 256) ∈ line then
    match parseLine L.TrimSpace line with
    | some (line_type, data) =>
      if line_type = vertexType then (LoadVertex L cfg loadState.empty data).isNone
      else if line_type = edgeType then (LoadEdge L loadState.empty data).isNone
      else false
    | none => false
  else false

/-- A decoder that knows six texts: the empty object, a vertex with the id 1
and the label `a`, a vertex and an edge whose label is the number 5, and an
edge from the vertex 1 to itself with the label `e`; every other text is an
error. -/
def toyJson : jsonLib :=
  { TrimSpace := trimAscii,
    ParseJson := fun data =>
      if data = [123, 125] then .ok []
      else if data = [123, 34, 105, 100, 34, 58, 49, 44, 34, 108, 97, 98, 101, 108, 34, 58, 34,
          97, 34, 125] then
        .ok [(idKey, JsonValue.number [49]), (labelKey, JsonValue.string [97])]
      else if data = [123, 34, 105, 100, 34, 58, 49, 44, 34, 108, 97, 98, 101, 108, 34, 58, 53,
          125] then
        .ok [(idKey, JsonValue.number [49]), (labelKey, JsonValue.number [53])]
      else if data = [123, 34, 115, 114, 99, 34, 58, 49, 44, 34, 116, 97, 114, 103, 34, 58, 49,
          44, 34, 108, 97, 98, 101, 108, 34, 58, 34, 101, 34, 125] then
        .ok [(srcKey, JsonValue.number [49]), (targKey, JsonValue.number [49]),
          (labelKey, JsonValue.string [101])]
      else if data = [123, 34, 115, 114, 99, 34, 58, 49, 44, 34, 116, 97, 114, 103, 34, 58, 49,
          44, 34, 108, 97, 98, 101, 108, 34, 58, 53, 125] then
        .ok [(srcKey, JsonValue.number [49]), (targKey, JsonValue.number [49]),
          (labelKey, JsonValue.number [53])]
      else .error [105, 110, 118, 97, 108, 105, 100],
    Int64 := fun text => if text = [49] then .ok 1 else .error [105, 110, 118, 97, 108, 105, 100] }

/-- The configuration without node attributes. -/
def plainConfig : loadConfig := ⟨[], false⟩

/-! # Theorems -/

/-! ## Lemmas on the map-set -/

theorem has_iff_mem_keys (s : MapSet) (k : Int) : s.Has k = true ↔ k ∈ keysOf s.entries := by
  unfold MapSet.Has keysOf
  simp only [List.any_eq_true, beq_iff_eq, List.mem_map]

theorem mem_insertEntry_of_not_mem (k : Int) (v : Nat) (l : List (Int × Nat))
    (hk : k ∉ keysOf l) (e : Int × Nat) :
    e ∈ MapSet.insertEntry k v l ↔ e = (k, v) ∨ e ∈ l := by
  induction l with
  | nil => simp [MapSet.insertEntry]
  | cons x rest ih =>
    have hx : k ≠ x.1 := by
      intro h; apply hk; simp [keysOf, h]
    have hrest : k ∉ keysOf rest := by
      intro h; apply hk; simp only [keysOf, List.map_cons, List.mem_cons]; right; exact h
    unfold MapSet.insertEntry
    by_cases h1 : k < x.1
    · simp [h1]
    · simp only [h1, if_false, hx, List.mem_cons, ih hrest]
      tauto

theorem keys_insertEntry_sorted (k : Int) (v : Nat) (l : List (Int × Nat))
    (hs : (keysOf l).Sorted (· < ·)) :
    (keysOf (MapSet.insertEntry k v l)).Sorted (· < ·) ∧
      ∀ x, x ∈ keysOf (MapSet.insertEntry k v l) ↔ x = k ∨ x ∈ keysOf l := by
  induction l with
  | nil => simp [MapSet.insertEntry, keysOf]
  | cons e rest ih =>
    have hs' : (keysOf rest).Sorted (· < ·) := by
      simp only [keysOf, List.map_cons, List.sorted_cons] at hs; exact hs.2
    have hlt : ∀ y ∈ keysOf rest, e.1 < y := by
      simp only [keysOf, List.map_cons, List.sorted_cons] at hs; exact hs.1
    obtain ⟨ih1, ih2⟩ := ih hs'
    unfold MapSet.insertEntry
    by_cases h1 : k < e.1
    · simp only [h1, if_true]
      refine ⟨?_, ?_⟩
      · simp only [keysOf, List.map_cons, List.sorted_cons, List.mem_cons]
        refine ⟨?_, ?_⟩
        · rintro y (rfl | hy)
          · exact h1
          · exact lt_trans h1 (hlt y hy)
        · simp only [keysOf, List.map_cons, List.sorted_cons] at hs; exact hs
      · intro x; simp [keysOf]
    · by_cases h2 : k = e.1
      · rw [if_neg h1, if_pos h2]
        refine ⟨hs, ?_⟩
        intro x; simp only [keysOf, List.map_cons, List.mem_cons]
        constructor
        · intro h; exact Or.inr h
        · rintro (h | h)
          · exact Or.inl (h.trans h2)
          · exact h
      · rw [if_neg h1, if_neg h2]
        have hgt : e.1 < k := lt_of_le_of_ne (not_lt.mp h1) (Ne.symm h2)
        refine ⟨?_, ?_⟩
        · show (e.1 :: keysOf (MapSet.insertEntry k v rest)).Sorted (· < ·)
          rw [List.sorted_cons]
          refine ⟨?_, ih1⟩
          intro y hy
          rcases (ih2 y).1 hy with rfl | hy
          · exact hgt
          · exact hlt y hy
        · intro x
          show x ∈ e.1 :: keysOf (MapSet.insertEntry k v rest) ↔ x = k ∨ x ∈ e.1 :: keysOf rest
          rw [List.mem_cons, List.mem_cons, ih2]
          tauto

/-! ## Lemmas on `VertexSets` -/

theorem slotIds_eq_map (sgs : partition) (i : Nat) (h : ∀ sg ∈ sgs, i < sg.V.length) :
    slotIds sgs i = sgs.map (fun sg => ((sg.V[i]?).map Vertex.Id).getD 0) := by
  induction sgs with
  | nil => rfl
  | cons sg rest ih =>
    have h0 : i < sg.V.length := h sg (List.mem_cons_self _ _)
    have hr : ∀ sg ∈ rest, i < sg.V.length := fun x hx => h x (List.mem_cons_of_mem _ hx)
    have ih' := ih hr
    unfold slotIds at ih' ⊢
    rw [List.filterMap_cons, List.map_cons, ih']
    simp [List.getElem?_eq_getElem h0]

theorem slotSetFrom_eq (i : Nat) (sgs : partition) (h : ∀ sg ∈ sgs, i < sg.V.length) :
    ∀ (j : Nat) (set : MapSet),
      slotSetFrom i j sgs set = some (buildFrom j (slotIds sgs i) set) := by
  induction sgs with
  | nil => intro j set; rfl
  | cons sg rest ih =>
    intro j set
    have h0 : i < sg.V.length := h sg (List.mem_cons_self _ _)
    have hr : ∀ sg ∈ rest, i < sg.V.length := fun x hx => h x (List.mem_cons_of_mem _ hx)
    have hids : slotIds (sg :: rest) i = (sg.V[i]).Id :: slotIds rest i := by
      unfold slotIds
      rw [List.filterMap_cons]
      simp [List.getElem?_eq_getElem h0]
    rw [hids]
    unfold slotSetFrom buildFrom
    simp only [List.getElem?_eq_getElem h0]
    by_cases hh : set.Has (sg.V[i]).Id = true
    · simp [hh, ih hr]
    · simp [hh, ih hr]

theorem buildFrom_spec (ids : List Int) :
    ∀ (j : Nat) (set : MapSet), (keysOf set.entries).Sorted (· < ·) →
      (keysOf (buildFrom j ids set).entries).Sorted (· < ·) ∧
      ∀ e : Int × Nat, e ∈ (buildFrom j ids set).entries ↔
        e ∈ set.entries ∨
          (e.1 ∉ keysOf set.entries ∧ e.1 ∈ ids ∧ e.2 = j + ids.indexOf e.1) := by
  induction ids with
  | nil =>
    intro j set hs
    refine ⟨hs, ?_⟩
    intro e
    simp [buildFrom]
  | cons id rest ih =>
    intro j set hs
    unfold buildFrom
    by_cases hh : set.Has id = true
    · have hid : id ∈ keysOf set.entries := (has_iff_mem_keys set id).1 hh
      simp only [hh, Bool.not_true, Bool.false_eq_true, if_false]
      obtain ⟨ih1, ih2⟩ := ih (j + 1) set hs
      refine ⟨ih1, ?_⟩
      intro e
      rw [ih2 e]
      constructor
      · rintro (h | ⟨h1, h2, h3⟩)
        · exact Or.inl h
        · right
          have hne : id ≠ e.1 := by
            intro hc; apply h1; rw [← hc]; exact hid
          refine ⟨h1, List.mem_cons_of_mem _ h2, ?_⟩
          rw [List.indexOf_cons_ne _ hne, h3]; omega
      · rintro (h | ⟨h1, h2, h3⟩)
        · exact Or.inl h
        · right
          have hne : id ≠ e.1 := by
            intro hc; apply h1; rw [← hc]; exact hid
          have h2' : e.1 ∈ rest := by
            rcases List.mem_cons.1 h2 with h | h
            · exact absurd h.symm hne
            · exact h
          refine ⟨h1, h2', ?_⟩
          rw [List.indexOf_cons_ne _ hne] at h3; omega
    · have hid : id ∉ keysOf set.entries := fun hc => hh ((has_iff_mem_keys set id).2 hc)
      simp only [hh, Bool.not_false, if_true]
      obtain ⟨hp1, hp2⟩ := keys_insertEntry_sorted id j set.entries hs
      have hmem := mem_insertEntry_of_not_mem id j set.entries hid
      obtain ⟨ih1, ih2⟩ := ih (j + 1) (set.Put id j) hp1
      refine ⟨ih1, ?_⟩
      intro e
      rw [ih2 e]
      show (e ∈ MapSet.insertEntry id j set.entries ∨
          (e.1 ∉ keysOf (MapSet.insertEntry id j set.entries) ∧ e.1 ∈ rest ∧
            e.2 = j + 1 + rest.indexOf e.1)) ↔ _
      rw [hmem e, hp2 e.1]
      by_cases he : id = e.1
      · have hix : (id :: rest).indexOf e.1 = 0 := by rw [he]; exact List.indexOf_cons_self _ _
        rw [hix]
        constructor
        · rintro ((h | h) | ⟨h1, _, _⟩)
          · right
            rw [h]
            refine ⟨hid, List.mem_cons_self _ _, ?_⟩
            simp
          · exact Or.inl h
          · exact absurd (Or.inl he.symm) h1
        · rintro (h | ⟨h1, _, h3⟩)
          · exact Or.inl (Or.inr h)
          · left; left
            apply Prod.ext
            · exact he.symm
            · simpa using h3
      · rw [List.indexOf_cons_ne _ he]
        constructor
        · rintro ((h | h) | ⟨h1, h2, h3⟩)
          · exact absurd (by rw [h]) he
          · exact Or.inl h
          · right
            refine ⟨fun hc => h1 (Or.inr hc), List.mem_cons_of_mem _ h2, ?_⟩
            omega
        · rintro (h | ⟨h1, h2, h3⟩)
          · exact Or.inl (Or.inr h)
          · right
            have h2' : e.1 ∈ rest := by
              rcases List.mem_cons.1 h2 with h | h
              · exact absurd h.symm he
              · exact h
            refine ⟨?_, h2', ?_⟩
            · rintro (hc | hc)
              · exact he hc.symm
              · exact h1 hc
            · omega

/-! ## Lemmas on `min` -/

theorem minLoop_range (f : Int → Nat) (g : Nat → Nat) (n : Nat)
    (hfg : ∀ i, i < n → f (Int.ofNat i) = g i) :
    ∀ (k s : Nat) (acc : Int × Nat), s + k ≤ n → MinAt g s acc →
      MinAt g (s + k) (minLoop f ((List.range' s k).map Int.ofNat) acc) := by
  intro k
  induction k with
  | zero => intro s acc _ h; simpa [minLoop] using h
  | succ k ih =>
    intro s acc hle h
    rw [List.range'_succ, List.map_cons]
    unfold minLoop
    have hfs : f (Int.ofNat s) = g s := hfg s (by omega)
    have hstep : s + 1 + k = s + (k + 1) := by omega
    simp only [hfs]
    by_cases hc : g s < acc.2 ∨ acc.1 < 0
    · rw [if_pos hc, ← hstep]
      apply ih (s + 1) _ (by omega)
      right
      refine ⟨s, by omega, rfl, rfl, ?_, ?_⟩
      · intro i hi
        rcases h with ⟨_, h0⟩ | ⟨a, ha, h1, h2, h3, _⟩
        · have : i = s := by omega
          rw [this]
        · rcases hc with hc | hc
          · rcases Nat.lt_or_ge i s with hlt | hge
            · have := h3 i hlt
              omega
            · have : i = s := by omega
              rw [this]
          · rw [h1] at hc; omega
      · intro i hi
        rcases h with ⟨_, h0⟩ | ⟨a, ha, h1, h2, h3, _⟩
        · omega
        · rcases hc with hc | hc
          · have := h3 i hi
            omega
          · rw [h1] at hc; omega
    · rw [if_neg hc, ← hstep]
      apply ih (s + 1) _ (by omega)
      have hc1 : ¬ g s < acc.2 := fun x => hc (Or.inl x)
      have hc2 : ¬ acc.1 < 0 := fun x => hc (Or.inr x)
      rcases h with ⟨h0, _⟩ | ⟨a, ha, h1, h2, h3, h4⟩
      · rw [h0] at hc2; omega
      · right
        refine ⟨a, by omega, h1, h2, ?_, h4⟩
        intro i hi
        rcases Nat.lt_or_ge i s with hlt | hge
        · exact h3 i hlt
        · have : i = s := by omega
          rw [this]; omega

theorem min_srange (f : Int → Nat) (g : Nat → Nat) (n : Nat) (hn : 1 ≤ n)
    (hfg : ∀ i, i < n → f (Int.ofNat i) = g i) :
    ∃ a, a < n ∧ (min (srange n) f).1 = (a : Int) ∧ (min (srange n) f).2 = g a ∧
      (∀ i, i < n → g a ≤ g i) ∧ ∀ i, i < a → g a < g i := by
  have h := minLoop_range f g n hfg n 0 (-1, 0) (by omega) (Or.inl ⟨rfl, rfl⟩)
  rw [Nat.zero_add] at h
  unfold min srange
  rw [List.range_eq_range']
  rcases h with ⟨_, h0⟩ | h
  · omega
  · exact h

/-! ## Lemmas on `mapM` in `Option` and on first occurrences -/

theorem getElem?_some_of_lt {α : Type} (l : List α) (j : Nat) (h : j < l.length) :
    ∃ y, l[j]? = some y :=
  ⟨l[j], List.getElem?_eq_getElem h⟩

theorem mapM_some_of_forall {α β : Type} (f : α → Option β) (l : List α)
    (h : ∀ x ∈ l, ∃ y, f x = some y) :
    ∃ out, l.mapM f = some out ∧ List.Forall₂ (fun x y => f x = some y) l out := by
  induction l with
  | nil => exact ⟨[], rfl, List.Forall₂.nil⟩
  | cons x rest ih =>
    obtain ⟨y, hy⟩ := h x (List.mem_cons_self _ _)
    obtain ⟨out, ho, hf⟩ := ih (fun z hz => h z (List.mem_cons_of_mem _ hz))
    refine ⟨y :: out, ?_, List.Forall₂.cons hy hf⟩
    rw [List.mapM_cons, hy, ho]
    rfl

theorem mapM_eq_map {α β : Type} (f : α → Option β) (g : α → β) (l : List α)
    (h : ∀ x ∈ l, f x = some (g x)) : l.mapM f = some (l.map g) := by
  induction l with
  | nil => rfl
  | cons x rest ih =>
    rw [List.mapM_cons, h x (List.mem_cons_self _ _),
      ih (fun z hz => h z (List.mem_cons_of_mem _ hz))]
    rfl

theorem forall₂_exists_left {α β : Type} {R : α → β → Prop} {l : List α} {out : List β}
    (h : List.Forall₂ R l out) : ∀ y ∈ out, ∃ x, R x y := by
  induction h with
  | nil => intro y hy; simp at hy
  | cons hxy _ ih =>
    intro y hy
    rcases List.mem_cons.1 hy with h | h
    · exact ⟨_, h ▸ hxy⟩
    · exact ih y h

theorem indexOf_first (l : List Int) (x : Int) (hx : x ∈ l) :
    l[l.indexOf x]? = some x ∧ ∀ j, j < l.indexOf x → l[j]? ≠ some x := by
  induction l with
  | nil => simp at hx
  | cons y rest ih =>
    by_cases hy : y = x
    · rw [List.indexOf_cons_eq _ hy]
      refine ⟨by simp [hy], ?_⟩
      intro j hj; omega
    · rw [List.indexOf_cons_ne _ hy]
      have hx' : x ∈ rest := by
        rcases List.mem_cons.1 hx with h | h
        · exact absurd h.symm hy
        · exact h
      obtain ⟨h1, h2⟩ := ih hx'
      refine ⟨by simpa using h1, ?_⟩
      intro j hj
      cases j with
      | zero => simpa using hy
      | succ j =>
        have := h2 j (by omega)
        simpa using this

theorem indexOf_eq_of_first (l : List Int) (x : Int) (j : Nat) (h1 : l[j]? = some x)
    (h2 : ∀ j', j' < j → l[j']? ≠ some x) : l.indexOf x = j := by
  have hx : x ∈ l := List.getElem?_mem h1
  obtain ⟨h3, h4⟩ := indexOf_first l x hx
  rcases Nat.lt_trichotomy (l.indexOf x) j with h | h | h
  · exact absurd h3 (h2 _ h)
  · exact h
  · exact absurd h1 (h4 _ h)

/-! ## Lemmas on `MinimumImageSupport` -/

theorem sorted_keys_empty : (keysOf MapSet.empty.entries).Sorted (· < ·) := by
  simp [MapSet.empty, keysOf]

theorem mem_buildFrom_empty (ids : List Int) (e : Int × Nat) :
    e ∈ (buildFrom 0 ids MapSet.empty).entries ↔ e.1 ∈ ids ∧ e.2 = ids.indexOf e.1 := by
  rw [(buildFrom_spec ids 0 MapSet.empty sorted_keys_empty).2 e]
  simp [MapSet.empty, keysOf]

theorem keys_buildFrom_nodup (ids : List Int) :
    (keysOf (buildFrom 0 ids MapSet.empty).entries).Nodup :=
  ((buildFrom_spec ids 0 MapSet.empty sorted_keys_empty).1).nodup

theorem mem_keys_buildFrom (ids : List Int) (x : Int) :
    x ∈ keysOf (buildFrom 0 ids MapSet.empty).entries ↔ x ∈ ids := by
  unfold keysOf
  rw [List.mem_map]
  constructor
  · rintro ⟨e, he, rfl⟩
    exact ((mem_buildFrom_empty ids e).1 he).1
  · intro hx
    exact ⟨(x, ids.indexOf x), (mem_buildFrom_empty ids _).2 ⟨hx, rfl⟩, rfl⟩

theorem size_buildFrom (ids : List Int) :
    (buildFrom 0 ids MapSet.empty).Size = ids.dedup.length := by
  have hperm : (keysOf (buildFrom 0 ids MapSet.empty).entries).Perm ids.dedup := by
    rw [List.perm_ext_iff_of_nodup (keys_buildFrom_nodup ids) (List.nodup_dedup ids)]
    intro x
    rw [mem_keys_buildFrom, List.mem_dedup]
  have := hperm.length_eq
  unfold keysOf at this
  rw [List.length_map] at this
  exact this

theorem mem_values_buildFrom (ids : List Int) (j : Nat) :
    j ∈ (buildFrom 0 ids MapSet.empty).Values ↔
      ∃ x, ids[j]? = some x ∧ ∀ j', j' < j → ids[j']? ≠ some x := by
  unfold MapSet.Values
  rw [List.mem_map]
  constructor
  · rintro ⟨e, he, rfl⟩
    obtain ⟨h1, h2⟩ := (mem_buildFrom_empty ids e).1 he
    refine ⟨e.1, ?_, ?_⟩
    · rw [h2]; exact (indexOf_first ids e.1 h1).1
    · rw [h2]; exact (indexOf_first ids e.1 h1).2
  · rintro ⟨x, h1, h2⟩
    refine ⟨(x, j), ?_, rfl⟩
    rw [mem_buildFrom_empty]
    exact ⟨List.getElem?_mem h1, (indexOf_eq_of_first ids x j h1 h2).symm⟩

theorem values_buildFrom_nodup (ids : List Int) :
    (buildFrom 0 ids MapSet.empty).Values.Nodup := by
  unfold MapSet.Values
  have hnd : (buildFrom 0 ids MapSet.empty).entries.Nodup :=
    List.Nodup.of_map Prod.fst (keys_buildFrom_nodup ids)
  apply List.Nodup.map_on _ hnd
  intro e he e' he' heq
  obtain ⟨h1, h2⟩ := (mem_buildFrom_empty ids e).1 he
  obtain ⟨h1', h2'⟩ := (mem_buildFrom_empty ids e').1 he'
  have hk : e.1 = e'.1 := by
    apply (List.indexOf_inj h1 h1').1
    rw [← h2, ← h2', heq]
  exact Prod.ext hk heq

theorem length_slotIds (sgs : partition) (i : Nat) (h : ∀ sg ∈ sgs, i < sg.V.length) :
    (slotIds sgs i).length = sgs.length := by
  rw [slotIds_eq_map sgs i h, List.length_map]

theorem slotId_eq (sgs : partition) (i j : Nat) (h : ∀ sg ∈ sgs, i < sg.V.length) :
    slotId sgs i j = (slotIds sgs i)[j]? := by
  rw [slotIds_eq_map sgs i h, List.getElem?_map]
  unfold slotId
  cases hj : sgs[j]? with
  | none => rfl
  | some sg =>
    have hi : i < sg.V.length := h sg (List.getElem?_mem hj)
    simp [List.getElem?_eq_getElem hi]

theorem vertexSets_eq (sgs : partition) (n : Nat) (hne : sgs ≠ [])
    (hall : ∀ sg ∈ sgs, sg.V.length = n) :
    VertexSets sgs =
      some ((List.range n).map (fun i => buildFrom 0 (slotIds sgs i) MapSet.empty)) := by
  cases sgs with
  | nil => exact absurd rfl hne
  | cons sg0 rest =>
    show (List.range sg0.V.length).mapM
      (fun i => slotSetFrom i 0 (sg0 :: rest) MapSet.empty) = _
    rw [hall sg0 (List.mem_cons_self _ _)]
    apply mapM_eq_map
    intro i hi
    apply slotSetFrom_eq
    intro sg hsg
    rw [hall sg hsg]
    exact List.mem_range.1 hi

theorem mis_core (sgs : partition) (n : Nat) (h2 : 2 ≤ sgs.length) (hn : 1 ≤ n)
    (hall : ∀ sg ∈ sgs, sg.V.length = n) :
    ∃ a, a < n ∧ (∀ i, i < n → imageSize sgs a ≤ imageSize sgs i) ∧
      (∀ i, i < a → imageSize sgs a < imageSize sgs i) ∧
      MinimumImageSupport sgs =
        (buildFrom 0 (slotIds sgs a) MapSet.empty).Values.mapM (fun idx => sgs[idx]?) := by
  have hne : sgs ≠ [] := by
    intro h; rw [h] at h2; simp at h2
  have hvs := vertexSets_eq sgs n hne hall
  have hfg : ∀ i, i < n →
      (fun (i : Int) => ((((List.range n).map
        (fun i => buildFrom 0 (slotIds sgs i) MapSet.empty))[i.toNat]?).map MapSet.Size).getD 0)
        (Int.ofNat i) = imageSize sgs i := by
    intro i hi
    simp only [Int.ofNat_eq_coe, Int.toNat_ofNat, List.getElem?_map]
    rw [List.getElem?_range hi]
    simp only [Option.map_some', Option.getD_some]
    exact size_buildFrom _
  obtain ⟨a, ha, h1, _, h3, h4⟩ := min_srange (fun (i : Int) => ((((List.range n).map
        (fun i => buildFrom 0 (slotIds sgs i) MapSet.empty))[i.toNat]?).map MapSet.Size).getD 0)
        (imageSize sgs) n hn hfg
  refine ⟨a, ha, h3, h4, ?_⟩
  unfold MinimumImageSupport
  rw [if_neg (by omega), hvs]
  simp only [List.length_map, List.length_range]
  rw [h1]
  rw [if_neg (by omega)]
  simp only [Int.toNat_ofNat, List.getElem?_map]
  rw [List.getElem?_range ha]
  rfl

/-! ## C1, C2: minimum image support -/

theorem imageSize_singleton (sg : SubGraph) (i : Nat) (hi : i < sg.V.length) :
    imageSize [sg] i = 1 := by
  unfold imageSize slotIds
  simp [List.getElem?_eq_getElem hi]

theorem mis_values_lt (sgs : partition) (a : Nat) (h : ∀ sg ∈ sgs, a < sg.V.length) :
    ∀ j ∈ (buildFrom 0 (slotIds sgs a) MapSet.empty).Values, j < sgs.length := by
  intro j hj
  obtain ⟨x, hx, _⟩ := (mem_values_buildFrom _ j).1 hj
  have hlt : j < (slotIds sgs a).length := by
    by_contra hc
    rw [List.getElem?_eq_none (by omega)] at hx
    exact Option.noConfusion hx
  rw [length_slotIds sgs a h] at hlt
  exact hlt

/-- C1: for a partition of at least one embedding whose members all have the
same number `n ≥ 1` of vertex slots, `MinimumImageSupport` returns a partition
whose length is the minimum over the slots `i < n` of the number of distinct
vertex ids in slot `i`: the length is attained at some slot and is a lower
bound for every slot. -/
theorem minimumImageSupport_length (sgs : partition) (n : Nat) (hne : sgs ≠ [])
    (hn : 1 ≤ n) (hall : ∀ sg ∈ sgs, sg.V.length = n) :
    ∃ out, MinimumImageSupport sgs = some out ∧
      (∃ a, a < n ∧ out.length = imageSize sgs a) ∧
      ∀ i, i < n → out.length ≤ imageSize sgs i := by
  by_cases h2 : 2 ≤ sgs.length
  · obtain ⟨a, ha, h1, _, h4⟩ := mis_core sgs n h2 hn hall
    have hslot : ∀ sg ∈ sgs, a < sg.V.length := fun sg hsg => by rw [hall sg hsg]; exact ha
    obtain ⟨out, ho, hf⟩ := mapM_some_of_forall (fun idx => sgs[idx]?)
      (buildFrom 0 (slotIds sgs a) MapSet.empty).Values
      (fun j hj => getElem?_some_of_lt sgs j (mis_values_lt sgs a hslot j hj))
    have hlen : out.length = imageSize sgs a := by
      rw [← hf.length_eq]
      unfold MapSet.Values
      rw [List.length_map]
      exact size_buildFrom _
    refine ⟨out, h4.trans ho, ⟨a, ha, hlen⟩, ?_⟩
    intro i hi
    rw [hlen]
    exact h1 i hi
  · cases sgs with
    | nil => exact absurd rfl hne
    | cons sg rest =>
      cases rest with
      | cons sg' rest' => simp at h2
      | nil =>
        have hV : sg.V.length = n := hall sg (List.mem_cons_self _ _)
        refine ⟨[sg], by simp [MinimumImageSupport], ⟨0, by omega, ?_⟩, ?_⟩
        · rw [imageSize_singleton sg 0 (by omega)]; rfl
        · intro i hi
          rw [imageSize_singleton sg i (by omega)]; rfl

theorem minimumImageSupport_length_witness :
    exampleEmbeddings ≠ [] ∧ 1 ≤ 2 ∧ (∀ sg ∈ exampleEmbeddings, sg.V.length = 2) ∧
    ∃ out, MinimumImageSupport exampleEmbeddings = some out ∧
      (∃ a, a < 2 ∧ out.length = imageSize exampleEmbeddings a) ∧
      ∀ i, i < 2 → out.length ≤ imageSize exampleEmbeddings i :=
  ⟨by decide, by decide, by decide,
    minimumImageSupport_length exampleEmbeddings 2 (by decide) (by decide) (by decide)⟩

/-- C2: a partition of at most one embedding is returned unchanged. For a
partition of at least two embeddings that all have `n ≥ 1` vertex slots, let
`a` be the smallest slot whose number of distinct vertex ids is minimal: the
result is the list of the embeddings `sgs[j]` for the indices `j` of a
duplicate-free list `js`, and `j` is in `js` exactly when `j` is the first
index at which the id `sgs[j].V[a].Id` occurs in slot `a`; hence one embedding
per distinct id, all of them taken from `sgs`. -/
theorem minimumImageSupport_firstWitnesses (sgs : partition) (n : Nat) (hn : 1 ≤ n)
    (hall : ∀ sg ∈ sgs, sg.V.length = n) :
    (sgs.length ≤ 1 → MinimumImageSupport sgs = some sgs) ∧
    (2 ≤ sgs.length → ∀ a, a < n →
      (∀ i, i < n → imageSize sgs a ≤ imageSize sgs i) →
      (∀ i, i < a → imageSize sgs a < imageSize sgs i) →
      ∃ js out, MinimumImageSupport sgs = some out ∧
        List.Forall₂ (fun j sg => sgs[j]? = some sg) js out ∧
        js.Nodup ∧
        (∀ j, j ∈ js ↔
          ∃ id, slotId sgs a j = some id ∧ ∀ j', j' < j → slotId sgs a j' ≠ some id) ∧
        out.length = imageSize sgs a ∧
        ∀ sg ∈ out, sg ∈ sgs) := by
  refine ⟨fun h => by simp [MinimumImageSupport, h], ?_⟩
  intro h2 a ha hmin hfirst
  obtain ⟨a', ha', h1, h3, h4⟩ := mis_core sgs n h2 hn hall
  have haa : a' = a := by
    rcases Nat.lt_trichotomy a' a with h | h | h
    · have := hfirst a' h
      have := h1 a ha
      omega
    · exact h
    · have := h3 a h
      have := hmin a' ha'
      omega
  subst haa
  have hslot : ∀ sg ∈ sgs, a' < sg.V.length := fun sg hsg => by rw [hall sg hsg]; exact ha
  obtain ⟨out, ho, hf⟩ := mapM_some_of_forall (fun idx => sgs[idx]?)
    (buildFrom 0 (slotIds sgs a') MapSet.empty).Values
    (fun j hj => getElem?_some_of_lt sgs j (mis_values_lt sgs a' hslot j hj))
  refine ⟨_, out, h4.trans ho, hf, values_buildFrom_nodup _, ?_, ?_, ?_⟩
  · intro j
    rw [mem_values_buildFrom]
    constructor
    · rintro ⟨x, hx1, hx2⟩
      refine ⟨x, by rw [slotId_eq sgs a' j hslot]; exact hx1, ?_⟩
      intro j' hj'
      rw [slotId_eq sgs a' j' hslot]
      exact hx2 j' hj'
    · rintro ⟨x, hx1, hx2⟩
      refine ⟨x, by rw [← slotId_eq sgs a' j hslot]; exact hx1, ?_⟩
      intro j' hj'
      rw [← slotId_eq sgs a' j' hslot]
      exact hx2 j' hj'
  · rw [← hf.length_eq]
    unfold MapSet.Values
    rw [List.length_map]
    exact size_buildFrom _
  · intro sg hsg
    obtain ⟨j, hj⟩ := forall₂_exists_left hf sg hsg
    exact List.getElem?_mem hj

theorem minimumImageSupport_firstWitnesses_witness :
    1 ≤ 2 ∧ (∀ sg ∈ exampleEmbeddings, sg.V.length = 2) ∧
    ((exampleEmbeddings.length ≤ 1 → MinimumImageSupport exampleEmbeddings = some exampleEmbeddings) ∧
    (2 ≤ exampleEmbeddings.length → ∀ a, a < 2 →
      (∀ i, i < 2 → imageSize exampleEmbeddings a ≤ imageSize exampleEmbeddings i) →
      (∀ i, i < a → imageSize exampleEmbeddings a < imageSize exampleEmbeddings i) →
      ∃ js out, MinimumImageSupport exampleEmbeddings = some out ∧
        List.Forall₂ (fun j sg => exampleEmbeddings[j]? = some sg) js out ∧
        js.Nodup ∧
        (∀ j, j ∈ js ↔
          ∃ id, slotId exampleEmbeddings a j = some id ∧
            ∀ j', j' < j → slotId exampleEmbeddings a j' ≠ some id) ∧
        out.length = imageSize exampleEmbeddings a ∧
        ∀ sg ∈ out, sg ∈ exampleEmbeddings)) :=
  ⟨by decide, by decide,
    minimumImageSupport_firstWitnesses exampleEmbeddings 2 (by decide) (by decide)⟩

/-! ## C3: the collector of a shard stores every serialized embedding once -/

theorem bpt_insertEntry_perm (k v : Bytes) (l : List (Bytes × Bytes)) :
    (BpTree.insertEntry k v l).Perm ((k, v) :: l) := by
  induction l with
  | nil => exact List.Perm.refl _
  | cons e rest ih =>
    unfold BpTree.insertEntry
    by_cases h : k ≤ e.1
    · rw [if_pos h]
    · rw [if_neg h]
      exact (List.Perm.cons e ih).trans (List.Perm.swap _ _ _)

theorem bpt_has_iff (t : BpTree) (k : Bytes) :
    t.Has k = true ↔ k ∈ t.entries.map Prod.fst := by
  unfold BpTree.Has
  simp only [List.any_eq_true, beq_iff_eq, List.mem_map]

theorem bpt_has_add (t : BpTree) (k v : Bytes) : (t.Add k v).Has k = true := by
  rw [bpt_has_iff]
  have h : (k, v) ∈ (t.Add k v).entries :=
    (bpt_insertEntry_perm k v t.entries).symm.subset (List.mem_cons_self _ _)
  exact List.mem_map.2 ⟨(k, v), h, rfl⟩

theorem fs2BpTree_add (lib : GraphLib) (t : Fs2BpTree) (k : Bytes) (sg : SubGraph) :
    t.Add lib k sg = some ⟨t.bpt.Add k (lib.Serialize sg)⟩ := by
  unfold Fs2BpTree.Add
  simp only [bpt_has_add, if_true]

theorem fs2UniqueIndex_add (lib : GraphLib) (u : Fs2UniqueIndex) (sg : SubGraph) :
    u.Add lib sg = some ⟨u.bpt.Add (lib.Serialize sg) []⟩ := by
  unfold Fs2UniqueIndex.Add
  simp only [bpt_has_add, if_true]

/-- One step of the shard collector: an embedding whose serialization is in the
index changes nothing, any other is added to the index and to the store. -/
theorem shardCollector_step (lib : GraphLib) (lg : labelGraph) (s : Shard) :
    (lib.Serialize lg.sg ∈ indexKeys s → shardCollector lib lg s = some s) ∧
    (lib.Serialize lg.sg ∉ indexKeys s →
      shardCollector lib lg s =
        some ⟨⟨s.tree.bpt.Add lg.label (lib.Serialize lg.sg)⟩,
          ⟨s.unique.bpt.Add (lib.Serialize lg.sg) []⟩⟩) := by
  unfold shardCollector CheckUnique TreeAdd indexKeys
  constructor
  · intro h
    have hh : s.unique.Has lib lg.sg = true := (bpt_has_iff _ _).2 h
    simp [hh]
  · intro h
    have hh : s.unique.Has lib lg.sg = false := by
      cases hc : s.unique.Has lib lg.sg with
      | false => rfl
      | true => exact absurd ((bpt_has_iff _ _).1 hc) h
    simp [hh, fs2UniqueIndex_add, fs2BpTree_add]

/-- The invariant of a shard: the stored values are pairwise distinct and are
the keys of the index. -/
theorem basicCollector_inv (lib : GraphLib) (input : List labelGraph) :
    ∀ s : Shard, (storedValues s).Nodup → (∀ v, v ∈ indexKeys s ↔ v ∈ storedValues s) →
      ∃ s', BasicCollector (shardCollector lib) input s = some s' ∧
        (storedValues s').Nodup ∧ (∀ v, v ∈ indexKeys s' ↔ v ∈ storedValues s') ∧
        ∀ v, v ∈ storedValues s' ↔
          v ∈ storedValues s ∨ ∃ lg ∈ input, lib.Serialize lg.sg = v := by
  induction input with
  | nil =>
    intro s h1 h2
    exact ⟨s, rfl, h1, h2, fun v => by simp⟩
  | cons lg rest ih =>
    intro s h1 h2
    by_cases hin : lib.Serialize lg.sg ∈ indexKeys s
    · obtain ⟨s', r1, r2, r3, r4⟩ := ih s h1 h2
      refine ⟨s', ?_, r2, r3, ?_⟩
      · unfold BasicCollector
        rw [(shardCollector_step lib lg s).1 hin]
        exact r1
      · intro v
        rw [r4 v]
        constructor
        · rintro (h | ⟨x, hx, hv⟩)
          · exact Or.inl h
          · exact Or.inr ⟨x, List.mem_cons_of_mem _ hx, hv⟩
        · rintro (h | ⟨x, hx, hv⟩)
          · exact Or.inl h
          · rcases List.mem_cons.1 hx with hx | hx
            · left
              rw [← hv, hx]
              exact (h2 _).1 hin
            · exact Or.inr ⟨x, hx, hv⟩
    · have hstep := (shardCollector_step lib lg s).2 hin
      have hpv : (storedValues ⟨⟨s.tree.bpt.Add lg.label (lib.Serialize lg.sg)⟩,
          ⟨s.unique.bpt.Add (lib.Serialize lg.sg) []⟩⟩).Perm
          (lib.Serialize lg.sg :: storedValues s) :=
        (bpt_insertEntry_perm lg.label (lib.Serialize lg.sg) s.tree.bpt.entries).map Prod.snd
      have hpk : (indexKeys ⟨⟨s.tree.bpt.Add lg.label (lib.Serialize lg.sg)⟩,
          ⟨s.unique.bpt.Add (lib.Serialize lg.sg) []⟩⟩).Perm
          (lib.Serialize lg.sg :: indexKeys s) :=
        (bpt_insertEntry_perm (lib.Serialize lg.sg) [] s.unique.bpt.entries).map Prod.fst
      have hnin : lib.Serialize lg.sg ∉ storedValues s := fun hc => hin ((h2 _).2 hc)
      obtain ⟨s', r1, r2, r3, r4⟩ := ih _
        (hpv.nodup_iff.2 (List.nodup_cons.2 ⟨hnin, h1⟩))
        (fun v => by
          rw [hpk.mem_iff, hpv.mem_iff, List.mem_cons, List.mem_cons, h2 v])
      refine ⟨s', ?_, r2, r3, ?_⟩
      · unfold BasicCollector
        rw [hstep]
        exact r1
      · intro v
        rw [r4 v, hpv.mem_iff, List.mem_cons]
        constructor
        · rintro ((h | h) | ⟨x, hx, hv⟩)
          · exact Or.inr ⟨lg, List.mem_cons_self _ _, h.symm⟩
          · exact Or.inl h
          · exact Or.inr ⟨x, List.mem_cons_of_mem _ hx, hv⟩
        · rintro (h | ⟨x, hx, hv⟩)
          · exact Or.inl (Or.inr h)
          · rcases List.mem_cons.1 hx with hx | hx
            · left; left
              rw [← hv, hx]
            · exact Or.inr ⟨x, hx, hv⟩

/-- C3: the collector `CheckUnique(unique, TreeAdd(tree))` of one shard, run
from an empty store and an empty uniqueness index on any sequence of
(label, embedding) pairs, ends in a state whose store holds pairwise distinct
serialized embeddings, exactly one for each distinct serialized embedding of
the sequence; the keys of the index are the stored values, and consuming an
embedding whose serialization is stored leaves the store and the index as they
are. As the sequence is arbitrary this holds after every prefix. -/
theorem shardCollector_unique (lib : GraphLib) (input : List labelGraph) :
    ∃ s, BasicCollector (CheckUnique lib (TreeAdd lib)) input Shard.empty = some s ∧
      (storedValues s).Nodup ∧
      (storedValues s).Perm ((input.map (fun lg => lib.Serialize lg.sg)).dedup) ∧
      s.tree.Size = ((input.map (fun lg => lib.Serialize lg.sg)).dedup).length ∧
      (∀ v, v ∈ indexKeys s ↔ v ∈ storedValues s) ∧
      ∀ lg : labelGraph, lib.Serialize lg.sg ∈ storedValues s →
        CheckUnique lib (TreeAdd lib) lg s = some s := by
  obtain ⟨s, r1, r2, r3, r4⟩ := basicCollector_inv lib input Shard.empty
    (by simp [storedValues, Shard.empty, Fs2BpTree.empty, BpTree.empty])
    (by simp [storedValues, indexKeys, Shard.empty, Fs2BpTree.empty, Fs2UniqueIndex.empty,
      BpTree.empty])
  have hperm : (storedValues s).Perm ((input.map (fun lg => lib.Serialize lg.sg)).dedup) := by
    rw [List.perm_ext_iff_of_nodup r2 (List.nodup_dedup _)]
    intro v
    rw [r4 v, List.mem_dedup, List.mem_map]
    simp [storedValues, Shard.empty, Fs2BpTree.empty, BpTree.empty]
  refine ⟨s, r1, r2, hperm, ?_, r3, ?_⟩
  · have := hperm.length_eq
    unfold storedValues at this
    rw [List.length_map] at this
    exact this
  · intro lg hlg
    exact (shardCollector_step lib lg s).1 ((r3 _).2 hlg)

/-! ## C4: the merge of the key streams of the shards -/

theorem getMinLoop_range (peek : List (Option Bytes)) :
    ∀ (k s : Nat) (acc : Option Nat), GetMinAt peek s acc →
      GetMinAt peek (s + k) (getMinLoop peek (List.range' s k) acc) := by
  intro k
  induction k with
  | zero => intro s acc h; simpa [getMinLoop] using h
  | succ k ih =>
    intro s acc h
    rw [List.range'_succ]
    have hstep : s + 1 + k = s + (k + 1) := by omega
    unfold getMinLoop
    cases hp : peek.getD s none with
    | none =>
      simp only [Option.isNone_none, if_true]
      rw [← hstep]
      apply ih
      cases acc with
      | none =>
        intro i hi
        rcases Nat.lt_or_ge i s with hlt | hge
        · exact h i hlt
        · have : i = s := by omega
          rw [this]; exact hp
      | some m =>
        obtain ⟨hm, p, hpm, hall⟩ := h
        refine ⟨by omega, p, hpm, ?_⟩
        intro i hi q hq
        rcases Nat.lt_or_ge i s with hlt | hge
        · exact hall i hlt q hq
        · have : i = s := by omega
          rw [this, hp] at hq
          exact Option.noConfusion hq
    | some q0 =>
      simp only [Option.isNone_some, Bool.false_eq_true, if_false]
      cases acc with
      | none =>
        simp only []
        rw [← hstep]
        apply ih
        refine ⟨by omega, q0, hp, ?_⟩
        intro i hi q hq
        rcases Nat.lt_or_ge i s with hlt | hge
        · rw [h i hlt] at hq
          exact Option.noConfusion hq
        · have : i = s := by omega
          rw [this, hp] at hq
          exact le_of_eq (Option.some.inj hq)
      | some m =>
        obtain ⟨hm, p, hpm, hall⟩ := h
        simp only []
        by_cases hc : bytesCompareLE (some q0) (peek.getD m none) = true
        · rw [if_pos hc, ← hstep]
          apply ih
          have hle : q0 ≤ p := by
            rw [hpm] at hc
            simpa [bytesCompareLE] using hc
          refine ⟨by omega, q0, hp, ?_⟩
          intro i hi q hq
          rcases Nat.lt_or_ge i s with hlt | hge
          · exact le_trans hle (hall i hlt q hq)
          · have : i = s := by omega
            rw [this, hp] at hq
            exact le_of_eq (Option.some.inj hq)
        · rw [if_neg hc, ← hstep]
          apply ih
          have hle : p ≤ q0 := by
            rw [hpm] at hc
            have : ¬ q0 ≤ p := by simpa [bytesCompareLE] using hc
            exact le_of_lt (lt_of_not_le this)
          refine ⟨by omega, p, hpm, ?_⟩
          intro i hi q hq
          rcases Nat.lt_or_ge i s with hlt | hge
          · exact hall i hlt q hq
          · have : i = s := by omega
            rw [this, hp] at hq
            rw [← Option.some.inj hq]
            exact hle

theorem getMin_at (peek : List (Option Bytes)) :
    GetMinAt peek peek.length (getMin peek) := by
  have h := getMinLoop_range peek peek.length 0 none (fun i hi => by omega)
  rw [Nat.zero_add] at h
  unfold getMin
  rw [List.range_eq_range']
  exact h

theorem getD_map_nextKey_fst (S : List (List Bytes)) (i : Nat) :
    (S.map (fun s => (nextKey s).1)).getD i none = (nextKey (S.getD i [])).1 := by
  rw [List.getD_eq_getElem?_getD, List.getD_eq_getElem?_getD, List.getElem?_map]
  cases S[i]? with
  | none => rfl
  | some s => rfl

theorem getD_map_nextKey_snd (S : List (List Bytes)) (i : Nat) :
    (S.map (fun s => (nextKey s).2)).getD i none = (nextKey (S.getD i [])).2 := by
  rw [List.getD_eq_getElem?_getD, List.getD_eq_getElem?_getD, List.getElem?_map]
  cases S[i]? with
  | none => rfl
  | some s => rfl

theorem nextKey_fst_eq_some (s : List Bytes) (q : Bytes) :
    (nextKey s).1 = some q ↔ ∃ rest, s = q :: rest := by
  cases s with
  | nil => simp [nextKey]
  | cons k rest => simp [nextKey]

theorem mem_getD_of_ne_nil (S : List (List Bytes)) (i : Nat) (x : Bytes)
    (hx : x ∈ S.getD i []) : S.getD i [] ∈ S := by
  rw [List.getD_eq_getElem?_getD] at hx ⊢
  cases h : S[i]? with
  | none => rw [h] at hx; simp at hx
  | some s => simp only [Option.getD_some]; exact List.getElem?_mem h

/-- What `getMin` returns on the state of streams that are each ascending:
`none` when all streams are exhausted, otherwise the index of a stream whose
head is a least key of all streams. -/
theorem getMin_streams (S : List (List Bytes)) (hs : ∀ s ∈ S, s.Sorted (· ≤ ·)) :
    (getMin (S.map (fun s => (nextKey s).1)) = none ∧ ∀ s ∈ S, s = []) ∨
    ∃ m k rest, getMin (S.map (fun s => (nextKey s).1)) = some m ∧ m < S.length ∧
      S.getD m [] = k :: rest ∧ ∀ s ∈ S, ∀ x ∈ s, k ≤ x := by
  have h := getMin_at (S.map (fun s => (nextKey s).1))
  rw [List.length_map] at h
  cases hg : getMin (S.map (fun s => (nextKey s).1)) with
  | none =>
    left
    refine ⟨rfl, ?_⟩
    rw [hg] at h
    intro s hsS
    obtain ⟨i, hi, hget⟩ := List.getElem_of_mem hsS
    have h1 := h i hi
    rw [getD_map_nextKey_fst, List.getD_eq_getElem?_getD, List.getElem?_eq_getElem hi] at h1
    simp only [Option.getD_some, hget] at h1
    cases s with
    | nil => rfl
    | cons k rest => simp [nextKey] at h1
  | some m =>
    right
    rw [hg] at h
    obtain ⟨hm, p, hpm, hall⟩ := h
    rw [getD_map_nextKey_fst] at hpm
    obtain ⟨rest, hrest⟩ := (nextKey_fst_eq_some _ _).1 hpm
    refine ⟨m, p, rest, rfl, hm, hrest, ?_⟩
    intro s hsS x hx
    obtain ⟨i, hi, hget⟩ := List.getElem_of_mem hsS
    cases s with
    | nil => simp at hx
    | cons q srest =>
      have hq : (S.map (fun s => (nextKey s).1)).getD i none = some q := by
        rw [getD_map_nextKey_fst, List.getD_eq_getElem?_getD, List.getElem?_eq_getElem hi]
        simp only [Option.getD_some, hget]
        rfl
      have hpq := hall i hi q hq
      rcases List.mem_cons.1 hx with hx | hx
      · rw [hx]; exact hpq
      · have hsorted := hs _ hsS
        rw [List.sorted_cons] at hsorted
        exact le_trans hpq (hsorted.1 x hx)

theorem map_set_eq {α β : Type} (f : α → β) (S : List α) (m : Nat) (a : α) :
    (S.map f).set m (f a) = (S.set m a).map f := by
  induction S generalizing m with
  | nil => rfl
  | cons s rest ih =>
    cases m with
    | zero => rfl
    | succ m =>
      show f s :: (List.map f rest).set m (f a) = f s :: (rest.set m a).map f
      rw [ih]

theorem totalKeys_set (S : List (List Bytes)) (m : Nat) (k : Bytes) (rest : List Bytes)
    (hm : m < S.length) (hget : S.getD m [] = k :: rest) :
    totalKeys (S.set m rest) + 1 = totalKeys S := by
  induction S generalizing m with
  | nil => simp at hm
  | cons s tail ih =>
    cases m with
    | zero =>
      simp only [List.getD_cons_zero] at hget
      simp [totalKeys, hget]
      omega
    | succ m =>
      simp only [List.getD_cons_succ] at hget
      have := ih m (by simpa using hm) hget
      simp only [totalKeys, List.set_cons_succ, List.map_cons, List.sum_cons] at this ⊢
      omega

theorem mem_streams_set (S : List (List Bytes)) (m : Nat) (k : Bytes) (rest : List Bytes)
    (hm : m < S.length) (hget : S.getD m [] = k :: rest) (x : Bytes) :
    (∃ s ∈ S, x ∈ s) ↔ x = k ∨ ∃ s ∈ S.set m rest, x ∈ s := by
  induction S generalizing m with
  | nil => simp at hm
  | cons s tail ih =>
    cases m with
    | zero =>
      simp only [List.getD_cons_zero] at hget
      subst hget
      simp only [List.set_cons_zero, List.mem_cons, exists_eq_or_imp]
      tauto
    | succ m =>
      simp only [List.getD_cons_succ] at hget
      have := ih m (by simpa using hm) hget
      simp only [List.set_cons_succ, List.mem_cons, exists_eq_or_imp]
      rw [this]
      tauto

theorem sorted_streams_set (S : List (List Bytes)) (m : Nat) (k : Bytes) (rest : List Bytes)
    (hget : S.getD m [] = k :: rest) (hs : ∀ s ∈ S, s.Sorted (· ≤ ·)) :
    ∀ s ∈ S.set m rest, s.Sorted (· ≤ ·) := by
  intro s hsm
  rcases List.mem_or_eq_of_mem_set hsm with h | h
  · exact hs s h
  · have hin : S.getD m [] ∈ S := mem_getD_of_ne_nil S m k (by rw [hget]; exact List.mem_cons_self _ _)
    have := hs _ hin
    rw [hget, List.sorted_cons] at this
    rw [h]; exact this.2

theorem keysStateOf_step (S : List (List Bytes)) (last : Option Bytes) (m : Nat) (k : Bytes)
    (rest : List Bytes) (hget : S.getD m [] = k :: rest) :
    (keysStateOf S last).its.getD m none = some rest ∧
    (keysStateOf S last).peek.getD m none = some k ∧
    ({ keysStateOf S last with
        peek := (keysStateOf S last).peek.set m (nextKey rest).1,
        its := (keysStateOf S last).its.set m (nextKey rest).2 } : keysState) =
      keysStateOf (S.set m rest) last := by
  refine ⟨?_, ?_, ?_⟩
  · show (S.map (fun s => (nextKey s).2)).getD m none = some rest
    rw [getD_map_nextKey_snd, hget]; rfl
  · show (S.map (fun s => (nextKey s).1)).getD m none = some k
    rw [getD_map_nextKey_fst, hget]; rfl
  · unfold keysStateOf
    simp only
    rw [map_set_eq (fun s => (nextKey s).1) S m rest, map_set_eq (fun s => (nextKey s).2) S m rest]

/-- One call of `kit` on ascending streams: it returns `nil` when every key
left equals `last`, and otherwise a key `k` that differs from `last`, with the
streams `S'` left after it; no key of `S'` is below `k`, and the keys dropped
on the way equal `last`. -/
theorem kitLoop_spec :
    ∀ (fuel : Nat) (S : List (List Bytes)) (last item : Option Bytes),
      (∀ s ∈ S, s.Sorted (· ≤ ·)) → bytesEqual item last = true → totalKeys S < fuel →
      ((∃ st', kitLoop fuel (keysStateOf S last) item = .ok (none, st')) ∧
          ∀ s ∈ S, ∀ x ∈ s, bytesEqual (some x) last = true) ∨
      ∃ k S', kitLoop fuel (keysStateOf S last) item = .ok (some k, keysStateOf S' (some k)) ∧
        bytesEqual (some k) last = false ∧ totalKeys S' < totalKeys S ∧
        (∀ s ∈ S', s.Sorted (· ≤ ·)) ∧ (∀ s ∈ S', ∀ x ∈ s, k ≤ x) ∧
        (∃ s ∈ S, k ∈ s) ∧ (∀ x, (∃ s ∈ S', x ∈ s) → ∃ s ∈ S, x ∈ s) ∧
        ∀ x, (∃ s ∈ S, x ∈ s) → x = k ∨ (∃ s ∈ S', x ∈ s) ∨ bytesEqual (some x) last = true := by
  intro fuel
  induction fuel with
  | zero => intro S last item _ _ h; omega
  | succ fuel ih =>
    intro S last item hs heq hfuel
    unfold kitLoop
    have heq' : bytesEqual item (keysStateOf S last).last = true := heq
    rw [if_pos heq']
    rcases getMin_streams S hs with ⟨hg, hempty⟩ | ⟨m, k, rest, hg, hm, hget, hmin⟩
    · left
      have hg' : getMin (keysStateOf S last).peek = none := hg
      rw [hg']
      refine ⟨⟨_, rfl⟩, ?_⟩
      intro s hsS x hx
      rw [hempty s hsS] at hx
      simp at hx
    · have hg' : getMin (keysStateOf S last).peek = some m := hg
      rw [hg']
      obtain ⟨h1, h2, h3⟩ := keysStateOf_step S last m k rest hget
      simp only [h1, h2, h3]
      have htot := totalKeys_set S m k rest hm hget
      have hs1 := sorted_streams_set S m k rest hget hs
      have hmem := mem_streams_set S m k rest hm hget
      by_cases hk : bytesEqual (some k) last = true
      · rcases ih (S.set m rest) last (some k) hs1 hk (by omega) with
          ⟨hres, hall⟩ | ⟨k', S', hres, hne, hlt, hs', hge, hin, hsub, hcov⟩
        · left
          refine ⟨hres, ?_⟩
          intro s hsS x hx
          rcases (hmem x).1 ⟨s, hsS, hx⟩ with h | ⟨s', hs'S, hx'⟩
          · rw [h]; exact hk
          · exact hall s' hs'S x hx'
        · right
          refine ⟨k', S', hres, hne, by omega, hs', hge, ?_, ?_, ?_⟩
          · exact (hmem k').2 (Or.inr hin)
          · intro x hx
            exact (hmem x).2 (Or.inr (hsub x hx))
          · intro x hx
            rcases (hmem x).1 hx with h | h
            · right; right; rw [h]; exact hk
            · exact hcov x h
      · right
        have hk' : bytesEqual (some k) last = false := by
          cases h : bytesEqual (some k) last with
          | false => rfl
          | true => exact absurd h hk
        refine ⟨k, S.set m rest, ?_, hk', by omega, hs1, ?_, ?_, ?_, ?_⟩
        · cases fuel with
          | zero => omega
          | succ f =>
            unfold kitLoop
            have : bytesEqual (some k) (keysStateOf (S.set m rest) last).last = false := hk'
            rw [this]
            rfl
        · intro s hsS x hx
          obtain ⟨s0, hs0, hx0⟩ := (hmem x).2 (Or.inr ⟨s, hsS, hx⟩)
          exact hmin s0 hs0 x hx0
        · exact (hmem k).2 (Or.inl rfl)
        · intro x hx
          exact (hmem x).2 (Or.inr hx)
        · intro x hx
          rcases (hmem x).1 hx with h | h
          · exact Or.inl h
          · exact Or.inr (Or.inl h)

theorem bytesEqual_self (a : Option Bytes) : bytesEqual a a = true := by
  simp [bytesEqual]

theorem bytesEqual_some_some (x l : Bytes) : bytesEqual (some x) (some l) = true ↔ x = l := by
  simp [bytesEqual]

theorem bytesEqual_some_none (x : Bytes) : bytesEqual (some x) none = true ↔ x = [] := by
  simp [bytesEqual]

/-- The keys that a consumer draws from the merge of ascending streams of
non-empty keys, all of them at least `last`: a strictly ascending list above
`last` of exactly the keys of the streams that differ from `last`. -/
theorem drainKeys_spec :
    ∀ (fuel : Nat) (S : List (List Bytes)) (last : Option Bytes),
      (∀ s ∈ S, s.Sorted (· ≤ ·)) → (∀ s ∈ S, ∀ x ∈ s, x ≠ []) →
      (∀ l, last = some l → l ≠ [] ∧ ∀ s ∈ S, ∀ x ∈ s, l ≤ x) →
      totalKeys S < fuel →
      ∃ out, drainKeys fuel (keysStateOf S last) = .ok out ∧ out.Sorted (· < ·) ∧
        (∀ x ∈ out, ∀ l, last = some l → l < x) ∧
        ∀ x, x ∈ out ↔ (∃ s ∈ S, x ∈ s) ∧ bytesEqual (some x) last = false := by
  intro fuel
  induction fuel with
  | zero => intro S last _ _ _ h; omega
  | succ fuel ih =>
    intro S last hs hne hlast hfuel
    rcases kitLoop_spec (fuel + 1) S last last hs (bytesEqual_self last) hfuel with
      ⟨⟨st', hres⟩, hall⟩ | ⟨k, S', hres, hk, hlt, hs', hge, hin, hsub, hcov⟩
    · refine ⟨[], ?_, List.sorted_nil, ?_, ?_⟩
      · have hkit : kit (fuel + 1) (keysStateOf S last) = .ok (none, st') := hres
        rw [drainKeys, hkit]
      · intro x hx; simp at hx
      · intro x
        constructor
        · intro hx; simp at hx
        · rintro ⟨⟨s, hsS, hxs⟩, hxe⟩
          rw [hall s hsS x hxs] at hxe
          exact Bool.noConfusion hxe
    · have hkne : k ≠ [] := by
        obtain ⟨s, hsS, hks⟩ := hin
        exact hne s hsS k hks
      have hne' : ∀ s ∈ S', ∀ x ∈ s, x ≠ [] := by
        intro s hsS x hx
        obtain ⟨s0, hs0, hx0⟩ := hsub x ⟨s, hsS, hx⟩
        exact hne s0 hs0 x hx0
      obtain ⟨out, hout, hsorted, habove, hmem⟩ := ih S' (some k) hs' hne'
        (fun l hl => by
          have : k = l := Option.some.inj hl
          subst this
          exact ⟨hkne, hge⟩) (by omega)
      have hlk : ∀ l, last = some l → l < k := by
        intro l hl
        obtain ⟨s, hsS, hks⟩ := hin
        have hle := (hlast l hl).2 s hsS k hks
        have hnek : k ≠ l := by
          intro hc
          rw [hl] at hk
          rw [(bytesEqual_some_some k l).2 hc] at hk
          exact Bool.noConfusion hk
        exact lt_of_le_of_ne hle (Ne.symm hnek)
      refine ⟨k :: out, ?_, ?_, ?_, ?_⟩
      · have hkit : kit (fuel + 1) (keysStateOf S last) = .ok (some k, keysStateOf S' (some k)) :=
          hres
        rw [drainKeys, hkit]
        simp only [hout]
      · rw [List.sorted_cons]
        exact ⟨fun x hx => habove x hx k rfl, hsorted⟩
      · intro x hx l hl
        rcases List.mem_cons.1 hx with h | h
        · rw [h]; exact hlk l hl
        · exact lt_trans (hlk l hl) (habove x h k rfl)
      · intro x
        constructor
        · intro hx
          rcases List.mem_cons.1 hx with h | h
          · rw [h]; exact ⟨hin, hk⟩
          · obtain ⟨hxS', _⟩ := (hmem x).1 h
            refine ⟨hsub x hxS', ?_⟩
            have hkx : k < x := habove x h k rfl
            cases hl : last with
            | none =>
              cases hb : bytesEqual (some x) none with
              | false => rfl
              | true =>
                obtain ⟨s, hsS, hxs⟩ := hsub x hxS'
                exact absurd ((bytesEqual_some_none x).1 hb) (hne s hsS x hxs)
            | some l =>
              cases hb : bytesEqual (some x) (some l) with
              | false => rfl
              | true =>
                have hxl : x = l := (bytesEqual_some_some x l).1 hb
                have := hlk l hl
                rw [← hxl] at this
                exact absurd (lt_trans this hkx) (lt_irrefl _)
        · rintro ⟨hxS, hxe⟩
          rcases hcov x hxS with h | h | h
          · rw [h]; exact List.mem_cons_self _ _
          · by_cases hxk : x = k
            · rw [hxk]; exact List.mem_cons_self _ _
            · apply List.mem_cons_of_mem
              rw [hmem x]
              refine ⟨h, ?_⟩
              cases hb : bytesEqual (some x) (some k) with
              | false => rfl
              | true => exact absurd ((bytesEqual_some_some x k).1 hb) hxk
          · rw [h] at hxe; exact Bool.noConfusion hxe

theorem keysFromTrees_eq (trees : List Fs2BpTree) :
    keysFromTrees trees = keysStateOf (trees.map Fs2BpTree.Keys) none := by
  unfold keysFromTrees keysStateOf
  simp only [List.map_map]
  rfl

/-- C4: for shard stores whose `Keys()` streams are ascending and hold only
non-empty keys, a consumer of the iterator returned by `keysFromTrees` (given
more steps than there are keys in all streams together) receives a finite list
of keys and then the end of the iteration; the list is strictly ascending, so
no key is repeated, and its keys are exactly the keys of the shards. -/
theorem keysFromTrees_sorted_distinct (trees : List Fs2BpTree)
    (hsorted : ∀ t ∈ trees, (t.Keys).Sorted (· ≤ ·))
    (hne : ∀ t ∈ trees, ∀ k ∈ t.Keys, k ≠ [])
    (fuel : Nat) (hfuel : totalKeys (trees.map Fs2BpTree.Keys) < fuel) :
    ∃ out, drainKeys fuel (keysFromTrees trees) = .ok out ∧ out.Sorted (· < ·) ∧ out.Nodup ∧
      ∀ k, k ∈ out ↔ ∃ t ∈ trees, k ∈ t.Keys := by
  have hs : ∀ s ∈ trees.map Fs2BpTree.Keys, s.Sorted (· ≤ ·) := by
    intro s hsS
    obtain ⟨t, ht, rfl⟩ := List.mem_map.1 hsS
    exact hsorted t ht
  have hn : ∀ s ∈ trees.map Fs2BpTree.Keys, ∀ x ∈ s, x ≠ [] := by
    intro s hsS
    obtain ⟨t, ht, rfl⟩ := List.mem_map.1 hsS
    exact hne t ht
  obtain ⟨out, hout, hso, _, hmem⟩ := drainKeys_spec fuel (trees.map Fs2BpTree.Keys) none hs hn
    (fun l hl => Option.noConfusion hl) hfuel
  refine ⟨out, by rw [keysFromTrees_eq]; exact hout, hso, hso.nodup, ?_⟩
  intro k
  rw [hmem k]
  constructor
  · rintro ⟨⟨s, hsS, hks⟩, _⟩
    obtain ⟨t, ht, rfl⟩ := List.mem_map.1 hsS
    exact ⟨t, ht, hks⟩
  · rintro ⟨t, ht, hkt⟩
    refine ⟨⟨t.Keys, List.mem_map.2 ⟨t, ht, rfl⟩, hkt⟩, ?_⟩
    cases hb : bytesEqual (some k) none with
    | false => rfl
    | true => exact absurd ((bytesEqual_some_none k).1 hb) (hne t ht k hkt)

theorem keysFromTrees_sorted_distinct_witness :
    (∀ t ∈ exampleTrees, (t.Keys).Sorted (· ≤ ·)) ∧
    (∀ t ∈ exampleTrees, ∀ k ∈ t.Keys, k ≠ []) ∧
    totalKeys (exampleTrees.map Fs2BpTree.Keys) < 10 ∧
    ∃ out, drainKeys 10 (keysFromTrees exampleTrees) = .ok out ∧ out.Sorted (· < ·) ∧
      out.Nodup ∧ ∀ k, k ∈ out ↔ ∃ t ∈ exampleTrees, k ∈ t.Keys :=
  ⟨by decide, by decide, by decide,
    keysFromTrees_sorted_distinct exampleTrees (by decide) (by decide) 10 (by decide)⟩

/-! ## The buffered iterator -/

theorem fillBuf_nil_iterator (n : Nat) (buf : List (Bytes × SubGraph)) :
    fillBuf n buf none = (buf, none) := by
  cases n <;> rfl

theorem fillBuf_spec (n : Nat) :
    ∀ (buf xs : List (Bytes × SubGraph)),
      fillBuf n buf (some xs) =
        if n ≤ xs.length then (buf ++ xs.take n, some (xs.drop n)) else (buf ++ xs, none) := by
  induction n with
  | zero => intro buf xs; simp [fillBuf]
  | succ n ih =>
    intro buf xs
    cases xs with
    | nil => simp [fillBuf, nextItem, fillBuf_nil_iterator]
    | cons x rest =>
      simp only [fillBuf, nextItem, ih, List.length_cons, Nat.add_le_add_iff_right,
        List.take_succ_cons, List.drop_succ_cons, List.append_assoc, List.singleton_append]

/-- The buffer and the items left after a call of `fillBuf` with an empty
buffer. -/
theorem fillBuf_empty (n : Nat) (xs : List (Bytes × SubGraph)) :
    (fillBuf n [] (some xs)).1 = xs.take n ∧ ((fillBuf n [] (some xs)).2).getD [] = xs.drop n := by
  rw [fillBuf_spec]
  by_cases h : n ≤ xs.length
  · simp [h]
  · simp only [h, if_false, List.nil_append, Option.getD_none]
    have hlt : xs.length ≤ n := by omega
    exact ⟨(List.take_of_length_le hlt).symm, (List.drop_of_length_le hlt).symm⟩

theorem chunksAux_nil {α : Type} (n fuel : Nat) : chunksAux n fuel ([] : List α) = [] := by
  cases fuel <;> rfl

theorem chunksAux_fuel {α : Type} (n : Nat) (hn : 1 ≤ n) :
    ∀ (fuel fuel' : Nat) (xs : List α), xs.length ≤ fuel → xs.length ≤ fuel' →
      chunksAux n fuel xs = chunksAux n fuel' xs := by
  intro fuel
  induction fuel with
  | zero =>
    intro fuel' xs h _
    have : xs = [] := List.length_eq_zero.1 (by omega)
    rw [this, chunksAux_nil, chunksAux_nil]
  | succ fuel ih =>
    intro fuel' xs h h'
    cases xs with
    | nil => rw [chunksAux_nil, chunksAux_nil]
    | cons x rest =>
      cases fuel' with
      | zero => simp at h'
      | succ f' =>
        simp only [chunksAux]
        have hd : ((x :: rest).drop n).length ≤ rest.length := by
          rw [List.length_drop, List.length_cons]; omega
        simp only [List.length_cons] at h h'
        rw [ih f' _ (by omega) (by omega)]

theorem chunks_nil {α : Type} (n : Nat) : chunks n ([] : List α) = [] := rfl

theorem chunks_cons {α : Type} (n : Nat) (hn : 1 ≤ n) (xs : List α) (hne : xs ≠ []) :
    chunks n xs = xs.take n :: chunks n (xs.drop n) := by
  cases xs with
  | nil => exact absurd rfl hne
  | cons x rest =>
    unfold chunks
    simp only [List.length_cons, chunksAux]
    have hd : ((x :: rest).drop n).length ≤ rest.length := by
      rw [List.length_drop, List.length_cons]; omega
    rw [chunksAux_fuel n hn rest.length ((x :: rest).drop n).length _ hd (le_refl _)]

theorem chunks_flatten {α : Type} (n : Nat) (hn : 1 ≤ n) :
    ∀ (k : Nat) (xs : List α), xs.length ≤ k → (chunks n xs).flatten = xs := by
  intro k
  induction k with
  | zero =>
    intro xs h
    have : xs = [] := List.length_eq_zero.1 (by omega)
    rw [this]; rfl
  | succ k ih =>
    intro xs h
    by_cases hne : xs = []
    · rw [hne]; rfl
    · rw [chunks_cons n hn xs hne, List.flatten_cons, ih (xs.drop n), List.take_append_drop]
      rw [List.length_drop]
      have : 0 < xs.length := List.length_pos.2 hne
      omega

theorem flatten_map_reverse_perm {α : Type} (L : List (List α)) :
    ((L.map List.reverse).flatten).Perm L.flatten := by
  induction L with
  | nil => exact List.Perm.refl _
  | cons l rest ih =>
    simp only [List.map_cons, List.flatten_cons]
    exact List.Perm.append (List.reverse_perm l) ih

theorem eq_nil_or_snoc {α : Type} (l : List α) :
    l = [] ∨ ∃ init last, l = init ++ [last] := by
  rcases List.eq_nil_or_concat l with h | ⟨init, last, h⟩
  · exact Or.inl h
  · exact Or.inr ⟨init, last, by rw [h, List.concat_eq_append]⟩

/-- One call of `bit` with a buffer size of at least one and two steps of
fuel: the last item of the buffer when there is one; the end when nothing is
left; otherwise the last of the next `bufSize` items, which become the
buffer. -/
theorem bit_spec (n : Nat) (hn : 1 ≤ n) (fuel : Nat) (buf : List (Bytes × SubGraph))
    (it : Iterator) :
    (∀ init last, buf = init ++ [last] →
      bit (fuel + 1) ⟨n, buf, it⟩ = .ok (some last, ⟨n, init, it⟩)) ∧
    (buf = [] → it.getD [] = [] → ∃ st', bit (fuel + 2) ⟨n, buf, it⟩ = .ok (none, st')) ∧
    (buf = [] → ∀ init last, (it.getD []).take n = init ++ [last] →
      ∃ it', it'.getD [] = (it.getD []).drop n ∧
        bit (fuel + 2) ⟨n, buf, it⟩ = .ok (some last, ⟨n, init, it'⟩)) := by
  refine ⟨?_, ?_, ?_⟩
  · intro init last h
    subst h
    simp [bit]
  · intro hb hit
    subst hb
    cases it with
    | none => exact ⟨⟨n, [], none⟩, by simp [bit]⟩
    | some xs =>
      have hxs : xs = [] := hit
      subst hxs
      have hf := fillBuf_spec n [] []
      have hn0 : ¬ n ≤ 0 := by omega
      simp only [List.length_nil, hn0, if_false, List.append_nil] at hf
      exact ⟨⟨n, [], none⟩, by simp [bit, hf]⟩
  · intro hb init last htake
    subst hb
    cases it with
    | none =>
      simp only [Option.getD_none, List.take_nil] at htake
      exact absurd htake (by simp)
    | some xs =>
      simp only [Option.getD_some] at htake ⊢
      obtain ⟨h1, h2⟩ := fillBuf_empty n xs
      refine ⟨(fillBuf n [] (some xs)).2, h2, ?_⟩
      have hstep : bit (fuel + 2) ⟨n, [], some xs⟩ =
          bit (fuel + 1) ⟨n, (fillBuf n [] (some xs)).1, (fillBuf n [] (some xs)).2⟩ := by
        simp [bit]
      rw [hstep, h1, htake]
      simp [bit]

/-- A consumer of a buffered iterator with a buffer size of at least one
receives the buffer from its end, and then the items left in chunks of
`bufSize`, every chunk from its end; the run takes at most two steps more than
there are items. -/
theorem drainBuffered_spec (n : Nat) (hn : 1 ≤ n) :
    ∀ (fuel : Nat) (buf : List (Bytes × SubGraph)) (it : Iterator),
      buf.length + (it.getD []).length + 2 ≤ fuel →
      drainBuffered fuel ⟨n, buf, it⟩ =
        .ok (buf.reverse ++ ((chunks n (it.getD [])).map List.reverse).flatten) := by
  intro fuel
  induction fuel with
  | zero => intro buf it h; omega
  | succ fuel ih =>
    intro buf it hfuel
    rcases eq_nil_or_snoc buf with hb | ⟨init, last, hb⟩
    · subst hb
      by_cases hxs : it.getD [] = []
      · obtain ⟨st', hst⟩ := (bit_spec n hn (fuel - 1) [] it).2.1 rfl hxs
        have hf : fuel - 1 + 2 = fuel + 1 := by omega
        rw [hf] at hst
        rw [drainBuffered, hst, hxs]
        rfl
      · have htne : (it.getD []).take n ≠ [] := by
          intro hc
          rcases List.take_eq_nil_iff.1 hc with h | h
          · omega
          · exact hxs h
        rcases eq_nil_or_snoc ((it.getD []).take n) with h | ⟨init, last, htake⟩
        · exact absurd h htne
        · obtain ⟨it', hit', hst⟩ := (bit_spec n hn (fuel - 1) [] it).2.2 rfl init last htake
          have hf : fuel - 1 + 2 = fuel + 1 := by omega
          rw [hf] at hst
          have hlen : init.length + 1 + (it'.getD []).length = (it.getD []).length := by
            have h1 : ((it.getD []).take n).length = init.length + 1 := by
              rw [htake, List.length_append]; rfl
            have h2 := List.length_drop n (it.getD [])
            rw [List.length_take] at h1
            rw [hit', h2]
            omega
          have hih := ih init it' (by simp only [List.length_nil] at hfuel; omega)
          rw [drainBuffered, hst]
          simp only [hih]
          rw [chunks_cons n hn _ hxs, htake, hit']
          simp
    · subst hb
      have hst := (bit_spec n hn fuel (init ++ [last]) it).1 init last rfl
      have hih := ih init it (by
        simp only [List.length_append, List.length_singleton] at hfuel; omega)
      rw [drainBuffered, hst]
      simp only [hih]
      simp

/-- The items received from `bufferedIterator(it, bufSize)` over an iterator
that yields `xs`, for a buffer size of at least one. -/
theorem bufferedIterator_items (n : Nat) (hn : 1 ≤ n) (xs : List (Bytes × SubGraph)) :
    (bufferedIterator (some xs) n).items = .ok (((chunks n xs).map List.reverse).flatten) := by
  unfold bufferedIter.items bufferedIterator
  obtain ⟨h1, h2⟩ := fillBuf_empty n xs
  simp only []
  rw [drainBuffered_spec n hn _ _ _ (le_refl _), h1, h2]
  by_cases hne : xs = []
  · subst hne; simp [chunks_nil]
  · rw [chunks_cons n hn xs hne]
    simp

/-! ## C6: the order of the items of `ParHashCollector.Find` -/

theorem found_eq (lib : GraphLib) (c : ParHashCollector) (key : Bytes) (idx : Nat)
    (t : Fs2BpTree) (hidx : c.shardIndex key = some idx) (ht : c.graphs[idx]? = some t) :
    c.found lib key = .ok (((chunks 10 (t.Find lib key)).map List.reverse).flatten) := by
  unfold ParHashCollector.found ParHashCollector.Find
  simp only [hidx, ht]
  exact bufferedIterator_items 10 (by omega) _

theorem parHashCollector_find_chunks (lib : GraphLib) (c : ParHashCollector)
    (key : Bytes) (idx : Nat) (t : Fs2BpTree) (hidx : c.shardIndex key = some idx)
    (ht : c.graphs[idx]? = some t) :
    c.found lib key = .ok (((chunks 10 (t.Find lib key)).map List.reverse).flatten) ∧
    (((chunks 10 (t.Find lib key)).map List.reverse).flatten).Perm (t.Find lib key) ∧
    (chunks 10 (t.Find lib key)).flatten = t.Find lib key := by
  have hfl := chunks_flatten 10 (by omega) _ (t.Find lib key) (le_refl _)
  refine ⟨found_eq lib c key idx t hidx ht, ?_, hfl⟩
  have := flatten_map_reverse_perm (chunks 10 (t.Find lib key))
  rw [hfl] at this
  exact this

/-- C6, refuted as stated: in a collector of one shard that has received two
embeddings with the same label, the store of the shard finds the embedding of
vertex 2, added last, before that of vertex 1, and `ParHashCollector.Find`
yields the embedding of vertex 1 first. -/
theorem parHashCollector_find_order_counterexample :
    runCollector exampleLib
        [CollectorEvent.send (vertexEmbedding 1), CollectorEvent.receive 0,
          CollectorEvent.send (vertexEmbedding 2), CollectorEvent.receive 0]
        (MakeParHashCollector 1) = some exampleCollector ∧
      exampleCollector.shardIndex [1] = some 0 ∧
      (exampleCollector.graphs[0]?).map (fun t => t.Find exampleLib [1]) =
        some [([1], vertexEmbedding 2), ([1], vertexEmbedding 1)] ∧
      exampleCollector.found exampleLib [1] =
        .ok [([1], vertexEmbedding 1), ([1], vertexEmbedding 2)] := by
  refine ⟨by decide, by decide, by decide, by rfl⟩

/-- C6, amended: for a label `key` owned by the shard `idx` with store `t`, a
consumer of `ParHashCollector.Find(key)` receives the items that the store
finds for the key, cut into consecutive chunks of 10, every chunk in reverse
order; the items received are a permutation of the items of the store, and
the chunks put together are the items of the store in its order. -/
theorem parHashCollector_find_reversed_chunks (lib : GraphLib) (c : ParHashCollector)
    (key : Bytes) (idx : Nat) (t : Fs2BpTree) (hidx : c.shardIndex key = some idx)
    (ht : c.graphs[idx]? = some t) :
    c.found lib key = .ok (((chunks 10 (t.Find lib key)).map List.reverse).flatten) ∧
    (((chunks 10 (t.Find lib key)).map List.reverse).flatten).Perm (t.Find lib key) ∧
    (chunks 10 (t.Find lib key)).flatten = t.Find lib key :=
  parHashCollector_find_chunks lib c key idx t hidx ht

theorem parHashCollector_find_reversed_chunks_witness :
    exampleCollector.shardIndex [1] = some 0 ∧
    exampleCollector.graphs[0]? = some ⟨⟨[([1], [2]), ([1], [1])]⟩⟩ ∧
    (exampleCollector.found exampleLib [1] =
      .ok (((chunks 10 (Fs2BpTree.Find exampleLib ⟨⟨[([1], [2]), ([1], [1])]⟩⟩ [1])).map
        List.reverse).flatten) ∧
    (((chunks 10 (Fs2BpTree.Find exampleLib ⟨⟨[([1], [2]), ([1], [1])]⟩⟩ [1])).map
        List.reverse).flatten).Perm
      (Fs2BpTree.Find exampleLib ⟨⟨[([1], [2]), ([1], [1])]⟩⟩ [1]) ∧
    (chunks 10 (Fs2BpTree.Find exampleLib ⟨⟨[([1], [2]), ([1], [1])]⟩⟩ [1])).flatten =
      Fs2BpTree.Find exampleLib ⟨⟨[([1], [2]), ([1], [1])]⟩⟩ [1]) :=
  ⟨by decide, by decide,
    parHashCollector_find_reversed_chunks exampleLib exampleCollector [1] 0
      ⟨⟨[([1], [2]), ([1], [1])]⟩⟩ (by decide) (by decide)⟩

/-! ## C5: routing of the `ParHashCollector` by the hash of the label -/

theorem shardOf_eq (N : Nat) (k : Bytes) : shardOf N k = fnv32a k % N := by
  unfold shardOf hash
  rw [← Int.ofNat_emod]
  exact Int.toNat_ofNat _

theorem shardIndex_eq (c : ParHashCollector) (N : Nat) (hN : 1 ≤ N) (hlen : c.chs.length = N)
    (k : Bytes) : c.shardIndex k = some (shardOf N k) ∧ shardOf N k < N := by
  have hlt : fnv32a k % N < N := Nat.mod_lt _ (by omega)
  refine ⟨?_, by rw [shardOf_eq]; exact hlt⟩
  unfold ParHashCollector.shardIndex
  rw [hlen, if_neg (by omega)]
  have htm : Int.tmod (hash k) (N : Int) = ((fnv32a k % N : Nat) : Int) := by
    unfold hash
    exact (Int.ofNat_tmod _ _).symm
  simp only [htm]
  rw [if_neg (by omega), Int.toNat_ofNat, shardOf_eq]

/-- What the collector of a shard does with an item, in terms of the entries
of the store and the keys of the index. -/
theorem shardCollector_effect (lib : GraphLib) (lg : labelGraph) (s : Shard) :
    ∃ s', shardCollector lib lg s = some s' ∧
      (∀ e, e ∈ s'.tree.bpt.entries ↔
        e ∈ s.tree.bpt.entries ∨
          (lib.Serialize lg.sg ∉ indexKeys s ∧ e = (lg.label, lib.Serialize lg.sg))) ∧
      (∀ k, k ∈ indexKeys s' → k ∈ indexKeys s ∨
        (lib.Serialize lg.sg ∉ indexKeys s ∧ k = lib.Serialize lg.sg)) := by
  by_cases hin : lib.Serialize lg.sg ∈ indexKeys s
  · refine ⟨s, (shardCollector_step lib lg s).1 hin, ?_, ?_⟩
    · intro e
      constructor
      · intro h; exact Or.inl h
      · rintro (h | ⟨h, _⟩)
        · exact h
        · exact absurd hin h
    · intro k hk; exact Or.inl hk
  · refine ⟨_, (shardCollector_step lib lg s).2 hin, ?_, ?_⟩
    · intro e
      show e ∈ BpTree.insertEntry lg.label (lib.Serialize lg.sg) s.tree.bpt.entries ↔ _
      rw [(bpt_insertEntry_perm _ _ _).mem_iff, List.mem_cons]
      constructor
      · rintro (h | h)
        · exact Or.inr ⟨hin, h⟩
        · exact Or.inl h
      · rintro (h | ⟨_, h⟩)
        · exact Or.inr h
        · exact Or.inl h
    · intro k hk
      have hk' : k ∈ (BpTree.insertEntry (lib.Serialize lg.sg) [] s.unique.bpt.entries).map
          Prod.fst := hk
      rw [((bpt_insertEntry_perm _ _ _).map Prod.fst).mem_iff, List.map_cons,
        List.mem_cons] at hk'
      rcases hk' with h | h
      · exact Or.inr ⟨hin, h⟩
      · exact Or.inl h

theorem collectorInv_init (lib : GraphLib) (N : Nat) (Sent : SubGraph → Prop) :
    CollectorInv lib N Sent (MakeParHashCollector N) := by
  unfold CollectorInv MakeParHashCollector
  refine ⟨by simp, by simp, by simp, ?_, ?_, ?_⟩
  · intro i ch lg hch hlg
    simp only [List.getElem?_replicate] at hch
    split at hch
    · rw [← Option.some.inj hch] at hlg; simp at hlg
    · exact Option.noConfusion hch
  · intro i t e ht he
    simp only [List.getElem?_replicate] at ht
    split at ht
    · rw [← Option.some.inj ht] at he
      simp [Fs2BpTree.empty, BpTree.empty] at he
    · exact Option.noConfusion ht
  · intro i u t hu _ k hk
    simp only [List.getElem?_replicate] at hu
    split at hu
    · rw [← Option.some.inj hu] at hk
      simp [Fs2UniqueIndex.empty, BpTree.empty] at hk
    · exact Option.noConfusion hu

theorem getElem?_set_cases {α : Type} (l : List α) (i j : Nat) (a b : α)
    (h : (l.set i a)[j]? = some b) : (i = j ∧ b = a) ∨ (i ≠ j ∧ l[j]? = some b) := by
  by_cases hij : i = j
  · subst hij
    rw [List.getElem?_set_self'] at h
    cases hl : l[i]? with
    | none => rw [hl] at h; exact Option.noConfusion h
    | some x =>
      rw [hl] at h
      exact Or.inl ⟨rfl, (Option.some.inj h).symm⟩
  · rw [List.getElem?_set_ne hij] at h
    exact Or.inr ⟨hij, h⟩

theorem collectorInv_send (lib : GraphLib) (N : Nat) (hN : 1 ≤ N) (Sent : SubGraph → Prop)
    (c : ParHashCollector) (hinv : CollectorInv lib N Sent c) (sg : SubGraph) (hs : Sent sg) :
    ∃ ch, c.chs[shardOf N (lib.ShortLabel sg)]? = some ch ∧
      c.send lib sg = some
        { c with
          chs := c.chs.set (shardOf N (lib.ShortLabel sg)) (ch ++ [⟨lib.ShortLabel sg, sg⟩]) } ∧
      CollectorInv lib N Sent
        { c with
          chs := c.chs.set (shardOf N (lib.ShortLabel sg)) (ch ++ [⟨lib.ShortLabel sg, sg⟩]) } := by
  obtain ⟨h1, h2, h3, h4, h5, h6⟩ := hinv
  obtain ⟨hidx, hlt⟩ := shardIndex_eq c N hN h3 (lib.ShortLabel sg)
  obtain ⟨ch0, hget⟩ := getElem?_some_of_lt c.chs (shardOf N (lib.ShortLabel sg))
    (by rw [h3]; exact hlt)
  refine ⟨ch0, hget, ?_, ?_⟩
  · unfold ParHashCollector.send
    simp only [hidx, hget]
  · refine ⟨h1, h2, by simp [h3], ?_, h5, h6⟩
    intro i ch lg hch hlg
    rcases getElem?_set_cases _ _ _ _ _ hch with ⟨hij, hb⟩ | ⟨_, hb⟩
    · rw [hb, List.mem_append] at hlg
      rcases hlg with hlg | hlg
      · rw [← hij]; exact h4 _ _ lg hget hlg
      · rw [List.mem_singleton] at hlg
        rw [hlg]
        exact ⟨hs, rfl, hij⟩
    · exact h4 i ch lg hb hlg

theorem stored_mono (lib : GraphLib) (N : Nat) (c c' : ParHashCollector)
    (h : ∀ (j : Nat) (t : Fs2BpTree), c.graphs[j]? = some t →
      ∃ t', c'.graphs[j]? = some t' ∧ ∀ e ∈ t.bpt.entries, e ∈ t'.bpt.entries)
    (e : SubGraph) (hs : Stored lib N c e) : Stored lib N c' e := by
  obtain ⟨t, ht, he⟩ := hs
  obtain ⟨t', ht', hsub⟩ := h _ t ht
  exact ⟨t', ht', hsub _ he⟩

theorem collectorInv_receive (lib : GraphLib) (N : Nat) (Sent : SubGraph → Prop)
    (hrt : ∀ sg, Sent sg → lib.DeserializeSubGraph (lib.Serialize sg) = sg)
    (c : ParHashCollector) (hinv : CollectorInv lib N Sent c) (i : Nat) :
    ∃ c', c.receive lib i = some c' ∧ CollectorInv lib N Sent c' ∧
      (∀ e, Stored lib N c e → Stored lib N c' e) ∧
      ∀ lg pending, c.chs[i]? = some (lg :: pending) → Stored lib N c' lg.sg := by
  have hinv0 := hinv
  obtain ⟨h1, h2, h3, h4, h5, h6⟩ := hinv
  cases hch : c.chs[i]? with
  | none =>
    refine ⟨c, ?_, hinv0, fun e he => he, ?_⟩
    · unfold ParHashCollector.receive; simp only [hch]
    · intro lg pending hc; exact Option.noConfusion hc
  | some ch =>
    cases ch with
    | nil =>
      refine ⟨c, ?_, hinv0, fun e he => he, ?_⟩
      · unfold ParHashCollector.receive; simp only [hch]
      · intro lg pending hc
        exact List.noConfusion (Option.some.inj hc)
    | cons lg pending =>
      have hiN : i < N := by
        obtain ⟨hlt, _⟩ := List.getElem?_eq_some.1 hch
        omega
      obtain ⟨t, hgt⟩ := getElem?_some_of_lt c.graphs i (by omega)
      obtain ⟨u, hun⟩ := getElem?_some_of_lt c.unique i (by omega)
      obtain ⟨s', hs', hent, hkeys⟩ := shardCollector_effect lib lg ⟨t, u⟩
      obtain ⟨hsent, hlabel, hshard⟩ := h4 i _ lg hch (List.mem_cons_self _ _)
      have hsub : ∀ e ∈ t.bpt.entries, e ∈ s'.tree.bpt.entries :=
        fun e he => (hent e).2 (Or.inl he)
      have hstored : (lib.ShortLabel lg.sg, lib.Serialize lg.sg) ∈ s'.tree.bpt.entries := by
        by_cases hin : lib.Serialize lg.sg ∈ indexKeys ⟨t, u⟩
        · have hv := h6 i u t hun hgt _ hin
          obtain ⟨e, he, hev⟩ := List.mem_map.1 hv
          obtain ⟨sg', hsg', hee, _⟩ := h5 i t e hgt he
          have hser : lib.Serialize sg' = lib.Serialize lg.sg := by
            rw [hee] at hev; exact hev
          have hsame : sg' = lg.sg := by
            rw [← hrt sg' hsg', hser, hrt lg.sg hsent]
          rw [hsame] at hee
          rw [← hee]
          exact hsub e he
        · rw [hent]
          right
          exact ⟨hin, by rw [hlabel]⟩
      have hgraphs : ∀ (j : Nat) (t0 : Fs2BpTree), c.graphs[j]? = some t0 →
          ∃ t', (c.graphs.set i s'.tree)[j]? = some t' ∧
            ∀ e ∈ t0.bpt.entries, e ∈ t'.bpt.entries := by
        intro j t0 ht0
        by_cases hij : i = j
        · subst hij
          rw [hgt] at ht0
          have : t = t0 := Option.some.inj ht0
          subst this
          exact ⟨s'.tree, by rw [List.getElem?_set_self (by omega)], hsub⟩
        · exact ⟨t0, by rw [List.getElem?_set_ne hij]; exact ht0, fun e he => he⟩
      refine ⟨{ graphs := c.graphs.set i s'.tree, unique := c.unique.set i s'.unique,
                chs := c.chs.set i pending }, ?_, ?_, ?_, ?_⟩
      · unfold ParHashCollector.receive
        simp only [hch, hgt, hun, hs']
      · refine ⟨by simp [h1], by simp [h2], by simp [h3], ?_, ?_, ?_⟩
        · intro j ch lg' hj hlg'
          rcases getElem?_set_cases _ _ _ _ _ hj with ⟨hij, hb⟩ | ⟨_, hb⟩
          · rw [hb] at hlg'
            rw [← hij]
            exact h4 i _ lg' hch (List.mem_cons_of_mem _ hlg')
          · exact h4 j ch lg' hb hlg'
        · intro j t' e hj he
          rcases getElem?_set_cases _ _ _ _ _ hj with ⟨hij, hb⟩ | ⟨_, hb⟩
          · rw [hb] at he
            rw [← hij]
            rcases (hent e).1 he with h | ⟨_, h⟩
            · exact h5 i t e hgt h
            · refine ⟨lg.sg, hsent, by rw [h, hlabel], ?_⟩
              rw [h]; exact hshard
          · exact h5 j t' e hb he
        · intro j u' t' hu' ht' k hk
          rcases getElem?_set_cases _ _ _ _ _ hu' with ⟨hij, hb⟩ | ⟨hij, hb⟩
          · subst hij
            rw [List.getElem?_set_self (by omega)] at ht'
            have htt : s'.tree = t' := Option.some.inj ht'
            rw [hb] at hk
            rw [← htt]
            rcases hkeys k hk with h | ⟨hnew, h⟩
            · have hv := h6 i u t hun hgt k h
              obtain ⟨e, he, hev⟩ := List.mem_map.1 hv
              exact List.mem_map.2 ⟨e, hsub e he, hev⟩
            · exact List.mem_map.2 ⟨(lg.label, lib.Serialize lg.sg),
                (hent _).2 (Or.inr ⟨hnew, rfl⟩), h.symm⟩
          · rw [List.getElem?_set_ne hij] at ht'
            exact h6 j u' t' hb ht' k hk
      · intro e he
        exact stored_mono lib N c _ hgraphs e he
      · intro lg' pending' hc
        have hl : lg = lg' := (List.cons.inj (Option.some.inj hc)).1
        subst hl
        refine ⟨s'.tree, ?_, hstored⟩
        show (c.graphs.set i s'.tree)[shardOf N (lib.ShortLabel lg.sg)]? = some s'.tree
        rw [← hlabel, hshard, List.getElem?_set_self (by omega)]

theorem runCollector_inv (lib : GraphLib) (N : Nat) (hN : 1 ≤ N) (Sent : SubGraph → Prop)
    (hrt : ∀ sg, Sent sg → lib.DeserializeSubGraph (lib.Serialize sg) = sg) :
    ∀ (evs : List CollectorEvent) (c : ParHashCollector), CollectorInv lib N Sent c →
      (∀ sg, CollectorEvent.send sg ∈ evs → Sent sg) →
      ∃ c', runCollector lib evs c = some c' ∧ CollectorInv lib N Sent c' ∧
        ∀ e, Stored lib N c e → Stored lib N c' e := by
  intro evs
  induction evs with
  | nil => intro c hinv _; exact ⟨c, rfl, hinv, fun e he => he⟩
  | cons ev rest ih =>
    intro c hinv hsent
    have hrest : ∀ sg, CollectorEvent.send sg ∈ rest → Sent sg :=
      fun sg h => hsent sg (List.mem_cons_of_mem _ h)
    cases ev with
    | send sg =>
      obtain ⟨ch, _, hsend, hinv'⟩ := collectorInv_send lib N hN Sent c hinv sg
        (hsent sg (List.mem_cons_self _ _))
      obtain ⟨c', hrun, hinv'', hmono⟩ := ih _ hinv' hrest
      refine ⟨c', ?_, hinv'', ?_⟩
      · rw [runCollector, hsend]; exact hrun
      · intro e he
        exact hmono e he
    | receive i =>
      obtain ⟨c1, hrec, hinv', hmono1, _⟩ := collectorInv_receive lib N Sent hrt c hinv i
      obtain ⟨c', hrun, hinv'', hmono⟩ := ih _ hinv' hrest
      refine ⟨c', ?_, hinv'', ?_⟩
      · rw [runCollector, hrec]; exact hrun
      · intro e he
        exact hmono e (hmono1 e he)

theorem runCollector_append (lib : GraphLib) :
    ∀ (pre post : List CollectorEvent) (c c1 : ParHashCollector),
      runCollector lib pre c = some c1 →
      runCollector lib (pre ++ post) c = runCollector lib post c1 := by
  intro pre
  induction pre with
  | nil =>
    intro post c c1 h
    have : c = c1 := Option.some.inj h
    subst this; rfl
  | cons ev rest ih =>
    intro post c c1 h
    cases ev with
    | send sg =>
      rw [List.cons_append, runCollector]
      rw [runCollector] at h
      cases hs : c.send lib sg with
      | none => rw [hs] at h; exact Option.noConfusion h
      | some c2 =>
        rw [hs] at h
        exact ih post c2 c1 h
    | receive i =>
      rw [List.cons_append, runCollector]
      rw [runCollector] at h
      cases hs : c.receive lib i with
      | none => rw [hs] at h; exact Option.noConfusion h
      | some c2 =>
        rw [hs] at h
        exact ih post c2 c1 h

theorem stored_found (lib : GraphLib) (N : Nat) (hN : 1 ≤ N) (Sent : SubGraph → Prop)
    (c : ParHashCollector) (hinv : CollectorInv lib N Sent c) (e : SubGraph)
    (hrt : lib.DeserializeSubGraph (lib.Serialize e) = e) (hs : Stored lib N c e) :
    ∃ items, c.found lib (lib.ShortLabel e) = .ok items ∧ (lib.ShortLabel e, e) ∈ items := by
  obtain ⟨t, ht, he⟩ := hs
  obtain ⟨hidx, _⟩ := shardIndex_eq c N hN hinv.2.2.1 (lib.ShortLabel e)
  obtain ⟨hf, hperm, _⟩ := parHashCollector_find_chunks lib c (lib.ShortLabel e) _ t hidx ht
  refine ⟨_, hf, ?_⟩
  rw [hperm.mem_iff]
  unfold Fs2BpTree.Find Fs2BpTree.kvIter BpTree.Find
  rw [List.mem_map]
  refine ⟨(lib.ShortLabel e, lib.Serialize e), ?_, ?_⟩
  · rw [List.mem_filter]
    exact ⟨he, by simp⟩
  · simp only [hrt]

/-- C5: for `N ≥ 1` shards and every sequence of sends and of receptions by
the shard goroutines from a new collector (the graph library restoring every
sent embedding from its serialization), the collector reaches a state `c`
without a panic, and in `c`: `send(e)` puts the pair of the short label and
`e` on the channel of the shard `hash(shortLabel(e)) mod N` and changes
nothing else; `Find(k)` is the buffered iterator over what the store of the
shard `hash(k) mod N` finds; a store that has the key `k` is the store of the
shard `hash(k) mod N`; and an embedding that a shard has received from its
channel at some point of the sequence is among the items that
`Find(shortLabel(e))` yields. -/
theorem parHashCollector_routing (lib : GraphLib) (N : Nat) (hN : 1 ≤ N)
    (evs : List CollectorEvent)
    (hrt : ∀ sg, CollectorEvent.send sg ∈ evs → lib.DeserializeSubGraph (lib.Serialize sg) = sg) :
    ∃ c, runCollector lib evs (MakeParHashCollector N) = some c ∧
      (∀ e, ∃ ch, c.chs[shardOf N (lib.ShortLabel e)]? = some ch ∧
        c.send lib e = some
          { c with
            chs := c.chs.set (shardOf N (lib.ShortLabel e)) (ch ++ [⟨lib.ShortLabel e, e⟩]) }) ∧
      (∀ k, ∃ t, c.graphs[shardOf N k]? = some t ∧
        c.Find lib k = some (bufferedIterator (some (t.Find lib k)) 10)) ∧
      (∀ (i : Nat) (t : Fs2BpTree) (k : Bytes), c.graphs[i]? = some t → t.Has k = true →
        i = shardOf N k) ∧
      (∀ (pre post : List CollectorEvent) (i : Nat) (cpre : ParHashCollector) (lg : labelGraph)
        (pending : List labelGraph),
        evs = pre ++ CollectorEvent.receive i :: post →
        runCollector lib pre (MakeParHashCollector N) = some cpre →
        cpre.chs[i]? = some (lg :: pending) →
        ∃ items, c.found lib (lib.ShortLabel lg.sg) = .ok items ∧
          (lib.ShortLabel lg.sg, lg.sg) ∈ items) := by
  obtain ⟨c, hrun, hinv, _⟩ := runCollector_inv lib N hN
    (fun sg => CollectorEvent.send sg ∈ evs) hrt evs (MakeParHashCollector N)
    (collectorInv_init lib N _) (fun sg h => h)
  have hinv0 := hinv
  obtain ⟨h1, h2, h3, h4, h5, h6⟩ := hinv
  refine ⟨c, hrun, ?_, ?_, ?_, ?_⟩
  · intro e
    obtain ⟨hidx, hlt⟩ := shardIndex_eq c N hN h3 (lib.ShortLabel e)
    obtain ⟨ch0, hget⟩ := getElem?_some_of_lt c.chs (shardOf N (lib.ShortLabel e))
      (by rw [h3]; exact hlt)
    refine ⟨ch0, hget, ?_⟩
    unfold ParHashCollector.send
    simp only [hidx, hget]
  · intro k
    obtain ⟨hidx, hlt⟩ := shardIndex_eq c N hN h3 k
    obtain ⟨t0, hget⟩ := getElem?_some_of_lt c.graphs (shardOf N k) (by rw [h1]; exact hlt)
    refine ⟨t0, hget, ?_⟩
    unfold ParHashCollector.Find
    simp only [hidx, hget]
  · intro i t k ht hk
    obtain ⟨e, he, hek⟩ := List.mem_map.1 ((bpt_has_iff t.bpt k).1 hk)
    obtain ⟨_, _, _, hsh⟩ := h5 i t e ht he
    rw [← hek, hsh]
  · intro pre post i cpre lg pending hsplit hpre hch
    have hsentPre : ∀ sg, CollectorEvent.send sg ∈ pre → CollectorEvent.send sg ∈ evs := by
      intro sg h; rw [hsplit]; exact List.mem_append_left _ h
    have hsentPost : ∀ sg, CollectorEvent.send sg ∈ post → CollectorEvent.send sg ∈ evs := by
      intro sg h; rw [hsplit]
      exact List.mem_append_right _ (List.mem_cons_of_mem _ h)
    obtain ⟨cpre', hpre', hinvPre, _⟩ := runCollector_inv lib N hN
      (fun sg => CollectorEvent.send sg ∈ evs) hrt pre (MakeParHashCollector N)
      (collectorInv_init lib N _) hsentPre
    have hsame : cpre' = cpre := Option.some.inj (hpre'.symm.trans hpre)
    subst hsame
    obtain ⟨c1, hrec, hinv1, _, hst⟩ := collectorInv_receive lib N
      (fun sg => CollectorEvent.send sg ∈ evs) hrt cpre' hinvPre i
    obtain ⟨c2, hrun2, _, hmono⟩ := runCollector_inv lib N hN
      (fun sg => CollectorEvent.send sg ∈ evs) hrt post c1 hinv1 hsentPost
    have hc2 : c2 = c := by
      have h := runCollector_append lib pre (CollectorEvent.receive i :: post) _ _ hpre
      rw [← hsplit, hrun, runCollector, hrec] at h
      simp only [hrun2] at h
      exact (Option.some.inj h).symm
    subst hc2
    have hsent : CollectorEvent.send lg.sg ∈ evs :=
      (hinvPre.2.2.2.1 i _ lg hch (List.mem_cons_self _ _)).1
    exact stored_found lib N hN _ c2 hinv0 lg.sg (hrt lg.sg hsent)
      (hmono lg.sg (hst lg pending hch))

theorem parHashCollector_routing_witness :
    1 ≤ 2 ∧
    (∀ sg, CollectorEvent.send sg ∈ exampleEvents →
      exampleLib.DeserializeSubGraph (exampleLib.Serialize sg) = sg) ∧
    ∃ c, runCollector exampleLib exampleEvents (MakeParHashCollector 2) = some c ∧
      (∀ e, ∃ ch, c.chs[shardOf 2 (exampleLib.ShortLabel e)]? = some ch ∧
        c.send exampleLib e = some
          { c with
            chs := c.chs.set (shardOf 2 (exampleLib.ShortLabel e))
              (ch ++ [⟨exampleLib.ShortLabel e, e⟩]) }) ∧
      (∀ k, ∃ t, c.graphs[shardOf 2 k]? = some t ∧
        c.Find exampleLib k = some (bufferedIterator (some (t.Find exampleLib k)) 10)) ∧
      (∀ (i : Nat) (t : Fs2BpTree) (k : Bytes), c.graphs[i]? = some t → t.Has k = true →
        i = shardOf 2 k) ∧
      (∀ (pre post : List CollectorEvent) (i : Nat) (cpre : ParHashCollector) (lg : labelGraph)
        (pending : List labelGraph),
        exampleEvents = pre ++ CollectorEvent.receive i :: post →
        runCollector exampleLib pre (MakeParHashCollector 2) = some cpre →
        cpre.chs[i]? = some (lg :: pending) →
        ∃ items, c.found exampleLib (exampleLib.ShortLabel lg.sg) = .ok items ∧
          (exampleLib.ShortLabel lg.sg, lg.sg) ∈ items) :=
  ⟨by decide,
    fun sg h => by
      simp only [exampleEvents, List.mem_cons, CollectorEvent.send.injEq, List.mem_singleton,
        reduceCtorEq, or_false, List.not_mem_nil] at h
      rcases h with h | h <;> subst h <;> rfl,
    parHashCollector_routing exampleLib 2 (by decide) exampleEvents
      (fun sg h => by
        simp only [exampleEvents, List.mem_cons, CollectorEvent.send.injEq, List.mem_singleton,
          reduceCtorEq, or_false, List.not_mem_nil] at h
        rcases h with h | h <;> subst h <;> rfl)⟩

/-! ## Sorted sets and the label-set map -/

theorem insertItem_sorted (x : Bytes) (l : List Bytes) (hs : l.Sorted (· < ·)) :
    (SortedSet.insertItem x l).Sorted (· < ·) ∧
      ∀ y, y ∈ SortedSet.insertItem x l ↔ y = x ∨ y ∈ l := by
  induction l with
  | nil => simp [SortedSet.insertItem]
  | cons e rest ih =>
    have hs' : rest.Sorted (· < ·) := (List.sorted_cons.1 hs).2
    have hlt : ∀ y ∈ rest, e < y := (List.sorted_cons.1 hs).1
    obtain ⟨ih1, ih2⟩ := ih hs'
    unfold SortedSet.insertItem
    by_cases h1 : x < e
    · rw [if_pos h1]
      refine ⟨?_, fun y => by simp⟩
      rw [List.sorted_cons]
      refine ⟨?_, hs⟩
      intro y hy
      rcases List.mem_cons.1 hy with h | h
      · rw [h]; exact h1
      · exact lt_trans h1 (hlt y h)
    · by_cases h2 : x = e
      · rw [if_neg h1, if_pos h2]
        refine ⟨hs, ?_⟩
        intro y
        rw [List.mem_cons]
        constructor
        · intro h; exact Or.inr h
        · rintro (h | h)
          · exact Or.inl (h.trans h2)
          · exact h
      · rw [if_neg h1, if_neg h2]
        have hgt : e < x := lt_of_le_of_ne (not_lt.mp h1) (Ne.symm h2)
        refine ⟨?_, ?_⟩
        · rw [List.sorted_cons]
          refine ⟨?_, ih1⟩
          intro y hy
          rcases (ih2 y).1 hy with h | h
          · rw [h]; exact hgt
          · exact hlt y h
        · intro y
          rw [List.mem_cons, List.mem_cons, ih2]
          tauto

theorem foldl_add_sorted (l : List Bytes) :
    ∀ s : SortedSet, s.items.Sorted (· < ·) →
      (l.foldl SortedSet.Add s).items.Sorted (· < ·) ∧
        ∀ y, y ∈ (l.foldl SortedSet.Add s).items ↔ y ∈ s.items ∨ y ∈ l := by
  induction l with
  | nil => intro s hs; exact ⟨hs, fun y => by simp⟩
  | cons x rest ih =>
    intro s hs
    obtain ⟨h1, h2⟩ := insertItem_sorted x s.items hs
    obtain ⟨r1, r2⟩ := ih (s.Add x) h1
    refine ⟨r1, ?_⟩
    intro y
    rw [List.foldl_cons, r2 y]
    show y ∈ SortedSet.insertItem x s.items ∨ y ∈ rest ↔ _
    rw [h2 y, List.mem_cons]
    tauto

/-- Adding the items of a list to the empty sorted set in any order gives the
strictly ascending list of these items. -/
theorem foldl_add_eq (l T : List Bytes) (hT : T.Sorted (· < ·)) (hperm : l.Perm T) :
    l.foldl SortedSet.Add SortedSet.empty = ⟨T⟩ := by
  obtain ⟨h1, h2⟩ := foldl_add_sorted l SortedSet.empty (by simp [SortedSet.empty])
  have hitems : (l.foldl SortedSet.Add SortedSet.empty).items = T := by
    apply List.eq_of_perm_of_sorted _ h1 hT
    rw [List.perm_ext_iff_of_nodup h1.nodup hT.nodup]
    intro y
    rw [h2 y, hperm.mem_iff]
    simp [SortedSet.empty]
  cases hf : l.foldl SortedSet.Add SortedSet.empty with
  | mk items =>
    rw [hf] at hitems
    simp only at hitems
    rw [hitems]

theorem bpt_find_insert_other (k k' v : Bytes) (hne : k ≠ k') (l : List (Bytes × Bytes)) :
    (BpTree.insertEntry k v l).filter (fun e => e.1 == k') = l.filter (fun e => e.1 == k') := by
  have hk : ((k, v).1 == k') = false := by simpa using hne
  induction l with
  | nil => simp [BpTree.insertEntry, List.filter, hk]
  | cons e rest ih =>
    unfold BpTree.insertEntry
    by_cases h : k ≤ e.1
    · rw [if_pos h, List.filter_cons, hk]
      simp
    · rw [if_neg h, List.filter_cons, List.filter_cons, ih]

theorem bpt_find_insert_self (k v : Bytes) (l : List (Bytes × Bytes))
    (hno : l.filter (fun e => e.1 == k) = []) :
    (BpTree.insertEntry k v l).filter (fun e => e.1 == k) = [(k, v)] := by
  have hperm := (bpt_insertEntry_perm k v l).filter (fun e => e.1 == k)
  rw [List.filter_cons, hno] at hperm
  simp only [beq_self_eq_true, if_true] at hperm
  exact List.perm_singleton.1 hperm

theorem bpt_has_eq_find (t : BpTree) (k : Bytes) : t.Has k = !(t.Find k).isEmpty := by
  unfold BpTree.Has BpTree.Find
  induction t.entries with
  | nil => rfl
  | cons e rest ih =>
    rw [List.any_cons, List.filter_cons]
    by_cases h : (e.1 == k) = true
    · simp [h]
    · have h' : (e.1 == k) = false := by
        cases hb : (e.1 == k) with
        | false => rfl
        | true => exact absurd hb h
      rw [h', Bool.false_or, ih]
      simp

/-- The entries of the map after `Put(key, set)`: the key has the serialized
set as its only entry, the entries of every other key are as before. -/
theorem fs2Sets_put (codec : SetCodec) (s : Fs2Sets) (key : Bytes) (set : SortedSet)
    (b : Bytes) (hb : codec.MarshalBinary set = some b) :
    ∃ s', s.Put codec key set = some s' ∧ s'.Has key = true ∧
      s'.bpt.Find key = [(key, b)] ∧
      ∀ k', key ≠ k' → s'.bpt.Find k' = s.bpt.Find k' := by
  have hfilter : ∀ (l : List (Bytes × Bytes)),
      (l.filter (fun e => !(e.1 == key && (fun _ => true) e.2))).filter (fun e => e.1 == key) =
        [] := by
    intro l
    rw [List.filter_filter]
    apply List.filter_eq_nil_iff.2
    intro e _
    simp
  have hother : ∀ (l : List (Bytes × Bytes)) (k' : Bytes), key ≠ k' →
      (l.filter (fun e => !(e.1 == key && (fun _ => true) e.2))).filter (fun e => e.1 == k') =
        l.filter (fun e => e.1 == k') := by
    intro l k' hne
    rw [List.filter_filter]
    congr 1
    funext e
    by_cases he : e.1 = k'
    · have : ¬ e.1 = key := fun hc => hne (hc.symm.trans he)
      simp [he, this]
      intro hc; exact absurd hc.symm hne
    · simp [he]
  unfold Fs2Sets.Put
  simp only [hb, bpt_has_add, if_true]
  refine ⟨_, rfl, bpt_has_add _ _ _, ?_, ?_⟩
  · by_cases hh : s.bpt.Has key = true
    · simp only [hh, if_true]
      exact bpt_find_insert_self key b _ (hfilter s.bpt.entries)
    · simp only [hh]
      apply bpt_find_insert_self key b
      have := bpt_has_eq_find s.bpt key
      have hf : s.bpt.Has key = false := by
        cases hc : s.bpt.Has key with
        | false => rfl
        | true => exact absurd hc hh
      rw [hf] at this
      have hemp : (s.bpt.Find key).isEmpty = true := by
        cases hc : (s.bpt.Find key).isEmpty with
        | true => rfl
        | false => rw [hc] at this; exact Bool.noConfusion this
      exact List.isEmpty_iff.1 hemp
  · intro k' hne
    by_cases hh : s.bpt.Has key = true
    · simp only [hh, if_true]
      show (BpTree.insertEntry key b _).filter (fun e => e.1 == k') = _
      rw [bpt_find_insert_other key k' b hne]
      exact hother s.bpt.entries k' hne
    · simp only [hh]
      show (BpTree.insertEntry key b _).filter (fun e => e.1 == k') = _
      rw [bpt_find_insert_other key k' b hne]
      rfl

/-! ## C7, C8: supported extensions and their memo -/

theorem testKeys_ok (lib : GraphLib) (m : RandomWalkMiner) (l : List Bytes)
    (h : ∀ c ∈ l, ∃ p, m.partition lib c = .ok p) :
    m.testKeys lib l = .ok (l.map (fun key => (key, m.partitionLen lib key))) := by
  induction l with
  | nil => rfl
  | cons key rest ih =>
    obtain ⟨p, hp⟩ := h key (List.mem_cons_self _ _)
    have ih' := ih (fun c hc => h c (List.mem_cons_of_mem _ hc))
    have hlen : m.partitionLen lib key = p.length := by
      unfold RandomWalkMiner.partitionLen; rw [hp]
    rw [RandomWalkMiner.testKeys, hp]
    simp only [ih', List.map_cons, hlen]

theorem filter_tested (Support : Int) (f : Bytes → Nat) (l : List Bytes) :
    ((l.map (fun key => (key, f key))).filter (fun kp => decide (Support ≤ (kp.2 : Int)))).map
        Prod.fst =
      l.filter (fun key => decide (Support ≤ (f key : Int))) := by
  induction l with
  | nil => rfl
  | cons key rest ih =>
    rw [List.map_cons, List.filter_cons, List.filter_cons]
    by_cases h : Support ≤ (f key : Int)
    · simp only [h, decide_True, if_true, List.map_cons, ih]
    · simp only [h, decide_False, Bool.false_eq_true, if_false, ih]

theorem fs2Sets_get_of_find (codec : SetCodec) (s : Fs2Sets) (k b : Bytes) (set : SortedSet)
    (hfind : s.bpt.Find k = [(k, b)]) (hun : codec.UnmarshalBinary b = some set) :
    s.Get codec k = some set := by
  unfold Fs2Sets.Get
  rw [hfind]
  simp [Fs2Sets.getLoop, hun]

/-- What a call of `supportedKeys` that finds no entry for the key does. -/
theorem supportedKeys_miss_eq (lib : GraphLib) (codec : SetCodec)
    (sched : List Bytes → List Bytes) (m : RandomWalkMiner) (k : Bytes) (C : SortedSet)
    (hsched : ∀ l, (sched l).Perm l) (hC : C.items.Sorted (· < ·))
    (hmiss : m.supportedExtensions.Has k = false)
    (hpart : ∀ c ∈ C.items, ∃ p, m.partition lib c = .ok p) :
    m.supportedKeys lib codec sched k C =
      match m.supportedExtensions.Put codec k
          ⟨C.items.filter (fun c => decide (m.Support ≤ (m.partitionLen lib c : Int)))⟩ with
      | none => .error .panic
      | some sets =>
        .ok ⟨⟨C.items.filter (fun c => decide (m.Support ≤ (m.partitionLen lib c : Int)))⟩,
          { m with supportedExtensions := sets }, C.items⟩ := by
  unfold RandomWalkMiner.supportedKeys
  rw [hmiss]
  simp only [Bool.false_eq_true, if_false, testKeys_ok lib m C.items hpart]
  rw [filter_tested m.Support (m.partitionLen lib) C.items]
  rw [foldl_add_eq _ (C.items.filter (fun c => decide (m.Support ≤ (m.partitionLen lib c : Int))))
    (hC.filter _) (hsched _)]

/-- C7: when `supportedExtensions` has no entry for the label `k`, a call
`supportedKeys(k, C)` on a set `C` of candidates whose partitions can be
computed (the serialization of the result succeeding with bytes `b`) returns
the set of the candidates `c` of `C` with `len(partition(c)) >= Support`, in
whatever order the workers forward them, after a scan of the candidates; the
set is stored for `k`: afterwards the map has the key `k` with the
serialized set as its only entry, and `Get(k)` returns the set when the
encoding restores it. -/
theorem supportedKeys_miss (lib : GraphLib) (codec : SetCodec)
    (sched : List Bytes → List Bytes) (m : RandomWalkMiner) (k : Bytes) (C : SortedSet)
    (b : Bytes)
    (hsched : ∀ l, (sched l).Perm l) (hC : C.items.Sorted (· < ·))
    (hmiss : m.supportedExtensions.Has k = false)
    (hpart : ∀ c ∈ C.items, ∃ p, m.partition lib c = .ok p)
    (hb : codec.MarshalBinary
      ⟨C.items.filter (fun c => decide (m.Support ≤ (m.partitionLen lib c : Int)))⟩ = some b) :
    ∃ r, m.supportedKeys lib codec sched k C = .ok r ∧
      r.supKeys.items =
        C.items.filter (fun c => decide (m.Support ≤ (m.partitionLen lib c : Int))) ∧
      (∀ c, c ∈ r.supKeys.items ↔
        c ∈ C.items ∧ ∃ p, m.partition lib c = .ok p ∧ m.Support ≤ (p.length : Int)) ∧
      r.scanned = C.items ∧
      m.supportedExtensions.Put codec k r.supKeys = some r.miner.supportedExtensions ∧
      r.miner = { m with supportedExtensions := r.miner.supportedExtensions } ∧
      r.miner.supportedExtensions.Has k = true ∧
      r.miner.supportedExtensions.bpt.Find k = [(k, b)] ∧
      (codec.UnmarshalBinary b = some r.supKeys →
        r.miner.supportedExtensions.Get codec k = some r.supKeys) := by
  obtain ⟨sets, hput, hhas, hfind, _⟩ := fs2Sets_put codec m.supportedExtensions k
    ⟨C.items.filter (fun c => decide (m.Support ≤ (m.partitionLen lib c : Int)))⟩ b hb
  have heq := supportedKeys_miss_eq lib codec sched m k C hsched hC hmiss hpart
  rw [hput] at heq
  refine ⟨_, heq, rfl, ?_, rfl, hput, rfl, hhas, hfind, ?_⟩
  · intro c
    simp only [List.mem_filter, decide_eq_true_eq]
    constructor
    · rintro ⟨hc, hsup⟩
      obtain ⟨p, hp⟩ := hpart c hc
      refine ⟨hc, p, hp, ?_⟩
      have hlen : m.partitionLen lib c = p.length := by
        unfold RandomWalkMiner.partitionLen; rw [hp]
      rw [← hlen]; exact hsup
    · rintro ⟨hc, p, hp, hsup⟩
      have hlen : m.partitionLen lib c = p.length := by
        unfold RandomWalkMiner.partitionLen; rw [hp]
      exact ⟨hc, by rw [hlen]; exact hsup⟩
  · intro hun
    exact fs2Sets_get_of_find codec sets k b _ hfind hun

theorem example_partitions :
    ∀ c ∈ exampleCandidates.items, ∃ p, exampleMiner.partition exampleLib c = .ok p := by
  intro c hc
  simp only [exampleCandidates, List.mem_cons, List.mem_singleton, List.not_mem_nil,
    or_false] at hc
  rcases hc with h | h
  · subst h; exact ⟨_, rfl⟩
  · subst h; exact ⟨_, rfl⟩

theorem supportedKeys_miss_witness :
    (∀ l : List Bytes, (List.reverse l).Perm l) ∧
    exampleCandidates.items.Sorted (· < ·) ∧
    exampleMiner.supportedExtensions.Has [7] = false ∧
    (∀ c ∈ exampleCandidates.items, ∃ p, exampleMiner.partition exampleLib c = .ok p) ∧
    exampleCodec.MarshalBinary
      ⟨exampleCandidates.items.filter (fun c =>
        decide (exampleMiner.Support ≤ (exampleMiner.partitionLen exampleLib c : Int)))⟩ =
      some [1, 1] ∧
    ∃ r, exampleMiner.supportedKeys exampleLib exampleCodec List.reverse [7] exampleCandidates =
        .ok r ∧
      r.supKeys.items = exampleCandidates.items.filter (fun c =>
        decide (exampleMiner.Support ≤ (exampleMiner.partitionLen exampleLib c : Int))) ∧
      (∀ c, c ∈ r.supKeys.items ↔
        c ∈ exampleCandidates.items ∧
          ∃ p, exampleMiner.partition exampleLib c = .ok p ∧
            exampleMiner.Support ≤ (p.length : Int)) ∧
      r.scanned = exampleCandidates.items ∧
      exampleMiner.supportedExtensions.Put exampleCodec [7] r.supKeys =
        some r.miner.supportedExtensions ∧
      r.miner = { exampleMiner with supportedExtensions := r.miner.supportedExtensions } ∧
      r.miner.supportedExtensions.Has [7] = true ∧
      r.miner.supportedExtensions.bpt.Find [7] = [([7], [1, 1])] ∧
      (exampleCodec.UnmarshalBinary [1, 1] = some r.supKeys →
        r.miner.supportedExtensions.Get exampleCodec [7] = some r.supKeys) :=
  ⟨fun l => List.reverse_perm l, by decide, by decide, example_partitions, by rfl,
    supportedKeys_miss exampleLib exampleCodec List.reverse exampleMiner [7] exampleCandidates
      [1, 1] (fun l => List.reverse_perm l) (by decide) (by decide) example_partitions
      (by rfl)⟩

theorem fs2Sets_has_of_find (s s' : Fs2Sets) (k : Bytes)
    (h : s'.bpt.Find k = s.bpt.Find k) : s'.Has k = s.Has k := by
  unfold Fs2Sets.Has
  rw [bpt_has_eq_find, bpt_has_eq_find, h]

theorem fs2Sets_get_of_find_eq (codec : SetCodec) (s s' : Fs2Sets) (k : Bytes)
    (h : s'.bpt.Find k = s.bpt.Find k) : s'.Get codec k = s.Get codec k := by
  unfold Fs2Sets.Get
  rw [h]

/-- After a call of `supportedKeys` that returned, the map has the key and
`Get` returns the set of the call. -/
theorem supportedKeys_stored (lib : GraphLib) (codec : SetCodec)
    (sched : List Bytes → List Bytes) (m : RandomWalkMiner) (k : Bytes) (C : SortedSet)
    (r1 : RandomWalkMiner.supportedKeysResult)
    (h1 : m.supportedKeys lib codec sched k C = .ok r1)
    (hrt : ∀ b, codec.MarshalBinary r1.supKeys = some b →
      codec.UnmarshalBinary b = some r1.supKeys) :
    r1.miner.supportedExtensions.Has k = true ∧
      r1.miner.supportedExtensions.Get codec k = some r1.supKeys := by
  unfold RandomWalkMiner.supportedKeys at h1
  by_cases hh : m.supportedExtensions.Has k = true
  · rw [if_pos hh] at h1
    cases hg : m.supportedExtensions.Get codec k with
    | none => rw [hg] at h1; cases h1
    | some s =>
      rw [hg] at h1
      cases h1
      exact ⟨hh, hg⟩
  · rw [if_neg hh] at h1
    cases ht : m.testKeys lib C.items with
    | error e => rw [ht] at h1; cases h1
    | ok tested =>
      rw [ht] at h1
      simp only at h1
      cases hm : codec.MarshalBinary ((sched ((tested.filter
          (fun kp => decide (m.Support ≤ (kp.2 : Int)))).map Prod.fst)).foldl
          SortedSet.Add SortedSet.empty) with
      | none =>
        simp only [Fs2Sets.Put, hm] at h1
        cases h1
      | some b =>
        obtain ⟨sets, hput, hhas, hfind, _⟩ := fs2Sets_put codec m.supportedExtensions k _ b hm
        rw [hput] at h1
        cases h1
        exact ⟨hhas, fs2Sets_get_of_find codec sets k b _ hfind (hrt b hm)⟩

/-- C8: let a call `supportedKeys(k, C)` have returned the set `r1.supKeys`
(the encoding of sets restoring this set from its serialization). In every
later state `m2` of the miner in which the entries of `supportedExtensions`
for `k` are those left by the call, `supportedKeys(k, C')` returns the same
set for every candidate set `C'` and every schedule of the workers, scans no
partition and leaves the miner as it is; this holds for the state right after
the call. A call of `supportedKeys` for any label in such a state leaves the
entries for `k` as they are, so the later states stay of this kind. -/
theorem supportedKeys_memo (lib : GraphLib) (codec : SetCodec)
    (sched : List Bytes → List Bytes) (m : RandomWalkMiner) (k : Bytes) (C : SortedSet)
    (r1 : RandomWalkMiner.supportedKeysResult)
    (h1 : m.supportedKeys lib codec sched k C = .ok r1)
    (hrt : ∀ b, codec.MarshalBinary r1.supKeys = some b →
      codec.UnmarshalBinary b = some r1.supKeys) :
    (∀ (sched' : List Bytes → List Bytes) (C' : SortedSet),
      r1.miner.supportedKeys lib codec sched' k C' = .ok ⟨r1.supKeys, r1.miner, []⟩) ∧
    (∀ (m2 : RandomWalkMiner) (sched' : List Bytes → List Bytes) (C' : SortedSet),
      m2.supportedExtensions.bpt.Find k = r1.miner.supportedExtensions.bpt.Find k →
      m2.supportedKeys lib codec sched' k C' = .ok ⟨r1.supKeys, m2, []⟩) ∧
    (∀ (m2 : RandomWalkMiner) (sched' : List Bytes → List Bytes) (k' : Bytes) (C' : SortedSet)
      (r : RandomWalkMiner.supportedKeysResult),
      m2.supportedExtensions.bpt.Find k = r1.miner.supportedExtensions.bpt.Find k →
      m2.supportedKeys lib codec sched' k' C' = .ok r →
      r.miner.supportedExtensions.bpt.Find k = r1.miner.supportedExtensions.bpt.Find k) := by
  obtain ⟨hhas, hget⟩ := supportedKeys_stored lib codec sched m k C r1 h1 hrt
  have hlater : ∀ (m2 : RandomWalkMiner) (sched' : List Bytes → List Bytes) (C' : SortedSet),
      m2.supportedExtensions.bpt.Find k = r1.miner.supportedExtensions.bpt.Find k →
      m2.supportedKeys lib codec sched' k C' = .ok ⟨r1.supKeys, m2, []⟩ := by
    intro m2 sched' C' hfind
    have hhas2 : m2.supportedExtensions.Has k = true := by
      rw [fs2Sets_has_of_find _ _ k hfind]; exact hhas
    have hget2 : m2.supportedExtensions.Get codec k = some r1.supKeys := by
      rw [fs2Sets_get_of_find_eq codec _ _ k hfind]; exact hget
    unfold RandomWalkMiner.supportedKeys
    rw [if_pos hhas2, hget2]
  refine ⟨fun sched' C' => hlater r1.miner sched' C' rfl, hlater, ?_⟩
  intro m2 sched' k' C' r hfind hcall
  unfold RandomWalkMiner.supportedKeys at hcall
  by_cases hh : m2.supportedExtensions.Has k' = true
  · rw [if_pos hh] at hcall
    cases hg : m2.supportedExtensions.Get codec k' with
    | none => rw [hg] at hcall; cases hcall
    | some s =>
      rw [hg] at hcall
      cases hcall
      exact hfind
  · rw [if_neg hh] at hcall
    have hne : k' ≠ k := by
      intro hc
      apply hh
      rw [hc, fs2Sets_has_of_find _ _ k hfind]
      exact hhas
    cases ht : m2.testKeys lib C'.items with
    | error e => rw [ht] at hcall; cases hcall
    | ok tested =>
      rw [ht] at hcall
      simp only at hcall
      cases hm : codec.MarshalBinary ((sched' ((tested.filter
          (fun kp => decide (m2.Support ≤ (kp.2 : Int)))).map Prod.fst)).foldl
          SortedSet.Add SortedSet.empty) with
      | none =>
        simp only [Fs2Sets.Put, hm] at hcall
        cases hcall
      | some b =>
        obtain ⟨sets, hput, _, _, hother⟩ :=
          fs2Sets_put codec m2.supportedExtensions k' _ b hm
        rw [hput] at hcall
        cases hcall
        show sets.bpt.Find k = _
        rw [hother k hne]
        exact hfind

theorem supportedKeys_memo_witness :
    exampleMiner.supportedKeys exampleLib exampleCodec List.reverse [7] exampleCandidates =
      .ok ⟨⟨[[1]]⟩, { exampleMiner with supportedExtensions := ⟨⟨[([7], [1, 1])]⟩⟩ },
        [[1], [2]]⟩ ∧
    (∀ b, exampleCodec.MarshalBinary ⟨[[1]]⟩ = some b →
      exampleCodec.UnmarshalBinary b = some ⟨[[1]]⟩) ∧
    ((∀ (sched' : List Bytes → List Bytes) (C' : SortedSet),
      RandomWalkMiner.supportedKeys exampleLib exampleCodec sched'
          { exampleMiner with supportedExtensions := ⟨⟨[([7], [1, 1])]⟩⟩ } [7] C' =
        .ok ⟨⟨[[1]]⟩, { exampleMiner with supportedExtensions := ⟨⟨[([7], [1, 1])]⟩⟩ }, []⟩) ∧
    (∀ (m2 : RandomWalkMiner) (sched' : List Bytes → List Bytes) (C' : SortedSet),
      m2.supportedExtensions.bpt.Find [7] = BpTree.Find ⟨[([7], [1, 1])]⟩ [7] →
      m2.supportedKeys exampleLib exampleCodec sched' [7] C' = .ok ⟨⟨[[1]]⟩, m2, []⟩) ∧
    (∀ (m2 : RandomWalkMiner) (sched' : List Bytes → List Bytes) (k' : Bytes) (C' : SortedSet)
      (r : RandomWalkMiner.supportedKeysResult),
      m2.supportedExtensions.bpt.Find [7] = BpTree.Find ⟨[([7], [1, 1])]⟩ [7] →
      m2.supportedKeys exampleLib exampleCodec sched' k' C' = .ok r →
      r.miner.supportedExtensions.bpt.Find [7] = BpTree.Find ⟨[([7], [1, 1])]⟩ [7])) :=
  ⟨by rfl,
    fun b hb => by
      have : b = [1, 1] := (Option.some.inj hb).symm
      subst this; rfl,
    supportedKeys_memo exampleLib exampleCodec List.reverse exampleMiner [7] exampleCandidates
      ⟨⟨[[1]]⟩, { exampleMiner with supportedExtensions := ⟨⟨[([7], [1, 1])]⟩⟩ }, [[1], [2]]⟩
      (by rfl)
      (fun b hb => by
        have : b = [1, 1] := (Option.some.inj hb).symm
        subst this; rfl)⟩

/-! ## C9: the sampling driver -/

theorem sampleRetry_spec (lib : GraphLib) (m : RandomWalkMiner) (walk : Nat → Graple.partition)
    (hS : 1 ≤ m.Support) :
    ∀ (fuel : Nat) (st : sampleResult),
      m.sampleRetry lib walk fuel st ≠ .error .panic ∧
      ∀ st', m.sampleRetry lib walk fuel st = .ok st' →
        st'.report.length = st.report.length + 1 ∧ st.tries + 1 ≤ st'.tries ∧
        (SampleInv lib m walk st → SampleInv lib m walk st') := by
  intro fuel
  induction fuel with
  | zero =>
    intro st
    refine ⟨by simp [RandomWalkMiner.sampleRetry], ?_⟩
    intro st' h
    simp [RandomWalkMiner.sampleRetry] at h
  | succ fuel ih =>
    intro st
    have hnext : ∀ st1 : sampleResult, st1.report = st.report → st1.tries = st.tries + 1 →
        st1.walks = st.walks + 1 →
        m.sampleRetry lib walk fuel st1 ≠ .error .panic ∧
        ∀ st', m.sampleRetry lib walk fuel st1 = .ok st' →
          st'.report.length = st.report.length + 1 ∧ st.tries + 1 ≤ st'.tries ∧
          (SampleInv lib m walk st → SampleInv lib m walk st') := by
      intro st1 hr ht hw
      obtain ⟨h1, h2⟩ := ih st1
      refine ⟨h1, ?_⟩
      intro st' hst'
      obtain ⟨r1, r2, r3⟩ := h2 st' hst'
      refine ⟨by rw [r1, hr], by omega, ?_⟩
      intro hinv
      apply r3
      refine ⟨by rw [hw, ht, hinv.1], ?_⟩
      intro label hl
      rw [hr] at hl
      obtain ⟨t, htlt, hv⟩ := hinv.2 label hl
      exact ⟨t, by omega, hv⟩
    unfold RandomWalkMiner.sampleRetry
    simp only
    by_cases hsup : ((walk st.walks).length : Int) < m.Support
    · rw [if_pos hsup]
      exact hnext _ rfl rfl rfl
    · rw [if_neg hsup]
      cases hpart : walk st.walks with
      | nil =>
        rw [hpart] at hsup
        simp only [List.length_nil, Nat.cast_zero] at hsup
        omega
      | cons p0 rest =>
        simp only [List.getElem?_cons_zero]
        by_cases hmin : ((p0.V.length : Nat) : Int) < m.MinVertices
        · rw [if_pos hmin]
          exact hnext _ rfl rfl rfl
        · rw [if_neg hmin]
          by_cases hall : (p0 :: rest).all
              (fun sg => bytesEqual (some (lib.ShortLabel p0)) (some (lib.ShortLabel sg))) = true
          · rw [if_pos hall]
            refine ⟨by simp, ?_⟩
            intro st' hst'
            have hst : st' = ⟨st.tries + 1, st.report ++ [lib.ShortLabel p0], st.walks + 1⟩ := by
              injection hst' with h
              exact h.symm
            subst hst
            refine ⟨by simp, by simp, ?_⟩
            intro hinv
            refine ⟨by simp [hinv.1], ?_⟩
            intro label hl
            simp only [List.mem_append, List.mem_singleton] at hl
            rcases hl with hl | hl
            · obtain ⟨t, htlt, hv⟩ := hinv.2 label hl
              exact ⟨t, by simp only; omega, hv⟩
            · refine ⟨st.walks, by simp, ?_⟩
              rw [hpart]
              refine ⟨p0, rest, rfl, hl, ?_, by omega, ?_⟩
              · rw [hpart] at hsup; omega
              · intro sg hsg
                rw [List.all_eq_true] at hall
                have := hall sg hsg
                rw [hl]
                exact ((bytesEqual_some_some _ _).1 this).symm
          · rw [if_neg hall]
            exact hnext _ rfl rfl rfl

theorem sampleLoop_spec (lib : GraphLib) (m : RandomWalkMiner) (walk : Nat → Graple.partition)
    (hS : 1 ≤ m.Support) (fuel : Nat) :
    ∀ (n : Nat) (st : sampleResult),
      m.sampleLoop lib walk fuel n st ≠ .error .panic ∧
      ∀ st', m.sampleLoop lib walk fuel n st = .ok st' →
        st'.report.length = st.report.length + n ∧ st.tries + n ≤ st'.tries ∧
        (n = 0 → st' = st) ∧
        (SampleInv lib m walk st → SampleInv lib m walk st') := by
  intro n
  induction n with
  | zero =>
    intro st
    refine ⟨by simp [RandomWalkMiner.sampleLoop], ?_⟩
    intro st' h
    have : st = st' := by
      simp only [RandomWalkMiner.sampleLoop] at h
      injection h
    subst this
    exact ⟨rfl, le_refl _, fun _ => rfl, fun h => h⟩
  | succ n ih =>
    intro st
    obtain ⟨hp, hok⟩ := sampleRetry_spec lib m walk hS fuel st
    unfold RandomWalkMiner.sampleLoop
    cases hr : m.sampleRetry lib walk fuel st with
    | error e =>
      refine ⟨?_, fun st' h => by simp at h⟩
      simp only
      intro hc
      injection hc with hc
      rw [hc] at hr
      exact hp hr
    | ok st1 =>
      simp only
      obtain ⟨r1, r2, r3⟩ := hok st1 hr
      obtain ⟨hp', hok'⟩ := ih st1
      refine ⟨hp', ?_⟩
      intro st' hst'
      obtain ⟨q1, q2, _, q4⟩ := hok' st' hst'
      exact ⟨by omega, by omega, fun h => by omega, fun hinv => q4 (r3 hinv)⟩

/-- C9: for `Support ≥ 1` and `size ≥ 0`, whatever partitions the calls of
`walk` return and however many iterations the retry loops are allowed,
`sample(size)` does not panic (the access `part[0]` is in range), and when it
returns, exactly `size` labels were published on `Report` before it was
closed, the number of tries returned is at least `size` and is the number of
calls of `walk` (both are zero, with nothing published, when `size = 0`), and
every published label is the short label of the first embedding of the result
of one of these calls that has at least `Support` embeddings, all with that
short label, and a first embedding of at least `MinVertices` vertices. -/
theorem sample_spec (lib : GraphLib) (m : RandomWalkMiner) (walk : Nat → Graple.partition)
    (fuel : Nat) (size : Int) (hS : 1 ≤ m.Support) (hsize : 0 ≤ size) :
    m.sample lib walk fuel size ≠ .error .panic ∧
    ∀ res, m.sample lib walk fuel size = .ok res →
      (res.report.length : Int) = size ∧ size ≤ (res.tries : Int) ∧ res.walks = res.tries ∧
      (size = 0 → res.tries = 0 ∧ res.walks = 0 ∧ res.report = []) ∧
      ∀ label ∈ res.report, ∃ t, t < res.walks ∧ ValidSample lib m (walk t) label := by
  obtain ⟨hp, hok⟩ := sampleLoop_spec lib m walk hS fuel size.toNat ⟨0, [], 0⟩
  refine ⟨hp, ?_⟩
  intro res hres
  obtain ⟨r1, r2, r3, r4⟩ := hok res hres
  have hinv : SampleInv lib m walk res := r4 ⟨rfl, fun label hl => by simp at hl⟩
  have hnat : (size.toNat : Int) = size := Int.toNat_of_nonneg hsize
  simp only [List.length_nil, Nat.zero_add] at r1 r2
  refine ⟨by rw [r1, hnat], by omega, hinv.1, ?_, hinv.2⟩
  intro h0
  have hz : size.toNat = 0 := by rw [h0]; rfl
  have := r3 hz
  subst this
  exact ⟨rfl, rfl, rfl⟩

theorem sample_spec_witness :
    1 ≤ exampleMiner.Support ∧ (0 : Int) ≤ 2 ∧
    (exampleMiner.sample exampleLib
        (fun n => if n = 0 then [vertexEmbedding 1] else [vertexEmbedding 1, vertexEmbedding 2])
        3 2 ≠ .error .panic ∧
    ∀ res, exampleMiner.sample exampleLib
        (fun n => if n = 0 then [vertexEmbedding 1] else [vertexEmbedding 1, vertexEmbedding 2])
        3 2 = .ok res →
      (res.report.length : Int) = 2 ∧ (2 : Int) ≤ (res.tries : Int) ∧ res.walks = res.tries ∧
      ((2 : Int) = 0 → res.tries = 0 ∧ res.walks = 0 ∧ res.report = []) ∧
      ∀ label ∈ res.report, ∃ t, t < res.walks ∧
        ValidSample exampleLib exampleMiner
          ((fun n => if n = 0 then [vertexEmbedding 1]
            else [vertexEmbedding 1, vertexEmbedding 2]) t) label) ∧
    exampleMiner.sample exampleLib
        (fun n => if n = 0 then [vertexEmbedding 1] else [vertexEmbedding 1, vertexEmbedding 2])
        3 2 = .ok ⟨3, [[1], [1]], 3⟩ :=
  ⟨by decide, by decide,
    sample_spec exampleLib exampleMiner
      (fun n => if n = 0 then [vertexEmbedding 1] else [vertexEmbedding 1, vertexEmbedding 2])
      3 2 (by decide) (by decide),
    by rfl⟩

/-! ## C10: where the walk stops -/

theorem supportedKeys_support (lib : GraphLib) (codec : SetCodec)
    (sched : List Bytes → List Bytes) (m : RandomWalkMiner) (k : Bytes) (C : SortedSet)
    (res : RandomWalkMiner.supportedKeysResult)
    (h : m.supportedKeys lib codec sched k C = .ok res) : res.miner.Support = m.Support := by
  unfold RandomWalkMiner.supportedKeys at h
  split at h
  · split at h
    · cases h
    · cases h; rfl
  · split at h
    · cases h
    · simp only at h
      split at h
      · cases h
      · cases h; rfl

theorem randomPartition_support (env : walkEnv) (m : RandomWalkMiner) (k : Bytes)
    (C : SortedSet) (r : Nat) (p : Graple.partition) (m' : RandomWalkMiner)
    (h : m.randomPartition env k C r = .ok (p, m')) : m'.Support = m.Support := by
  unfold RandomWalkMiner.randomPartition at h
  split at h
  · cases h
  · rename_i res hres
    have hsup := supportedKeys_support _ _ _ _ _ _ _ hres
    split at h
    · cases h; exact hsup
    · split at h
      · cases h
      · split at h
        · cases h
        · cases h; exact hsup

theorem callExtensions_support (env : walkEnv) (m : RandomWalkMiner) (sgs : Graple.partition)
    (keys : SortedSet) (m' : RandomWalkMiner)
    (h : m.callExtensions env sgs = .ok (keys, m')) : m'.Support = m.Support := by
  unfold RandomWalkMiner.callExtensions at h
  split at h
  · cases h
  · cases h; rfl

/-- With no supported key `randomPartition` returns the empty partition. -/
theorem randomPartition_empty (env : walkEnv) (m : RandomWalkMiner) (k : Bytes)
    (C : SortedSet) (r : Nat) (res : RandomWalkMiner.supportedKeysResult)
    (h : m.supportedKeys env.lib env.codec env.sched k C = .ok res)
    (hempty : res.supKeys.Size = 0) :
    m.randomPartition env k C r = .ok ([], res.miner) := by
  unfold RandomWalkMiner.randomPartition
  rw [h]
  simp only [hempty, Nat.cast_zero, le_refl, if_true]

/-- With a partition `next` of fewer than `Support` embeddings the loop of
`walk` ends at once and leaves `node` as it is. -/
theorem walkLoop_stop (env : walkEnv) (fuel : Nat) (m : RandomWalkMiner)
    (node next : Graple.partition) (adopted : List Graple.partition) (draws : Nat)
    (h : (next.length : Int) < m.Support) :
    RandomWalkMiner.walkLoop env (fuel + 1) m node next adopted draws =
      .ok ⟨node, next, adopted, m, draws⟩ := by
  unfold RandomWalkMiner.walkLoop
  rw [if_neg (by omega)]

theorem walkLoop_spec (env : walkEnv) :
    ∀ (fuel : Nat) (m : RandomWalkMiner) (node next : Graple.partition)
      (adopted : List Graple.partition) (draws : Nat) (res : walkResult),
      RandomWalkMiner.walkLoop env fuel m node next adopted draws = .ok res →
      res.miner.Support = m.Support ∧ WalkStop m.Support res.node res.next ∧
      (∀ p ∈ res.adopted, p ∈ adopted ∨ m.Support ≤ (p.length : Int)) ∧
      ((res.node = node ∧ res.adopted = adopted) ∨
        (res.adopted ≠ [] ∧ res.adopted.getLast? = some res.node)) := by
  intro fuel
  induction fuel with
  | zero =>
    intro m node next adopted draws res h
    simp [RandomWalkMiner.walkLoop] at h
  | succ fuel ih =>
    intro m node next adopted draws res h
    unfold RandomWalkMiner.walkLoop at h
    split at h
    · rename_i hsup
      split at h
      · cases h
      · rename_i exts m1 hext
        have hs1 := callExtensions_support env m next exts m1 hext
        split at h
        · cases h
        · rename_i n0 hn0
          split at h
          · cases h
          · rename_i next1 m2 hrp
            have hs2 := randomPartition_support env m1 _ exts _ next1 m2 hrp
            have hcont : ∀ res, RandomWalkMiner.walkLoop env fuel m2 next next1
                (adopted ++ [next]) (draws + 1) = .ok res →
                res.miner.Support = m.Support ∧ WalkStop m.Support res.node res.next ∧
                (∀ p ∈ res.adopted, p ∈ adopted ∨ m.Support ≤ (p.length : Int)) ∧
                ((res.node = node ∧ res.adopted = adopted) ∨
                  (res.adopted ≠ [] ∧ res.adopted.getLast? = some res.node)) := by
              intro res hres
              obtain ⟨r1, r2, r3, r4⟩ := ih m2 next next1 (adopted ++ [next]) (draws + 1) res hres
              rw [hs2, hs1] at r1 r2 r3
              refine ⟨r1, r2, ?_, ?_⟩
              · intro p hp
                rcases r3 p hp with h | h
                · rcases List.mem_append.1 h with h | h
                  · exact Or.inl h
                  · right
                    rw [List.mem_singleton] at h
                    rw [h]; exact hsup
                · exact Or.inr h
              · right
                rcases r4 with ⟨h1, h2⟩ | h
                · rw [h1, h2]
                  exact ⟨by simp, by simp⟩
                · exact h
            split at h
            · rename_i hsup2
              split at h
              · cases h
              · rename_i x0 hx0
                split at h
                · rename_i hE
                  cases h
                  refine ⟨by rw [hs2, hs1], ?_, ?_, ?_⟩
                  · exact Or.inr ⟨x0, n0, hx0, hn0, hE⟩
                  · intro p hp
                    rcases List.mem_append.1 hp with h | h
                    · exact Or.inl h
                    · right
                      rw [List.mem_singleton] at h
                      rw [h]; exact hsup
                  · right
                    exact ⟨by simp, by simp⟩
                · exact hcont res h
            · exact hcont res h
    · rename_i hsup
      cases h
      have hlt : ((next.length : Nat) : Int) < m.Support := by omega
      exact ⟨rfl, Or.inl hlt, fun p hp => Or.inl hp, Or.inl ⟨rfl, rfl⟩⟩

theorem drawChain_snoc (env : walkEnv) (l : List Graple.partition)
    (node next : Graple.partition) (hc : DrawChain env l) (hlast : l.getLast? = some node)
    (hd : ∃ mp mq r, DrawnFrom env mp node next mq r) : DrawChain env (l ++ [next]) := by
  intro i p q hp hq
  by_cases hi : i + 1 < l.length
  · rw [List.getElem?_append_left (by omega)] at hp
    rw [List.getElem?_append_left hi] at hq
    exact hc i p q hp hq
  · have hlen : i + 1 = l.length := by
      have := (List.getElem?_eq_some.1 hq).1
      rw [List.length_append, List.length_singleton] at this
      omega
    rw [List.getElem?_append_left (by omega)] at hp
    rw [List.getElem?_append_right (by omega), hlen, Nat.sub_self] at hq
    have hq' : q = next := by
      simp only [List.getElem?_cons_zero, Option.some.injEq] at hq
      exact hq.symm
    have hp' : p = node := by
      rw [List.getLast?_eq_getElem?, ← hlen, Nat.add_sub_cancel, hp] at hlast
      exact Option.some.inj hlast
    rw [hp', hq']
    exact hd

theorem walkLoop_trace (env : walkEnv) (node0 : Graple.partition) :
    ∀ (fuel : Nat) (m : RandomWalkMiner) (node next : Graple.partition)
      (adopted : List Graple.partition) (draws : Nat) (res : walkResult),
      RandomWalkMiner.walkLoop env fuel m node next adopted draws = .ok res →
      (∃ mp, DrawnFrom env mp node next m (env.rand (draws - 1))) → 2 ≤ draws →
      DrawChain env (node0 :: adopted) → (node0 :: adopted).getLast? = some node →
      (∃ mp, DrawnFrom env mp res.node res.next res.miner (env.rand (res.draws - 1))) ∧
      2 ≤ res.draws ∧ DrawChain env (node0 :: res.adopted) ∧
      (node0 :: res.adopted).getLast? = some res.node := by
  intro fuel
  induction fuel with
  | zero =>
    intro m node next adopted draws res h
    simp [RandomWalkMiner.walkLoop] at h
  | succ fuel ih =>
    intro m node next adopted draws res h hd h2 hc hl
    unfold RandomWalkMiner.walkLoop at h
    split at h
    · rename_i hsup
      split at h
      · cases h
      · rename_i exts m1 hext
        split at h
        · cases h
        · rename_i n0 hn0
          split at h
          · cases h
          · rename_i next1 m2 hrp
            have hdraw : DrawnFrom env m next next1 m2 (env.rand (draws + 1 - 1)) := by
              rw [Nat.add_sub_cancel]
              exact ⟨n0, exts, m1, hn0, hext, hrp⟩
            have hc' : DrawChain env (node0 :: (adopted ++ [next])) := by
              rw [← List.cons_append]
              obtain ⟨mp, hmp⟩ := hd
              exact drawChain_snoc env _ node next hc hl ⟨mp, m, _, hmp⟩
            have hl' : (node0 :: (adopted ++ [next])).getLast? = some next := by
              rw [← List.cons_append, List.getLast?_append]
              rfl
            have hcont : ∀ res, RandomWalkMiner.walkLoop env fuel m2 next next1
                (adopted ++ [next]) (draws + 1) = .ok res →
                (∃ mp, DrawnFrom env mp res.node res.next res.miner
                  (env.rand (res.draws - 1))) ∧
                2 ≤ res.draws ∧ DrawChain env (node0 :: res.adopted) ∧
                (node0 :: res.adopted).getLast? = some res.node :=
              fun res hres => ih m2 next next1 (adopted ++ [next]) (draws + 1) res hres
                ⟨m, hdraw⟩ (by omega) hc' hl'
            split at h
            · split at h
              · cases h
              · split at h
                · cases h
                  exact ⟨⟨m, hdraw⟩, by simp only; omega, hc', hl'⟩
                · exact hcont res h
            · exact hcont res h
    · cases h
      exact ⟨hd, h2, hc, hl⟩

/-- C10: when `walk` returns the partition `node`, the partition `next` of
the result is the one that the last call of `randomPartition` drew for the
extensions of `node`, and it has fewer than `Support` embeddings or as many
edges as `node` (in their first embeddings); every partition assigned to
`node` inside the loop, the last of which is the `node` returned, was drawn by
`randomPartition` for the extensions of the partition before it, starting
from the initial partition, and has at least `Support` embeddings. For
`Support ≥ 1`: when `supportedKeys` returns the empty set, `randomPartition`
returns the empty partition, and the loop of `walk` entered with the empty
partition as `next` returns the current `node` unchanged. -/
theorem walk_stops (env : walkEnv) (fuel : Nat) (m : RandomWalkMiner) (res : walkResult)
    (hS : 1 ≤ m.Support) (h : m.walk env fuel = .ok res) :
    WalkStop m.Support res.node res.next ∧
    (∃ mp, DrawnFrom env mp res.node res.next res.miner (env.rand (res.draws - 1))) ∧
    2 ≤ res.draws ∧
    (∃ node0, m.randomInitialPartition env (env.rand 0) = .ok node0 ∧
      DrawChain env (node0 :: res.adopted) ∧
      (node0 :: res.adopted).getLast? = some res.node) ∧
    (∀ p ∈ res.adopted, m.Support ≤ (p.length : Int)) ∧
    (res.adopted = [] → m.randomInitialPartition env (env.rand 0) = .ok res.node) ∧
    (res.adopted ≠ [] → res.adopted.getLast? = some res.node) ∧
    (∀ (m' : RandomWalkMiner) (k : Bytes) (C : SortedSet) (r : Nat)
      (sk : RandomWalkMiner.supportedKeysResult),
      m'.supportedKeys env.lib env.codec env.sched k C = .ok sk → sk.supKeys.Size = 0 →
      m'.randomPartition env k C r = .ok ([], sk.miner)) ∧
    (∀ (fuel' : Nat) (m' : RandomWalkMiner) (node : Graple.partition)
      (adopted : List Graple.partition) (draws : Nat), m'.Support = m.Support →
      RandomWalkMiner.walkLoop env (fuel' + 1) m' node [] adopted draws =
        .ok ⟨node, [], adopted, m', draws⟩) := by
  have hlast : ∀ (fuel' : Nat) (m' : RandomWalkMiner) (node : Graple.partition)
      (adopted : List Graple.partition) (draws : Nat), m'.Support = m.Support →
      RandomWalkMiner.walkLoop env (fuel' + 1) m' node [] adopted draws =
        .ok ⟨node, [], adopted, m', draws⟩ := by
    intro fuel' m' node adopted draws hs
    apply walkLoop_stop
    rw [hs]
    simp only [List.length_nil, Nat.cast_zero]
    omega
  unfold RandomWalkMiner.walk at h
  split at h
  · cases h
  · rename_i node hnode
    split at h
    · cases h
    · rename_i exts m1 hext
      have hs1 := callExtensions_support env m node exts m1 hext
      split at h
      · cases h
      · rename_i n0 hn0
        split at h
        · cases h
        · rename_i next m2 hrp
          have hs2 := randomPartition_support env m1 _ exts _ next m2 hrp
          obtain ⟨_, r2, r3, r4⟩ := walkLoop_spec env fuel m2 node next [] 2 res h
          obtain ⟨t1, t2, t3, t4⟩ := walkLoop_trace env node fuel m2 node next [] 2 res h
            ⟨m, n0, exts, m1, hn0, hext, hrp⟩ (le_refl _)
            (by
              intro i p q hp hq
              have := (List.getElem?_eq_some.1 hq).1
              simp at this)
            rfl
          rw [hs2, hs1] at r2 r3
          refine ⟨r2, t1, t2, ⟨node, hnode, t3, t4⟩, ?_, ?_, ?_, ?_, hlast⟩
          · intro p hp
            rcases r3 p hp with h | h
            · simp at h
            · exact h
          · intro hempty
            rcases r4 with ⟨h1, _⟩ | ⟨h1, _⟩
            · rw [h1]; exact hnode
            · exact absurd hempty h1
          · intro hne
            rcases r4 with ⟨_, h2⟩ | ⟨_, h2⟩
            · exact absurd h2 hne
            · exact h2
          · intro m' k C r sk hsk hempty
            exact randomPartition_empty env m' k C r sk hsk hempty

set_option maxRecDepth 100000 in
theorem walk_stops_witness :
    1 ≤ forkMiner.Support ∧
    ∃ res, forkMiner.walk forkWalkEnv 10 = .ok res ∧
      res.node = [tableEmbedding forkVertices [0, 4] [⟨0, 4, 3⟩],
        tableEmbedding forkVertices [1, 5] [⟨1, 5, 3⟩]] ∧
      res.next = [] ∧ res.adopted = [res.node] ∧ res.draws = 3 ∧
      WalkStop forkMiner.Support res.node res.next ∧
      (∃ mp, DrawnFrom forkWalkEnv mp res.node res.next res.miner
        (forkWalkEnv.rand (res.draws - 1))) ∧
      2 ≤ res.draws ∧
      (∃ node0, forkMiner.randomInitialPartition forkWalkEnv (forkWalkEnv.rand 0) = .ok node0 ∧
        DrawChain forkWalkEnv (node0 :: res.adopted) ∧
        (node0 :: res.adopted).getLast? = some res.node) ∧
      (∀ p ∈ res.adopted, forkMiner.Support ≤ (p.length : Int)) ∧
      (res.adopted = [] →
        forkMiner.randomInitialPartition forkWalkEnv (forkWalkEnv.rand 0) = .ok res.node) ∧
      (res.adopted ≠ [] → res.adopted.getLast? = some res.node) ∧
      (∀ (m' : RandomWalkMiner) (k : Bytes) (C : SortedSet) (r : Nat)
        (sk : RandomWalkMiner.supportedKeysResult),
        m'.supportedKeys forkWalkEnv.lib forkWalkEnv.codec forkWalkEnv.sched k C = .ok sk →
        sk.supKeys.Size = 0 →
        m'.randomPartition forkWalkEnv k C r = .ok ([], sk.miner)) ∧
      (∀ (fuel' : Nat) (m' : RandomWalkMiner) (node : Graple.partition)
        (adopted : List Graple.partition) (draws : Nat), m'.Support = forkMiner.Support →
        RandomWalkMiner.walkLoop forkWalkEnv (fuel' + 1) m' node [] adopted draws =
          .ok ⟨node, [], adopted, m', draws⟩) := by
  refine ⟨by decide, ?_⟩
  have hv : (match forkMiner.walk forkWalkEnv 10 with
      | .ok r => some (r.node, r.next, r.adopted, r.draws)
      | .error _ => none) =
      some ([tableEmbedding forkVertices [0, 4] [⟨0, 4, 3⟩],
          tableEmbedding forkVertices [1, 5] [⟨1, 5, 3⟩]], [],
        [[tableEmbedding forkVertices [0, 4] [⟨0, 4, 3⟩],
          tableEmbedding forkVertices [1, 5] [⟨1, 5, 3⟩]]], 3) := by
    rfl
  cases h : forkMiner.walk forkWalkEnv 10 with
  | error e => rw [h] at hv; cases hv
  | ok res =>
    rw [h] at hv
    simp only [Option.some.injEq, Prod.mk.injEq] at hv
    obtain ⟨h1, h2, h3, h4⟩ := hv
    exact ⟨res, rfl, h1, h2, by rw [h3, h1], h4,
      walk_stops forkWalkEnv 10 forkMiner res (by decide) h⟩

/-! ## C16: `Put` replaces, `Get` returns the set put -/

/-- C16: for every state of an `Fs2Sets`, also one in which the key `k` has
one or more values, and every set `S` whose serialization succeeds with bytes
`b` from which the encoding restores `S`: `Put(k, S)` returns, and afterwards
`Has(k)` is true, the serialized `S` is the only value stored under `k`, and
`Get(k)` returns `S`. -/
theorem fs2Sets_put_get (codec : SetCodec) (s : Fs2Sets) (k : Bytes) (S : SortedSet)
    (b : Bytes) (hb : codec.MarshalBinary S = some b) (hrt : codec.UnmarshalBinary b = some S) :
    ∃ s', s.Put codec k S = some s' ∧ s'.Has k = true ∧ s'.bpt.Count k = 1 ∧
      s'.bpt.Find k = [(k, b)] ∧ s'.Get codec k = some S := by
  obtain ⟨s', hput, hhas, hfind, _⟩ := fs2Sets_put codec s k S b hb
  refine ⟨s', hput, hhas, ?_, hfind, fs2Sets_get_of_find codec s' k b S hfind hrt⟩
  have hc : s'.bpt.Count k = (s'.bpt.Find k).length := rfl
  rw [hc, hfind]
  rfl

theorem fs2Sets_put_get_witness :
    exampleCodec.MarshalBinary ⟨[[2], [3]]⟩ = some [1, 2, 1, 3] ∧
    exampleCodec.UnmarshalBinary [1, 2, 1, 3] = some ⟨[[2], [3]]⟩ ∧
    ∃ s', Fs2Sets.Put exampleCodec ⟨⟨[([7], [1, 1]), ([7], [1, 5]), ([8], [])]⟩⟩ [7]
        ⟨[[2], [3]]⟩ = some s' ∧
      s'.Has [7] = true ∧ s'.bpt.Count [7] = 1 ∧ s'.bpt.Find [7] = [([7], [1, 2, 1, 3])] ∧
      s'.Get exampleCodec [7] = some ⟨[[2], [3]]⟩ :=
  ⟨by rfl, by rfl,
    fs2Sets_put_get exampleCodec ⟨⟨[([7], [1, 1]), ([7], [1, 5]), ([8], [])]⟩⟩ [7] ⟨[[2], [3]]⟩
      [1, 2, 1, 3] (by rfl) (by rfl)⟩

/-! ## C17: entries are stored under the short label of their embedding -/

/-- C17: for `N ≥ 1` shards and every sequence of sends and of receptions by
the shard goroutines from a new collector (the graph library restoring every
sent embedding from its serialization), the collector reaches a state without
a panic, and in every store of that state: a key that the store has, has a
count of at least one; every entry stored under a key `k` is the
serialization of a sent embedding `e` with
`shortLabel(deserialize(serialize(e))) = k`; and every item that `Find(k)`
yields carries the key `k` and an embedding whose short label is `k`. -/
theorem collector_entries_labelled (lib : GraphLib) (N : Nat) (hN : 1 ≤ N)
    (evs : List CollectorEvent)
    (hrt : ∀ sg, CollectorEvent.send sg ∈ evs → lib.DeserializeSubGraph (lib.Serialize sg) = sg) :
    ∃ c, runCollector lib evs (MakeParHashCollector N) = some c ∧
      ∀ (i : Nat) (t : Fs2BpTree), c.graphs[i]? = some t →
        (∀ k, t.Has k = true → 1 ≤ t.Count k) ∧
        (∀ k v, (k, v) ∈ t.bpt.entries → ∃ e, CollectorEvent.send e ∈ evs ∧
          v = lib.Serialize e ∧
          lib.ShortLabel (lib.DeserializeSubGraph (lib.Serialize e)) = k) ∧
        (∀ k item, item ∈ t.Find lib k → item.1 = k ∧ lib.ShortLabel item.2 = k) := by
  obtain ⟨c, hrun, hinv, _⟩ := runCollector_inv lib N hN (fun sg => CollectorEvent.send sg ∈ evs)
    hrt evs (MakeParHashCollector N) (collectorInv_init lib N _) (fun sg h => h)
  refine ⟨c, hrun, ?_⟩
  intro i t ht
  have hent : ∀ k v, (k, v) ∈ t.bpt.entries → ∃ e, CollectorEvent.send e ∈ evs ∧
      v = lib.Serialize e ∧ lib.ShortLabel (lib.DeserializeSubGraph (lib.Serialize e)) = k := by
    intro k v hkv
    obtain ⟨sg, hsent, heq, _⟩ := hinv.2.2.2.2.1 i t (k, v) ht hkv
    refine ⟨sg, hsent, (Prod.mk.inj heq).2, ?_⟩
    rw [hrt sg hsent]
    exact (Prod.mk.inj heq).1.symm
  refine ⟨?_, hent, ?_⟩
  · intro k hk
    have h1 : t.bpt.Has k = true := hk
    rw [bpt_has_eq_find] at h1
    show 1 ≤ (t.bpt.Find k).length
    cases hf : t.bpt.Find k with
    | nil => rw [hf] at h1; simp at h1
    | cons a l => simp
  · intro k item hitem
    unfold Fs2BpTree.Find Fs2BpTree.kvIter BpTree.Find at hitem
    rw [List.mem_map] at hitem
    obtain ⟨⟨k1, v⟩, hmem, hi⟩ := hitem
    rw [List.mem_filter] at hmem
    have hk : k1 = k := by simpa using hmem.2
    obtain ⟨e, _, hv, hl⟩ := hent k1 v hmem.1
    subst hi
    subst hk
    refine ⟨rfl, ?_⟩
    show lib.ShortLabel (lib.DeserializeSubGraph v) = k1
    rw [hv]; exact hl

theorem collector_entries_labelled_witness :
    1 ≤ 2 ∧
    (∀ sg, CollectorEvent.send sg ∈ exampleEvents →
      exampleLib.DeserializeSubGraph (exampleLib.Serialize sg) = sg) ∧
    ∃ c, runCollector exampleLib exampleEvents (MakeParHashCollector 2) = some c ∧
      ∀ (i : Nat) (t : Fs2BpTree), c.graphs[i]? = some t →
        (∀ k, t.Has k = true → 1 ≤ t.Count k) ∧
        (∀ k v, (k, v) ∈ t.bpt.entries → ∃ e, CollectorEvent.send e ∈ exampleEvents ∧
          v = exampleLib.Serialize e ∧
          exampleLib.ShortLabel (exampleLib.DeserializeSubGraph (exampleLib.Serialize e)) = k) ∧
        (∀ k item, item ∈ t.Find exampleLib k → item.1 = k ∧ exampleLib.ShortLabel item.2 = k) :=
  ⟨by decide,
    fun sg h => by
      simp only [exampleEvents, List.mem_cons, CollectorEvent.send.injEq, List.mem_singleton,
        reduceCtorEq, or_false, List.not_mem_nil] at h
      rcases h with h | h <;> subst h <;> rfl,
    collector_entries_labelled exampleLib 2 (by decide) exampleEvents
      (fun sg h => by
        simp only [exampleEvents, List.mem_cons, CollectorEvent.send.injEq, List.mem_singleton,
          reduceCtorEq, or_false, List.not_mem_nil] at h
        rcases h with h | h <;> subst h <;> rfl)⟩

/-! ## `probabilities` and `PrMatrices` -/

/-- One iteration of `probabilities` whose callees return and whose partition
is not empty returns, as `ProbabilityStep` describes. -/
theorem probability_step (env : walkEnv) (m : RandomWalkMiner) (n i : Nat) (sg : SubGraph)
    (part : Graple.partition) (keys : SortedSet) (m1 : RandomWalkMiner)
    (res : RandomWalkMiner.supportedKeysResult)
    (hp : m.partition env.lib (env.lib.ShortLabel sg) = .ok part) (hne : part ≠ [])
    (he : m.callExtensions env part = .ok (keys, m1))
    (hs : m1.supportedKeys env.lib env.codec env.sched (env.lib.ShortLabel sg) keys = .ok res) :
    ∃ p, m.probability env n i sg = .ok (p, res.miner) ∧
      ProbabilityStep env n i sg m res.miner res.supKeys.Size p := by
  have hstep : ∀ p : Int, (p = if i + 1 = n then -1 else Max.max 1 (res.supKeys.Size : Int)) →
      ProbabilityStep env n i sg m res.miner res.supKeys.Size p :=
    fun p h => ⟨part, keys, m1, res, hp, he, hs, rfl, rfl, h⟩
  unfold RandomWalkMiner.probability
  simp only [hp, he, hs]
  by_cases h1 : i + 1 = n
  · rw [if_pos h1]
    exact ⟨-1, rfl, hstep _ (by rw [if_pos h1])⟩
  · rw [if_neg h1]
    by_cases h2 : res.supKeys.Size = 0
    · rw [if_pos h2]
      cases part with
      | nil => exact absurd rfl hne
      | cons a l =>
        refine ⟨1, by simp, hstep _ ?_⟩
        rw [if_neg h1, h2]
        rfl
    · rw [if_neg h2]
      refine ⟨_, rfl, hstep _ ?_⟩
      rw [if_neg h1]
      have : 1 ≤ (res.supKeys.Size : Int) := by omega
      exact (max_eq_right this).symm

theorem uLoop_spec (n : Nat) (vp : Int) :
    ∀ (rest : List SubGraph) (i : Nat) (entries : List SparseEntry),
      uLoop n vp i rest entries = entries ++
        ((rest.enumFrom i).filter (fun jx => isVertexNode jx.2 && decide (jx.1 + 1 < n))).map
          (fun jx => ⟨0, (jx.1 : Int), vp⟩) := by
  intro rest
  induction rest with
  | nil => intro i entries; simp [uLoop]
  | cons x rest ih =>
    intro i entries
    rw [uLoop, List.enumFrom_cons, List.filter_cons]
    by_cases h : x.V.length = 1 ∧ x.E.length = 0 ∧ (i : Int) < (n : Int) - 1
    · have h2 : (isVertexNode (i, x).2 && decide ((i, x).1 + 1 < n)) = true := by
        simp only [isVertexNode, Bool.and_eq_true, decide_eq_true_eq]
        exact ⟨⟨h.1, h.2.1⟩, by omega⟩
      rw [if_pos h, if_pos h2, ih, List.map_cons, List.append_assoc]
      rfl
    · have h2 : ¬ (isVertexNode (i, x).2 && decide ((i, x).1 + 1 < n)) = true := by
        simp only [isVertexNode, Bool.and_eq_true, decide_eq_true_eq]
        intro hc
        exact h ⟨hc.1.1, hc.1.2, by omega⟩
      rw [if_neg h, if_neg h2, ih]

theorem qrLoop_spec (n : Nat) (p : List Int) :
    ∀ (arcs : List Arc) (Q R Q' R' : List SparseEntry),
      qrLoop n p arcs (Q, R) = some (Q', R') →
      (∀ e ∈ arcs, ∃ pe, sliceIndex p e.Src = some pe) ∧
      Q' = Q ++ (arcs.filter (fun e => decide (e.Targ < (n : Int) - 1))).map
        (fun e => ⟨e.Src, e.Targ, (sliceIndex p e.Src).getD 0⟩) ∧
      R' = R ++ (arcs.filter (fun e => decide ((n : Int) - 1 ≤ e.Targ))).map
        (fun e => ⟨e.Src, 0, (sliceIndex p e.Src).getD 0⟩) := by
  intro arcs
  induction arcs with
  | nil =>
    intro Q R Q' R' h
    rw [qrLoop] at h
    cases h
    simp
  | cons e rest ih =>
    intro Q R Q' R' h
    rw [qrLoop] at h
    cases hpe : sliceIndex p e.Src with
    | none => rw [hpe] at h; exact Option.noConfusion h
    | some pe =>
      rw [hpe] at h
      simp only at h
      by_cases ht : (n : Int) - 1 ≤ e.Targ
      · rw [if_pos ht] at h
        obtain ⟨h1, h2, h3⟩ := ih _ _ _ _ h
        refine ⟨?_, ?_, ?_⟩
        · intro x hx
          rcases List.mem_cons.1 hx with hx | hx
          · subst hx; exact ⟨pe, hpe⟩
          · exact h1 x hx
        · rw [h2, List.filter_cons, if_neg (by simp only [decide_eq_true_eq]; omega)]
        · rw [h3, List.filter_cons, if_pos (by simp only [decide_eq_true_eq]; omega), List.map_cons, hpe,
            List.append_assoc]
          rfl
      · rw [if_neg ht] at h
        obtain ⟨h1, h2, h3⟩ := ih _ _ _ _ h
        refine ⟨?_, ?_, ?_⟩
        · intro x hx
          rcases List.mem_cons.1 hx with hx | hx
          · subst hx; exact ⟨pe, hpe⟩
          · exact h1 x hx
        · rw [h2, List.filter_cons, if_pos (by simp only [decide_eq_true_eq]; omega), List.map_cons, hpe,
            List.append_assoc]
          rfl
        · rw [h3, List.filter_cons, if_neg (by simp only [decide_eq_true_eq]; omega)]

theorem supportedKeys_startingPoints (lib : GraphLib) (codec : SetCodec)
    (sched : List Bytes → List Bytes) (m : RandomWalkMiner) (k : Bytes) (C : SortedSet)
    (res : RandomWalkMiner.supportedKeysResult)
    (h : m.supportedKeys lib codec sched k C = .ok res) :
    res.miner.startingPoints = m.startingPoints := by
  unfold RandomWalkMiner.supportedKeys at h
  split at h
  · split at h
    · cases h
    · cases h; rfl
  · split at h
    · cases h
    · simp only at h
      split at h
      · cases h
      · cases h; rfl

theorem callExtensions_startingPoints (env : walkEnv) (m : RandomWalkMiner)
    (sgs : Graple.partition) (keys : SortedSet) (m' : RandomWalkMiner)
    (h : m.callExtensions env sgs = .ok (keys, m')) : m'.startingPoints = m.startingPoints := by
  unfold RandomWalkMiner.callExtensions at h
  split at h
  · cases h
  · cases h; rfl

theorem probability_startingPoints (env : walkEnv) (m : RandomWalkMiner) (n i : Nat)
    (sg : SubGraph) (p : Int) (m' : RandomWalkMiner)
    (h : m.probability env n i sg = .ok (p, m')) : m'.startingPoints = m.startingPoints := by
  unfold RandomWalkMiner.probability at h
  cases hp : m.partition env.lib (env.lib.ShortLabel sg) with
  | error e => simp only [hp] at h; cases h
  | ok part =>
    simp only [hp] at h
    cases he : m.callExtensions env part with
    | error e => simp only [he] at h; cases h
    | ok km =>
      obtain ⟨keys, m1⟩ := km
      simp only [he] at h
      cases hs : m1.supportedKeys env.lib env.codec env.sched (env.lib.ShortLabel sg) keys with
      | error e => simp only [hs] at h; cases h
      | ok res =>
        simp only [hs] at h
        have h1 := callExtensions_startingPoints env m _ keys m1 he
        have h2 := supportedKeys_startingPoints _ _ _ _ _ _ _ hs
        split at h
        · cases h; rw [h2, h1]
        · split at h
          · split at h
            · cases h
            · cases h; rw [h2, h1]
          · cases h; rw [h2, h1]

theorem probabilitiesLoop_startingPoints (env : walkEnv) (n : Nat) :
    ∀ (rest : List SubGraph) (i : Nat) (m : RandomWalkMiner) (P P' : List Int)
      (m' : RandomWalkMiner),
      RandomWalkMiner.probabilitiesLoop env n i rest m P = .ok (P', m') →
      m'.startingPoints = m.startingPoints ∧ P'.length = P.length := by
  intro rest
  induction rest with
  | nil =>
    intro i m P P' m' h
    rw [RandomWalkMiner.probabilitiesLoop] at h
    cases h
    exact ⟨rfl, rfl⟩
  | cons sg rest ih =>
    intro i m P P' m' h
    rw [RandomWalkMiner.probabilitiesLoop] at h
    split at h
    · cases h
    · rename_i p m1 hp
      obtain ⟨h1, h2⟩ := ih _ _ _ _ _ h
      rw [h1, h2, List.length_set]
      exact ⟨probability_startingPoints env m n i sg p m1 hp, rfl⟩

/-- What a result of `PrMatrices` is made of. -/
theorem prMatrices_eq (env : walkEnv) (m : RandomWalkMiner) (lattice : Lattice)
    (r : PrMatricesResult) (h : m.PrMatrices env lattice = .ok r) :
    1 ≤ lattice.V.length ∧
    ∃ P, m.probabilities env lattice = .ok (P, r.miner) ∧ P.length = lattice.V.length ∧
      r.vp = (m.startingPoints.Size : Int) ∧
      r.Q.Rows = (lattice.V.length : Int) - 1 ∧ r.Q.Cols = (lattice.V.length : Int) - 1 ∧
      r.R.Rows = (lattice.V.length : Int) - 1 ∧ r.R.Cols = 1 ∧
      r.u.Rows = 1 ∧ r.u.Cols = (lattice.V.length : Int) - 1 ∧
      r.u.Entries = (lattice.V.enum.filter
        (fun jx => isVertexNode jx.2 && decide (jx.1 + 1 < lattice.V.length))).map
          (fun jx => ⟨0, (jx.1 : Int), r.vp⟩) ∧
      (∀ e ∈ lattice.E, ∃ pe, sliceIndex P e.Src = some pe) ∧
      r.Q.Entries = (lattice.E.filter
        (fun e => decide (e.Targ < (lattice.V.length : Int) - 1))).map
          (fun e => ⟨e.Src, e.Targ, (sliceIndex P e.Src).getD 0⟩) ∧
      r.R.Entries = (lattice.E.filter
        (fun e => decide ((lattice.V.length : Int) - 1 ≤ e.Targ))).map
          (fun e => ⟨e.Src, 0, (sliceIndex P e.Src).getD 0⟩) := by
  unfold RandomWalkMiner.PrMatrices at h
  split at h
  · cases h
  · rename_i P m' hP
    have hsp := probabilitiesLoop_startingPoints env _ _ _ _ _ _ _ hP
    simp only at h
    split at h
    · cases h
    · rename_i hn
      split at h
      · cases h
      · rename_i Q R hqr
        obtain ⟨h1, h2, h3⟩ := qrLoop_spec _ _ _ _ _ _ _ hqr
        cases h
        refine ⟨by omega, P, hP, ?_, ?_, rfl, rfl, rfl, rfl, rfl, rfl, ?_, h1, ?_, ?_⟩
        · rw [hsp.2, List.length_replicate]
        · show (m'.startingPoints.Size : Int) = _
          rw [hsp.1]
        · show uLoop _ _ 0 lattice.V [] = _
          rw [uLoop_spec, List.nil_append]
          rfl
        · rw [h2, List.nil_append]
        · rw [h3, List.nil_append]

theorem probabilitiesLoop_trace (env : walkEnv) (n : Nat) :
    ∀ (rest : List SubGraph) (i : Nat) (m : RandomWalkMiner) (P : List Int)
      (states : List RandomWalkMiner),
      states[0]? = some m →
      (∀ j sg, rest[j]? = some sg → ∃ mi part keys m1 res, states[j]? = some mi ∧
        mi.partition env.lib (env.lib.ShortLabel sg) = .ok part ∧ part ≠ [] ∧
        mi.callExtensions env part = .ok (keys, m1) ∧
        m1.supportedKeys env.lib env.codec env.sched (env.lib.ShortLabel sg) keys = .ok res ∧
        states[j + 1]? = some res.miner) →
      P.length = n → i + rest.length = n →
      ∃ (P' : List Int) (m' : RandomWalkMiner),
        RandomWalkMiner.probabilitiesLoop env n i rest m P = .ok (P', m') ∧
        P'.length = n ∧ states[rest.length]? = some m' ∧
        (∀ j, j < i → P'[j]? = P[j]?) ∧
        (∀ j sg, rest[j]? = some sg → ∃ mi mi1 c p, states[j]? = some mi ∧
          states[j + 1]? = some mi1 ∧ ProbabilityStep env n (i + j) sg mi mi1 c p ∧
          P'[i + j]? = some p) := by
  intro rest
  induction rest with
  | nil =>
    intro i m P states h0 _ hlen _
    refine ⟨P, m, rfl, hlen, h0, fun j _ => rfl, ?_⟩
    intro j sg h
    simp at h
  | cons sg rest ih =>
    intro i m P states h0 hcalls hlen hi
    obtain ⟨mi, part, keys, m1, res, hmi, hp, hne, he, hs, hnext⟩ := hcalls 0 sg (by simp)
    rw [h0] at hmi
    cases hmi
    cases states with
    | nil => simp at h0
    | cons s0 tl =>
      rw [List.getElem?_cons_zero] at h0
      cases h0
      rw [List.getElem?_cons_succ] at hnext
      obtain ⟨p, hprob, hps⟩ := probability_step env m n i sg part keys m1 res hp hne he hs
      have hlen' : (P.set i p).length = n := by rw [List.length_set]; exact hlen
      rw [List.length_cons] at hi
      have hcalls' : ∀ j x, rest[j]? = some x → ∃ mi part keys m1 res, tl[j]? = some mi ∧
          mi.partition env.lib (env.lib.ShortLabel x) = .ok part ∧ part ≠ [] ∧
          mi.callExtensions env part = .ok (keys, m1) ∧
          m1.supportedKeys env.lib env.codec env.sched (env.lib.ShortLabel x) keys = .ok res ∧
          tl[j + 1]? = some res.miner := by
        intro j x hx
        obtain ⟨mi, part, keys, m1, res, h1, h2, h3, h4, h5, h6⟩ := hcalls (j + 1) x
          (by rw [List.getElem?_cons_succ]; exact hx)
        rw [List.getElem?_cons_succ] at h1 h6
        exact ⟨mi, part, keys, m1, res, h1, h2, h3, h4, h5, h6⟩
      obtain ⟨P', m', hrun, hl, hsn, hkeep, hsteps⟩ :=
        ih (i + 1) res.miner (P.set i p) tl hnext hcalls' hlen' (by omega)
      refine ⟨P', m', ?_, hl, ?_, ?_, ?_⟩
      · rw [RandomWalkMiner.probabilitiesLoop, hprob]
        exact hrun
      · rw [List.length_cons, List.getElem?_cons_succ]
        exact hsn
      · intro j hj
        rw [hkeep j (by omega), List.getElem?_set_ne (by omega)]
      · intro j x hx
        cases j with
        | zero =>
          rw [List.getElem?_cons_zero] at hx
          cases hx
          refine ⟨m, res.miner, _, p, by simp, ?_, hps, ?_⟩
          · rw [List.getElem?_cons_succ]; exact hnext
          · rw [Nat.add_zero, hkeep i (by omega), List.getElem?_set_self (by omega)]
        | succ j =>
          rw [List.getElem?_cons_succ] at hx
          obtain ⟨mi, mi1, c, q, h1, h2, h3, h4⟩ := hsteps j x hx
          refine ⟨mi, mi1, c, q, ?_, ?_, ?_, ?_⟩
          · rw [List.getElem?_cons_succ]; exact h1
          · rw [List.getElem?_cons_succ]; exact h2
          · rw [show i + (j + 1) = i + 1 + j by omega]; exact h3
          · rw [show i + (j + 1) = i + 1 + j by omega]; exact h4

theorem rowSum_map (g : Int → Int) (col : Arc → Int) (arcs : List Arc) (i : Int) :
    rowSum (arcs.map (fun e => ⟨e.Src, col e, g e.Src⟩)) i =
      ((arcs.filter (fun e => decide (e.Src = i))).length : ℚ) * (1 / (g i : ℚ)) := by
  induction arcs with
  | nil => simp [rowSum]
  | cons e rest ih =>
    unfold rowSum at ih ⊢
    rw [List.map_cons, List.filter_cons, List.filter_cons]
    by_cases h : e.Src = i
    · have h1 : decide ((⟨e.Src, col e, g e.Src⟩ : SparseEntry).Row = i) = true := by simpa using h
      have h2 : decide (e.Src = i) = true := by simpa using h
      rw [if_pos h1, if_pos h2, List.map_cons, List.sum_cons, ih, List.length_cons]
      simp only [h]
      push_cast
      ring
    · have h1 : ¬ decide ((⟨e.Src, col e, g e.Src⟩ : SparseEntry).Row = i) = true := by simpa using h
      have h2 : ¬ decide (e.Src = i) = true := by simpa using h
      rw [if_neg h1, if_neg h2, ih]

theorem filter_split_length (arcs : List Arc) (k i : Int) :
    ((arcs.filter (fun e => decide (e.Targ < k))).filter (fun e => decide (e.Src = i))).length +
      ((arcs.filter (fun e => decide (k ≤ e.Targ))).filter (fun e => decide (e.Src = i))).length =
      (arcs.filter (fun e => decide (e.Src = i))).length := by
  induction arcs with
  | nil => rfl
  | cons e rest ih =>
    by_cases h1 : e.Targ < k <;> by_cases h2 : e.Src = i
    · have h3 : ¬ k ≤ e.Targ := by omega
      simp only [List.filter_cons, h1, h2, h3, decide_True, decide_False, if_true, if_false,
        List.length_cons, Bool.false_eq_true]
      omega
    · have h3 : ¬ k ≤ e.Targ := by omega
      simp only [List.filter_cons, h1, h2, h3, decide_True, decide_False, if_true, if_false,
        List.length_cons, Bool.false_eq_true]
      omega
    · have h3 : k ≤ e.Targ := by omega
      simp only [List.filter_cons, h1, h2, h3, decide_True, decide_False, if_true, if_false,
        List.length_cons, Bool.false_eq_true]
      omega
    · have h3 : k ≤ e.Targ := by omega
      simp only [List.filter_cons, h1, h2, h3, decide_True, decide_False, if_true, if_false,
        List.length_cons, Bool.false_eq_true]
      omega

/-- The sum of a row of `Q` and `R` is the number of arcs from the node over
its entry of `P`. -/
theorem prMatrices_rowSum (env : walkEnv) (m : RandomWalkMiner) (lattice : Lattice)
    (r : PrMatricesResult) (P : List Int) (h : m.PrMatrices env lattice = .ok r)
    (hP : m.probabilities env lattice = .ok (P, r.miner)) (i : Int) :
    rowSum r.Q.Entries i + rowSum r.R.Entries i =
      (outDegree lattice i : ℚ) / (((sliceIndex P i).getD 0 : Int) : ℚ) := by
  obtain ⟨_, P', hP', _, _, _, _, _, _, _, _, _, _, hQ, hR⟩ := prMatrices_eq env m lattice r h
  rw [hP] at hP'
  cases hP'
  rw [hQ, hR, rowSum_map (fun s => (sliceIndex P s).getD 0) (fun e => e.Targ),
    rowSum_map (fun s => (sliceIndex P s).getD 0) (fun _ => 0), ← add_mul]
  have := filter_split_length lattice.E ((lattice.V.length : Int) - 1) i
  unfold outDegree
  rw [← this]
  push_cast
  ring

/-! ## C11: the matrices of `PrMatrices` -/

/-- C11: when `PrMatrices` returns without an error for a lattice of `n`
nodes, then `n ≥ 1`, `probabilities` has returned a slice `P` of length `n`,
`vp` is the size of `startingPoints`, `Q` has `n-1` rows and columns, `R` has
`n-1` rows and one column, `u` has one row and `n-1` columns; the entries of
`u` are one entry `(0, i)` with the inverse `vp` for every position
`i < n-1` whose node has one vertex and no edge; every arc has a source that
indexes `P`; the entries of `Q` are one entry `(Src, Targ)` with the inverse
`P[Src]` for every arc with `Targ < n-1`, the entries of `R` one entry
`(Src, 0)` with the inverse `P[Src]` for every arc with `Targ ≥ n-1`; and `Q`
and `R` together have as many entries as the lattice has arcs. -/
theorem prMatrices_entries (env : walkEnv) (m : RandomWalkMiner) (lattice : Lattice)
    (r : PrMatricesResult) (h : m.PrMatrices env lattice = .ok r) :
    1 ≤ lattice.V.length ∧
    ∃ P, m.probabilities env lattice = .ok (P, r.miner) ∧ P.length = lattice.V.length ∧
      r.vp = (m.startingPoints.Size : Int) ∧
      r.Q.Rows = (lattice.V.length : Int) - 1 ∧ r.Q.Cols = (lattice.V.length : Int) - 1 ∧
      r.R.Rows = (lattice.V.length : Int) - 1 ∧ r.R.Cols = 1 ∧
      r.u.Rows = 1 ∧ r.u.Cols = (lattice.V.length : Int) - 1 ∧
      r.u.Entries = (lattice.V.enum.filter
        (fun jx => isVertexNode jx.2 && decide (jx.1 + 1 < lattice.V.length))).map
          (fun jx => ⟨0, (jx.1 : Int), r.vp⟩) ∧
      (∀ e ∈ lattice.E, ∃ pe, sliceIndex P e.Src = some pe) ∧
      r.Q.Entries = (lattice.E.filter
        (fun e => decide (e.Targ < (lattice.V.length : Int) - 1))).map
          (fun e => ⟨e.Src, e.Targ, (sliceIndex P e.Src).getD 0⟩) ∧
      r.R.Entries = (lattice.E.filter
        (fun e => decide ((lattice.V.length : Int) - 1 ≤ e.Targ))).map
          (fun e => ⟨e.Src, 0, (sliceIndex P e.Src).getD 0⟩) ∧
      r.Q.Entries.length + r.R.Entries.length = lattice.E.length := by
  obtain ⟨h1, P, h2, h3, h4, h5, h6, h7, h8, h9, h10, h11, h12, hQ, hR⟩ :=
    prMatrices_eq env m lattice r h
  refine ⟨h1, P, h2, h3, h4, h5, h6, h7, h8, h9, h10, h11, h12, hQ, hR, ?_⟩
  rw [hQ, hR, List.length_map, List.length_map]
  generalize ((lattice.V.length : Int) - 1) = k
  induction lattice.E with
  | nil => rfl
  | cons e rest ih =>
    by_cases hk : e.Targ < k
    · have hk2 : ¬ k ≤ e.Targ := by omega
      simp only [List.filter_cons, hk, hk2, decide_True, decide_False, if_true, if_false,
        List.length_cons, Bool.false_eq_true]
      omega
    · have hk2 : k ≤ e.Targ := by omega
      simp only [List.filter_cons, hk, hk2, decide_True, decide_False, if_true, if_false,
        List.length_cons, Bool.false_eq_true]
      omega

set_option maxRecDepth 100000 in
theorem prMatrices_entries_witness :
    ∃ r, toyMiner.PrMatrices toyWalkEnv toyLattice = .ok r ∧
      r.vp = 3 ∧ r.u.Entries = [⟨0, 0, 3⟩, ⟨0, 1, 3⟩] ∧ r.Q.Entries = [] ∧
      r.R.Entries = [⟨0, 0, 2⟩, ⟨1, 0, 1⟩] ∧
      1 ≤ toyLattice.V.length ∧
      ∃ P, toyMiner.probabilities toyWalkEnv toyLattice = .ok (P, r.miner) ∧
        P.length = toyLattice.V.length ∧
        r.vp = (toyMiner.startingPoints.Size : Int) ∧
        r.Q.Rows = (toyLattice.V.length : Int) - 1 ∧ r.Q.Cols = (toyLattice.V.length : Int) - 1 ∧
        r.R.Rows = (toyLattice.V.length : Int) - 1 ∧ r.R.Cols = 1 ∧
        r.u.Rows = 1 ∧ r.u.Cols = (toyLattice.V.length : Int) - 1 ∧
        r.u.Entries = (toyLattice.V.enum.filter
          (fun jx => isVertexNode jx.2 && decide (jx.1 + 1 < toyLattice.V.length))).map
            (fun jx => ⟨0, (jx.1 : Int), r.vp⟩) ∧
        (∀ e ∈ toyLattice.E, ∃ pe, sliceIndex P e.Src = some pe) ∧
        r.Q.Entries = (toyLattice.E.filter
          (fun e => decide (e.Targ < (toyLattice.V.length : Int) - 1))).map
            (fun e => ⟨e.Src, e.Targ, (sliceIndex P e.Src).getD 0⟩) ∧
        r.R.Entries = (toyLattice.E.filter
          (fun e => decide ((toyLattice.V.length : Int) - 1 ≤ e.Targ))).map
            (fun e => ⟨e.Src, 0, (sliceIndex P e.Src).getD 0⟩) ∧
        r.Q.Entries.length + r.R.Entries.length = toyLattice.E.length := by
  have hv : (match toyMiner.PrMatrices toyWalkEnv toyLattice with
      | .ok r => some (r.vp, r.u.Entries, r.Q.Entries, r.R.Entries)
      | .error _ => none) = some (3, [⟨0, 0, 3⟩, ⟨0, 1, 3⟩], [], [⟨0, 0, 2⟩, ⟨1, 0, 1⟩]) := by
    rfl
  cases h : toyMiner.PrMatrices toyWalkEnv toyLattice with
  | error e => rw [h] at hv; cases hv
  | ok r =>
    rw [h] at hv
    simp only [Option.some.injEq, Prod.mk.injEq] at hv
    exact ⟨r, rfl, hv.1, hv.2.1, hv.2.2.1, hv.2.2.2, prMatrices_entries _ _ _ r h⟩

/-! ## C12: the sums of the rows of `Q` and `R` -/

set_option maxRecDepth 100000 in
/-- C12, counterexample: on `forkGraph` with the support 2, `sample(1)`
publishes the label of the pattern `a→b`: the walk from the state of
`initial` returns the partition of the embeddings `a1→b1` and `a2→b2`. For
the sampled embedding `a1→b1`, whose lattice has the nodes `a`, `b` and
`a→b`, `PrMatrices` on the miner after the walk returns matrices in which the
row of the node `a`, which is not the absorbing node, sums to `1/2`: the
pattern `a` has the two supported extensions `a→b` and `a→c`, so `P[0] = 2`,
and the lattice has one arc from `a`. -/
theorem prMatrices_row_sum_counterexample :
    RandomWalkMiner.initial forkEnv 1 2 20
      = .ok (forkMiner.AllEmbeddings, forkMiner.startingPoints) ∧
    RandomWalkMiner.sampleInitial forkEnv id (fun _ => 0) 1 2 1 20 10 10 1
      = .ok ⟨1, [toyLib.ShortLabel (tableEmbedding forkVertices [0, 4] [⟨0, 4, 3⟩])], 1⟩ ∧
    (∃ res, forkMiner.walk forkWalkEnv 10 = .ok res ∧
      res.node = [tableEmbedding forkVertices [0, 4] [⟨0, 4, 3⟩],
        tableEmbedding forkVertices [1, 5] [⟨1, 5, 3⟩]] ∧
      res.miner = forkSampled) ∧
    ∃ r, forkSampled.PrMatrices forkWalkEnv forkLattice = .ok r ∧
      (0 : Int) < (forkLattice.V.length : Int) - 1 ∧
      rowSum r.Q.Entries 0 + rowSum r.R.Entries 0 = 1 / 2 ∧
      rowSum r.Q.Entries 0 + rowSum r.R.Entries 0 ≠ 1 := by
  refine ⟨rfl, rfl, ⟨_, rfl, rfl, rfl⟩, ?_⟩
  have hv : (match forkSampled.PrMatrices forkWalkEnv forkLattice with
      | .ok r => some (r.Q.Entries, r.R.Entries)
      | .error _ => none) = some ([], [⟨0, 0, 2⟩, ⟨1, 0, 1⟩]) := by
    rfl
  cases h : forkSampled.PrMatrices forkWalkEnv forkLattice with
  | error e => rw [h] at hv; cases hv
  | ok r =>
    rw [h] at hv
    simp only [Option.some.injEq, Prod.mk.injEq] at hv
    have hsum : rowSum r.Q.Entries 0 + rowSum r.R.Entries 0 = 1 / 2 := by
      rw [hv.1, hv.2]
      norm_num [rowSum, List.filter]
    refine ⟨r, rfl, by decide, hsum, ?_⟩
    rw [hsum]
    norm_num

/-- C12, amended: when `PrMatrices` returns without an error, with the slice
`P` of `probabilities`, the sum of `1/Inverse` over the entries of `Q` and of
`R` in the row `i` is the number of arcs of the lattice with the source `i`
divided by `P[i]`; for a row with `P[i] ≥ 1` the sum is 1 exactly when `P[i]`
is the number of arcs with the source `i`. -/
theorem prMatrices_row_sum (env : walkEnv) (m : RandomWalkMiner) (lattice : Lattice)
    (r : PrMatricesResult) (h : m.PrMatrices env lattice = .ok r) (i : Int) :
    ∃ P, m.probabilities env lattice = .ok (P, r.miner) ∧
      rowSum r.Q.Entries i + rowSum r.R.Entries i =
        (outDegree lattice i : ℚ) / (((sliceIndex P i).getD 0 : Int) : ℚ) ∧
      ∀ p, sliceIndex P i = some p → 1 ≤ p →
        (rowSum r.Q.Entries i + rowSum r.R.Entries i = 1 ↔ (outDegree lattice i : Int) = p) := by
  obtain ⟨_, P, hP, _⟩ := prMatrices_eq env m lattice r h
  have hsum := prMatrices_rowSum env m lattice r P h hP i
  refine ⟨P, hP, hsum, ?_⟩
  intro p hp hp1
  rw [hsum, hp, Option.getD_some]
  have hp0 : (p : ℚ) ≠ 0 := by
    have : (0 : Int) < p := by omega
    exact_mod_cast this.ne'
  rw [div_eq_one_iff_eq hp0]
  constructor
  · intro hq
    exact_mod_cast hq
  · intro hq
    exact_mod_cast hq

set_option maxRecDepth 100000 in
theorem prMatrices_row_sum_witness :
    ∃ r, toyMiner.PrMatrices toyWalkEnv toyLattice = .ok r ∧
      ∃ P, toyMiner.probabilities toyWalkEnv toyLattice = .ok (P, r.miner) ∧
        rowSum r.Q.Entries 1 + rowSum r.R.Entries 1 =
          (outDegree toyLattice 1 : ℚ) / (((sliceIndex P 1).getD 0 : Int) : ℚ) ∧
        ∀ p, sliceIndex P 1 = some p → 1 ≤ p →
          (rowSum r.Q.Entries 1 + rowSum r.R.Entries 1 = 1 ↔
            (outDegree toyLattice 1 : Int) = p) := by
  have hv : (toyMiner.PrMatrices toyWalkEnv toyLattice).toBool = true := by rfl
  cases h : toyMiner.PrMatrices toyWalkEnv toyLattice with
  | error e => rw [h] at hv; cases hv
  | ok r => exact ⟨r, rfl, prMatrices_row_sum _ _ _ r h 1⟩

/-! ## C13: the slice of `probabilities` -/

/-- C13: for a lattice of `n ≥ 1` nodes and a run of the callees of
`probabilities` along the miners `states` (from the miner `states[i]`, for
the node `x_i`, `partition` returns a partition that is not empty,
`extensions` returns for it and `supportedKeys` returns and leaves the miner
`states[i+1]`), `probabilities` returns a slice `P` of length `n` and leaves
the miner `states[n]`; `P[n-1] = -1`; for every `i < n-1`,
`P[i] = max(1, c_i) ≥ 1`, where `c_i` is the size of the set that
`supportedKeys` returned for the label of `x_i` and the extensions of its
partition; and in a result of `PrMatrices` every entry of `Q` or `R` in a row
below `n-1` has an inverse of at least 1. -/
theorem probabilities_spec (env : walkEnv) (m : RandomWalkMiner) (lattice : Lattice)
    (states : List RandomWalkMiner) (hn : 1 ≤ lattice.V.length) (h0 : states[0]? = some m)
    (hcalls : ∀ i sg, lattice.V[i]? = some sg → ∃ mi part keys m1 res, states[i]? = some mi ∧
      mi.partition env.lib (env.lib.ShortLabel sg) = .ok part ∧ part ≠ [] ∧
      mi.callExtensions env part = .ok (keys, m1) ∧
      m1.supportedKeys env.lib env.codec env.sched (env.lib.ShortLabel sg) keys = .ok res ∧
      states[i + 1]? = some res.miner) :
    ∃ P m', m.probabilities env lattice = .ok (P, m') ∧ P.length = lattice.V.length ∧
      states[lattice.V.length]? = some m' ∧
      P[lattice.V.length - 1]? = some (-1) ∧
      (∀ i sg, lattice.V[i]? = some sg → ∃ mi mi1 c p, states[i]? = some mi ∧
        states[i + 1]? = some mi1 ∧ ProbabilityStep env lattice.V.length i sg mi mi1 c p ∧
        P[i]? = some p ∧
        (i + 1 < lattice.V.length → p = Max.max 1 (c : Int) ∧ 1 ≤ p) ∧
        (i + 1 = lattice.V.length → p = -1)) ∧
      (∀ r, m.PrMatrices env lattice = .ok r → ∀ s ∈ r.Q.Entries ++ r.R.Entries,
        s.Row < (lattice.V.length : Int) - 1 → 1 ≤ s.Inverse) := by
  obtain ⟨P, m', hrun, hlen, hlast, _, hsteps⟩ :=
    probabilitiesLoop_trace env lattice.V.length lattice.V 0 m
      (List.replicate lattice.V.length 0) states h0 hcalls (by simp) (by simp)
  have hsteps' : ∀ i sg, lattice.V[i]? = some sg → ∃ mi mi1 c p, states[i]? = some mi ∧
      states[i + 1]? = some mi1 ∧ ProbabilityStep env lattice.V.length i sg mi mi1 c p ∧
      P[i]? = some p ∧
      (i + 1 < lattice.V.length → p = Max.max 1 (c : Int) ∧ 1 ≤ p) ∧
      (i + 1 = lattice.V.length → p = -1) := by
    intro i sg hsg
    obtain ⟨mi, mi1, c, p, h1, h2, h3, h4⟩ := hsteps i sg hsg
    rw [Nat.zero_add] at h3 h4
    refine ⟨mi, mi1, c, p, h1, h2, h3, h4, ?_, ?_⟩
    · intro hi
      obtain ⟨_, _, _, _, _, _, _, _, _, hp⟩ := h3
      rw [if_neg (by omega)] at hp
      rw [hp]
      exact ⟨rfl, le_max_left _ _⟩
    · intro hi
      obtain ⟨_, _, _, _, _, _, _, _, _, hp⟩ := h3
      rw [if_pos hi] at hp
      exact hp
  have hpos : ∀ (i : Nat) (p : Int), i + 1 < lattice.V.length → P[i]? = some p → 1 ≤ p := by
    intro i p hi hp
    obtain ⟨sg, hsg⟩ := getElem?_some_of_lt lattice.V i (by omega)
    obtain ⟨_, _, _, q, _, _, _, h4, h5, _⟩ := hsteps' i sg hsg
    rw [h4] at hp
    cases hp
    exact (h5 hi).2
  refine ⟨P, m', hrun, hlen, hlast, ?_, hsteps', ?_⟩
  · obtain ⟨sg, hsg⟩ := getElem?_some_of_lt lattice.V (lattice.V.length - 1) (by omega)
    obtain ⟨_, _, _, p, _, _, _, h4, _, h6⟩ := hsteps' _ sg hsg
    rw [h4, h6 (by omega)]
  · intro r hr s hs hrow
    obtain ⟨_, P', hP', _, _, _, _, _, _, _, _, _, hidx, hQ, hR⟩ := prMatrices_eq env m lattice r hr
    have hPP : m.probabilities env lattice = .ok (P, m') := hrun
    rw [hPP] at hP'
    cases hP'
    have key : ∀ e ∈ lattice.E, e.Src < (lattice.V.length : Int) - 1 →
        1 ≤ (sliceIndex P e.Src).getD 0 := by
      intro e he hsrc
      obtain ⟨pe, hpe⟩ := hidx e he
      rw [hpe, Option.getD_some]
      unfold sliceIndex at hpe
      split at hpe
      · cases hpe
      · exact hpos e.Src.toNat pe (by omega) hpe
    rcases List.mem_append.1 hs with hs | hs
    · rw [hQ, List.mem_map] at hs
      obtain ⟨e, he, rfl⟩ := hs
      exact key e (List.mem_filter.1 he).1 hrow
    · rw [hR, List.mem_map] at hs
      obtain ⟨e, he, rfl⟩ := hs
      exact key e (List.mem_filter.1 he).1 hrow

set_option maxRecDepth 100000 in
theorem probabilities_spec_witness :
    1 ≤ toyLattice.V.length ∧
    (probabilityStates toyWalkEnv 3 0 toyLattice.V toyMiner)[0]? = some toyMiner ∧
    (∀ i sg, toyLattice.V[i]? = some sg → ∃ mi part keys m1 res,
      (probabilityStates toyWalkEnv 3 0 toyLattice.V toyMiner)[i]? = some mi ∧
      mi.partition toyWalkEnv.lib (toyWalkEnv.lib.ShortLabel sg) = .ok part ∧ part ≠ [] ∧
      mi.callExtensions toyWalkEnv part = .ok (keys, m1) ∧
      m1.supportedKeys toyWalkEnv.lib toyWalkEnv.codec toyWalkEnv.sched
        (toyWalkEnv.lib.ShortLabel sg) keys = .ok res ∧
      (probabilityStates toyWalkEnv 3 0 toyLattice.V toyMiner)[i + 1]? = some res.miner) ∧
    ∃ P m', toyMiner.probabilities toyWalkEnv toyLattice = .ok (P, m') ∧ P = [2, 1, -1] ∧
      P.length = toyLattice.V.length ∧
      (probabilityStates toyWalkEnv 3 0 toyLattice.V toyMiner)[toyLattice.V.length]? = some m' ∧
      P[toyLattice.V.length - 1]? = some (-1) ∧
      (∀ i sg, toyLattice.V[i]? = some sg → ∃ mi mi1 c p,
        (probabilityStates toyWalkEnv 3 0 toyLattice.V toyMiner)[i]? = some mi ∧
        (probabilityStates toyWalkEnv 3 0 toyLattice.V toyMiner)[i + 1]? = some mi1 ∧
        ProbabilityStep toyWalkEnv toyLattice.V.length i sg mi mi1 c p ∧
        P[i]? = some p ∧
        (i + 1 < toyLattice.V.length → p = Max.max 1 (c : Int) ∧ 1 ≤ p) ∧
        (i + 1 = toyLattice.V.length → p = -1)) ∧
      (∀ r, toyMiner.PrMatrices toyWalkEnv toyLattice = .ok r →
        ∀ s ∈ r.Q.Entries ++ r.R.Entries,
          s.Row < (toyLattice.V.length : Int) - 1 → 1 ≤ s.Inverse) := by
  have hc : ∀ i sg, toyLattice.V[i]? = some sg → ∃ mi part keys m1 res,
      (probabilityStates toyWalkEnv 3 0 toyLattice.V toyMiner)[i]? = some mi ∧
      mi.partition toyWalkEnv.lib (toyWalkEnv.lib.ShortLabel sg) = .ok part ∧ part ≠ [] ∧
      mi.callExtensions toyWalkEnv part = .ok (keys, m1) ∧
      m1.supportedKeys toyWalkEnv.lib toyWalkEnv.codec toyWalkEnv.sched
        (toyWalkEnv.lib.ShortLabel sg) keys = .ok res ∧
      (probabilityStates toyWalkEnv 3 0 toyLattice.V toyMiner)[i + 1]? = some res.miner := by
    intro i sg h
    match i, h with
    | 0, h =>
      cases h
      refine ⟨_, _, _, _, _, rfl, rfl, ?_, rfl, rfl, rfl⟩
      decide
    | 1, h =>
      cases h
      refine ⟨_, _, _, _, _, rfl, rfl, ?_, rfl, rfl, rfl⟩
      decide
    | 2, h =>
      cases h
      refine ⟨_, _, _, _, _, rfl, rfl, ?_, rfl, rfl, rfl⟩
      decide
    | n + 3, h => simp [toyLattice] at h
  obtain ⟨P, m', h1, h2, h3, h4, h5, h6⟩ := probabilities_spec toyWalkEnv toyMiner toyLattice
    (probabilityStates toyWalkEnv 3 0 toyLattice.V toyMiner) (by decide) (by rfl) hc
  have hP : (match toyMiner.probabilities toyWalkEnv toyLattice with
      | .ok r => some r.1
      | .error _ => none) = some [2, 1, -1] := by
    rfl
  rw [h1] at hP
  exact ⟨by decide, by rfl, hc, P, m', h1, Option.some.inj hP, h2, h3, h4, h5, h6⟩

/-! ## `initial`, `extend`, `extensions` -/

theorem extendAdd_spec (G : Graph) (ops : SubGraphOps) (Support : Int) (sg : SubGraph) (e : Edge)
    (l : List (SubGraph × Edge)) (h : extendAdd G ops Support sg e = some l) :
    ∀ c ∈ l, c = (sg, e) ∧ PassesFilter G ops Support c := by
  unfold extendAdd at h
  split at h
  · cases h; intro c hc; simp at hc
  · rename_i h1
    split at h
    · cases h
    · rename_i s hs
      split at h
      · cases h; intro c hc; simp at hc
      · rename_i h2
        split at h
        · cases h
        · rename_i t ht
          split at h
          · cases h; intro c hc; simp at hc
          · rename_i h3
            split at h
            · rename_i h4
              cases h
              intro c hc
              rw [List.mem_singleton] at hc
              subst hc
              refine ⟨rfl, ?_, ⟨s, t, hs, ht, by omega, by omega⟩, ?_⟩
              · show Support ≤ G.ColorFrequency e.Color
                omega
              · simpa using h4
            · cases h; intro c hc; simp at hc

theorem extendEdges_spec (G : Graph) (ops : SubGraphOps) (Support : Int) (sg : SubGraph) :
    ∀ (edges : List Edge) (l : List (SubGraph × Edge)),
      extendEdges G ops Support sg edges = some l →
      ∀ c ∈ l, c.1 = sg ∧ c.2 ∈ edges ∧ PassesFilter G ops Support c := by
  intro edges
  induction edges with
  | nil =>
    intro l h
    rw [extendEdges] at h
    cases h
    intro c hc
    simp at hc
  | cons e rest ih =>
    intro l h
    rw [extendEdges] at h
    split at h
    · cases h
    · rename_i a ha
      split at h
      · cases h
      · rename_i b hb
        cases h
        intro c hc
        rcases List.mem_append.1 hc with hc | hc
        · obtain ⟨h1, h2⟩ := extendAdd_spec G ops Support sg e a ha c hc
          rw [h1]
          rw [h1] at h2
          exact ⟨rfl, List.mem_cons_self _ _, h2⟩
        · obtain ⟨h1, h2, h3⟩ := ih b hb c hc
          exact ⟨h1, List.mem_cons_of_mem _ h2, h3⟩

theorem extendSlot_spec (G : Graph) (ops : SubGraphOps) (Support : Int) (u : Vertex) :
    ∀ (sgs : List SubGraph) (l : List (SubGraph × Edge)),
      extendSlot G ops Support u sgs = some l →
      ∀ c ∈ l, c.1 ∈ sgs ∧ PassesFilter G ops Support c := by
  intro sgs
  induction sgs with
  | nil =>
    intro l h
    rw [extendSlot] at h
    cases h
    intro c hc
    simp at hc
  | cons sg rest ih =>
    intro l h
    rw [extendSlot] at h
    split at h
    · intro c hc
      obtain ⟨h1, h2⟩ := ih l h c hc
      exact ⟨List.mem_cons_of_mem _ h1, h2⟩
    · split at h
      · cases h
      · split at h
        · rename_i kids parents hk hp
          split at h
          · rename_i a b c0 ha hb hc0
            cases h
            intro c hc
            rcases List.mem_append.1 hc with hc | hc
            · rcases List.mem_append.1 hc with hc | hc
              · obtain ⟨h1, _, h3⟩ := extendEdges_spec G ops Support sg kids a ha c hc
                exact ⟨by rw [h1]; exact List.mem_cons_self _ _, h3⟩
              · obtain ⟨h1, _, h3⟩ := extendEdges_spec G ops Support sg parents b hb c hc
                exact ⟨by rw [h1]; exact List.mem_cons_self _ _, h3⟩
            · obtain ⟨h1, h2⟩ := ih c0 hc0 c hc
              exact ⟨List.mem_cons_of_mem _ h1, h2⟩
          · cases h
        · cases h

theorem extendSlots_spec (G : Graph) (ops : SubGraphOps) (Support : Int) (sgs : List SubGraph) :
    ∀ (us : List Vertex) (l : List (SubGraph × Edge)),
      extendSlots G ops Support sgs us = some l →
      ∀ c ∈ l, c.1 ∈ sgs ∧ PassesFilter G ops Support c := by
  intro us
  induction us with
  | nil =>
    intro l h
    rw [extendSlots] at h
    cases h
    intro c hc
    simp at hc
  | cons u rest ih =>
    intro l h
    rw [extendSlots] at h
    split at h
    · rename_i a b ha hb
      cases h
      intro c hc
      rcases List.mem_append.1 hc with hc | hc
      · exact extendSlot_spec G ops Support u sgs a ha c hc
      · exact ih b hb c hc
    · cases h

theorem extendCandidates_spec (G : Graph) (ops : SubGraphOps) (Support : Int)
    (sgs : List SubGraph) (l : List (SubGraph × Edge))
    (h : extendCandidates G ops Support sgs = some l) :
    ∀ c ∈ l, c.1 ∈ sgs ∧ PassesFilter G ops Support c := by
  unfold extendCandidates at h
  split at h
  · cases h
  · exact extendSlots_spec G ops Support sgs _ l h

/-- An extension of a frequent embedding that passes the filter is frequent,
when `EdgeExtend` adds only colors of the edge and of its ends. -/
theorem frequent_extend (G : Graph) (ops : SubGraphOps) (Support : Int) (c : SubGraph × Edge)
    (hf : Frequent G Support c.1) (hp : PassesFilter G ops Support c)
    (hc : ExtendsColors G ops c.1 c.2) : Frequent G Support (ops.EdgeExtend c.1 c.2) := by
  obtain ⟨he, ⟨s, t, hs, ht, hsf, htf⟩, _⟩ := hp
  obtain ⟨hV, hE⟩ := hc s t hs ht
  constructor
  · intro w hw
    rcases hV w hw with ⟨x, hx, h⟩ | h | h
    · rw [h]; exact hf.1 x hx
    · rw [h]; exact hsf
    · rw [h]; exact htf
  · intro f hfm
    rcases hE f hfm with ⟨x, hx, h⟩ | h
    · rw [h]; exact hf.2 x hx
    · rw [h]; exact he

/-! ## The library of `toyGraph` -/

theorem mem_insertId (a x : Int) : ∀ l : List Int, x ∈ insertId a l → x = a ∨ x ∈ l := by
  intro l
  induction l with
  | nil => intro h; simpa [insertId] using h
  | cons y rest ih =>
    intro h
    rw [insertId] at h
    split at h
    · rcases List.mem_cons.1 h with h | h
      · exact Or.inl h
      · exact Or.inr h
    · split at h
      · exact Or.inr h
      · rcases List.mem_cons.1 h with h | h
        · exact Or.inr (List.mem_cons.2 (Or.inl h))
        · rcases ih h with h | h
          · exact Or.inl h
          · exact Or.inr (List.mem_cons_of_mem _ h)

theorem mem_insertEdge (e x : Edge) : ∀ l : List Edge, x ∈ insertEdge e l → x = e ∨ x ∈ l := by
  intro l
  induction l with
  | nil => intro h; simpa [insertEdge] using h
  | cons y rest ih =>
    intro h
    rw [insertEdge] at h
    split at h
    · rcases List.mem_cons.1 h with h | h
      · exact Or.inl h
      · exact Or.inr h
    · rcases List.mem_cons.1 h with h | h
      · exact Or.inr (List.mem_cons.2 (Or.inl h))
      · rcases ih h with h | h
        · exact Or.inl h
        · exact Or.inr (List.mem_cons_of_mem _ h)

theorem mem_foldr_insertEdge (x : Edge) : ∀ l : List Edge, x ∈ l.foldr insertEdge [] → x ∈ l := by
  intro l
  induction l with
  | nil => intro h; exact h
  | cons y rest ih =>
    intro h
    rw [List.foldr_cons] at h
    rcases mem_insertEdge y x _ h with h | h
    · exact List.mem_cons.2 (Or.inl h)
    · exact List.mem_cons_of_mem _ (ih h)

/-- The vertices of `toyEmbedding` have the given ids with the colors of
their graph vertices; its edges have the colors of the given edges. -/
theorem toyEmbedding_colors (ids : List Int) (edges : List Edge) :
    (∀ w ∈ (toyEmbedding ids edges).V, w.Id ∈ ids ∧
      w.Color = ((sliceIndex toyVertices w.Id).map Vertex.Color).getD (-1)) ∧
    (∀ f ∈ (toyEmbedding ids edges).E, ∃ x ∈ edges, f.Color = x.Color) := by
  constructor
  · intro w hw
    simp only [toyEmbedding, List.mem_map] at hw
    obtain ⟨iv, hiv, rfl⟩ := hw
    exact ⟨List.snd_mem_of_mem_enum hiv, rfl⟩
  · intro f hf
    simp only [toyEmbedding] at hf
    have h := mem_foldr_insertEdge f _ hf
    rw [List.mem_map] at h
    obtain ⟨x, hx, rfl⟩ := h
    exact ⟨x, hx, rfl⟩

/-- The method `EdgeExtend` of `toyOps` adds only colors of the edge and of
its ends to an embedding whose vertices have the colors of their graph
vertices. -/
theorem toyOps_extendsColors (sg : SubGraph)
    (hsg : ∀ w ∈ sg.V, ((sliceIndex toyVertices w.Id).map Vertex.Color).getD (-1) = w.Color)
    (e : Edge) : ExtendsColors toyGraph toyOps sg e := by
  intro s t hs ht
  have hs' : sliceIndex toyVertices e.Src = some s := hs
  have ht' : sliceIndex toyVertices e.Targ = some t := ht
  obtain ⟨hV, hE⟩ := toyEmbedding_colors
    (insertId e.Src (insertId e.Targ (sg.V.map Vertex.Id))) (graphEdges sg ++ [e])
  constructor
  · intro w hw
    obtain ⟨hid, hcol⟩ := hV w hw
    rcases mem_insertId _ _ _ hid with h | h
    · right; left
      rw [hcol, h, hs']
      rfl
    · rcases mem_insertId _ _ _ h with h | h
      · right; right
        rw [hcol, h, ht']
        rfl
      · left
        rw [List.mem_map] at h
        obtain ⟨x, hx, hxid⟩ := h
        refine ⟨x, hx, ?_⟩
        rw [hcol, ← hxid]
        exact hsg x hx
  · intro f hf
    obtain ⟨x, hx, hcol⟩ := hE f hf
    rcases List.mem_append.1 hx with hx | hx
    · left
      unfold graphEdges at hx
      rw [List.mem_map] at hx
      obtain ⟨y, hy, rfl⟩ := hx
      exact ⟨y, hy, hcol⟩
    · right
      rw [List.mem_singleton] at hx
      rw [hcol, hx]

/-- The three ways in which `extensions` returns: for no embedding, from the
memo table, or after it has extended the embeddings. -/
theorem extensions_cases (env : minerEnv) (m : RandomWalkMiner) (sgs : Graple.partition)
    (r : SortedSet × ParHashCollector × Fs2Sets) (h : m.extensions env sgs = .ok r) :
    (sgs = [] ∧ r = (SortedSet.empty, m.AllEmbeddings, m.extended)) ∨
    (∃ s0 rest, sgs = s0 :: rest ∧ m.extended.Has (env.lib.ShortLabel s0) = true ∧
      m.extended.Get env.codec (env.lib.ShortLabel s0) = some r.1 ∧
      r.2 = (m.AllEmbeddings, m.extended)) ∨
    (∃ s0 rest esgs all, sgs = s0 :: rest ∧ m.extended.Has (env.lib.ShortLabel s0) = false ∧
      extend env.G env.ops m.Support env.esched sgs = some esgs ∧
      r.1 = esgs.foldl (fun ks sg => ks.Add (env.lib.ShortLabel sg)) SortedSet.empty ∧
      m.AllEmbeddings.sendAll env.lib esgs = some all ∧
      m.extended.Put env.codec (env.lib.ShortLabel s0) r.1 = some r.2.2 ∧
      all.receiveAll env.lib (env.received all) = some r.2.1) := by
  unfold RandomWalkMiner.extensions at h
  cases sgs with
  | nil =>
    simp only at h
    cases h
    exact Or.inl ⟨rfl, rfl⟩
  | cons s0 rest =>
    simp only at h
    by_cases hhas : m.extended.Has (env.lib.ShortLabel s0) = true
    · rw [if_pos hhas] at h
      split at h
      · cases h
      · rename_i keys hget
        cases h
        exact Or.inr (Or.inl ⟨s0, rest, rfl, hhas, hget, rfl⟩)
    · rw [if_neg hhas] at h
      split at h
      · cases h
      · rename_i esgs hext
        split at h
        · cases h
        · rename_i all hall
          split at h
          · rename_i ext all' hput hset
            cases h
            exact Or.inr (Or.inr ⟨s0, rest, esgs, all, rfl, by simpa using hhas, hext, rfl, hall,
              hput, hset⟩)
          · cases h

/-! ## C18: the color-frequency filter -/

/-- C18: for a graph library whose `VertexSubGraph` returns the embedding of
one vertex with the color of the graph vertex and no edge, and whose
`EdgeExtend` adds only colors of the edge and of its ends to the embeddings
of the partition `sgs`, all of them with frequent colors only: `initial`
sends exactly the single-vertex embeddings of the vertices whose color has a
frequency of at least `Support`, and they have frequent colors only; the
producer of `extend` emits a pair of an embedding of `sgs` and an edge only
when the color of the edge and the colors of its two ends have a frequency of
at least `Support` and the embedding does not have the edge; every embedding
that `extend` hands to its callback is the extension of such a pair and has
frequent colors only; and `extensions` sends to `AllEmbeddings` nothing, or
the embeddings of `extend`. -/
theorem sends_color_filter (env : minerEnv) (Support : Int) (sgs : Graple.partition)
    (hsched : ∀ l x, x ∈ env.esched l → x ∈ l)
    (hVS : ∀ v ∈ env.G.V, (env.ops.VertexSubGraph v.Idx).V.length = 1 ∧
      (∀ w ∈ (env.ops.VertexSubGraph v.Idx).V, w.Color = v.Color) ∧
      (env.ops.VertexSubGraph v.Idx).E = [])
    (hEE : ∀ sg ∈ sgs, ∀ e, ExtendsColors env.G env.ops sg e)
    (hfreq : ∀ sg ∈ sgs, Frequent env.G Support sg) :
    (∀ sg ∈ initialSends env.G env.ops Support,
      (∃ v ∈ env.G.V, Support ≤ env.G.ColorFrequency v.Color ∧
        sg = env.ops.VertexSubGraph v.Idx ∧ sg.V.length = 1 ∧ sg.E = []) ∧
      Frequent env.G Support sg) ∧
    (∀ PLevel fuel groups sp, RandomWalkMiner.initial env PLevel Support fuel = .ok (groups, sp) →
      ∃ sent, (MakeParHashCollector PLevel).sendAll env.lib
          (initialSends env.G env.ops Support) = some sent ∧
        sent.receiveAll env.lib (env.received sent) = some groups) ∧
    (∀ cands, extendCandidates env.G env.ops Support sgs = some cands →
      ∀ c ∈ cands, c.1 ∈ sgs ∧ PassesFilter env.G env.ops Support c) ∧
    (∀ esgs, extend env.G env.ops Support env.esched sgs = some esgs →
      ∀ esg ∈ esgs, (∃ c, c.1 ∈ sgs ∧ PassesFilter env.G env.ops Support c ∧
        esg = env.ops.EdgeExtend c.1 c.2) ∧ Frequent env.G Support esg) ∧
    (∀ (m : RandomWalkMiner) (r : SortedSet × ParHashCollector × Fs2Sets), m.Support = Support → m.extensions env sgs = .ok r →
      r.2.1 = m.AllEmbeddings ∨
      ∃ (esgs : List SubGraph) (all : ParHashCollector),
        extend env.G env.ops Support env.esched sgs = some esgs ∧
        m.AllEmbeddings.sendAll env.lib esgs = some all ∧ all.receiveAll env.lib (env.received all) = some r.2.1) := by
  refine ⟨?_, ?_, ?_, ?_, ?_⟩
  · intro sg hsg
    unfold initialSends at hsg
    rw [List.mem_map] at hsg
    obtain ⟨v, hv, rfl⟩ := hsg
    rw [List.mem_filter] at hv
    have hf : Support ≤ env.G.ColorFrequency v.Color := by simpa using hv.2
    obtain ⟨h1, h2, h3⟩ := hVS v hv.1
    refine ⟨⟨v, hv.1, hf, rfl, h1, h3⟩, ?_, ?_⟩
    · intro w hw
      rw [h2 w hw]
      exact hf
    · intro e he
      rw [h3] at he
      simp at he
  · intro PLevel fuel groups sp h
    unfold RandomWalkMiner.initial at h
    split at h
    · cases h
    · rename_i sent hsent
      split at h
      · cases h
      · rename_i g hg
        split at h
        · cases h
        · cases h
          exact ⟨sent, hsent, hg⟩
  · intro cands h
    exact extendCandidates_spec env.G env.ops Support sgs cands h
  · intro esgs h esg hesg
    unfold extend at h
    split at h
    · cases h
    · rename_i cands hc
      cases h
      have hmem := hsched _ _ hesg
      rw [List.mem_map] at hmem
      obtain ⟨c, hcm, rfl⟩ := hmem
      obtain ⟨h1, h2⟩ := extendCandidates_spec env.G env.ops Support sgs cands hc c hcm
      exact ⟨⟨c, h1, h2, rfl⟩, frequent_extend env.G env.ops Support c (hfreq c.1 h1) h2
        (hEE c.1 h1 c.2)⟩
  · intro m r hS h
    rcases extensions_cases env m sgs r h with ⟨_, hr⟩ | ⟨_, _, _, _, _, hr⟩ |
      ⟨_, _, esgs, all, _, _, hext, _, hall, _, hset⟩
    · left; rw [hr]
    · left; rw [hr]
    · right
      rw [hS] at hext
      exact ⟨esgs, all, hext, hall, hset⟩

theorem sends_color_filter_witness :
    (∀ l x, x ∈ toyEnv.esched l → x ∈ l) ∧
    (∀ v ∈ toyEnv.G.V, (toyEnv.ops.VertexSubGraph v.Idx).V.length = 1 ∧
      (∀ w ∈ (toyEnv.ops.VertexSubGraph v.Idx).V, w.Color = v.Color) ∧
      (toyEnv.ops.VertexSubGraph v.Idx).E = []) ∧
    (∀ sg ∈ [toyEmbedding [0] [], toyEmbedding [1] []], ∀ e,
      ExtendsColors toyEnv.G toyEnv.ops sg e) ∧
    (∀ sg ∈ [toyEmbedding [0] [], toyEmbedding [1] []], Frequent toyEnv.G 2 sg) ∧
    extend toyEnv.G toyEnv.ops 2 toyEnv.esched [toyEmbedding [0] [], toyEmbedding [1] []] =
      some [toyEmbedding [0, 2] [⟨0, 2, 3⟩], toyEmbedding [0, 3] [⟨0, 3, 3⟩],
        toyEmbedding [0, 5] [⟨0, 5, 3⟩], toyEmbedding [1, 4] [⟨1, 4, 3⟩],
        toyEmbedding [1, 6] [⟨1, 6, 3⟩]] ∧
    (∀ sg ∈ initialSends toyEnv.G toyEnv.ops 2,
      (∃ v ∈ toyEnv.G.V, 2 ≤ toyEnv.G.ColorFrequency v.Color ∧
        sg = toyEnv.ops.VertexSubGraph v.Idx ∧ sg.V.length = 1 ∧ sg.E = []) ∧
      Frequent toyEnv.G 2 sg) ∧
    (∀ PLevel fuel groups sp, RandomWalkMiner.initial toyEnv PLevel 2 fuel = .ok (groups, sp) →
      ∃ sent, (MakeParHashCollector PLevel).sendAll toyEnv.lib
          (initialSends toyEnv.G toyEnv.ops 2) = some sent ∧
        sent.receiveAll toyEnv.lib (toyEnv.received sent) = some groups) ∧
    (∀ cands, extendCandidates toyEnv.G toyEnv.ops 2
        [toyEmbedding [0] [], toyEmbedding [1] []] = some cands →
      ∀ c ∈ cands, c.1 ∈ [toyEmbedding [0] [], toyEmbedding [1] []] ∧
        PassesFilter toyEnv.G toyEnv.ops 2 c) ∧
    (∀ esgs, extend toyEnv.G toyEnv.ops 2 toyEnv.esched
        [toyEmbedding [0] [], toyEmbedding [1] []] = some esgs →
      ∀ esg ∈ esgs, (∃ c, c.1 ∈ [toyEmbedding [0] [], toyEmbedding [1] []] ∧
        PassesFilter toyEnv.G toyEnv.ops 2 c ∧
        esg = toyEnv.ops.EdgeExtend c.1 c.2) ∧ Frequent toyEnv.G 2 esg) ∧
    (∀ (m : RandomWalkMiner) (r : SortedSet × ParHashCollector × Fs2Sets), m.Support = 2 →
      m.extensions toyEnv [toyEmbedding [0] [], toyEmbedding [1] []] = .ok r →
      r.2.1 = m.AllEmbeddings ∨
      ∃ (esgs : List SubGraph) (all : ParHashCollector), extend toyEnv.G toyEnv.ops 2 toyEnv.esched
          [toyEmbedding [0] [], toyEmbedding [1] []] = some esgs ∧
        m.AllEmbeddings.sendAll toyEnv.lib esgs = some all ∧
        all.receiveAll toyEnv.lib (toyEnv.received all) = some r.2.1) :=
  have h1 : ∀ l x, x ∈ toyEnv.esched l → x ∈ l := fun _ _ h => h
  have h2 : ∀ v ∈ toyEnv.G.V, (toyEnv.ops.VertexSubGraph v.Idx).V.length = 1 ∧
      (∀ w ∈ (toyEnv.ops.VertexSubGraph v.Idx).V, w.Color = v.Color) ∧
      (toyEnv.ops.VertexSubGraph v.Idx).E = [] := by decide
  have h3 : ∀ sg ∈ [toyEmbedding [0] [], toyEmbedding [1] []], ∀ e,
      ExtendsColors toyEnv.G toyEnv.ops sg e := by
    intro sg hsg e
    apply toyOps_extendsColors
    simp only [List.mem_cons, List.mem_singleton, List.not_mem_nil, or_false] at hsg
    rcases hsg with rfl | rfl <;> decide
  have h4 : ∀ sg ∈ [toyEmbedding [0] [], toyEmbedding [1] []], Frequent toyEnv.G 2 sg := by
    intro sg hsg
    simp only [List.mem_cons, List.mem_singleton, List.not_mem_nil, or_false] at hsg
    rcases hsg with rfl | rfl <;> exact ⟨by decide, by decide⟩
  ⟨h1, h2, h3, h4, by rfl,
    sends_color_filter toyEnv 2 [toyEmbedding [0] [], toyEmbedding [1] []] h1 h2 h3 h4⟩

/-! ## C19: the support of what is stored -/

set_option maxRecDepth 100000 in
/-- C19, counterexample: in `toyGraph` with the support 2, `extensions` on the
partition of the pattern `b` stores the embedding `b1→c1`, the only embedding
of the pattern `b→c`: the partition of its label has one embedding, fewer
than `Support`. -/
theorem stored_support_counterexample :
    toyMiner.partition toyLib [1, 255] = .ok toyPartitionB ∧
    toyMiner.callExtensions toyWalkEnv toyPartitionB =
      .ok (⟨[toyLabelAB, toyLabelBC]⟩, toyMinerB) ∧
    Stored toyLib 1 toyMinerB.AllEmbeddings (toyEmbedding [2, 5] [⟨2, 5, 3⟩]) ∧
    toyLib.ShortLabel (toyEmbedding [2, 5] [⟨2, 5, 3⟩]) = toyLabelBC ∧
    toyMinerB.partition toyLib toyLabelBC = .ok [toyEmbedding [2, 5] [⟨2, 5, 3⟩]] ∧
    ¬ toyMinerB.Support ≤ (([toyEmbedding [2, 5] [⟨2, 5, 3⟩]] : Graple.partition).length : Int) := by
  refine ⟨by rfl, by rfl, ?_, by rfl, by rfl, by decide⟩
  exact ⟨_, rfl, by decide⟩

theorem random_mem (s : SortedSet) (r : Nat) (key : Bytes) (h : s.Random r = some key) :
    key ∈ s.items := by
  unfold SortedSet.Random at h
  split at h
  · cases h
  · exact List.getElem?_mem h

/-- C19, amended: the embeddings that `extensions` stores are tested for
their colors only; the support is tested on what the walk draws. When
`supportedExtensions` has no entry for `k` and the partitions of the
candidates `C` can be computed, every partition that `randomPartition(k, C)`
returns is empty or is the partition of a candidate of `C` and has at least
`Support` embeddings. -/
theorem randomPartition_supported (env : walkEnv) (m : RandomWalkMiner) (k : Bytes)
    (C : SortedSet) (r : Nat) (part : Graple.partition) (m' : RandomWalkMiner)
    (hsched : ∀ l, (env.sched l).Perm l) (hC : C.items.Sorted (· < ·))
    (hmiss : m.supportedExtensions.Has k = false)
    (hpart : ∀ c ∈ C.items, ∃ p, m.partition env.lib c = .ok p)
    (h : m.randomPartition env k C r = .ok (part, m')) :
    part = [] ∨ ∃ key ∈ C.items, m.partition env.lib key = .ok part ∧
      m.Support ≤ (part.length : Int) := by
  unfold RandomWalkMiner.randomPartition at h
  rw [supportedKeys_miss_eq env.lib env.codec env.sched m k C hsched hC hmiss hpart] at h
  split at h
  · cases h
  · rename_i res hres
    split at hres
    · cases hres
    · rename_i sets hput
      cases hres
      simp only at h
      split at h
      · cases h
        exact Or.inl rfl
      · split at h
        · cases h
        · rename_i key hkey
          have hmem := random_mem _ _ _ hkey
          simp only [List.mem_filter, decide_eq_true_eq] at hmem
          split at h
          · cases h
          · rename_i p hp
            cases h
            have hp' : m.partition env.lib key = .ok part := hp
            refine Or.inr ⟨key, hmem.1, hp', ?_⟩
            have hlen := hmem.2
            unfold RandomWalkMiner.partitionLen at hlen
            rw [hp'] at hlen
            exact hlen

set_option maxRecDepth 100000 in
theorem randomPartition_supported_witness :
    (∀ l, (toyWalkEnv.sched l).Perm l) ∧
    (([toyLabelAB, toyLabelBC] : List Bytes)).Sorted (· < ·) ∧
    toyMinerB.supportedExtensions.Has [1, 255] = false ∧
    (∀ c ∈ ([toyLabelAB, toyLabelBC] : List Bytes), ∃ p, toyMinerB.partition toyWalkEnv.lib c = .ok p) ∧
    ∃ part m', toyMinerB.randomPartition toyWalkEnv [1, 255] ⟨[toyLabelAB, toyLabelBC]⟩ 0 =
        .ok (part, m') ∧ part.length = 2 ∧
      (part = [] ∨ ∃ key ∈ ([toyLabelAB, toyLabelBC] : List Bytes),
        toyMinerB.partition toyWalkEnv.lib key = .ok part ∧
        toyMinerB.Support ≤ (part.length : Int)) := by
  have h1 : ∀ l, (toyWalkEnv.sched l).Perm l := fun l => List.Perm.refl l
  have h2 : (([toyLabelAB, toyLabelBC] : List Bytes)).Sorted (· < ·) := by decide
  have h3 : toyMinerB.supportedExtensions.Has [1, 255] = false := by decide
  have h4 : ∀ c ∈ ([toyLabelAB, toyLabelBC] : List Bytes),
      ∃ p, toyMinerB.partition toyWalkEnv.lib c = .ok p := by
    intro c hc
    simp only [List.mem_cons, List.mem_singleton, List.not_mem_nil, or_false] at hc
    rcases hc with rfl | rfl
    · exact ⟨_, rfl⟩
    · exact ⟨_, rfl⟩
  have hv : (match toyMinerB.randomPartition toyWalkEnv [1, 255] ⟨[toyLabelAB, toyLabelBC]⟩ 0 with
      | .ok r => some r.1.length
      | .error _ => none) = some 2 := by
    rfl
  cases h : toyMinerB.randomPartition toyWalkEnv [1, 255] ⟨[toyLabelAB, toyLabelBC]⟩ 0 with
  | error e => rw [h] at hv; cases hv
  | ok pm =>
    obtain ⟨part, m'⟩ := pm
    rw [h] at hv
    exact ⟨h1, h2, h3, h4, part, m', rfl, Option.some.inj hv,
      randomPartition_supported toyWalkEnv toyMinerB [1, 255] ⟨[toyLabelAB, toyLabelBC]⟩ 0 part m'
        h1 h2 h3 h4 h⟩

/-! ## C20: what the memo table of `extensions` holds -/

theorem put_marshal (codec : SetCodec) (s s' : Fs2Sets) (key : Bytes) (set : SortedSet)
    (h : s.Put codec key set = some s') : ∃ b, codec.MarshalBinary set = some b := by
  unfold Fs2Sets.Put at h
  cases hb : codec.MarshalBinary set with
  | none => simp only [hb] at h; cases h
  | some b => exact ⟨b, rfl⟩

theorem foldl_add_labels (lib : GraphLib) (esgs : List SubGraph) :
    ∀ y, y ∈ (esgs.foldl (fun ks sg => ks.Add (lib.ShortLabel sg)) SortedSet.empty).items ↔
      ∃ sg ∈ esgs, y = lib.ShortLabel sg := by
  intro y
  have h := (foldl_add_sorted (esgs.map lib.ShortLabel) SortedSet.empty
    (by simp [SortedSet.empty])).2 y
  rw [List.foldl_map] at h
  rw [h]
  simp only [SortedSet.empty, List.not_mem_nil, false_or, List.mem_map]
  constructor
  · rintro ⟨sg, hsg, rfl⟩
    exact ⟨sg, hsg, rfl⟩
  · rintro ⟨sg, hsg, rfl⟩
    exact ⟨sg, hsg, rfl⟩

set_option maxRecDepth 100000 in
/-- C20, amended: a call of `extensions` on a partition `s0 :: rest` for
whose label `extended` has no entry (the encoding of sets restoring the set
it returns) returns the set of the short labels of the extensions
`EdgeExtend(sg, e)` of the pairs that the producer of `extend` emits for the
embeddings of this partition, and stores it for the label; and every later
call of `extensions` on a partition with this label, while the entry of the
label is as this call left it, returns this set and leaves `AllEmbeddings`
and `extended` as they are, whatever the partition and whatever
`AllEmbeddings` holds then; a call of `extensions` leaves the entries of the
labels that have one as they are. -/
theorem extensions_memo (env : minerEnv) (m : RandomWalkMiner) (s0 : SubGraph)
    (rest : Graple.partition) (r : SortedSet × ParHashCollector × Fs2Sets) (b : Bytes)
    (hsched : ∀ l x, x ∈ env.esched l ↔ x ∈ l)
    (hmiss : m.extended.Has (env.lib.ShortLabel s0) = false)
    (h : m.extensions env (s0 :: rest) = .ok r)
    (hb : env.codec.MarshalBinary r.1 = some b) (hrt : env.codec.UnmarshalBinary b = some r.1) :
    (∃ cands, extendCandidates env.G env.ops m.Support (s0 :: rest) = some cands ∧
      (∀ c ∈ cands, c.1 ∈ s0 :: rest ∧ PassesFilter env.G env.ops m.Support c) ∧
      ∀ y, y ∈ r.1.items ↔ ∃ c ∈ cands, y = env.lib.ShortLabel (env.ops.EdgeExtend c.1 c.2)) ∧
    r.2.2.Has (env.lib.ShortLabel s0) = true ∧
    r.2.2.bpt.Find (env.lib.ShortLabel s0) = [(env.lib.ShortLabel s0, b)] ∧
    r.2.2.Get env.codec (env.lib.ShortLabel s0) = some r.1 ∧
    (∀ (m2 : RandomWalkMiner) (s1 : SubGraph) (rest1 : Graple.partition),
      env.lib.ShortLabel s1 = env.lib.ShortLabel s0 →
      m2.extended.bpt.Find (env.lib.ShortLabel s0) = r.2.2.bpt.Find (env.lib.ShortLabel s0) →
      m2.extensions env (s1 :: rest1) = .ok (r.1, m2.AllEmbeddings, m2.extended)) ∧
    (∀ (m2 : RandomWalkMiner) (sgs : Graple.partition)
      (r2 : SortedSet × ParHashCollector × Fs2Sets) (k : Bytes),
      m2.extensions env sgs = .ok r2 → m2.extended.Has k = true →
      r2.2.2.bpt.Find k = m2.extended.bpt.Find k) := by
  have hfirst : ∃ cands, extendCandidates env.G env.ops m.Support (s0 :: rest) = some cands ∧
      (∀ c ∈ cands, c.1 ∈ s0 :: rest ∧ PassesFilter env.G env.ops m.Support c) ∧
      (∀ y, y ∈ r.1.items ↔
        ∃ c ∈ cands, y = env.lib.ShortLabel (env.ops.EdgeExtend c.1 c.2)) ∧
      m.extended.Put env.codec (env.lib.ShortLabel s0) r.1 = some r.2.2 := by
    rcases extensions_cases env m _ r h with ⟨hnil, _⟩ | ⟨s, t, hst, hhas, _⟩ |
      ⟨s, t, esgs, all, hst, _, hext, hkeys, _, hput, _⟩
    · cases hnil
    · cases hst
      rw [hmiss] at hhas
      cases hhas
    · cases hst
      unfold extend at hext
      split at hext
      · cases hext
      · rename_i cands hc
        cases hext
        refine ⟨cands, hc, extendCandidates_spec _ _ _ _ cands hc, ?_, hput⟩
        intro y
        rw [hkeys, foldl_add_labels]
        constructor
        · rintro ⟨sg, hsg, rfl⟩
          rw [hsched, List.mem_map] at hsg
          obtain ⟨c, hcm, rfl⟩ := hsg
          exact ⟨c, hcm, rfl⟩
        · rintro ⟨c, hcm, rfl⟩
          exact ⟨_, (hsched _ _).2 (List.mem_map.2 ⟨c, hcm, rfl⟩), rfl⟩
  obtain ⟨cands, hc, hpass, hitems, hput⟩ := hfirst
  obtain ⟨s', hput', hhas', hfind', _⟩ :=
    fs2Sets_put env.codec m.extended (env.lib.ShortLabel s0) r.1 b hb
  rw [hput] at hput'
  cases hput'
  have hget := fs2Sets_get_of_find env.codec r.2.2 (env.lib.ShortLabel s0) b r.1 hfind' hrt
  refine ⟨⟨cands, hc, hpass, hitems⟩, hhas', hfind', hget, ?_, ?_⟩
  · intro m2 s1 rest1 hlabel hsame
    have h1 : m2.extended.Has (env.lib.ShortLabel s0) = true := by
      rw [fs2Sets_has_of_find r.2.2 m2.extended _ hsame]
      exact hhas'
    have h2 : m2.extended.Get env.codec (env.lib.ShortLabel s0) = some r.1 := by
      rw [fs2Sets_get_of_find_eq env.codec r.2.2 m2.extended _ hsame]
      exact hget
    unfold RandomWalkMiner.extensions
    simp only [hlabel, h1, h2, if_true]
  · intro m2 sgs r2 k h2 hk
    rcases extensions_cases env m2 sgs r2 h2 with ⟨_, hr⟩ | ⟨_, _, _, _, _, hr⟩ |
      ⟨s, t, esgs, all, _, hmiss2, _, _, _, hput2, _⟩
    · rw [hr]
    · rw [hr]
    · obtain ⟨b2, hb2⟩ := put_marshal _ _ _ _ _ hput2
      obtain ⟨s2, hp2, _, _, hother⟩ :=
        fs2Sets_put env.codec m2.extended (env.lib.ShortLabel s) r2.1 b2 hb2
      rw [hput2] at hp2
      cases hp2
      apply hother
      intro heq
      rw [heq, hk] at hmiss2
      cases hmiss2

set_option maxRecDepth 100000 in
theorem extensions_memo_witness :
    (∀ l x, x ∈ toyEnv.esched l ↔ x ∈ l) ∧
    toyMiner.extended.Has (toyEnv.lib.ShortLabel (toyEmbedding [2] [])) = false ∧
    toyMiner.extensions toyEnv (toyEmbedding [2] [] :: [toyEmbedding [3] [], toyEmbedding [4] []]) =
      .ok (⟨[toyLabelAB, toyLabelBC]⟩, toyMinerB.AllEmbeddings, toyMinerB.extended) ∧
    toyEnv.codec.MarshalBinary ⟨[toyLabelAB, toyLabelBC]⟩ =
      some [6, 0, 1, 255, 0, 1, 3, 6, 1, 2, 255, 0, 1, 3] ∧
    toyEnv.codec.UnmarshalBinary [6, 0, 1, 255, 0, 1, 3, 6, 1, 2, 255, 0, 1, 3] =
      some ⟨[toyLabelAB, toyLabelBC]⟩ ∧
    (∃ cands, extendCandidates toyEnv.G toyEnv.ops toyMiner.Support
        (toyEmbedding [2] [] :: [toyEmbedding [3] [], toyEmbedding [4] []]) = some cands ∧
      (∀ c ∈ cands, c.1 ∈ toyEmbedding [2] [] :: [toyEmbedding [3] [], toyEmbedding [4] []] ∧
        PassesFilter toyEnv.G toyEnv.ops toyMiner.Support c) ∧
      ∀ y, y ∈ ([toyLabelAB, toyLabelBC] : List Bytes) ↔
        ∃ c ∈ cands, y = toyEnv.lib.ShortLabel (toyEnv.ops.EdgeExtend c.1 c.2)) ∧
    toyMinerB.extended.Has (toyEnv.lib.ShortLabel (toyEmbedding [2] [])) = true ∧
    toyMinerB.extended.bpt.Find (toyEnv.lib.ShortLabel (toyEmbedding [2] [])) =
      [(toyEnv.lib.ShortLabel (toyEmbedding [2] []),
        [6, 0, 1, 255, 0, 1, 3, 6, 1, 2, 255, 0, 1, 3])] ∧
    toyMinerB.extended.Get toyEnv.codec (toyEnv.lib.ShortLabel (toyEmbedding [2] [])) =
      some ⟨[toyLabelAB, toyLabelBC]⟩ ∧
    (∀ (m2 : RandomWalkMiner) (s1 : SubGraph) (rest1 : Graple.partition),
      toyEnv.lib.ShortLabel s1 = toyEnv.lib.ShortLabel (toyEmbedding [2] []) →
      m2.extended.bpt.Find (toyEnv.lib.ShortLabel (toyEmbedding [2] [])) =
        toyMinerB.extended.bpt.Find (toyEnv.lib.ShortLabel (toyEmbedding [2] [])) →
      m2.extensions toyEnv (s1 :: rest1) =
        .ok (⟨[toyLabelAB, toyLabelBC]⟩, m2.AllEmbeddings, m2.extended)) ∧
    (∀ (m2 : RandomWalkMiner) (sgs : Graple.partition)
      (r2 : SortedSet × ParHashCollector × Fs2Sets) (k : Bytes),
      m2.extensions toyEnv sgs = .ok r2 → m2.extended.Has k = true →
      r2.2.2.bpt.Find k = m2.extended.bpt.Find k) :=
  ⟨fun _ _ => Iff.rfl, by decide, by rfl, by rfl, by rfl,
    extensions_memo toyEnv toyMiner (toyEmbedding [2] [])
      [toyEmbedding [3] [], toyEmbedding [4] []]
      (⟨[toyLabelAB, toyLabelBC]⟩, toyMinerB.AllEmbeddings, toyMinerB.extended)
      [6, 0, 1, 255, 0, 1, 3, 6, 1, 2, 255, 0, 1, 3] (fun _ _ => Iff.rfl) (by decide) (by rfl)
      (by rfl) (by rfl)⟩

/-! ## `MaximalSubGraphs` -/

theorem addToLabels_has (labels : BpTree) (label x : Bytes) :
    (addToLabels labels label).Has x = true ↔ labels.Has x = true ∨ x = label := by
  unfold addToLabels
  by_cases h : labels.Has label = true
  · rw [if_pos h]
    constructor
    · intro hx; exact Or.inl hx
    · rintro (hx | hx)
      · exact hx
      · rw [hx]; exact h
  · rw [if_neg h, bpt_has_iff, bpt_has_iff]
    unfold BpTree.Add
    have hp := (bpt_insertEntry_perm label [0] labels.entries).map Prod.fst
    rw [hp.mem_iff, List.map_cons, List.mem_cons]
    constructor
    · rintro (hx | hx)
      · exact Or.inr hx
      · exact Or.inl hx
    · rintro (hx | hx)
      · exact Or.inr hx
      · exact Or.inl hx

theorem plantLabels_has (lib : GraphLib) (RemoveEdge : SubGraph → Nat → SubGraph) (sg : SubGraph)
    (labels : BpTree) (x : Bytes) :
    (plantLabels lib RemoveEdge sg labels).Has x = true ↔
      labels.Has x = true ∨ ∃ i, i < sg.E.length ∧ x = lib.ShortLabel (RemoveEdge sg i) := by
  unfold plantLabels
  have key : ∀ (l : List Nat) (ls : BpTree),
      (l.foldl (fun ls eIdx => addToLabels ls (lib.ShortLabel (RemoveEdge sg eIdx))) ls).Has x = true ↔
        ls.Has x = true ∨ ∃ i ∈ l, x = lib.ShortLabel (RemoveEdge sg i) := by
    intro l
    induction l with
    | nil => intro ls; simp
    | cons i rest ih =>
      intro ls
      rw [List.foldl_cons, ih, addToLabels_has]
      constructor
      · rintro ((h | h) | ⟨j, hj, h⟩)
        · exact Or.inl h
        · exact Or.inr ⟨i, List.mem_cons_self _ _, h⟩
        · exact Or.inr ⟨j, List.mem_cons_of_mem _ hj, h⟩
      · rintro (h | ⟨j, hj, h⟩)
        · exact Or.inl (Or.inl h)
        · rcases List.mem_cons.1 hj with rfl | hj
          · exact Or.inl (Or.inr h)
          · exact Or.inr ⟨j, hj, h⟩
  rw [key]
  simp only [List.mem_range]

theorem maximalStep_same (lib : GraphLib) (RemoveEdge : SubGraph → Nat → SubGraph)
    (st : maximalState) (k : Bytes) (sg : SubGraph) (h : st.cur = some k) :
    maximalStep lib RemoveEdge st (k, sg) =
      ⟨some k, st.had || st.labels.Has k, st.labels, st.out⟩ := by
  unfold maximalStep
  have h1 : bytesEqual (some k) st.cur = true := by rw [h]; exact bytesEqual_self _
  have h2 : bytesEqual st.cur (some k) = true := by rw [h]; exact bytesEqual_self _
  simp only [h1, h2, Bool.not_true, Bool.and_false, Bool.false_eq_true, if_false]
  cases st.labels.Has k <;> cases st.had <;> rfl

theorem maximalStep_fold_same (lib : GraphLib) (RemoveEdge : SubGraph → Nat → SubGraph)
    (k : Bytes) :
    ∀ (rest : List SubGraph) (st : maximalState), st.cur = some k →
      rest.foldl (fun s sg => maximalStep lib RemoveEdge s (k, sg)) st =
        ⟨some k, st.had || (!rest.isEmpty && st.labels.Has k), st.labels, st.out⟩ := by
  intro rest
  induction rest with
  | nil =>
    intro st h
    cases st
    simp only at h
    simp [h]
  | cons sg rest ih =>
    intro st h
    rw [List.foldl_cons, maximalStep_same lib RemoveEdge st k sg h, ih _ rfl]
    cases st.had <;> cases st.labels.Has k <;> cases rest <;> rfl

theorem maximalStep_fresh (lib : GraphLib) (RemoveEdge : SubGraph → Nat → SubGraph)
    (st : maximalState) (k : Bytes) (sg : SubGraph) (h : Fresh st k) :
    maximalStep lib RemoveEdge st (k, sg) =
      ⟨some k, st.labels.Has k,
        if !bytesEqual st.cur (some k) then plantLabels lib RemoveEdge sg st.labels
        else st.labels,
        maximalFinish st⟩ := by
  unfold maximalStep maximalFinish
  rcases h with ⟨hc, hh⟩ | ⟨c, hc, hne⟩
  · simp only [hc, hh, Option.isSome_none, Bool.false_and, Bool.false_eq_true, if_false,
      Bool.and_false]
    cases st.labels.Has k <;> rfl
  · have h1 : bytesEqual (some k) (some c) = false := by
      cases hb : bytesEqual (some k) (some c) with
      | false => rfl
      | true => exact absurd ((bytesEqual_some_some k c).1 hb).symm hne
    simp only [hc, Option.isSome_some, h1, Bool.not_false, Bool.and_self, Bool.true_and,
      if_true, Option.getD_some, Bool.and_true]
    cases st.labels.Has k <;> cases st.had <;> rfl

theorem groupStep_eq (lib : GraphLib) (RemoveEdge : SubGraph → Nat → SubGraph)
    (st : maximalState) (g : Bytes × List SubGraph) (h : Fresh st g.1) (hne : g.2 ≠ []) :
    groupStep lib RemoveEdge st g =
      ⟨some g.1, groupHad lib RemoveEdge st g, groupLabels lib RemoveEdge st g,
        maximalFinish st⟩ := by
  obtain ⟨k, sgs⟩ := g
  cases sgs with
  | nil => exact absurd rfl hne
  | cons sg rest =>
    unfold groupStep groupHad groupLabels
    simp only [List.foldl_cons]
    rw [maximalStep_fresh lib RemoveEdge st k sg h, maximalStep_fold_same lib RemoveEdge k rest _ rfl]

theorem foldl_expandGroups (lib : GraphLib) (RemoveEdge : SubGraph → Nat → SubGraph) :
    ∀ (groups : List (Bytes × List SubGraph)) (st : maximalState),
      (expandGroups groups).foldl (maximalStep lib RemoveEdge) st =
        groups.foldl (groupStep lib RemoveEdge) st := by
  intro groups
  induction groups with
  | nil => intro st; rfl
  | cons g gs ih =>
    intro st
    have h : expandGroups (g :: gs) = g.2.map (fun sg => (g.1, sg)) ++ expandGroups gs := by
      simp [expandGroups]
    rw [h, List.foldl_append, List.foldl_cons, ih, List.foldl_map]
    rfl

theorem filter_expandGroups (p : Bytes → Bool) :
    ∀ groups : List (Bytes × List SubGraph),
      (expandGroups groups).filter (fun it => p it.1) =
        expandGroups (groups.filter (fun g => p g.1)) := by
  intro groups
  induction groups with
  | nil => rfl
  | cons g gs ih =>
    have h : ∀ (x : Bytes × List SubGraph) (xs : List (Bytes × List SubGraph)),
        expandGroups (x :: xs) = x.2.map (fun sg => (x.1, sg)) ++ expandGroups xs := by
      intro x xs
      simp [expandGroups]
    rw [h, List.filter_append, ih, List.filter_cons]
    by_cases hp : p g.1 = true
    · rw [if_pos hp, h]
      congr 1
      apply List.filter_eq_self.2
      intro it hit
      rw [List.mem_map] at hit
      obtain ⟨sg, _, rfl⟩ := hit
      exact hp
    · rw [if_neg hp]
      have : (g.2.map (fun sg => (g.1, sg))).filter (fun it => p it.1) = [] := by
        apply List.filter_eq_nil_iff.2
        intro it hit
        rw [List.mem_map] at hit
        obtain ⟨sg, _, rfl⟩ := hit
        exact hp
      rw [this, List.nil_append]

theorem maximalFinish_groupStep (lib : GraphLib) (RemoveEdge : SubGraph → Nat → SubGraph)
    (st : maximalState) (g : Bytes × List SubGraph) (h : Fresh st g.1) (hne : g.2 ≠ []) :
    maximalFinish (groupStep lib RemoveEdge st g) =
      maximalFinish st ++ (if groupHad lib RemoveEdge st g then [] else [g.1]) := by
  rw [groupStep_eq lib RemoveEdge st g h hne]
  cases hh : groupHad lib RemoveEdge st g <;> simp [maximalFinish, hh]

theorem fresh_after (lib : GraphLib) (RemoveEdge : SubGraph → Nat → SubGraph)
    (st : maximalState) (g : Bytes × List SubGraph) (h : Fresh st g.1) (hne : g.2 ≠ [])
    (k : Bytes) (hk : g.1 ≠ k) : Fresh (groupStep lib RemoveEdge st g) k := by
  rw [groupStep_eq lib RemoveEdge st g h hne]
  exact Or.inr ⟨g.1, rfl, hk⟩

theorem emitted_subset (lib : GraphLib) (RemoveEdge : SubGraph → Nat → SubGraph) :
    ∀ (groups : List (Bytes × List SubGraph)) (st : maximalState) (x : Bytes),
      x ∈ emitted lib RemoveEdge st groups → x ∈ groups.map Prod.fst := by
  intro groups
  induction groups with
  | nil => intro st x h; simp [emitted] at h
  | cons g gs ih =>
    intro st x h
    rw [emitted] at h
    rcases List.mem_append.1 h with h | h
    · split at h
      · simp at h
      · rw [List.mem_singleton] at h
        rw [h]
        exact List.mem_cons_self _ _
    · exact List.mem_cons_of_mem _ (ih _ x h)

/-- The keys sent by the loop over groups with keys of their own. -/
theorem maximalFinish_groups (lib : GraphLib) (RemoveEdge : SubGraph → Nat → SubGraph) :
    ∀ (groups : List (Bytes × List SubGraph)) (st : maximalState),
      (∀ g ∈ groups, g.2 ≠ []) → (groups.map Prod.fst).Nodup →
      (∀ g ∈ groups, Fresh st g.1) →
      maximalFinish (groups.foldl (groupStep lib RemoveEdge) st) =
        maximalFinish st ++ emitted lib RemoveEdge st groups := by
  intro groups
  induction groups with
  | nil => intro st _ _ _; simp [emitted]
  | cons g gs ih =>
    intro st hne hnd hfresh
    rw [List.map_cons, List.nodup_cons] at hnd
    have hg := hfresh g (List.mem_cons_self _ _)
    have hgne := hne g (List.mem_cons_self _ _)
    rw [List.foldl_cons, ih _ (fun x hx => hne x (List.mem_cons_of_mem _ hx)) hnd.2,
      maximalFinish_groupStep lib RemoveEdge st g hg hgne, emitted, List.append_assoc]
    intro x hx
    apply fresh_after lib RemoveEdge st g hg hgne
    intro heq
    exact hnd.1 (by rw [heq]; exact List.mem_map_of_mem _ hx)

theorem subLabels_plant (lib : GraphLib) (RemoveEdge : SubGraph → Nat → SubGraph)
    (sg : SubGraph) (a b : BpTree) (h : SubLabels a b) :
    SubLabels (plantLabels lib RemoveEdge sg a) (plantLabels lib RemoveEdge sg b) := by
  intro x hx
  rw [plantLabels_has] at hx ⊢
  rcases hx with hx | hx
  · exact Or.inl (h x hx)
  · exact Or.inr hx

theorem subLabels_plant_right (lib : GraphLib) (RemoveEdge : SubGraph → Nat → SubGraph)
    (sg : SubGraph) (a b : BpTree) (h : SubLabels a b) :
    SubLabels a (plantLabels lib RemoveEdge sg b) := by
  intro x hx
  rw [plantLabels_has]
  exact Or.inl (h x hx)

theorem subLabels_groupLabels_right (lib : GraphLib) (RemoveEdge : SubGraph → Nat → SubGraph)
    (st : maximalState) (g : Bytes × List SubGraph) (a : BpTree) (h : SubLabels a st.labels) :
    SubLabels a (groupLabels lib RemoveEdge st g) := by
  unfold groupLabels
  split
  · exact h
  · split
    · exact subLabels_plant_right lib RemoveEdge _ a st.labels h
    · exact h

/-- The loop over the groups that are kept, when every group that is kept
is a group whose key the loop over all groups sends: the keys of all groups
that are kept are sent. -/
theorem maximalFinish_kept (lib : GraphLib) (RemoveEdge : SubGraph → Nat → SubGraph)
    (keep : Bytes → Bool) :
    ∀ (groups : List (Bytes × List SubGraph)) (st st' : maximalState),
      (∀ g ∈ groups, g.2 ≠ []) → (groups.map Prod.fst).Nodup →
      (∀ g ∈ groups, Fresh st g.1) → (∀ g ∈ groups, Fresh st' g.1) →
      SubLabels st'.labels st.labels → (st.cur = none → st'.cur = none) →
      (∀ g ∈ groups, keep g.1 = true → g.1 ∈ emitted lib RemoveEdge st groups) →
      maximalFinish ((groups.filter (fun g => keep g.1)).foldl (groupStep lib RemoveEdge) st') =
        maximalFinish st' ++ (groups.filter (fun g => keep g.1)).map Prod.fst := by
  intro groups
  induction groups with
  | nil => intro st st' _ _ _ _ _ _ _; simp
  | cons g gs ih =>
    intro st st' hne hnd hfresh hfresh' hsub hnone hkeep
    rw [List.map_cons, List.nodup_cons] at hnd
    have hg := hfresh g (List.mem_cons_self _ _)
    have hg' := hfresh' g (List.mem_cons_self _ _)
    have hgne := hne g (List.mem_cons_self _ _)
    have hne2 : ∀ x ∈ gs, x.2 ≠ [] := fun x hx => hne x (List.mem_cons_of_mem _ hx)
    have hfr2 : ∀ x ∈ gs, Fresh (groupStep lib RemoveEdge st g) x.1 := by
      intro x hx
      apply fresh_after lib RemoveEdge st g hg hgne
      intro heq
      exact hnd.1 (by rw [heq]; exact List.mem_map_of_mem _ hx)
    have hkeep2 : ∀ x ∈ gs, keep x.1 = true →
        x.1 ∈ emitted lib RemoveEdge (groupStep lib RemoveEdge st g) gs := by
      intro x hx hk
      have h := hkeep x (List.mem_cons_of_mem _ hx) hk
      rw [emitted] at h
      rcases List.mem_append.1 h with h | h
      · exfalso
        split at h
        · simp at h
        · rw [List.mem_singleton] at h
          exact hnd.1 (by rw [← h]; exact List.mem_map_of_mem _ hx)
      · exact h
    have hstate := groupStep_eq lib RemoveEdge st g hg hgne
    rw [List.filter_cons]
    by_cases hk : keep g.1 = true
    · rw [if_pos hk, List.foldl_cons, List.map_cons]
      have hhad : groupHad lib RemoveEdge st g = false := by
        have h := hkeep g (List.mem_cons_self _ _) hk
        rw [emitted] at h
        rcases List.mem_append.1 h with h | h
        · cases hh : groupHad lib RemoveEdge st g with
          | false => rfl
          | true => rw [hh] at h; simp at h
        · exact absurd (emitted_subset lib RemoveEdge gs _ g.1 h) hnd.1
      have hsubL : SubLabels (groupLabels lib RemoveEdge st' g) (groupLabels lib RemoveEdge st g) := by
        unfold groupLabels
        cases hsgs : g.2 with
        | nil => exact hsub
        | cons sg rest =>
          simp only
          by_cases hb' : bytesEqual st'.cur (some g.1) = true
          · rw [hb']
            simp only [Bool.not_true, Bool.false_eq_true, if_false]
            split
            · exact subLabels_plant_right lib RemoveEdge sg _ _ hsub
            · exact hsub
          · have hb : bytesEqual st.cur (some g.1) = false := by
              rcases hg with ⟨hc, _⟩ | ⟨c, hc, hcne⟩
              · rw [hnone hc] at hb'
                rw [hc]
                simpa using hb'
              · rw [hc]
                cases hbb : bytesEqual (some c) (some g.1) with
                | false => rfl
                | true => exact absurd ((bytesEqual_some_some c g.1).1 hbb) hcne
            have hb2 : bytesEqual st'.cur (some g.1) = false := by simpa using hb'
            rw [hb, hb2]
            simp only [Bool.not_false, if_true]
            exact subLabels_plant lib RemoveEdge sg _ _ hsub
      have hhad' : groupHad lib RemoveEdge st' g = false := by
        unfold groupHad at hhad ⊢
        cases hsgs : g.2 with
        | nil => exact absurd hsgs hgne
        | cons sg rest =>
          rw [hsgs] at hhad
          simp only [Bool.or_eq_false_iff, Bool.and_eq_false_imp, Bool.not_eq_true',
            List.isEmpty_eq_false] at hhad ⊢
          constructor
          · cases h1 : st'.labels.Has g.1 with
            | false => rfl
            | true => rw [hsub _ h1] at hhad; exact absurd hhad.1 (by simp)
          · intro hrest
            cases h1 : (groupLabels lib RemoveEdge st' g).Has g.1 with
            | false => rfl
            | true =>
              have := hhad.2 hrest
              rw [hsubL _ h1] at this
              exact absurd this (by simp)
      have hstate' := groupStep_eq lib RemoveEdge st' g hg' hgne
      have hfr2' : ∀ x ∈ gs, Fresh (groupStep lib RemoveEdge st' g) x.1 := by
        intro x hx
        apply fresh_after lib RemoveEdge st' g hg' hgne
        intro heq
        exact hnd.1 (by rw [heq]; exact List.mem_map_of_mem _ hx)
      rw [ih (groupStep lib RemoveEdge st g) (groupStep lib RemoveEdge st' g) hne2 hnd.2 hfr2 hfr2'
        (by rw [hstate, hstate']; exact hsubL) (by rw [hstate]; intro h; cases h) hkeep2,
        maximalFinish_groupStep lib RemoveEdge st' g hg' hgne, hhad']
      simp
    · rw [if_neg hk]
      exact ih (groupStep lib RemoveEdge st g) st' hne2 hnd.2 hfr2
        (fun x hx => hfresh' x (List.mem_cons_of_mem _ hx))
        (by rw [hstate]; exact subLabels_groupLabels_right lib RemoveEdge st g _ hsub)
        (by rw [hstate]; intro h; cases h) hkeep2

theorem emitted_filter (lib : GraphLib) (RemoveEdge : SubGraph → Nat → SubGraph) :
    ∀ (groups : List (Bytes × List SubGraph)) (st : maximalState),
      (groups.map Prod.fst).Nodup →
      (groups.filter (fun g => decide (g.1 ∈ emitted lib RemoveEdge st groups))).map Prod.fst =
        emitted lib RemoveEdge st groups := by
  intro groups
  induction groups with
  | nil => intro st _; rfl
  | cons g gs ih =>
    intro st hnd
    rw [List.map_cons, List.nodup_cons] at hnd
    have hnot : g.1 ∉ emitted lib RemoveEdge (groupStep lib RemoveEdge st g) gs :=
      fun h => hnd.1 (emitted_subset lib RemoveEdge gs _ g.1 h)
    have htail : gs.filter (fun x => decide (x.1 ∈ emitted lib RemoveEdge st (g :: gs))) =
        gs.filter (fun x => decide
          (x.1 ∈ emitted lib RemoveEdge (groupStep lib RemoveEdge st g) gs)) := by
      apply List.filter_congr
      intro x hx
      have hxne : x.1 ≠ g.1 := by
        intro heq
        exact hnd.1 (by rw [← heq]; exact List.mem_map_of_mem _ hx)
      rw [emitted]
      cases hh : groupHad lib RemoveEdge st g <;> simp [hxne]
    rw [List.filter_cons, htail]
    cases hh : groupHad lib RemoveEdge st g with
    | true =>
      have h1 : ¬ decide (g.1 ∈ emitted lib RemoveEdge st (g :: gs)) = true := by
        rw [emitted, hh]
        simpa using hnot
      rw [if_neg h1, ih _ hnd.2, emitted, hh]
      simp
    | false =>
      have h1 : decide (g.1 ∈ emitted lib RemoveEdge st (g :: gs)) = true := by
        rw [emitted, hh]
        simp
      rw [if_pos h1, List.map_cons, ih _ hnd.2, emitted, hh]
      simp

theorem backward_restrictStore (lib : GraphLib) (all : Fs2BpTree) (M : List Bytes) :
    (restrictStore all M).Backward lib =
      (all.Backward lib).filter (fun it => decide (it.1 ∈ M)) := by
  unfold restrictStore Fs2BpTree.Backward Fs2BpTree.kvIter BpTree.Backward
  simp only
  rw [List.filter_map, ← List.filter_reverse]
  rfl

/-- The run of the loop over groups with keys of their own. -/
theorem maximalRun_groups (lib : GraphLib) (RemoveEdge : SubGraph → Nat → SubGraph)
    (groups : List (Bytes × List SubGraph)) (hne : ∀ g ∈ groups, g.2 ≠ [])
    (hnd : (groups.map Prod.fst).Nodup) :
    maximalRun lib RemoveEdge (expandGroups groups) =
      emitted lib RemoveEdge ⟨none, false, BpTree.empty, []⟩ groups := by
  unfold maximalRun
  rw [foldl_expandGroups, maximalFinish_groups lib RemoveEdge groups _ hne hnd
    (fun g _ => Or.inl ⟨rfl, rfl⟩)]
  rfl

/-! ## C15: the maximal filter is idempotent -/

/-- C15: for every store whose backward scan yields its items group after
group, every group with a key of its own (as a scan in descending order of
the keys does), `MaximalSubGraphs` on the store restricted to the keys that
`MaximalSubGraphs` sent for the store sends the same keys, in the same
order; the backward scan of the restricted store yields the items of the
scan of the store whose key was sent. -/
theorem maximal_idempotent (lib : GraphLib) (RemoveEdge : SubGraph → Nat → SubGraph)
    (all : Fs2BpTree) (groups : List (Bytes × List SubGraph))
    (hitems : all.Backward lib = expandGroups groups) (hne : ∀ g ∈ groups, g.2 ≠ [])
    (hnd : (groups.map Prod.fst).Nodup) :
    MaximalSubGraphs lib RemoveEdge
        (restrictStore all (MaximalSubGraphs lib RemoveEdge all)) =
      MaximalSubGraphs lib RemoveEdge all ∧
    (restrictStore all (MaximalSubGraphs lib RemoveEdge all)).Backward lib =
      (all.Backward lib).filter
        (fun it => decide (it.1 ∈ MaximalSubGraphs lib RemoveEdge all)) := by
  refine ⟨?_, backward_restrictStore lib all _⟩
  have hM : MaximalSubGraphs lib RemoveEdge all =
      emitted lib RemoveEdge ⟨none, false, BpTree.empty, []⟩ groups := by
    unfold MaximalSubGraphs
    rw [hitems]
    exact maximalRun_groups lib RemoveEdge groups hne hnd
  have hB := backward_restrictStore lib all (MaximalSubGraphs lib RemoveEdge all)
  have hrun : MaximalSubGraphs lib RemoveEdge
      (restrictStore all (MaximalSubGraphs lib RemoveEdge all)) =
      maximalRun lib RemoveEdge ((all.Backward lib).filter
        (fun it => decide (it.1 ∈ MaximalSubGraphs lib RemoveEdge all))) := by
    unfold MaximalSubGraphs at hB ⊢
    rw [hB]
  rw [hrun, hitems,
    filter_expandGroups (fun k => decide (k ∈ MaximalSubGraphs lib RemoveEdge all)) groups]
  unfold maximalRun
  rw [foldl_expandGroups]
  rw [maximalFinish_kept lib RemoveEdge (fun k => decide (k ∈ MaximalSubGraphs lib RemoveEdge all))
    groups ⟨none, false, BpTree.empty, []⟩ ⟨none, false, BpTree.empty, []⟩ hne hnd
    (fun g _ => Or.inl ⟨rfl, rfl⟩) (fun g _ => Or.inl ⟨rfl, rfl⟩) (fun x hx => hx) (fun h => h)
    (by
      intro g _ hk
      rw [hM] at hk
      simpa using hk)]
  rw [hM, emitted_filter lib RemoveEdge groups _ hnd]
  rfl

theorem maximal_idempotent_witness :
    sizedStore.Backward sizedLib = expandGroups sizedGroups ∧
    (∀ g ∈ sizedGroups, g.2 ≠ []) ∧ (sizedGroups.map Prod.fst).Nodup ∧
    MaximalSubGraphs sizedLib toyRemoveEdge sizedStore = [[2, 0, 1, 2, 255, 0, 1, 3, 1, 2, 3]] ∧
    MaximalSubGraphs sizedLib toyRemoveEdge
        (restrictStore sizedStore (MaximalSubGraphs sizedLib toyRemoveEdge sizedStore)) =
      MaximalSubGraphs sizedLib toyRemoveEdge sizedStore ∧
    (restrictStore sizedStore (MaximalSubGraphs sizedLib toyRemoveEdge sizedStore)).Backward
        sizedLib =
      (sizedStore.Backward sizedLib).filter
        (fun it => decide (it.1 ∈ MaximalSubGraphs sizedLib toyRemoveEdge sizedStore)) :=
  ⟨by decide, by decide, by decide, by decide,
    maximal_idempotent sizedLib toyRemoveEdge sizedStore sizedGroups (by decide) (by decide)
      (by decide)⟩

/-! ## C14: what the maximal filter drops -/

theorem maximalStep_labels (lib : GraphLib) (RemoveEdge : SubGraph → Nat → SubGraph)
    (st : maximalState) (item : Bytes × SubGraph) (x : Bytes) (h : st.labels.Has x = true) :
    (maximalStep lib RemoveEdge st item).labels.Has x = true := by
  unfold maximalStep
  simp only
  split
  · rw [plantLabels_has]
    exact Or.inl h
  · exact h

theorem maximalStep_plants (lib : GraphLib) (RemoveEdge : SubGraph → Nat → SubGraph)
    (st : maximalState) (k : Bytes) (sg : SubGraph) (h : bytesEqual st.cur (some k) = false) :
    (maximalStep lib RemoveEdge st (k, sg)).labels = plantLabels lib RemoveEdge sg st.labels := by
  unfold maximalStep
  simp only [h, Bool.not_false, if_true]

theorem maximalStep_notSent (lib : GraphLib) (RemoveEdge : SubGraph → Nat → SubGraph)
    (kA : Bytes) (st : maximalState) (item : Bytes × SubGraph) (h : NotSent kA st)
    (hitem : item.1 ≠ kA ∨ st.labels.Has kA = true) :
    NotSent kA (maximalStep lib RemoveEdge st item) := by
  obtain ⟨hout, hcur⟩ := h
  unfold maximalStep NotSent
  simp only
  constructor
  · split
    · rename_i hc
      simp only [Bool.and_eq_true, Bool.not_eq_true', Option.isSome_iff_exists] at hc
      obtain ⟨⟨⟨c, hc1⟩, hc2⟩, hc3⟩ := hc
      intro hmem
      rcases List.mem_append.1 hmem with hmem | hmem
      · exact hout hmem
      · rw [hc1, Option.getD_some, List.mem_singleton] at hmem
        rw [← hmem] at hc1
        rw [hcur hc1] at hc3
        cases hc3
    · exact hout
  · intro hkey
    have hk : item.1 = kA := Option.some.inj hkey
    rcases hitem with hne | hhas
    · exact absurd hk hne
    · rw [hk, hhas]
      rfl

theorem maximalFold_notSent (lib : GraphLib) (RemoveEdge : SubGraph → Nat → SubGraph)
    (kA : Bytes) :
    ∀ (items : List (Bytes × SubGraph)) (st : maximalState), NotSent kA st →
      (kA ∉ items.map Prod.fst ∨ st.labels.Has kA = true) →
      NotSent kA (items.foldl (maximalStep lib RemoveEdge) st) := by
  intro items
  induction items with
  | nil => intro st h _; exact h
  | cons it rest ih =>
    intro st h hitems
    rw [List.foldl_cons]
    apply ih
    · apply maximalStep_notSent lib RemoveEdge kA st it h
      rcases hitems with hn | hh
      · left
        intro heq
        exact hn (by rw [List.map_cons, heq]; exact List.mem_cons_self _ _)
      · exact Or.inr hh
    · rcases hitems with hn | hh
      · left
        intro hmem
        exact hn (by rw [List.map_cons]; exact List.mem_cons_of_mem _ hmem)
      · exact Or.inr (maximalStep_labels lib RemoveEdge st it kA hh)

theorem maximalFold_cur (lib : GraphLib) (RemoveEdge : SubGraph → Nat → SubGraph) :
    ∀ (items : List (Bytes × SubGraph)) (st : maximalState),
      (items.foldl (maximalStep lib RemoveEdge) st).cur =
        match items.getLast? with
        | none => st.cur
        | some it => some it.1 := by
  intro items
  induction items with
  | nil => intro st; rfl
  | cons it rest ih =>
    intro st
    rw [List.foldl_cons, ih]
    cases rest with
    | nil => rfl
    | cons a l =>
      obtain ⟨x, hx⟩ : ∃ x, (a :: l).getLast? = some x :=
        ⟨(a :: l).getLast (by simp), List.getLast?_eq_getLast _ _⟩
      rw [List.getLast?_cons_cons, hx]

theorem notSent_finish (kA : Bytes) (st : maximalState) (h : NotSent kA st) :
    kA ∉ maximalFinish st := by
  obtain ⟨hout, hcur⟩ := h
  unfold maximalFinish
  split
  · rename_i hc
    simp only [Bool.and_eq_true, Bool.not_eq_true', Option.isSome_iff_exists] at hc
    obtain ⟨hc1, ⟨c, hc2⟩⟩ := hc
    intro hmem
    rcases List.mem_append.1 hmem with hmem | hmem
    · exact hout hmem
    · rw [hc2, Option.getD_some, List.mem_singleton] at hmem
      rw [← hmem] at hc2
      rw [hcur hc2] at hc1
      cases hc1
  · exact hout

set_option maxRecDepth 100000 in
/-- C14, counterexample: the store `gapStore` holds the pattern `a` and the
pattern `a→b→c`, of which `a` is a strict sub-pattern (the embedding `a1`
is the embedding `a1→b1→c1` without its two edges); the backward scan visits
`a→b→c` first, and `MaximalSubGraphs` sends both labels: the embedding of
`a→b→c` adds the labels of `b→c` and `a→b` to `labels`, not the label of
`a`. -/
theorem maximal_subpattern_counterexample :
    gapStore.Backward sizedLib =
      [([2, 0, 1, 2, 255, 0, 1, 3, 1, 2, 3], toyEmbedding [0, 2, 5] [⟨0, 2, 3⟩, ⟨2, 5, 3⟩]),
       ([0, 0, 255], toyEmbedding [0] [])] ∧
    toyRemoveEdge (toyRemoveEdge (toyEmbedding [0, 2, 5] [⟨0, 2, 3⟩, ⟨2, 5, 3⟩]) 1) 0 =
      toyEmbedding [0] [] ∧
    sizedLib.ShortLabel (toyEmbedding [0] []) = [0, 0, 255] ∧
    MaximalSubGraphs sizedLib toyRemoveEdge gapStore =
      [[2, 0, 1, 2, 255, 0, 1, 3, 1, 2, 3], [0, 0, 255]] ∧
    [0, 0, 255] ∈ MaximalSubGraphs sizedLib toyRemoveEdge gapStore := by
  refine ⟨by decide, by decide, by decide, by decide, by decide⟩

/-- C14, amended: when the backward scan visits the item `(kB, sgB)` after an
item with another key, or as its first item with a key `kB` that is not
empty, and no item up to this one has the short label of `sgB` without its
edge `i` as key, `MaximalSubGraphs` does not send that label, whatever the
scan visits afterwards. Only the labels of the embeddings with one edge less
of the first embedding visited for a key are added to `labels`, so a label of
a pattern with two edges less than its only super-pattern in the store, or
of a pattern visited before its super-patterns, is sent. -/
theorem maximal_drops_planted (lib : GraphLib) (RemoveEdge : SubGraph → Nat → SubGraph)
    (pre post : List (Bytes × SubGraph)) (kB : Bytes) (sgB : SubGraph) (i : Nat)
    (hi : i < sgB.E.length)
    (hpre : lib.ShortLabel (RemoveEdge sgB i) ∉ (pre ++ [(kB, sgB)]).map Prod.fst)
    (hplant : match pre.getLast? with
      | none => kB ≠ []
      | some it => it.1 ≠ kB) :
    lib.ShortLabel (RemoveEdge sgB i) ∉ maximalRun lib RemoveEdge (pre ++ (kB, sgB) :: post) := by
  unfold maximalRun
  rw [List.foldl_append, List.foldl_cons]
  apply notSent_finish
  have hA1 : lib.ShortLabel (RemoveEdge sgB i) ∉ pre.map Prod.fst := by
    intro h
    exact hpre (by rw [List.map_append]; exact List.mem_append_left _ h)
  have hA2 : kB ≠ lib.ShortLabel (RemoveEdge sgB i) := by
    intro h
    exact hpre (by rw [List.map_append, ← h]; exact List.mem_append_right _ (by simp))
  have h0 : NotSent (lib.ShortLabel (RemoveEdge sgB i)) ⟨none, false, BpTree.empty, []⟩ :=
    ⟨by simp, fun h => by cases h⟩
  have h1 := maximalFold_notSent lib RemoveEdge _ pre _ h0 (Or.inl hA1)
  have h2 := maximalStep_notSent lib RemoveEdge _ _ (kB, sgB) h1 (Or.inl hA2)
  apply maximalFold_notSent lib RemoveEdge _ post _ h2
  right
  have hcur := maximalFold_cur lib RemoveEdge pre ⟨none, false, BpTree.empty, []⟩
  have hb : bytesEqual (pre.foldl (maximalStep lib RemoveEdge)
      ⟨none, false, BpTree.empty, []⟩).cur (some kB) = false := by
    rw [hcur]
    cases hl : pre.getLast? with
    | none =>
      rw [hl] at hplant
      simp only at hplant ⊢
      cases hbb : bytesEqual none (some kB) with
      | false => rfl
      | true =>
        have : kB = [] := by simpa [bytesEqual] using hbb
        exact absurd this hplant
    | some it =>
      rw [hl] at hplant
      simp only at hplant ⊢
      cases hbb : bytesEqual (some it.1) (some kB) with
      | false => rfl
      | true => exact absurd ((bytesEqual_some_some _ _).1 hbb) hplant
  rw [maximalStep_plants lib RemoveEdge _ kB sgB hb, plantLabels_has]
  exact Or.inr ⟨i, hi, rfl⟩

theorem maximal_drops_planted_witness :
    (0 : Nat) < (toyEmbedding [0, 2] [⟨0, 2, 3⟩]).E.length ∧
    sizedLib.ShortLabel (toyRemoveEdge (toyEmbedding [0, 2] [⟨0, 2, 3⟩]) 0) = [0, 0, 255] ∧
    sizedLib.ShortLabel (toyRemoveEdge (toyEmbedding [0, 2] [⟨0, 2, 3⟩]) 0) ∉
      ([([2, 0, 1, 2, 255, 0, 1, 3, 1, 2, 3], toyEmbedding [0, 2, 5] [⟨0, 2, 3⟩, ⟨2, 5, 3⟩])] ++
        [(([1, 0, 1, 255, 0, 1, 3] : Bytes), toyEmbedding [0, 2] [⟨0, 2, 3⟩])]).map Prod.fst ∧
    ([2, 0, 1, 2, 255, 0, 1, 3, 1, 2, 3] : Bytes) ≠ [1, 0, 1, 255, 0, 1, 3] ∧
    sizedLib.ShortLabel (toyRemoveEdge (toyEmbedding [0, 2] [⟨0, 2, 3⟩]) 0) ∉
      maximalRun sizedLib toyRemoveEdge
        ([([2, 0, 1, 2, 255, 0, 1, 3, 1, 2, 3], toyEmbedding [0, 2, 5] [⟨0, 2, 3⟩, ⟨2, 5, 3⟩])] ++
          ([1, 0, 1, 255, 0, 1, 3], toyEmbedding [0, 2] [⟨0, 2, 3⟩]) ::
            [([0, 0, 255], toyEmbedding [1] []), ([0, 0, 255], toyEmbedding [0] [])]) :=
  ⟨by decide, by decide, by decide, by decide,
    maximal_drops_planted sizedLib toyRemoveEdge
      [([2, 0, 1, 2, 255, 0, 1, 3, 1, 2, 3], toyEmbedding [0, 2, 5] [⟨0, 2, 3⟩, ⟨2, 5, 3⟩])]
      [([0, 0, 255], toyEmbedding [1] []), ([0, 0, 255], toyEmbedding [0] [])]
      [1, 0, 1, 255, 0, 1, 3] (toyEmbedding [0, 2] [⟨0, 2, 3⟩]) 0 (by decide) (by decide)
      (by
        show ([2, 0, 1, 2, 255, 0, 1, 3, 1, 2, 3] : Bytes) ≠ [1, 0, 1, 255, 0, 1, 3]
        decide)⟩

/-! ## C28: the buffered iterator for every buffer size -/

/-- C28: for every buffer size `bufSize ≥ 1` and every iterator that yields
the items `xs` and ends, a consumer of `bufferedIterator(it, bufSize)` (given
`len(xs) + 2` steps and the items already buffered) receives a finite list of
items and then the end: the items are `xs` cut into consecutive blocks of
`bufSize` items (the first block is the first `bufSize` items, the blocks of
the rest follow; the last block may be shorter), every block reversed, the
blocks in their order; so there are as many items as in `xs` and they are a
permutation of `xs`. With an empty `xs` nothing is yielded. -/
theorem bufferedIterator_reversed_blocks (bufSize : Nat) (hn : 1 ≤ bufSize)
    (xs : List (Bytes × SubGraph)) :
    (bufferedIterator (some xs) bufSize).items =
      .ok (((chunks bufSize xs).map List.reverse).flatten) ∧
    (((chunks bufSize xs).map List.reverse).flatten).length = xs.length ∧
    (((chunks bufSize xs).map List.reverse).flatten).Perm xs ∧
    (chunks bufSize xs).flatten = xs ∧
    (xs = [] → chunks bufSize xs = []) ∧
    (xs ≠ [] → chunks bufSize xs = xs.take bufSize :: chunks bufSize (xs.drop bufSize)) ∧
    (∀ b ∈ chunks bufSize xs, b ≠ [] ∧ b.length ≤ bufSize) := by
  have hflat := chunks_flatten bufSize hn xs.length xs (le_refl _)
  have hperm : (((chunks bufSize xs).map List.reverse).flatten).Perm xs := by
    have h := flatten_map_reverse_perm (chunks bufSize xs)
    rw [hflat] at h
    exact h
  refine ⟨bufferedIterator_items bufSize hn xs, hperm.length_eq, hperm, hflat, ?_,
    chunks_cons bufSize hn xs, ?_⟩
  · intro h
    rw [h]
    rfl
  · have key : ∀ (k : Nat) (ys : List (Bytes × SubGraph)), ys.length ≤ k →
        ∀ b ∈ chunks bufSize ys, b ≠ [] ∧ b.length ≤ bufSize := by
      intro k
      induction k with
      | zero =>
        intro ys h b hb
        have : ys = [] := List.length_eq_zero.1 (by omega)
        rw [this, chunks_nil] at hb
        simp at hb
      | succ k ih =>
        intro ys h b hb
        by_cases hne : ys = []
        · rw [hne, chunks_nil] at hb
          simp at hb
        · rw [chunks_cons bufSize hn ys hne] at hb
          rcases List.mem_cons.1 hb with hb | hb
          · rw [hb]
            constructor
            · intro ht
              have hl := congrArg List.length ht
              rw [List.length_take, List.length_nil] at hl
              have : 0 < ys.length := List.length_pos.2 hne
              omega
            · rw [List.length_take]
              omega
          · apply ih (ys.drop bufSize) _ b hb
            rw [List.length_drop]
            have : 0 < ys.length := List.length_pos.2 hne
            omega
    exact key xs.length xs (le_refl _)

theorem bufferedIterator_reversed_blocks_witness :
    1 ≤ 2 ∧
    (bufferedIterator (some [([1], vertexEmbedding 1), ([2], vertexEmbedding 2),
        ([3], vertexEmbedding 3)]) 2).items =
      .ok [([2], vertexEmbedding 2), ([1], vertexEmbedding 1), ([3], vertexEmbedding 3)] ∧
    (bufferedIterator (some [([1], vertexEmbedding 1), ([2], vertexEmbedding 2),
        ([3], vertexEmbedding 3)]) 2).items =
      .ok (((chunks 2 [(([1] : Bytes), vertexEmbedding 1), ([2], vertexEmbedding 2),
        ([3], vertexEmbedding 3)]).map List.reverse).flatten) :=
  ⟨by decide, by rfl,
    (bufferedIterator_reversed_blocks 2 (by decide)
      [([1], vertexEmbedding 1), ([2], vertexEmbedding 2), ([3], vertexEmbedding 3)]).1⟩

/-! ## C23: the shard index is in range -/

theorem fnv32a_fold_lt (bytes : Bytes) :
    ∀ h : Nat, h < 2 ^ 32 →
      bytes.foldl (fun h b => ((h ^^^ b.val) * 16777619) % 2 ^ 32) h < 2 ^ 32 := by
  induction bytes with
  | nil => intro h hh; exact hh
  | cons b rest ih =>
    intro h _
    rw [List.foldl_cons]
    exact ih _ (Nat.mod_lt _ (by norm_num))

theorem tmod_negSucc_natCast (m n : Nat) :
    Int.tmod (Int.negSucc m) (n : Int) = -(((m + 1) % n : Nat) : Int) := by
  cases n <;> rfl

theorem hashInt_64 (label : Bytes) : hashInt 64 label = hash label := by
  have hlt : fnv32a label < 2 ^ 32 := fnv32a_fold_lt label _ (by norm_num)
  unfold hashInt hash
  have h1 : fnv32a label % 2 ^ 64 = fnv32a label := Nat.mod_eq_of_lt (by omega)
  simp only [h1]
  rw [if_pos (by omega)]

theorem hashInt_32 (label : Bytes) :
    (fnv32a label < 2 ^ 31 → hashInt 32 label = (fnv32a label : Int)) ∧
    (2 ^ 31 ≤ fnv32a label →
      hashInt 32 label = Int.negSucc (2 ^ 32 - fnv32a label - 1)) := by
  have hlt : fnv32a label < 2 ^ 32 := fnv32a_fold_lt label _ (by norm_num)
  have h1 : fnv32a label % 2 ^ 32 = fnv32a label := Nat.mod_eq_of_lt hlt
  constructor
  · intro h
    unfold hashInt
    simp only [h1]
    rw [if_pos (by omega)]
  · intro h
    unfold hashInt
    simp only [h1]
    rw [if_neg (by omega), Int.negSucc_eq]
    omega

/-- C23 (counterexample): on a platform whose `int` has 32 bits, the FNV-1a
sum of the empty label is 2166136261, the conversion to `int` gives
-2128831035, the remainder by 2 of Go is -1, and the index of `send` and of
`Find` for two shards is out of range. -/
theorem hash_shard_counterexample :
    fnv32a [] = 2166136261 ∧ hashInt 32 [] = -2128831035 ∧
    Int.tmod (hashInt 32 []) 2 = -1 ∧ shardIndexInt 32 2 [] = none := by
  refine ⟨rfl, ?_, ?_, ?_⟩ <;> decide

/-- C23 (amended): for every label and every number `N ≥ 1` of shards,
`hash(label)` on a platform whose `int` has 64 bits is the 32-bit FNV-1a sum
of the label (offset basis 2166136261, for every byte an exclusive or and a
multiplication by the prime 16777619 modulo `2^32`), which is not negative
and below `2^32`; the remainder `hash(label) % N` of Go is at least 0 and
below `N`; and in every collector of `N` channels and stores the index of
`send` and of `Find` is this remainder, `send` of an embedding with the label
proceeds and `Find` returns an iterator, without an index out of range. On a
platform whose `int` has 32 bits the same holds for a label whose sum is
below `2^31`; for a sum of `2^31` or more the conversion gives the sum minus
`2^32`, a negative number, the remainder of Go is not positive, and the index
is out of range unless `N` divides `2^32` minus the sum. -/
theorem hash_shard_in_range (lib : GraphLib) (label : Bytes) (N : Nat) (hN : 1 ≤ N) :
    fnv32a [] = 2166136261 ∧
    (∀ (bs : Bytes) (b : Fin 256),
      fnv32a (bs ++ [b]) = ((fnv32a bs ^^^ b.val) * 16777619) % 2 ^ 32) ∧
    hash label = (fnv32a label : Int) ∧ 0 ≤ hash label ∧ hash label < 2 ^ 32 ∧
    0 ≤ Int.tmod (hash label) (N : Int) ∧ Int.tmod (hash label) (N : Int) < (N : Int) ∧
    hashInt 64 label = hash label ∧
    shardIndexInt 64 N label = some (fnv32a label % N) ∧
    (fnv32a label < 2 ^ 31 →
      hashInt 32 label = hash label ∧ shardIndexInt 32 N label = some (fnv32a label % N)) ∧
    (2 ^ 31 ≤ fnv32a label →
      hashInt 32 label = hash label - 2 ^ 32 ∧ hashInt 32 label < 0 ∧
      Int.tmod (hashInt 32 label) (N : Int) = -(((2 ^ 32 - fnv32a label) % N : Nat) : Int) ∧
      (shardIndexInt 32 N label = none ↔ (2 ^ 32 - fnv32a label) % N ≠ 0)) ∧
    ∀ c : ParHashCollector, c.chs.length = N → c.graphs.length = N →
      (∃ i, c.shardIndex label = some i ∧ i < N ∧
        (i : Int) = Int.tmod (hash label) (N : Int) ∧
        shardIndexInt 64 N label = some i ∧
        (∃ ch, c.chs[i]? = some ch) ∧ ∃ t, c.graphs[i]? = some t) ∧
      (∀ sg, lib.ShortLabel sg = label → ∃ c', c.send lib sg = some c') ∧
      ∃ it, c.Find lib label = some it := by
  have hlt : fnv32a label < 2 ^ 32 := fnv32a_fold_lt label _ (by norm_num)
  have htm : Int.tmod (hash label) (N : Int) = ((fnv32a label % N : Nat) : Int) := by
    unfold hash
    exact (Int.ofNat_tmod _ _).symm
  have hmod : fnv32a label % N < N := Nat.mod_lt _ (by omega)
  have hidx : ∀ bits, hashInt bits label = hash label →
      shardIndexInt bits N label = some (fnv32a label % N) := by
    intro bits hb
    unfold shardIndexInt
    rw [if_neg (by omega)]
    simp only [hb, htm]
    rw [if_neg (by omega), Int.toNat_ofNat]
  refine ⟨rfl, ?_, rfl, ?_, ?_, ?_, ?_, hashInt_64 label, hidx 64 (hashInt_64 label), ?_, ?_, ?_⟩
  · intro bs b
    unfold fnv32a
    rw [List.foldl_append]
    rfl
  · unfold hash; omega
  · unfold hash; exact_mod_cast hlt
  · rw [htm]; omega
  · rw [htm]; exact_mod_cast hmod
  · intro h
    have h32 : hashInt 32 label = hash label := (hashInt_32 label).1 h
    exact ⟨h32, hidx 32 h32⟩
  · intro h
    have h32 := (hashInt_32 label).2 h
    have htm32 : Int.tmod (hashInt 32 label) (N : Int)
        = -(((2 ^ 32 - fnv32a label) % N : Nat) : Int) := by
      rw [h32, tmod_negSucc_natCast]
      have : 2 ^ 32 - fnv32a label - 1 + 1 = 2 ^ 32 - fnv32a label := by omega
      rw [this]
    refine ⟨?_, ?_, htm32, ?_⟩
    · rw [h32, Int.negSucc_eq]
      unfold hash
      omega
    · rw [h32]
      exact Int.negSucc_lt_zero _
    · unfold shardIndexInt
      rw [if_neg (by omega)]
      simp only [htm32]
      constructor
      · intro hnone
        intro h0
        rw [h0] at hnone
        simp at hnone
      · intro hne
        rw [if_pos (by omega)]
  · intro c hchs hgraphs
    obtain ⟨hidx', hlt2⟩ := shardIndex_eq c N hN hchs label
    obtain ⟨ch, hch⟩ := getElem?_some_of_lt c.chs (shardOf N label) (by omega)
    obtain ⟨t, ht⟩ := getElem?_some_of_lt c.graphs (shardOf N label) (by omega)
    refine ⟨⟨shardOf N label, hidx', hlt2, ?_, ?_, ⟨ch, hch⟩, ⟨t, ht⟩⟩, ?_, ?_⟩
    · rw [htm, shardOf_eq]
    · rw [shardOf_eq]; exact hidx 64 (hashInt_64 label)
    · intro sg hsg
      unfold ParHashCollector.send
      simp only [hsg, hidx', hch]
      exact ⟨_, rfl⟩
    · unfold ParHashCollector.Find
      simp only [hidx', ht]
      exact ⟨_, rfl⟩

theorem hash_shard_in_range_witness :
    1 ≤ 2 ∧ hash [1] = 67918732 ∧ Int.tmod (hash [1]) 2 = 0 ∧
    fnv32a [] = 2166136261 ∧
    2 ^ 31 ≤ fnv32a [] ∧
    (hashInt 32 [] = hash [] - 2 ^ 32 ∧ hashInt 32 [] < 0 ∧
      Int.tmod (hashInt 32 []) ((3 : Nat) : Int)
        = -(((2 ^ 32 - fnv32a []) % 3 : Nat) : Int) ∧
      (shardIndexInt 32 3 [] = none ↔ (2 ^ 32 - fnv32a []) % 3 ≠ 0)) ∧
    (∃ i, (MakeParHashCollector 2).shardIndex [1] = some i ∧ i < 2 ∧
      (i : Int) = Int.tmod (hash [1]) 2 ∧
      shardIndexInt 64 2 [1] = some i ∧
      (∃ ch, (MakeParHashCollector 2).chs[i]? = some ch) ∧
      ∃ t, (MakeParHashCollector 2).graphs[i]? = some t) :=
  ⟨by decide, by decide, by decide, rfl, by decide,
    (hash_shard_in_range exampleLib [] 3 (by decide)).2.2.2.2.2.2.2.2.2.2.1 (by decide),
    ((hash_shard_in_range exampleLib [1] 2 (by decide)).2.2.2.2.2.2.2.2.2.2.2
      (MakeParHashCollector 2) (by decide) (by decide)).1⟩

/-! ## C21: what the uniqueness index keeps unique -/

theorem receive_unique (lib : GraphLib) (c c' : ParHashCollector) (i : Nat)
    (h : c.receive lib i = some c') (j : Nat) (u' : Fs2UniqueIndex)
    (hu : c'.unique[j]? = some u') :
    c.unique[j]? = some u' ∨
      ∃ lg tree u s, c.unique[j]? = some u ∧ shardCollector lib lg ⟨tree, u⟩ = some s ∧
        u' = s.unique := by
  unfold ParHashCollector.receive at h
  split at h
  · rename_i lg pending tree u hch hg hun
    split at h
    · cases h
    · rename_i s hs
      cases h
      simp only at hu
      rcases getElem?_set_cases _ _ _ _ _ hu with ⟨hij, hb⟩ | ⟨_, hb⟩
      · right
        subst hij
        exact ⟨lg, tree, u, s, hun, hs, hb⟩
      · exact Or.inl hb
  · cases h
    exact Or.inl hu

theorem runCollector_unique_nodup (lib : GraphLib) :
    ∀ (evs : List CollectorEvent) (c c' : ParHashCollector),
      (∀ (i : Nat) (u : Fs2UniqueIndex), c.unique[i]? = some u →
        (u.bpt.entries.map Prod.fst).Nodup) →
      runCollector lib evs c = some c' →
      ∀ (i : Nat) (u : Fs2UniqueIndex), c'.unique[i]? = some u →
        (u.bpt.entries.map Prod.fst).Nodup := by
  intro evs
  induction evs with
  | nil =>
    intro c c' hinv h
    cases h
    exact hinv
  | cons ev rest ih =>
    intro c c' hinv h
    cases ev with
    | send sg =>
      rw [runCollector] at h
      cases hs : c.send lib sg with
      | none => rw [hs] at h; cases h
      | some c1 =>
        rw [hs] at h
        apply ih c1 c' _ h
        have hun : c1.unique = c.unique := by
          unfold ParHashCollector.send at hs
          simp only at hs
          cases hi : c.shardIndex (lib.ShortLabel sg) with
          | none => rw [hi] at hs; cases hs
          | some idx =>
            rw [hi] at hs
            simp only at hs
            cases hc : c.chs[idx]? with
            | none => rw [hc] at hs; cases hs
            | some ch =>
              rw [hc] at hs
              cases hs
              rfl
        rw [hun]
        exact hinv
    | receive i =>
      rw [runCollector] at h
      cases hs : c.receive lib i with
      | none => rw [hs] at h; cases h
      | some c1 =>
        rw [hs] at h
        apply ih c1 c' _ h
        intro j u' hu'
        rcases receive_unique lib c c1 i hs j u' hu' with hsame | ⟨lg, tree, u, s, hu, hsc, hu'eq⟩
        · exact hinv j u' hsame
        · have hnd := hinv j u hu
          by_cases hin : lib.Serialize lg.sg ∈ indexKeys ⟨tree, u⟩
          · rw [(shardCollector_step lib lg ⟨tree, u⟩).1 hin] at hsc
            cases hsc
            rw [hu'eq]
            exact hnd
          · rw [(shardCollector_step lib lg ⟨tree, u⟩).2 hin] at hsc
            cases hsc
            rw [hu'eq]
            show ((u.bpt.Add (lib.Serialize lg.sg) []).entries.map Prod.fst).Nodup
            unfold BpTree.Add
            have hp := (bpt_insertEntry_perm (lib.Serialize lg.sg) [] u.bpt.entries).map Prod.fst
            rw [hp.nodup_iff, List.map_cons, List.nodup_cons]
            exact ⟨hin, hnd⟩

/-- C21, counterexample: after two sends and their receptions a uniqueness
index holds the embeddings `a1` and `a2` of `toyGraph`, two distinct
embeddings with the same short label. -/
theorem unique_index_label_counterexample :
    ∃ c u, runCollector toyLib
        [CollectorEvent.send (toyEmbedding [0] []), CollectorEvent.send (toyEmbedding [1] []),
          CollectorEvent.receive 0, CollectorEvent.receive 0] (MakeParHashCollector 1) = some c ∧
      c.unique[0]? = some u ∧
      u.Has toyLib (toyEmbedding [0] []) = true ∧ u.Has toyLib (toyEmbedding [1] []) = true ∧
      toyEmbedding [0] [] ≠ toyEmbedding [1] [] ∧
      toyLib.ShortLabel (toyEmbedding [0] []) = toyLib.ShortLabel (toyEmbedding [1] []) :=
  ⟨_, _, by rfl, by rfl, by decide, by decide, by decide, by decide⟩

/-- C21, amended: the uniqueness index is keyed by the serialization of the
embedding, not by its short label. For `N ≥ 1` shards and every sequence of
sends and of receptions from a new collector (the graph library restoring
every sent embedding from its serialization), the collector reaches a state
without a panic in which no index has a key twice, every key of an index is
the serialization of a sent embedding and a value of the store of its shard,
and two sent embeddings with the same serialization are the same
embedding. -/
theorem unique_index_nodup (lib : GraphLib) (N : Nat) (hN : 1 ≤ N)
    (evs : List CollectorEvent)
    (hrt : ∀ sg, CollectorEvent.send sg ∈ evs → lib.DeserializeSubGraph (lib.Serialize sg) = sg) :
    ∃ c, runCollector lib evs (MakeParHashCollector N) = some c ∧
      (∀ (i : Nat) (u : Fs2UniqueIndex), c.unique[i]? = some u →
        (u.bpt.entries.map Prod.fst).Nodup ∧
        ∀ k ∈ u.bpt.entries.map Prod.fst,
          (∃ sg, CollectorEvent.send sg ∈ evs ∧ k = lib.Serialize sg) ∧
          ∃ t, c.graphs[i]? = some t ∧ k ∈ t.bpt.entries.map Prod.snd) ∧
      ∀ sg1 sg2, CollectorEvent.send sg1 ∈ evs → CollectorEvent.send sg2 ∈ evs →
        lib.Serialize sg1 = lib.Serialize sg2 → sg1 = sg2 := by
  obtain ⟨c, hrun, hinv, _⟩ := runCollector_inv lib N hN (fun sg => CollectorEvent.send sg ∈ evs)
    hrt evs (MakeParHashCollector N) (collectorInv_init lib N _) (fun sg h => h)
  refine ⟨c, hrun, ?_, ?_⟩
  · intro i u hu
    constructor
    · apply runCollector_unique_nodup lib evs (MakeParHashCollector N) c _ hrun i u hu
      intro j u0 hu0
      unfold MakeParHashCollector at hu0
      simp only at hu0
      rw [List.getElem?_replicate] at hu0
      split at hu0
      · cases hu0
        exact List.nodup_nil
      · cases hu0
    · intro k hk
      have hlen : i < c.graphs.length := by
        rw [hinv.1, ← hinv.2.1]
        by_contra hcon
        rw [List.getElem?_eq_none (by omega)] at hu
        cases hu
      obtain ⟨t, ht⟩ := getElem?_some_of_lt c.graphs i hlen
      have hval := hinv.2.2.2.2.2 i u t hu ht k hk
      refine ⟨?_, t, ht, hval⟩
      rw [List.mem_map] at hval
      obtain ⟨e, he, hek⟩ := hval
      obtain ⟨sg, hsent, heq, _⟩ := hinv.2.2.2.2.1 i t e ht he
      refine ⟨sg, hsent, ?_⟩
      rw [← hek, heq]
  · intro sg1 sg2 h1 h2 heq
    rw [← hrt sg1 h1, ← hrt sg2 h2, heq]

theorem unique_index_nodup_witness :
    1 ≤ 2 ∧
    (∀ sg, CollectorEvent.send sg ∈ exampleEvents →
      exampleLib.DeserializeSubGraph (exampleLib.Serialize sg) = sg) ∧
    ∃ c, runCollector exampleLib exampleEvents (MakeParHashCollector 2) = some c ∧
      (∀ (i : Nat) (u : Fs2UniqueIndex), c.unique[i]? = some u →
        (u.bpt.entries.map Prod.fst).Nodup ∧
        ∀ k ∈ u.bpt.entries.map Prod.fst,
          (∃ sg, CollectorEvent.send sg ∈ exampleEvents ∧ k = exampleLib.Serialize sg) ∧
          ∃ t, c.graphs[i]? = some t ∧ k ∈ t.bpt.entries.map Prod.snd) ∧
      ∀ sg1 sg2, CollectorEvent.send sg1 ∈ exampleEvents →
        CollectorEvent.send sg2 ∈ exampleEvents →
        exampleLib.Serialize sg1 = exampleLib.Serialize sg2 → sg1 = sg2 :=
  ⟨by decide,
    fun sg h => by
      simp only [exampleEvents, List.mem_cons, CollectorEvent.send.injEq, List.mem_singleton,
        reduceCtorEq, or_false, List.not_mem_nil] at h
      rcases h with h | h <;> subst h <;> rfl,
    unique_index_nodup exampleLib 2 (by decide) exampleEvents
      (fun sg h => by
        simp only [exampleEvents, List.mem_cons, CollectorEvent.send.injEq, List.mem_singleton,
          reduceCtorEq, or_false, List.not_mem_nil] at h
        rcases h with h | h <;> subst h <;> rfl)⟩

/-! ## C29: what `MaximalSubGraphs` sends -/

theorem bytes_not_lt_nil (x : Bytes) : ¬ x < [] := by
  intro h
  cases h

theorem emitted_sublist (lib : GraphLib) (RemoveEdge : SubGraph → Nat → SubGraph) :
    ∀ (groups : List (Bytes × List SubGraph)) (st : maximalState),
      List.Sublist (emitted lib RemoveEdge st groups) (groups.map Prod.fst) := by
  intro groups
  induction groups with
  | nil => intro st; exact List.Sublist.refl _
  | cons g gs ih =>
    intro st
    rw [emitted, List.map_cons]
    split
    · exact List.Sublist.cons _ (ih _)
    · exact List.Sublist.cons₂ _ (ih _)

theorem emitted_iff (lib : GraphLib) (RemoveEdge : SubGraph → Nat → SubGraph) :
    ∀ (groups : List (Bytes × List SubGraph)) (st : maximalState),
      (∀ g ∈ groups, g.2 ≠ []) → (groups.map Prod.fst).Sorted (· > ·) →
      (∀ g ∈ groups, Fresh st g.1) →
      (∀ g ∈ groups, ¬ FirstPlanted lib RemoveEdge g g.1) →
      ∀ x, x ∈ emitted lib RemoveEdge st groups ↔
        ∃ pre g post, groups = pre ++ g :: post ∧ g.1 = x ∧ st.labels.Has x = false ∧
          ∀ g' ∈ pre, ¬ FirstPlanted lib RemoveEdge g' x := by
  intro groups
  induction groups with
  | nil =>
    intro st _ _ _ _ x
    simp [emitted]
  | cons g gs ih =>
    intro st hne hsorted hfresh hchange x
    rw [List.map_cons, List.sorted_cons] at hsorted
    have hg := hfresh g (List.mem_cons_self _ _)
    have hgne := hne g (List.mem_cons_self _ _)
    have hstate := groupStep_eq lib RemoveEdge st g hg hgne
    have hnotin : g.1 ∉ gs.map Prod.fst := by
      intro h
      exact lt_irrefl _ (hsorted.1 _ h)
    obtain ⟨k, sgs⟩ := g
    cases sgs with
    | nil => exact absurd rfl hgne
    | cons sg rest =>
      have hown : ¬ ∃ i, i < sg.E.length ∧ k = lib.ShortLabel (RemoveEdge sg i) := by
        rintro ⟨i, hi, hk⟩
        exact hchange (k, sg :: rest) (List.mem_cons_self _ _) ⟨sg, rest, i, rfl, hi, hk⟩
      have hlabk : (groupLabels lib RemoveEdge st (k, sg :: rest)).Has k = st.labels.Has k := by
        unfold groupLabels
        simp only
        split
        · cases hh : st.labels.Has k with
          | true => rw [plantLabels_has]; exact Or.inl hh
          | false =>
            cases hp : (plantLabels lib RemoveEdge sg st.labels).Has k with
            | false => rfl
            | true =>
              rcases (plantLabels_has lib RemoveEdge sg st.labels k).1 hp with h | h
              · rw [hh] at h; cases h
              · exact absurd h hown
        · rfl
      have hhad : groupHad lib RemoveEdge st (k, sg :: rest) = st.labels.Has k := by
        unfold groupHad
        simp only
        rw [hlabk]
        cases st.labels.Has k <;> cases rest <;> rfl
      rw [emitted, List.mem_append, hhad]
      constructor
      · rintro (h | h)
        · cases hh : st.labels.Has k with
          | true => rw [hh] at h; simp at h
          | false =>
            rw [hh] at h
            simp only [Bool.false_eq_true, if_false, List.mem_singleton] at h
            exact ⟨[], (k, sg :: rest), gs, rfl, h.symm, by rw [h]; exact hh, by simp⟩
        · have hgsne : gs ≠ [] := by
            intro hnil
            rw [hnil] at h
            simp [emitted] at h
          have hkne : k ≠ [] := by
            obtain ⟨g1, hg1⟩ := List.exists_mem_of_ne_nil gs hgsne
            have := hsorted.1 g1.1 (List.mem_map_of_mem _ hg1)
            intro hk
            rw [hk] at this
            exact bytes_not_lt_nil _ this
          have hplant : groupLabels lib RemoveEdge st (k, sg :: rest) =
              plantLabels lib RemoveEdge sg st.labels := by
            unfold groupLabels
            simp only
            have hb : bytesEqual st.cur (some k) = false := by
              rcases hg with ⟨hc, _⟩ | ⟨c, hc, hcne⟩
              · rw [hc]
                cases hbb : bytesEqual none (some k) with
                | false => rfl
                | true =>
                  have : k = [] := by simpa [bytesEqual] using hbb
                  exact absurd this hkne
              · rw [hc]
                cases hbb : bytesEqual (some c) (some k) with
                | false => rfl
                | true => exact absurd ((bytesEqual_some_some c k).1 hbb) hcne
            rw [hb]
            rfl
          have hfr2 : ∀ x ∈ gs, Fresh (groupStep lib RemoveEdge st (k, sg :: rest)) x.1 := by
            intro y hy
            apply fresh_after lib RemoveEdge st _ hg hgne
            intro heq
            exact hnotin (by rw [heq]; exact List.mem_map_of_mem _ hy)
          obtain ⟨pre, g2, post, hsplit, hgx, hhas, hpre⟩ :=
            (ih _ (fun y hy => hne y (List.mem_cons_of_mem _ hy)) hsorted.2 hfr2
              (fun y hy => hchange y (List.mem_cons_of_mem _ hy)) x).1 h
          rw [hstate] at hhas
          simp only at hhas
          rw [hplant] at hhas
          have hnp : ¬ ((plantLabels lib RemoveEdge sg st.labels).Has x = true) := by
            rw [hhas]; simp
          rw [plantLabels_has] at hnp
          refine ⟨(k, sg :: rest) :: pre, g2, post, by rw [hsplit]; rfl, hgx, ?_, ?_⟩
          · cases hh : st.labels.Has x with
            | false => rfl
            | true => exact absurd (Or.inl hh) hnp
          · intro g' hg'
            rcases List.mem_cons.1 hg' with rfl | hg'
            · rintro ⟨sg', rest', i, hsg, hi, hx⟩
              cases hsg
              exact hnp (Or.inr ⟨i, hi, hx⟩)
            · exact hpre g' hg'
      · rintro ⟨pre, g2, post, hsplit, hgx, hhas, hpre⟩
        cases pre with
        | nil =>
          rw [List.nil_append, List.cons.injEq] at hsplit
          left
          rw [← hsplit.1] at hgx
          simp only at hgx
          rw [hgx, hhas]
          simp
        | cons p pre' =>
          rw [List.cons_append, List.cons.injEq] at hsplit
          right
          have hgsne : gs ≠ [] := by rw [hsplit.2]; simp
          have hkne : k ≠ [] := by
            obtain ⟨g1, hg1⟩ := List.exists_mem_of_ne_nil gs hgsne
            have := hsorted.1 g1.1 (List.mem_map_of_mem _ hg1)
            intro hk
            rw [hk] at this
            exact bytes_not_lt_nil _ this
          have hplant : groupLabels lib RemoveEdge st (k, sg :: rest) =
              plantLabels lib RemoveEdge sg st.labels := by
            unfold groupLabels
            simp only
            have hb : bytesEqual st.cur (some k) = false := by
              rcases hg with ⟨hc, _⟩ | ⟨c, hc, hcne⟩
              · rw [hc]
                cases hbb : bytesEqual none (some k) with
                | false => rfl
                | true =>
                  have : k = [] := by simpa [bytesEqual] using hbb
                  exact absurd this hkne
              · rw [hc]
                cases hbb : bytesEqual (some c) (some k) with
                | false => rfl
                | true => exact absurd ((bytesEqual_some_some c k).1 hbb) hcne
            rw [hb]
            rfl
          have hfr2 : ∀ x ∈ gs, Fresh (groupStep lib RemoveEdge st (k, sg :: rest)) x.1 := by
            intro y hy
            apply fresh_after lib RemoveEdge st _ hg hgne
            intro heq
            exact hnotin (by rw [heq]; exact List.mem_map_of_mem _ hy)
          apply (ih _ (fun y hy => hne y (List.mem_cons_of_mem _ hy)) hsorted.2 hfr2
            (fun y hy => hchange y (List.mem_cons_of_mem _ hy)) x).2
          refine ⟨pre', g2, post, hsplit.2, hgx, ?_, fun g' hg' => hpre g' (List.mem_cons_of_mem _ hg')⟩
          rw [hstate]
          simp only
          rw [hplant]
          cases hp : (plantLabels lib RemoveEdge sg st.labels).Has x with
          | false => rfl
          | true =>
            rcases (plantLabels_has lib RemoveEdge sg st.labels x).1 hp with h | ⟨i, hi, hx⟩
            · rw [hhas] at h; cases h
            · exfalso
              apply hpre p (List.mem_cons_self _ _)
              rw [← hsplit.1]
              exact ⟨sg, rest, i, rfl, hi, hx⟩

/-- C29: for a store whose backward scan yields its items group after group,
a group of one item or more for every key, the keys in strictly descending
order, where the short label of the first embedding of a group without one of
its edges is never the key of the group: `MaximalSubGraphs` sends keys of the
store in descending order, each at most once, and it sends a key `k` exactly
when no group visited before the group of `k` has `k` among the short labels
of its first embedding without one edge; for an empty store it sends nothing,
and the greatest key of a store that is not empty is sent. -/
theorem maximal_characterised (lib : GraphLib) (RemoveEdge : SubGraph → Nat → SubGraph)
    (all : Fs2BpTree) (groups : List (Bytes × List SubGraph))
    (hitems : all.Backward lib = expandGroups groups) (hne : ∀ g ∈ groups, g.2 ≠ [])
    (hsorted : (groups.map Prod.fst).Sorted (· > ·))
    (hchange : ∀ g ∈ groups, ¬ FirstPlanted lib RemoveEdge g g.1) :
    (MaximalSubGraphs lib RemoveEdge all).Sorted (· > ·) ∧
    (MaximalSubGraphs lib RemoveEdge all).Nodup ∧
    List.Sublist (MaximalSubGraphs lib RemoveEdge all) (groups.map Prod.fst) ∧
    (∀ k, k ∈ MaximalSubGraphs lib RemoveEdge all ↔
      ∃ pre g post, groups = pre ++ g :: post ∧ g.1 = k ∧
        ∀ g' ∈ pre, ¬ FirstPlanted lib RemoveEdge g' k) ∧
    (all.Backward lib = [] → MaximalSubGraphs lib RemoveEdge all = []) ∧
    (∀ g gs, groups = g :: gs → g.1 ∈ MaximalSubGraphs lib RemoveEdge all) := by
  have hnd : (groups.map Prod.fst).Nodup := by
    have h : (groups.map Prod.fst).Pairwise (· ≠ ·) :=
      List.Pairwise.imp (fun hab => ne_of_gt hab) hsorted
    exact h
  have hM : MaximalSubGraphs lib RemoveEdge all =
      emitted lib RemoveEdge ⟨none, false, BpTree.empty, []⟩ groups := by
    unfold MaximalSubGraphs
    rw [hitems]
    exact maximalRun_groups lib RemoveEdge groups hne hnd
  have hsub := emitted_sublist lib RemoveEdge groups ⟨none, false, BpTree.empty, []⟩
  have hiff : ∀ k, k ∈ MaximalSubGraphs lib RemoveEdge all ↔
      ∃ pre g post, groups = pre ++ g :: post ∧ g.1 = k ∧
        ∀ g' ∈ pre, ¬ FirstPlanted lib RemoveEdge g' k := by
    intro k
    rw [hM, emitted_iff lib RemoveEdge groups _ hne hsorted (fun g _ => Or.inl ⟨rfl, rfl⟩)
      hchange k]
    constructor
    · rintro ⟨pre, g, post, h1, h2, _, h4⟩
      exact ⟨pre, g, post, h1, h2, h4⟩
    · rintro ⟨pre, g, post, h1, h2, h4⟩
      exact ⟨pre, g, post, h1, h2, rfl, h4⟩
  have hso : (MaximalSubGraphs lib RemoveEdge all).Sorted (· > ·) := by
    rw [hM]
    exact List.Pairwise.sublist hsub hsorted
  refine ⟨hso, ?_, by rw [hM]; exact hsub, hiff, ?_, ?_⟩
  · have h : (MaximalSubGraphs lib RemoveEdge all).Pairwise (· ≠ ·) :=
      List.Pairwise.imp (fun hab => ne_of_gt hab) hso
    exact h
  · intro hempty
    unfold MaximalSubGraphs
    rw [hempty]
    rfl
  · intro g gs hg
    rw [hiff]
    exact ⟨[], g, gs, hg, rfl, by simp⟩

theorem maximal_characterised_witness :
    sizedStore.Backward sizedLib = expandGroups sizedGroups ∧
    (∀ g ∈ sizedGroups, g.2 ≠ []) ∧ (sizedGroups.map Prod.fst).Sorted (· > ·) ∧
    (∀ g ∈ sizedGroups, ¬ FirstPlanted sizedLib toyRemoveEdge g g.1) ∧
    MaximalSubGraphs sizedLib toyRemoveEdge sizedStore = [[2, 0, 1, 2, 255, 0, 1, 3, 1, 2, 3]] ∧
    (MaximalSubGraphs sizedLib toyRemoveEdge sizedStore).Sorted (· > ·) ∧
    (MaximalSubGraphs sizedLib toyRemoveEdge sizedStore).Nodup ∧
    List.Sublist (MaximalSubGraphs sizedLib toyRemoveEdge sizedStore)
      (sizedGroups.map Prod.fst) ∧
    (∀ k, k ∈ MaximalSubGraphs sizedLib toyRemoveEdge sizedStore ↔
      ∃ pre g post, sizedGroups = pre ++ g :: post ∧ g.1 = k ∧
        ∀ g' ∈ pre, ¬ FirstPlanted sizedLib toyRemoveEdge g' k) ∧
    (sizedStore.Backward sizedLib = [] →
      MaximalSubGraphs sizedLib toyRemoveEdge sizedStore = []) ∧
    (∀ g gs, sizedGroups = g :: gs →
      g.1 ∈ MaximalSubGraphs sizedLib toyRemoveEdge sizedStore) :=
  have hc : ∀ g ∈ sizedGroups, ¬ FirstPlanted sizedLib toyRemoveEdge g g.1 := by
    intro g hg
    simp only [sizedGroups, List.mem_cons, List.mem_singleton, List.not_mem_nil, or_false] at hg
    rcases hg with rfl | rfl | rfl
    · rintro ⟨sg, rest, i, hsg, hi, hx⟩
      cases hsg
      have hi2 : i < 2 := hi
      interval_cases i
      · revert hx; decide
      · revert hx; decide
    · rintro ⟨sg, rest, i, hsg, hi, hx⟩
      cases hsg
      have hi2 : i < 1 := hi
      interval_cases i
      revert hx; decide
    · rintro ⟨sg, rest, i, hsg, hi, hx⟩
      cases hsg
      have hi2 : i < 0 := hi
      omega
  ⟨by decide, by decide, by decide, hc, by decide,
    maximal_characterised sizedLib toyRemoveEdge sizedStore sizedGroups (by decide) (by decide)
      (by decide) hc⟩

/-! ## C30: the lines of `ProcessLines` -/

theorem parse_none (buf : Bytes) : parse buf = none ↔ (10 : Fin 256) ∉ buf := by
  induction buf with
  | nil => simp [parse]
  | cons b rest ih =>
    rw [parse]
    by_cases hb : b = 10
    · rw [if_pos hb]
      simp [hb]
    · rw [if_neg hb]
      cases hp : parse rest with
      | none =>
        simp only [true_iff]
        rw [List.mem_cons, not_or]
        exact ⟨fun h => hb h.symm, ih.1 hp⟩
      | some lo =>
        simp only [false_iff, not_not, reduceCtorEq]
        rw [hp] at ih
        have : (10 : Fin 256) ∈ rest := by
          by_contra hc
          have := ih.2 hc
          cases this
        exact List.mem_cons_of_mem _ this

theorem parse_some (buf line obuf : Bytes) (h : parse buf = some (line, obuf)) :
    ∃ body, line = body ++ [10] ∧ (10 : Fin 256) ∉ body ∧ buf = line ++ obuf := by
  induction buf generalizing line obuf with
  | nil => simp [parse] at h
  | cons b rest ih =>
    rw [parse] at h
    by_cases hb : b = 10
    · rw [if_pos hb] at h
      cases h
      exact ⟨[], by rw [hb]; rfl, by simp, rfl⟩
    · rw [if_neg hb] at h
      cases hp : parse rest with
      | none => rw [hp] at h; cases h
      | some lo =>
        obtain ⟨l, o⟩ := lo
        rw [hp] at h
        cases h
        obtain ⟨body, h1, h2, h3⟩ := ih l obuf hp
        refine ⟨b :: body, by rw [h1]; rfl, ?_, by rw [h3]; rfl⟩
        rw [List.mem_cons, not_or]
        exact ⟨fun h => hb h.symm, h2⟩

theorem read_line_nil (buf : Bytes) :
    read_line buf [] =
      match parse buf with
      | some (line, obuf) => .ok (line, false, obuf, [])
      | none => .ok (buf, true, buf, []) := rfl

theorem read_line_cons (buf : Bytes) (r : ReadResult) (rest : List ReadResult) :
    read_line buf (r :: rest) =
      match parse buf with
      | some (line, obuf) => .ok (line, false, obuf, r :: rest)
      | none =>
        match r with
        | .data chunk =>
          if chunk.length = 0 then .ok (buf, true, buf, rest) else read_line (buf ++ chunk) rest
        | .eof _ => .ok (buf, true, buf, rest)
        | .fail => .error .panic := rfl

/-- A call of `read_line` on a reader that returns one byte or more without
an error until its end. -/
theorem read_line_spec :
    ∀ (reader : List ReadResult) (buf : Bytes), GoodReader reader →
      ∃ line closed buf' reader', read_line buf reader = .ok (line, closed, buf', reader') ∧
        GoodReader reader' ∧
        (closed = false → (∃ body, line = body ++ [10] ∧ (10 : Fin 256) ∉ body) ∧
          line ++ buf' ++ readerContent reader' = buf ++ readerContent reader) ∧
        (closed = true → line = buf ++ readerContent reader ∧ (10 : Fin 256) ∉ line) := by
  intro reader
  induction reader with
  | nil =>
    intro buf _
    rw [read_line_nil]
    cases hp : parse buf with
    | none =>
      refine ⟨buf, true, buf, [], rfl, (fun r hr => by simp at hr), (fun h => by cases h), ?_⟩
      intro _
      exact ⟨by simp [readerContent], (parse_none buf).1 hp⟩
    | some lo =>
      obtain ⟨l, o⟩ := lo
      obtain ⟨body, h1, h2, h3⟩ := parse_some buf l o hp
      refine ⟨l, false, o, [], rfl, (fun r hr => by simp at hr), ?_, (fun h => by cases h)⟩
      intro _
      exact ⟨⟨body, h1, h2⟩, by simp [readerContent, h3]⟩
  | cons r rest ih =>
    intro buf hgood
    rw [read_line_cons]
    cases hp : parse buf with
    | some lo =>
      obtain ⟨l, o⟩ := lo
      obtain ⟨body, h1, h2, h3⟩ := parse_some buf l o hp
      refine ⟨l, false, o, r :: rest, rfl, hgood, ?_, (fun h => by cases h)⟩
      intro _
      exact ⟨⟨body, h1, h2⟩, by rw [h3]⟩
    | none =>
      obtain ⟨chunk, hr, hne⟩ := hgood r (List.mem_cons_self _ _)
      subst hr
      have hlen : ¬ chunk.length = 0 := by
        intro h
        exact hne (List.length_eq_zero.1 h)
      simp only [hlen, if_false]
      obtain ⟨line, closed, buf', reader', h1, h2, h3, h4⟩ :=
        ih (buf ++ chunk) (fun x hx => hgood x (List.mem_cons_of_mem _ hx))
      refine ⟨line, closed, buf', reader', h1, h2, ?_, ?_⟩
      · intro hc
        obtain ⟨h5, h6⟩ := h3 hc
        refine ⟨h5, ?_⟩
        rw [h6, readerContent, List.append_assoc]
      · intro hc
        obtain ⟨h5, h6⟩ := h4 hc
        refine ⟨?_, h6⟩
        rw [h5, readerContent, List.append_assoc]

theorem processLoop_spec :
    ∀ (fuel : Nat) (buf : Bytes) (reader : List ReadResult) (calls : List Bytes),
      GoodReader reader → (buf ++ readerContent reader).length < fuel →
      ∃ lines last, ProcessLoop fuel buf reader calls = .ok (calls ++ lines ++ [last]) ∧
        (lines ++ [last]).flatten = buf ++ readerContent reader ∧
        (∀ l ∈ lines, ∃ body, l = body ++ [10] ∧ (10 : Fin 256) ∉ body) ∧
        (10 : Fin 256) ∉ last := by
  intro fuel
  induction fuel with
  | zero => intro buf reader calls _ h; omega
  | succ fuel ih =>
    intro buf reader calls hgood hfuel
    obtain ⟨line, closed, buf', reader', h1, h2, h3, h4⟩ := read_line_spec reader buf hgood
    rw [ProcessLoop, h1]
    cases closed with
    | true =>
      obtain ⟨h5, h6⟩ := h4 rfl
      refine ⟨[], line, by simp, by simp [h5], (fun l hl => by simp at hl), h6⟩
    | false =>
      obtain ⟨⟨body, h5, h6⟩, h7⟩ := h3 rfl
      have hlen : (buf' ++ readerContent reader').length < fuel := by
        have := congrArg List.length h7
        rw [List.append_assoc, List.length_append, h5] at this
        simp only [List.length_append, List.length_singleton] at this hfuel ⊢
        omega
      obtain ⟨lines, last, r1, r2, r3, r4⟩ := ih buf' reader' (calls ++ [line]) h2 hlen
      refine ⟨line :: lines, last, ?_, ?_, ?_, r4⟩
      · simp only [Bool.false_eq_true, if_false]
        rw [r1]
        simp
      · rw [List.cons_append, List.flatten_cons, r2, ← h7, List.append_assoc]
      · intro l hl
        rcases List.mem_cons.1 hl with rfl | hl
        · exact ⟨body, h5, h6⟩
        · exact r3 l hl

/-- The calls of `process` for a reader that returns one byte or more
without an error until its end. -/
theorem processLines_lines (reader : List ReadResult) (fuel : Nat) (hgood : GoodReader reader)
    (hfuel : (readerContent reader).length < fuel) :
    ∃ lines last, ProcessLines fuel reader = .ok (lines ++ [last]) ∧
      (lines ++ [last]).flatten = readerContent reader := by
  obtain ⟨lines, last, h1, h2, _, _⟩ := processLoop_spec fuel [] reader [] hgood
    (by simpa using hfuel)
  exact ⟨lines, last, by unfold ProcessLines; rw [h1]; simp, by simpa using h2⟩

/-- C30: for every reader whose calls of `Read` return one byte or more
without an error until a last call that returns no byte and `io.EOF`, and
more steps than the reader has bytes, `ProcessLines` returns after calls of
`process` on a finite sequence of byte strings whose concatenation in their
order is the content of the reader; every call but the last receives a
string that ends in a line feed and has no other line feed, and the last call
receives the rest, which has no line feed and may be empty. -/
theorem processLines_spec (reader : List ReadResult) (fuel : Nat) (hgood : GoodReader reader)
    (hfuel : (readerContent reader).length < fuel) :
    ∃ lines last, ProcessLines fuel reader = .ok (lines ++ [last]) ∧
      (lines ++ [last]).flatten = readerContent reader ∧
      (∀ l ∈ lines, ∃ body, l = body ++ [10] ∧ (10 : Fin 256) ∉ body) ∧
      (10 : Fin 256) ∉ last := by
  obtain ⟨lines, last, h1, h2, h3, h4⟩ := processLoop_spec fuel [] reader [] hgood
    (by simpa using hfuel)
  exact ⟨lines, last, by unfold ProcessLines; rw [h1]; simp, by simpa using h2, h3, h4⟩

theorem processLines_spec_witness :
    GoodReader [ReadResult.data [97, 10, 98], ReadResult.data [99, 10, 10, 100]] ∧
    (readerContent [ReadResult.data [97, 10, 98], ReadResult.data [99, 10, 10, 100]]).length < 8 ∧
    ProcessLines 8 [ReadResult.data [97, 10, 98], ReadResult.data [99, 10, 10, 100]] =
      .ok [[97, 10], [98, 99, 10], [10], [100]] ∧
    ∃ lines last,
      ProcessLines 8 [ReadResult.data [97, 10, 98], ReadResult.data [99, 10, 10, 100]] =
        .ok (lines ++ [last]) ∧
      (lines ++ [last]).flatten =
        readerContent [ReadResult.data [97, 10, 98], ReadResult.data [99, 10, 10, 100]] ∧
      (∀ l ∈ lines, ∃ body, l = body ++ [10] ∧ (10 : Fin 256) ∉ body) ∧
      (10 : Fin 256) ∉ last :=
  have hg : GoodReader [ReadResult.data [97, 10, 98], ReadResult.data [99, 10, 10, 100]] := by
    intro r hr
    simp only [List.mem_cons, List.mem_singleton, List.not_mem_nil, or_false] at hr
    rcases hr with rfl | rfl
    · exact ⟨_, rfl, by decide⟩
    · exact ⟨_, rfl, by decide⟩
  ⟨hg, by decide, by rfl,
    processLines_spec [ReadResult.data [97, 10, 98], ReadResult.data [99, 10, 10, 100]] 8 hg
      (by decide)⟩

/-! ## C27: unknown line types in `LoadGraph` -/

theorem splitOn_ne_nil (sep : Fin 256) (s : Bytes) : splitOn sep s ≠ [] := by
  cases s with
  | nil => simp [splitOn]
  | cons b rest =>
    rw [splitOn]
    split
    · simp
    · split <;> simp

theorem splitOn_two (sep : Fin 256) :
    ∀ s : Bytes, sep ∈ s → ∃ s0 s1 rest, splitOn sep s = s0 :: s1 :: rest := by
  intro s
  induction s with
  | nil => intro h; simp at h
  | cons b rest ih =>
    intro h
    rw [splitOn]
    by_cases hb : b = sep
    · rw [if_pos hb]
      cases hs : splitOn sep rest with
      | nil => exact absurd hs (splitOn_ne_nil sep rest)
      | cons p ps => exact ⟨[], p, ps, rfl⟩
    · rw [if_neg hb]
      have hrest : sep ∈ rest := by
        rcases List.mem_cons.1 h with h | h
        · exact absurd h.symm hb
        · exact h
      obtain ⟨s0, s1, r, hs⟩ := ih hrest
      rw [hs]
      exact ⟨b :: s0, s1, r, rfl⟩

theorem unknownEntries_append (a b : List ParseError) :
    unknownEntries (a ++ b) = unknownEntries a ++ unknownEntries b := by
  unfold unknownEntries
  rw [List.filterMap_append]

theorem loadVertex_isNone (L : jsonLib) (cfg : loadConfig) (g g' : loadState) (d : Bytes) :
    (LoadVertex L cfg g d).isNone = (LoadVertex L cfg g' d).isNone := by
  unfold LoadVertex
  cases L.ParseJson d with
  | error e => rfl
  | ok obj =>
    simp only
    cases obj.lookup idKey with
    | none => rfl
    | some v =>
      cases v with
      | string s => rfl
      | other => rfl
      | number text =>
        simp only
        cases L.Int64 text with
        | error e => rfl
        | ok id =>
          simp only
          cases obj.lookup labelKey with
          | none => rfl
          | some w =>
            cases w with
            | number t => rfl
            | other => rfl
            | string s =>
              simp only
              cases cfg.nodeAttrs with
              | false => rfl
              | true =>
                rw [if_pos rfl, if_pos rfl]
                by_cases hs : cfg.supportAttr ≠ []
                · rw [if_pos hs, if_pos hs]
                  cases obj.lookup cfg.supportAttr with
                  | none => rfl
                  | some a => cases a <;> rfl
                · rw [if_neg hs, if_neg hs]
                  rfl

theorem loadEdge_isNone (L : jsonLib) (g g' : loadState) (d : Bytes) :
    (LoadEdge L g d).isNone = (LoadEdge L g' d).isNone := by
  unfold LoadEdge
  cases L.ParseJson d with
  | error e => rfl
  | ok obj =>
    simp only
    cases obj.lookup srcKey with
    | none => rfl
    | some v =>
      cases v with
      | string s => rfl
      | other => rfl
      | number text =>
        simp only
        cases L.Int64 text with
        | error e => rfl
        | ok src =>
          simp only
          cases obj.lookup targKey with
          | none => rfl
          | some w =>
            cases w with
            | string s => rfl
            | other => rfl
            | number ttext =>
              simp only
              cases L.Int64 ttext with
              | error e => rfl
              | ok targ =>
                simp only
                cases obj.lookup labelKey with
                | none => rfl
                | some x =>
                  cases x with
                  | number t => rfl
                  | other => rfl
                  | string s =>
                    simp only
                    cases g.vids.lookup src with
                    | none =>
                      cases g'.vids.lookup src with
                      | none => rfl
                      | some u' => cases g'.vids.lookup targ <;> rfl
                    | some u =>
                      cases g.vids.lookup targ <;> cases g'.vids.lookup src with
                      | none => rfl
                      | some u' => cases g'.vids.lookup targ <;> rfl

/-- The callback on one line with the functions of the source: it panics
exactly on a line on which a type assertion panics, and otherwise the line
adds an entry `Unknown line type` exactly when it has a tab and a line type
that is neither `vertex` nor `edge`. -/
theorem loadLine_source (L : jsonLib) (cfg : loadConfig)
    (st : loadState × List ParseError) (line : Bytes) :
    (linePanics L cfg line = true → loadLine (sourceLoader L cfg) st line = none) ∧
    (linePanics L cfg line = false →
      ∃ st', loadLine (sourceLoader L cfg) st line = some st' ∧
        unknownEntries st'.2 =
          unknownEntries st.2 ++ (UnknownLine L.TrimSpace line).toList) := by
  unfold loadLine UnknownLine linePanics
  by_cases htab : (9 : Fin 256) ∈ line
  · have hlen : ¬ line.length = 0 := by
      intro h
      rw [List.length_eq_zero.1 h] at htab
      simp at htab
    have hcond : ¬ (line.length = 0 ∨ (9 : Fin 256) ∉ line) := by
      rintro (h | h)
      · exact hlen h
      · exact h htab
    rw [if_neg hcond, if_pos htab, if_pos htab]
    obtain ⟨s0, s1, rest, hs⟩ := splitOn_two 9 line htab
    have hp : parseLine L.TrimSpace line = some (L.TrimSpace s0, L.TrimSpace s1) := by
      unfold parseLine
      rw [hs]
    have hp' : parseLine (sourceLoader L cfg).TrimSpace line
        = some (L.TrimSpace s0, L.TrimSpace s1) := hp
    rw [hp, hp']
    simp only
    by_cases h1 : L.TrimSpace s0 = vertexType
    · rw [if_pos h1, if_pos h1, if_pos (Or.inl h1)]
      have hv := loadVertex_isNone L cfg st.1 loadState.empty (L.TrimSpace s1)
      have hsl : (sourceLoader L cfg).LoadVertex = LoadVertex L cfg := rfl
      rw [hsl]
      cases hr : LoadVertex L cfg st.1 (L.TrimSpace s1) with
      | none =>
        rw [hr] at hv
        refine ⟨fun _ => rfl, ?_⟩
        intro hf
        rw [← hv] at hf
        cases hf
      | some r =>
        rw [hr] at hv
        refine ⟨?_, ?_⟩
        · intro ht
          rw [← hv] at ht
          cases ht
        · intro _
          obtain ⟨g, e⟩ := r
          cases e with
          | none => exact ⟨_, rfl, by simp⟩
          | some err =>
            refine ⟨_, rfl, ?_⟩
            simp only
            rw [unknownEntries_append]
            simp [unknownEntries]
    · rw [if_neg h1, if_neg h1]
      by_cases h2 : L.TrimSpace s0 = edgeType
      · rw [if_pos h2, if_pos h2, if_pos (Or.inr h2)]
        have hv := loadEdge_isNone L st.1 loadState.empty (L.TrimSpace s1)
        have hsl : (sourceLoader L cfg).LoadEdge = LoadEdge L := rfl
        rw [hsl]
        cases hr : LoadEdge L st.1 (L.TrimSpace s1) with
        | none =>
          rw [hr] at hv
          refine ⟨fun _ => rfl, ?_⟩
          intro hf
          rw [← hv] at hf
          cases hf
        | some r =>
          rw [hr] at hv
          refine ⟨?_, ?_⟩
          · intro ht
            rw [← hv] at ht
            cases ht
          · intro _
            obtain ⟨g, e⟩ := r
            cases e with
            | none => exact ⟨_, rfl, by simp⟩
            | some err =>
              refine ⟨_, rfl, ?_⟩
              simp only
              rw [unknownEntries_append]
              simp [unknownEntries]
      · rw [if_neg h2, if_neg h2, if_neg (by rintro (h | h); exact h1 h; exact h2 h)]
        refine ⟨(fun h => by cases h), (fun _ => ⟨_, rfl, ?_⟩)⟩
        simp only
        rw [unknownEntries_append]
        simp [unknownEntries]
  · rw [if_pos (Or.inr htab), if_neg htab, if_neg htab]
    exact ⟨(fun h => by cases h), (fun _ => ⟨st, rfl, by simp⟩)⟩

theorem loadLines_source (L : jsonLib) (cfg : loadConfig) :
    ∀ (lines : List Bytes) (st : loadState × List ParseError),
      (lines.any (linePanics L cfg) = true → loadLines (sourceLoader L cfg) st lines = none) ∧
      (lines.any (linePanics L cfg) = false →
        ∃ st', loadLines (sourceLoader L cfg) st lines = some st' ∧
          unknownEntries st'.2 =
            unknownEntries st.2 ++ lines.filterMap (UnknownLine L.TrimSpace)) := by
  intro lines
  induction lines with
  | nil =>
    intro st
    exact ⟨(fun h => by simp at h), (fun _ => ⟨st, rfl, by simp⟩)⟩
  | cons line rest ih =>
    intro st
    obtain ⟨hp, hok⟩ := loadLine_source L cfg st line
    rw [List.any_cons]
    cases hl : linePanics L cfg line with
    | true =>
      refine ⟨(fun _ => ?_), (fun h => by simp at h)⟩
      rw [loadLines, hp hl]
    | false =>
      obtain ⟨st1, h1, h2⟩ := hok hl
      obtain ⟨ihp, ihok⟩ := ih st1
      simp only [Bool.false_or]
      refine ⟨?_, ?_⟩
      · intro h
        rw [loadLines, h1]
        exact ihp h
      · intro h
        obtain ⟨st2, h3, h4⟩ := ihok h
        refine ⟨st2, by rw [loadLines, h1]; exact h3, ?_⟩
        rw [h4, h2, List.append_assoc]
        congr 1
        cases hu : UnknownLine L.TrimSpace line with
        | none => simp [List.filterMap_cons, hu]
        | some t => simp [List.filterMap_cons, hu]

/-- C27, counterexample: for the input `foo` with a line feed, a line that is
not empty and whose text before any tab is `foo`, neither `vertex` nor
`edge`, `LoadGraph` returns no error: the callback returns at once on a line
without a tab. And for an input with the line of the type `vertex` and the
data of the empty object, `LoadGraph` returns no error either: the type
assertion on `obj["id"]` panics. -/
theorem loadGraph_unknown_counterexample :
    ProcessLines 20 [ReadResult.data [102, 111, 111, 10]] = .ok [[102, 111, 111, 10], []] ∧
    (splitOn 9 [102, 111, 111, 10]).head?.map toyJson.TrimSpace = some [102, 111, 111] ∧
    ([102, 111, 111] : Bytes) ≠ vertexType ∧ ([102, 111, 111] : Bytes) ≠ edgeType ∧
    LoadGraph (sourceLoader toyJson plainConfig) 20 [ReadResult.data [102, 111, 111, 10]]
      loadState.empty = .ok (loadState.empty, []) ∧
    LoadGraph (sourceLoader toyJson plainConfig) 40
      [ReadResult.data [102, 111, 111, 9, 120, 10, 118, 101, 114, 116, 101, 120, 9, 123, 125, 10,
        122, 10]] loadState.empty = .error .panic :=
  ⟨by rfl, by decide, by decide, by decide, by rfl, by rfl⟩

/-- C27, amended: for every reader whose calls of `Read` return one byte or
more without an error until its end (given more steps than it has bytes),
`LoadGraph` returns exactly when no type assertion of `LoadVertex` or of
`LoadEdge` panics on a line, and panics otherwise; when it returns, the
entries `Unknown line type` of its list of errors are, in the order of the
lines, the line types of the lines that have a tab and a line type, the
trimmed text before the first tab, that is neither `vertex` nor `edge`; so
the list is not empty (the error is not nil) when there is such a line, and a
line without a tab adds no entry. -/
theorem loadGraph_unknown (L : jsonLib) (cfg : loadConfig) (fuel : Nat)
    (reader : List ReadResult) (g0 : loadState) (hgood : GoodReader reader)
    (hfuel : (readerContent reader).length < fuel) :
    ∃ lines, ProcessLines fuel reader = .ok lines ∧
      ((∃ r, LoadGraph (sourceLoader L cfg) fuel reader g0 = .ok r) ↔
        ∀ line ∈ lines, linePanics L cfg line = false) ∧
      (LoadGraph (sourceLoader L cfg) fuel reader g0 = .error .panic ↔
        ∃ line ∈ lines, linePanics L cfg line = true) ∧
      ∀ g errors, LoadGraph (sourceLoader L cfg) fuel reader g0 = .ok (g, errors) →
        unknownEntries errors = lines.filterMap (UnknownLine L.TrimSpace) ∧
        (∀ line ∈ lines, ∀ t, UnknownLine L.TrimSpace line = some t →
          ParseError.unknownLineType t ∈ errors ∧ errors ≠ []) ∧
        (∀ line ∈ lines, (9 : Fin 256) ∉ line → UnknownLine L.TrimSpace line = none) := by
  obtain ⟨ls, last, hpl, _⟩ := processLines_lines reader fuel hgood hfuel
  obtain ⟨hpanic, hok⟩ := loadLines_source L cfg (ls ++ [last]) (g0, [])
  have hnone : loadLines (sourceLoader L cfg) (g0, []) (ls ++ [last]) = none →
      LoadGraph (sourceLoader L cfg) fuel reader g0 = .error .panic := by
    intro h
    unfold LoadGraph
    rw [hpl]
    simp only [h]
  have hsome : ∀ st, loadLines (sourceLoader L cfg) (g0, []) (ls ++ [last]) = some st →
      LoadGraph (sourceLoader L cfg) fuel reader g0 = .ok st := by
    intro st h
    unfold LoadGraph
    rw [hpl]
    simp only [h]
  refine ⟨ls ++ [last], hpl, ?_, ?_, ?_⟩
  · cases hany : (ls ++ [last]).any (linePanics L cfg) with
    | true =>
      rw [hnone (hpanic hany)]
      constructor
      · rintro ⟨r, hr⟩; cases hr
      · intro hall
        rw [List.any_eq_true] at hany
        obtain ⟨line, hl, hp⟩ := hany
        rw [hall line hl] at hp
        cases hp
    | false =>
      obtain ⟨st, hst, _⟩ := hok hany
      rw [hsome st hst]
      constructor
      · intro _ line hl
        cases hp : linePanics L cfg line with
        | false => rfl
        | true =>
          have : (ls ++ [last]).any (linePanics L cfg) = true :=
            List.any_eq_true.2 ⟨line, hl, hp⟩
          rw [hany] at this
          cases this
      · intro _
        exact ⟨st, rfl⟩
  · cases hany : (ls ++ [last]).any (linePanics L cfg) with
    | true =>
      rw [hnone (hpanic hany)]
      constructor
      · intro _
        rw [List.any_eq_true] at hany
        exact hany
      · intro _; rfl
    | false =>
      obtain ⟨st, hst, _⟩ := hok hany
      rw [hsome st hst]
      constructor
      · intro h; cases h
      · rintro ⟨line, hl, hp⟩
        have : (ls ++ [last]).any (linePanics L cfg) = true :=
          List.any_eq_true.2 ⟨line, hl, hp⟩
        rw [hany] at this
        cases this
  · intro g errors hret
    cases hany : (ls ++ [last]).any (linePanics L cfg) with
    | true =>
      rw [hnone (hpanic hany)] at hret
      cases hret
    | false =>
      obtain ⟨st, hst, hun⟩ := hok hany
      rw [hsome st hst] at hret
      cases hret
      have hun2 : unknownEntries errors
          = (ls ++ [last]).filterMap (UnknownLine L.TrimSpace) := by
        simpa [unknownEntries] using hun
      refine ⟨hun2, ?_, ?_⟩
      · intro line hline t ht
        have hmem : t ∈ unknownEntries errors := by
          rw [hun2, List.mem_filterMap]
          exact ⟨line, hline, ht⟩
        unfold unknownEntries at hmem
        rw [List.mem_filterMap] at hmem
        obtain ⟨e, he, het⟩ := hmem
        cases e with
        | vertex m => simp at het
        | edge m => simp at het
        | unknownLineType t2 =>
          simp only [Option.some.injEq] at het
          rw [← het]
          exact ⟨he, List.ne_nil_of_mem he⟩
      · intro line _ htab
        unfold UnknownLine
        rw [if_neg htab]

theorem loadGraph_unknown_witness :
    GoodReader [ReadResult.data [102, 111, 111, 9, 120, 10, 118, 101, 114, 116, 101, 120, 9, 123,
      34, 105, 100, 34, 58, 49, 44, 34, 108, 97, 98, 101, 108, 34, 58, 34, 97, 34, 125, 10, 122,
      10]] ∧
    (readerContent [ReadResult.data [102, 111, 111, 9, 120, 10, 118, 101, 114, 116, 101, 120, 9,
      123, 34, 105, 100, 34, 58, 49, 44, 34, 108, 97, 98, 101, 108, 34, 58, 34, 97, 34, 125, 10,
      122, 10]]).length < 60 ∧
    LoadGraph (sourceLoader toyJson plainConfig) 60 [ReadResult.data [102, 111, 111, 9, 120, 10,
      118, 101, 114, 116, 101, 120, 9, 123, 34, 105, 100, 34, 58, 49, 44, 34, 108, 97, 98, 101,
      108, 34, 58, 34, 97, 34, 125, 10, 122, 10]] loadState.empty =
      .ok ({ V := [(1, [97])], vids := [(1, 0)], E := [], nodeAttrs := [], supportAttrs := [] },
        [ParseError.unknownLineType [102, 111, 111]]) ∧
    ∃ lines,
      ProcessLines 60 [ReadResult.data [102, 111, 111, 9, 120, 10, 118, 101, 114, 116, 101, 120,
        9, 123, 34, 105, 100, 34, 58, 49, 44, 34, 108, 97, 98, 101, 108, 34, 58, 34, 97, 34, 125,
        10, 122, 10]] = .ok lines ∧
      ((∃ r, LoadGraph (sourceLoader toyJson plainConfig) 60 [ReadResult.data [102, 111, 111, 9,
          120, 10, 118, 101, 114, 116, 101, 120, 9, 123, 34, 105, 100, 34, 58, 49, 44, 34, 108,
          97, 98, 101, 108, 34, 58, 34, 97, 34, 125, 10, 122, 10]] loadState.empty = .ok r) ↔
        ∀ line ∈ lines, linePanics toyJson plainConfig line = false) ∧
      (LoadGraph (sourceLoader toyJson plainConfig) 60 [ReadResult.data [102, 111, 111, 9, 120,
          10, 118, 101, 114, 116, 101, 120, 9, 123, 34, 105, 100, 34, 58, 49, 44, 34, 108, 97,
          98, 101, 108, 34, 58, 34, 97, 34, 125, 10, 122, 10]] loadState.empty = .error .panic ↔
        ∃ line ∈ lines, linePanics toyJson plainConfig line = true) ∧
      ∀ g errors, LoadGraph (sourceLoader toyJson plainConfig) 60 [ReadResult.data [102, 111,
          111, 9, 120, 10, 118, 101, 114, 116, 101, 120, 9, 123, 34, 105, 100, 34, 58, 49, 44,
          34, 108, 97, 98, 101, 108, 34, 58, 34, 97, 34, 125, 10, 122, 10]] loadState.empty
            = .ok (g, errors) →
        unknownEntries errors = lines.filterMap (UnknownLine toyJson.TrimSpace) ∧
        (∀ line ∈ lines, ∀ t, UnknownLine toyJson.TrimSpace line = some t →
          ParseError.unknownLineType t ∈ errors ∧ errors ≠ []) ∧
        (∀ line ∈ lines, (9 : Fin 256) ∉ line → UnknownLine toyJson.TrimSpace line = none) :=
  have hg : GoodReader [ReadResult.data [102, 111, 111, 9, 120, 10, 118, 101, 114, 116, 101, 120,
      9, 123, 34, 105, 100, 34, 58, 49, 44, 34, 108, 97, 98, 101, 108, 34, 58, 34, 97, 34, 125,
      10, 122, 10]] := by
    intro r hr
    rw [List.mem_singleton] at hr
    exact ⟨_, hr, by decide⟩
  ⟨hg, by decide, by rfl,
    loadGraph_unknown toyJson plainConfig 60 _ loadState.empty hg (by decide)⟩

/-! ## C22: anti-monotonicity of the minimum image support -/

theorem mis_length_min (sgs : partition) (n : Nat) (hne : sgs ≠ [])
    (hn : 1 ≤ n) (hall : ∀ sg ∈ sgs, sg.V.length = n) :
    ∃ out, MinimumImageSupport sgs = some out ∧
      (∃ a, a < n ∧ out.length = imageSize sgs a) ∧
      ∀ i, i < n → out.length ≤ imageSize sgs i := by
  by_cases h2 : 2 ≤ sgs.length
  · obtain ⟨a, ha, h1, _, h4⟩ := mis_core sgs n h2 hn hall
    have hslot : ∀ sg ∈ sgs, a < sg.V.length := fun sg hsg => by rw [hall sg hsg]; exact ha
    obtain ⟨out, ho, hf⟩ := mapM_some_of_forall (fun idx => sgs[idx]?)
      (buildFrom 0 (slotIds sgs a) MapSet.empty).Values
      (fun j hj => getElem?_some_of_lt sgs j (mis_values_lt sgs a hslot j hj))
    have hlen : out.length = imageSize sgs a := by
      rw [← hf.length_eq]
      unfold MapSet.Values
      rw [List.length_map]
      exact size_buildFrom _
    refine ⟨out, h4.trans ho, ⟨a, ha, hlen⟩, ?_⟩
    intro i hi
    rw [hlen]
    exact h1 i hi
  · cases sgs with
    | nil => exact absurd rfl hne
    | cons sg rest =>
      cases rest with
      | cons sg' rest' => simp at h2
      | nil =>
        have hV : sg.V.length = n := hall sg (List.mem_cons_self _ _)
        refine ⟨[sg], by simp [MinimumImageSupport], ⟨0, by omega, ?_⟩, ?_⟩
        · rw [imageSize_singleton sg 0 (by omega)]; rfl
        · intro i hi
          rw [imageSize_singleton sg i (by omega)]; rfl

theorem imageSize_le_of_project (sgs sgs' : partition) (a b : Nat)
    (h : ∀ x' ∈ sgs', ∃ x ∈ sgs, (x.V[a]?).map Vertex.Id = (x'.V[b]?).map Vertex.Id) :
    imageSize sgs' b ≤ imageSize sgs a := by
  unfold imageSize
  have hsub : (slotIds sgs' b).dedup ⊆ (slotIds sgs a).dedup := by
    intro y hy
    rw [List.mem_dedup] at hy ⊢
    unfold slotIds at hy ⊢
    rw [List.mem_filterMap] at hy ⊢
    obtain ⟨x', hx', hy'⟩ := hy
    obtain ⟨x, hx, hxy⟩ := h x' hx'
    exact ⟨x, hx, hxy.trans hy'⟩
  exact ((List.nodup_dedup _).subperm hsub).length_le

set_option maxRecDepth 100000 in
/-- C22 (counterexample): in the engine the partitions are the stored
embeddings, and they are not anti-monotone.  On `toyGraph` with the support 1,
from the state that `initial` returns, after the extensions of the partition of the label `c` and then of the
partition of the label `b → c`, the embedding `a1 → b1` has no stored
partition at all while its one-edge extension `a1 → b1 → c1` has a partition
of one embedding. -/
theorem mis_antimonotone_counterexample :
    ∃ p1 k1 m1 p2 k2 m2,
      RandomWalkMiner.initial toyEnv 1 1 20
        = .ok (toyMinerOne.AllEmbeddings, toyMinerOne.startingPoints) ∧
      toyMinerOne.partition toyLib [2, 255] = .ok p1 ∧
      toyMinerOne.callExtensions toyWalkEnv p1 = .ok (k1, m1) ∧
      m1.partition toyLib toyLabelBC = .ok p2 ∧
      m1.callExtensions toyWalkEnv p2 = .ok (k2, m2) ∧
      toyOps.HasEdge (toyEmbedding [0, 2] [⟨0, 2, 3⟩]) ⟨2, 5, 3⟩ = false ∧
      toyLib.ShortLabel (toyEmbedding [0, 2] [⟨0, 2, 3⟩]) = toyLabelAB ∧
      toyLib.ShortLabel (toyOps.EdgeExtend (toyEmbedding [0, 2] [⟨0, 2, 3⟩]) ⟨2, 5, 3⟩)
        = toyLabelABC ∧
      m2.partition toyLib toyLabelAB = .ok [] ∧
      m2.partition toyLib toyLabelABC
        = .ok [toyOps.EdgeExtend (toyEmbedding [0, 2] [⟨0, 2, 3⟩]) ⟨2, 5, 3⟩] ∧
      MinimumImageSupport [] = some [] ∧
      MinimumImageSupport [toyOps.EdgeExtend (toyEmbedding [0, 2] [⟨0, 2, 3⟩]) ⟨2, 5, 3⟩]
        = some [toyOps.EdgeExtend (toyEmbedding [0, 2] [⟨0, 2, 3⟩]) ⟨2, 5, 3⟩] :=
  ⟨_, _, _, _, _, _, rfl, rfl, rfl, rfl, rfl, rfl, rfl, rfl, rfl, rfl, rfl, rfl⟩

/-- C22 (amended): the minimum image support is anti-monotone for partitions
that hold the embeddings the claim has in mind.  When every embedding of the
partition `sgs'` restricts, along a map `σ` of the `n ≥ 1` slots of `sgs` into
the slots of `sgs'`, to an embedding of the partition `sgs` with the same
vertex ids, both calls of `MinimumImageSupport` return and the result for
`sgs'` is no longer than the result for `sgs`. -/
theorem mis_antimonotone (sgs sgs' : partition) (n n' : Nat) (σ : Nat → Nat)
    (hne : sgs ≠ []) (hne' : sgs' ≠ []) (hn : 1 ≤ n)
    (hall : ∀ sg ∈ sgs, sg.V.length = n) (hall' : ∀ sg ∈ sgs', sg.V.length = n')
    (hσ : ∀ j, j < n → σ j < n')
    (hproj : ∀ x' ∈ sgs', ∃ x ∈ sgs, ∀ j, j < n →
      (x.V[j]?).map Vertex.Id = (x'.V[σ j]?).map Vertex.Id) :
    ∃ out out', MinimumImageSupport sgs = some out ∧
      MinimumImageSupport sgs' = some out' ∧ out'.length ≤ out.length := by
  have hn' : 1 ≤ n' := by have := hσ 0 (by omega); omega
  obtain ⟨out, ho, ⟨a, ha, hlen⟩, _⟩ := mis_length_min sgs n hne hn hall
  obtain ⟨out', ho', _, hmin⟩ := mis_length_min sgs' n' hne' hn' hall'
  refine ⟨out, out', ho, ho', ?_⟩
  rw [hlen]
  refine (hmin (σ a) (hσ a ha)).trans ?_
  apply imageSize_le_of_project
  intro x' hx'
  obtain ⟨x, hx, h⟩ := hproj x' hx'
  exact ⟨x, hx, h a ha⟩

set_option maxRecDepth 100000 in
theorem mis_antimonotone_witness :
    ∃ out out',
      MinimumImageSupport [toyEmbedding [0, 2] [⟨0, 2, 3⟩], toyEmbedding [0, 3] [⟨0, 3, 3⟩],
        toyEmbedding [1, 4] [⟨1, 4, 3⟩]] = some out ∧
      MinimumImageSupport [toyEmbedding [0, 2, 5] [⟨0, 2, 3⟩, ⟨2, 5, 3⟩]] = some out' ∧
      out'.length ≤ out.length :=
  mis_antimonotone
    [toyEmbedding [0, 2] [⟨0, 2, 3⟩], toyEmbedding [0, 3] [⟨0, 3, 3⟩],
      toyEmbedding [1, 4] [⟨1, 4, 3⟩]]
    [toyEmbedding [0, 2, 5] [⟨0, 2, 3⟩, ⟨2, 5, 3⟩]] 2 3 id
    (by decide) (by decide) (by decide) (by decide) (by decide)
    (by intro j hj; simp only [id]; omega)
    (by
      intro x' hx'
      rw [List.mem_singleton] at hx'
      subst hx'
      refine ⟨toyEmbedding [0, 2] [⟨0, 2, 3⟩], List.mem_cons_self _ _, ?_⟩
      intro j hj
      have h : j = 0 ∨ j = 1 := by omega
      rcases h with h | h <;> subst h <;> rfl)

/-! ## C26: the deferred recover of `PrMatrices` -/

theorem extensionsHalt_forget (env : minerEnv) (sched : List Bytes → List Bytes)
    (rand : Nat → Nat) (m : RandomWalkMiner) (sgs : Graple.partition) :
    forgetPlace (m.extensionsHalt env sgs) = m.callExtensions (env.toWalkEnv sched rand) sgs := by
  unfold RandomWalkMiner.extensionsHalt RandomWalkMiner.callExtensions minerEnv.toWalkEnv
    RandomWalkMiner.extensions
  cases sgs with
  | nil => rfl
  | cons s0 rest =>
    simp only
    by_cases hhas : m.extended.Has (env.lib.ShortLabel s0) = true
    · simp only [hhas, if_true]
      cases m.extended.Get env.codec (env.lib.ShortLabel s0) <;> rfl
    · simp only [hhas, Bool.false_eq_true, if_false]
      cases extend env.G env.ops m.Support env.esched (s0 :: rest) with
      | none => rfl
      | some esgs =>
        simp only
        cases m.AllEmbeddings.sendAll env.lib esgs with
        | none => rfl
        | some all =>
          simp only
          cases m.extended.Put env.codec (env.lib.ShortLabel s0)
              (esgs.foldl (fun ks sg => ks.Add (env.lib.ShortLabel sg)) SortedSet.empty) <;>
            cases all.receiveAll env.lib (env.received all) <;> rfl

theorem fault_here_toFault (e : Fault) : e.here.toFault = e := by cases e <;> rfl

theorem fault_elsewhere_toFault (e : Fault) : e.elsewhere.toFault = e := by cases e <;> rfl

theorem probabilityHalt_forget (env : minerEnv) (sched : List Bytes → List Bytes)
    (rand : Nat → Nat) (m : RandomWalkMiner) (n i : Nat) (sg : SubGraph) :
    forgetPlace (m.probabilityHalt env sched n i sg) =
      m.probability (env.toWalkEnv sched rand) n i sg := by
  have hext := extensionsHalt_forget env sched rand m
  unfold RandomWalkMiner.probabilityHalt RandomWalkMiner.probability
  show forgetPlace (match m.partition env.lib (env.lib.ShortLabel sg) with
    | .error e => .error e.here
    | .ok part => _) = (match m.partition env.lib (env.lib.ShortLabel sg) with
    | .error e => .error e
    | .ok part => _)
  cases m.partition env.lib (env.lib.ShortLabel sg) with
  | error e => simp only [forgetPlace, fault_here_toFault]
  | ok part =>
    simp only
    rw [← hext part]
    cases m.extensionsHalt env part with
    | error h => rfl
    | ok km =>
      obtain ⟨keys, m1⟩ := km
      simp only [forgetPlace]
      show forgetPlace (match m1.supportedKeys env.lib env.codec sched (env.lib.ShortLabel sg) keys with
        | .error e => .error e.elsewhere
        | .ok res => _) = (match m1.supportedKeys env.lib env.codec sched (env.lib.ShortLabel sg) keys with
        | .error e => .error e
        | .ok res => _)
      cases m1.supportedKeys env.lib env.codec sched (env.lib.ShortLabel sg) keys with
      | error e => simp only [forgetPlace, fault_elsewhere_toFault]
      | ok res =>
        simp only
        by_cases h1 : i + 1 = n
        · simp only [h1, if_true]; rfl
        · simp only [h1, if_false]
          by_cases h2 : res.supKeys.Size = 0
          · simp only [h2, if_true]
            cases part[0]? <;> rfl
          · simp only [h2, if_false]; rfl

theorem probabilitiesLoopHalt_forget (env : minerEnv) (sched : List Bytes → List Bytes)
    (rand : Nat → Nat) (n : Nat) :
    ∀ (l : List SubGraph) (i : Nat) (m : RandomWalkMiner) (P : List Int),
      forgetPlace (RandomWalkMiner.probabilitiesLoopHalt env sched n i l m P) =
        RandomWalkMiner.probabilitiesLoop (env.toWalkEnv sched rand) n i l m P := by
  intro l
  induction l with
  | nil => intro i m P; rfl
  | cons sg rest ih =>
    intro i m P
    rw [RandomWalkMiner.probabilitiesLoopHalt, RandomWalkMiner.probabilitiesLoop,
      ← probabilityHalt_forget env sched rand m n i sg]
    cases m.probabilityHalt env sched n i sg with
    | error h => rfl
    | ok pm =>
      obtain ⟨p, m'⟩ := pm
      simp only [forgetPlace]
      exact ih (i + 1) m' (P.set i p)

theorem prMatricesBody_forget (env : minerEnv) (sched : List Bytes → List Bytes)
    (rand : Nat → Nat) (m : RandomWalkMiner) (lattice : Lattice) :
    forgetPlace (m.PrMatricesBody env sched lattice) =
      m.PrMatrices (env.toWalkEnv sched rand) lattice := by
  unfold RandomWalkMiner.PrMatricesBody RandomWalkMiner.PrMatrices RandomWalkMiner.probabilities
  rw [← probabilitiesLoopHalt_forget env sched rand]
  cases RandomWalkMiner.probabilitiesLoopHalt env sched lattice.V.length 0 lattice.V m
      (List.replicate lattice.V.length 0) with
  | error h => rfl
  | ok pm =>
    obtain ⟨p, m'⟩ := pm
    simp only [forgetPlace]
    by_cases hn : lattice.V.length = 0
    · simp only [hn, if_true]
      rfl
    · simp only [hn, if_false]
      cases qrLoop lattice.V.length p lattice.E ([], []) with
      | none => rfl
      | some qr => rfl

theorem probabilitiesLoopHalt_halt (env : minerEnv) (sched : List Bytes → List Bytes)
    (n : Nat) (sg : SubGraph) (post : List SubGraph) (h : Halt) :
    ∀ (pre : List SubGraph) (i : Nat) (m mi : RandomWalkMiner) (P Pi : List Int),
      RandomWalkMiner.probabilitiesLoopHalt env sched n i pre m P = .ok (Pi, mi) →
      mi.probabilityHalt env sched n (i + pre.length) sg = .error h →
      RandomWalkMiner.probabilitiesLoopHalt env sched n i (pre ++ sg :: post) m P = .error h := by
  intro pre
  induction pre with
  | nil =>
    intro i m mi P Pi hl hp
    rw [RandomWalkMiner.probabilitiesLoopHalt] at hl
    cases hl
    rw [List.nil_append, RandomWalkMiner.probabilitiesLoopHalt]
    simp only [List.length_nil, Nat.add_zero] at hp
    rw [hp]
  | cons x rest ih =>
    intro i m mi P Pi hl hp
    rw [RandomWalkMiner.probabilitiesLoopHalt] at hl
    rw [List.cons_append, RandomWalkMiner.probabilitiesLoopHalt]
    cases hx : m.probabilityHalt env sched n i x with
    | error e => rw [hx] at hl; cases hl
    | ok pm =>
      obtain ⟨p, m'⟩ := pm
      rw [hx] at hl
      simp only at hl ⊢
      apply ih (i + 1) m' mi (P.set i p) Pi hl
      rw [List.length_cons] at hp
      rw [show i + 1 + rest.length = i + (rest.length + 1) by omega]
      exact hp

theorem prMatricesRecover_of_halt (env : minerEnv) (sched : List Bytes → List Bytes)
    (m : RandomWalkMiner) (lattice : Lattice) (pre post : List SubGraph) (sg : SubGraph)
    (mi : RandomWalkMiner) (Pi : List Int) (h : Halt)
    (hV : lattice.V = pre ++ sg :: post)
    (hloop : RandomWalkMiner.probabilitiesLoopHalt env sched lattice.V.length 0 pre m
      (List.replicate lattice.V.length 0) = .ok (Pi, mi))
    (hp : mi.probabilityHalt env sched lattice.V.length (0 + pre.length) sg = .error h) :
    m.PrMatricesBody env sched lattice = .error h := by
  have hl := probabilitiesLoopHalt_halt env sched lattice.V.length sg post h pre 0 m mi _ Pi
    hloop hp
  unfold RandomWalkMiner.PrMatricesBody
  rw [hV] at hl ⊢
  rw [hl]

set_option maxRecDepth 100000 in
/-- C26 (counterexample): the deferred `recover` does not catch `log.Fatal`.
On `toyGraph` with an encoding of sets whose serialization fails, the first
iteration of `probabilities` for the lattice of `a1→b1` reaches the call
`extended.Put` of `extensions`, whose error goes to `assert_ok`: the program
ends and `PrMatrices` returns neither its matrices nor an error. -/
theorem prMatrices_recovers_counterexample :
    (∃ part, toyMiner.partition toyFailEnv.lib
        (toyFailEnv.lib.ShortLabel (toyEmbedding [0] [])) = .ok part ∧
      toyMiner.extended.Has (toyFailEnv.lib.ShortLabel (toyEmbedding [0] [])) = false ∧
      (∃ esgs all, extend toyFailEnv.G toyFailEnv.ops toyMiner.Support toyFailEnv.esched part
          = some esgs ∧
        toyMiner.AllEmbeddings.sendAll toyFailEnv.lib esgs = some all ∧
        toyMiner.extended.Put toyFailEnv.codec
          (toyFailEnv.lib.ShortLabel (toyEmbedding [0] []))
          (esgs.foldl (fun ks sg => ks.Add (toyFailEnv.lib.ShortLabel sg)) SortedSet.empty)
            = none) ∧
      toyMiner.extensionsHalt toyFailEnv part = .error .exit) ∧
    toyMiner.PrMatricesBody toyFailEnv id toyLattice = .error .exit ∧
    toyMiner.PrMatricesRecover toyFailEnv id toyLattice = .ended ∧
    toyMiner.PrMatricesRecover toyFailEnv id toyLattice ≠ .recovered ∧
    ∀ r, toyMiner.PrMatricesRecover toyFailEnv id toyLattice ≠ .returned r := by
  have h : toyMiner.PrMatricesRecover toyFailEnv id toyLattice = .ended := rfl
  refine ⟨⟨_, rfl, rfl, ⟨_, _, rfl, rfl, rfl⟩, rfl⟩, rfl, h, ?_, ?_⟩
  · rw [h]; intro hc; cases hc
  · intro r; rw [h]; intro hc; cases hc

/-- C26 (amended): `PrMatrices` returns its matrices and a nil error exactly
when its body completes. A panic in the goroutine that runs `PrMatrices` is
returned as the error of the deferred `recover`: for a lattice without a
node, for a panic of `partition` at a node that the loop of `probabilities`
reaches, and in particular at a node that is not the last one and whose
partition is empty, when `supportedKeys` returns and no key is supported (the
index `part[0]`). A fault of `supportedKeys` at a node that the loop reaches
(`log.Fatal` in `assert_ok`, a panic in a worker) ends the program, and
`PrMatrices` does not return. The call ends in the recovered error or with
the program exactly when the body ends in a fault that is not the step bound
of the model. -/
theorem prMatrices_recovers (env : minerEnv) (sched : List Bytes → List Bytes)
    (rand : Nat → Nat) (m : RandomWalkMiner) (lattice : Lattice) :
    (∀ r, m.PrMatricesRecover env sched lattice = .returned r ↔
      m.PrMatrices (env.toWalkEnv sched rand) lattice = .ok r) ∧
    ((m.PrMatricesRecover env sched lattice = .recovered ∨
        m.PrMatricesRecover env sched lattice = .ended) ↔
      m.PrMatrices (env.toWalkEnv sched rand) lattice = .error .panic) ∧
    (lattice.V = [] → m.PrMatricesRecover env sched lattice = .recovered) ∧
    ∀ (pre post : List SubGraph) (sg : SubGraph) (mi : RandomWalkMiner) (Pi : List Int),
      lattice.V = pre ++ sg :: post →
      RandomWalkMiner.probabilitiesLoopHalt env sched lattice.V.length 0 pre m
        (List.replicate lattice.V.length 0) = .ok (Pi, mi) →
      (mi.partition env.lib (env.lib.ShortLabel sg) = .error .panic →
        m.PrMatricesRecover env sched lattice = .recovered) ∧
      (∀ res, post ≠ [] → mi.partition env.lib (env.lib.ShortLabel sg) = .ok [] →
        mi.supportedKeys env.lib env.codec sched (env.lib.ShortLabel sg) SortedSet.empty
          = .ok res →
        res.supKeys.Size = 0 → m.PrMatricesRecover env sched lattice = .recovered) ∧
      (∀ part keys m1, mi.partition env.lib (env.lib.ShortLabel sg) = .ok part →
        mi.extensionsHalt env part = .ok (keys, m1) →
        m1.supportedKeys env.lib env.codec sched (env.lib.ShortLabel sg) keys = .error .panic →
        m.PrMatricesRecover env sched lattice = .ended) := by
  have hf := prMatricesBody_forget env sched rand m lattice
  refine ⟨?_, ?_, ?_, ?_⟩
  · intro r
    unfold RandomWalkMiner.PrMatricesRecover
    rw [← hf]
    cases hb : m.PrMatricesBody env sched lattice with
    | ok r' =>
      simp only [forgetPlace]
      constructor
      · intro h; cases h; rfl
      · intro h; cases h; rfl
    | error h =>
      cases h <;> simp [forgetPlace]
  · unfold RandomWalkMiner.PrMatricesRecover
    rw [← hf]
    cases hb : m.PrMatricesBody env sched lattice with
    | ok r' => simp [forgetPlace]
    | error h => cases h <;> simp [forgetPlace, Halt.toFault]
  · intro hV
    unfold RandomWalkMiner.PrMatricesRecover RandomWalkMiner.PrMatricesBody
    rw [hV]
    rfl
  · intro pre post sg mi Pi hV hloop
    refine ⟨?_, ?_, ?_⟩
    · intro hp
      have hb := prMatricesRecover_of_halt env sched m lattice pre post sg mi Pi .panic hV hloop
        (by
          unfold RandomWalkMiner.probabilityHalt
          simp only [hp]
          rfl)
      unfold RandomWalkMiner.PrMatricesRecover
      rw [hb]
    · intro res hpost hp hs hc
      have hi : 0 + pre.length + 1 ≠ lattice.V.length := by
        rw [hV, List.length_append, List.length_cons]
        cases post with
        | nil => exact absurd rfl hpost
        | cons y ys => rw [List.length_cons]; omega
      have hb := prMatricesRecover_of_halt env sched m lattice pre post sg mi Pi .panic hV hloop
        (by
          unfold RandomWalkMiner.probabilityHalt
          simp only [hp]
          have he : mi.extensionsHalt env [] = .ok (SortedSet.empty, mi) := rfl
          simp only [he, hs]
          rw [if_neg hi, if_pos hc]
          rfl)
      unfold RandomWalkMiner.PrMatricesRecover
      rw [hb]
    · intro part keys m1 hp he hs
      have hb := prMatricesRecover_of_halt env sched m lattice pre post sg mi Pi .exit hV hloop
        (by
          unfold RandomWalkMiner.probabilityHalt
          simp only [hp, he, hs]
          rfl)
      unfold RandomWalkMiner.PrMatricesRecover
      rw [hb]

set_option maxRecDepth 100000 in
theorem prMatrices_recovers_witness :
    RandomWalkMiner.initial toyEnv 1 3 20
      = .ok (toyMinerThree.AllEmbeddings, toyMinerThree.startingPoints) ∧
    toyMinerThree.partition toyEnv.lib (toyEnv.lib.ShortLabel (toyEmbedding [0] []))
      = .ok [] ∧
    toyMinerThree.PrMatricesRecover toyEnv id toyLattice = .recovered :=
  ⟨rfl, rfl,
    ((prMatrices_recovers toyEnv id (fun _ => 0) toyMinerThree toyLattice).2.2.2 []
      [toyEmbedding [2] [], toyEmbedding [0, 2] [⟨0, 2, 3⟩]] (toyEmbedding [0] [])
      toyMinerThree _ rfl rfl).2.1 _ (by decide) rfl rfl rfl⟩

/-! ## C24: what `initial` sends and the starting points -/

theorem bpt_insertEntry_sorted (k v : Bytes) (l : List (Bytes × Bytes))
    (h : (l.map Prod.fst).Sorted (· ≤ ·)) :
    ((BpTree.insertEntry k v l).map Prod.fst).Sorted (· ≤ ·) := by
  induction l with
  | nil => simp [BpTree.insertEntry]
  | cons e rest ih =>
    rw [List.map_cons, List.sorted_cons] at h
    unfold BpTree.insertEntry
    by_cases hk : k ≤ e.1
    · rw [if_pos hk, List.map_cons, List.sorted_cons]
      refine ⟨?_, by rw [List.map_cons, List.sorted_cons]; exact h⟩
      intro b hb
      rw [List.map_cons, List.mem_cons] at hb
      rcases hb with hb | hb
      · rw [hb]; exact hk
      · exact le_trans hk (h.1 b hb)
    · rw [if_neg hk, List.map_cons, List.sorted_cons]
      refine ⟨?_, ih h.2⟩
      intro b hb
      rw [((bpt_insertEntry_perm k v rest).map Prod.fst).mem_iff, List.map_cons,
        List.mem_cons] at hb
      rcases hb with hb | hb
      · rw [hb]; exact le_of_lt (not_le.1 hk)
      · exact h.1 b hb

theorem send_graphs (lib : GraphLib) (c c' : ParHashCollector) (sg : SubGraph)
    (h : c.send lib sg = some c') : c'.graphs = c.graphs := by
  unfold ParHashCollector.send at h
  cases hi : c.shardIndex (lib.ShortLabel sg) with
  | none => simp only [hi] at h; cases h
  | some idx =>
    cases hc : c.chs[idx]? with
    | none => simp only [hi, hc] at h; cases h
    | some ch =>
      simp only [hi, hc] at h
      cases h
      rfl

theorem receive_graphs_sorted (lib : GraphLib) (c c' : ParHashCollector) (i : Nat)
    (h : c.receive lib i = some c')
    (hs : ∀ t ∈ c.graphs, (t.bpt.entries.map Prod.fst).Sorted (· ≤ ·)) :
    ∀ t ∈ c'.graphs, (t.bpt.entries.map Prod.fst).Sorted (· ≤ ·) := by
  unfold ParHashCollector.receive at h
  split at h
  · rename_i lg pending tree u hch hg hun
    split at h
    · cases h
    · rename_i s hsc
      cases h
      intro t ht
      simp only at ht
      rcases List.mem_or_eq_of_mem_set ht with ht | ht
      · exact hs t ht
      · have htree : tree ∈ c.graphs := by
          obtain ⟨hlt, he⟩ := List.getElem?_eq_some.1 hg
          rw [← he]
          exact List.getElem_mem hlt
        by_cases hin : lib.Serialize lg.sg ∈ indexKeys ⟨tree, u⟩
        · rw [(shardCollector_step lib lg ⟨tree, u⟩).1 hin] at hsc
          cases hsc
          rw [ht]
          exact hs tree htree
        · rw [(shardCollector_step lib lg ⟨tree, u⟩).2 hin] at hsc
          cases hsc
          rw [ht]
          exact bpt_insertEntry_sorted _ _ _ (hs tree htree)
  · cases h
    exact hs

theorem runCollector_graphs_sorted (lib : GraphLib) :
    ∀ (evs : List CollectorEvent) (c c' : ParHashCollector),
      runCollector lib evs c = some c' →
      (∀ t ∈ c.graphs, (t.bpt.entries.map Prod.fst).Sorted (· ≤ ·)) →
      ∀ t ∈ c'.graphs, (t.bpt.entries.map Prod.fst).Sorted (· ≤ ·) := by
  intro evs
  induction evs with
  | nil => intro c c' h hs; rw [runCollector] at h; cases h; exact hs
  | cons ev rest ih =>
    intro c c' h hs
    cases ev with
    | send sg =>
      rw [runCollector] at h
      cases hsend : c.send lib sg with
      | none => rw [hsend] at h; cases h
      | some c1 =>
        rw [hsend] at h
        apply ih c1 c' h
        rw [send_graphs lib c c1 sg hsend]
        exact hs
    | receive i =>
      rw [runCollector] at h
      cases hrec : c.receive lib i with
      | none => rw [hrec] at h; cases h
      | some c1 =>
        rw [hrec] at h
        exact ih c1 c' h (receive_graphs_sorted lib c c1 i hrec hs)

theorem sendAll_pending (lib : GraphLib) (N : Nat) (hN : 1 ≤ N) (Sent : SubGraph → Prop) :
    ∀ (sgs : List SubGraph) (c : ParHashCollector), CollectorInv lib N Sent c →
      (∀ sg ∈ sgs, Sent sg) →
      ∃ c', c.sendAll lib sgs = some c' ∧ CollectorInv lib N Sent c' ∧
        c'.graphs = c.graphs ∧
        (∀ (i : Nat) (ch : List labelGraph) (lg : labelGraph), c.chs[i]? = some ch → lg ∈ ch →
          ∃ ch', c'.chs[i]? = some ch' ∧ lg ∈ ch') ∧
        ∀ sg ∈ sgs, ∃ ch, c'.chs[shardOf N (lib.ShortLabel sg)]? = some ch ∧
          (⟨lib.ShortLabel sg, sg⟩ : labelGraph) ∈ ch := by
  intro sgs
  induction sgs with
  | nil =>
    intro c hinv _
    exact ⟨c, rfl, hinv, rfl, fun i ch lg h1 h2 => ⟨ch, h1, h2⟩,
      fun sg h => absurd h (List.not_mem_nil _)⟩
  | cons sg rest ih =>
    intro c hinv hsent
    obtain ⟨ch0, hch0, hsend, hinv1⟩ := collectorInv_send lib N hN Sent c hinv sg
      (hsent sg (List.mem_cons_self _ _))
    obtain ⟨c', hrun, hinv', hg, hmono, hall⟩ := ih _ hinv1
      (fun x hx => hsent x (List.mem_cons_of_mem _ hx))
    have hlt : shardOf N (lib.ShortLabel sg) < c.chs.length :=
      (List.getElem?_eq_some.1 hch0).1
    refine ⟨c', ?_, hinv', hg, ?_, ?_⟩
    · unfold ParHashCollector.sendAll at hrun ⊢
      rw [List.map_cons, runCollector, hsend]
      exact hrun
    · intro i ch lg hch hlg
      by_cases hi : shardOf N (lib.ShortLabel sg) = i
      · subst hi
        rw [hch0] at hch
        cases hch
        apply hmono _ (ch0 ++ [⟨lib.ShortLabel sg, sg⟩]) lg
        · simp only
          rw [List.getElem?_set_self hlt]
        · exact List.mem_append_left _ hlg
      · apply hmono i ch lg
        · simp only
          rw [List.getElem?_set_ne hi]
          exact hch
        · exact hlg
    · intro x hx
      rw [List.mem_cons] at hx
      rcases hx with hx | hx
      · subst hx
        apply hmono _ (ch0 ++ [⟨lib.ShortLabel x, x⟩]) _
        · simp only
          rw [List.getElem?_set_self hlt]
        · exact List.mem_append_right _ (List.mem_singleton_self _)
      · exact hall x hx

theorem receive_chs (lib : GraphLib) (c c' : ParHashCollector) (i : Nat)
    (lg : labelGraph) (pending : List labelGraph) (t : Fs2BpTree) (u : Fs2UniqueIndex)
    (h : c.receive lib i = some c') (hch : c.chs[i]? = some (lg :: pending))
    (hg : c.graphs[i]? = some t) (hu : c.unique[i]? = some u) :
    c'.chs = c.chs.set i pending := by
  unfold ParHashCollector.receive at h
  split at h
  · rename_i lg1 pending1 tree u1 hch1 hg1 hun1
    rw [hch] at hch1
    cases hch1
    split at h
    · cases h
    · cases h
      rfl
  · rename_i hno
    exact absurd hu (fun hu1 => hno lg pending t u hch hg hu1)

theorem drain_channel (lib : GraphLib) (N : Nat) (Sent : SubGraph → Prop)
    (hrt : ∀ sg, Sent sg → lib.DeserializeSubGraph (lib.Serialize sg) = sg) (i : Nat) :
    ∀ (ch : List labelGraph) (c : ParHashCollector), CollectorInv lib N Sent c →
      c.chs[i]? = some ch →
      ∃ c', runCollector lib (List.replicate ch.length (CollectorEvent.receive i)) c = some c' ∧
        CollectorInv lib N Sent c' ∧
        (∀ e, Stored lib N c e → Stored lib N c' e) ∧
        (∀ lg ∈ ch, Stored lib N c' lg.sg) ∧
        ∀ j, j ≠ i → c'.chs[j]? = c.chs[j]? := by
  intro ch
  induction ch with
  | nil =>
    intro c hinv _
    exact ⟨c, rfl, hinv, fun e h => h, fun lg h => absurd h (List.not_mem_nil _),
      fun j _ => rfl⟩
  | cons lg pending ih =>
    intro c hinv hch
    have hiN : i < N := by
      obtain ⟨hlt, _⟩ := List.getElem?_eq_some.1 hch
      rw [← hinv.2.2.1]; exact hlt
    obtain ⟨t, hgt⟩ := getElem?_some_of_lt c.graphs i (by rw [hinv.1]; exact hiN)
    obtain ⟨u, hun⟩ := getElem?_some_of_lt c.unique i (by rw [hinv.2.1]; exact hiN)
    obtain ⟨c1, hrec, hinv1, hmono1, hst1⟩ := collectorInv_receive lib N Sent hrt c hinv i
    have hchs := receive_chs lib c c1 i lg pending t u hrec hch hgt hun
    have hlt : i < c.chs.length := (List.getElem?_eq_some.1 hch).1
    have hch1 : c1.chs[i]? = some pending := by
      rw [hchs, List.getElem?_set_self hlt]
    obtain ⟨c', hrun, hinv', hmono, hst, hother⟩ := ih c1 hinv1 hch1
    refine ⟨c', ?_, hinv', fun e he => hmono e (hmono1 e he), ?_, ?_⟩
    · rw [List.length_cons, List.replicate_succ, runCollector, hrec]
      exact hrun
    · intro x hx
      rw [List.mem_cons] at hx
      rcases hx with hx | hx
      · rw [hx]
        exact hmono _ (hst1 lg pending hch)
      · exact hst x hx
    · intro j hj
      rw [hother j hj, hchs, List.getElem?_set_ne (fun h => hj h.symm)]

theorem settle_stored (lib : GraphLib) (N : Nat) (Sent : SubGraph → Prop)
    (hrt : ∀ sg, Sent sg → lib.DeserializeSubGraph (lib.Serialize sg) = sg)
    (c0 : ParHashCollector) :
    ∀ (idxs : List Nat), idxs.Nodup → ∀ (c : ParHashCollector), CollectorInv lib N Sent c →
      (∀ i ∈ idxs, c.chs[i]? = c0.chs[i]?) →
      ∃ c', runCollector lib (idxs.flatMap
          (fun i => List.replicate (c0.chs.getD i []).length (CollectorEvent.receive i))) c
            = some c' ∧
        CollectorInv lib N Sent c' ∧
        (∀ e, Stored lib N c e → Stored lib N c' e) ∧
        ∀ i ∈ idxs, ∀ ch, c0.chs[i]? = some ch → ∀ lg ∈ ch, Stored lib N c' lg.sg := by
  intro idxs
  induction idxs with
  | nil =>
    intro _ c hinv _
    exact ⟨c, rfl, hinv, fun e h => h, fun i hi => absurd hi (List.not_mem_nil _)⟩
  | cons i rest ih =>
    intro hnd c hinv hsame
    rw [List.nodup_cons] at hnd
    rw [List.flatMap_cons]
    cases h0 : c0.chs[i]? with
    | none =>
      have hd : c0.chs.getD i [] = [] := by
        rw [List.getD_eq_getElem?_getD, h0]; rfl
      rw [hd]
      obtain ⟨c', hrun, hinv', hmono, hst⟩ := ih hnd.2 c hinv
        (fun j hj => hsame j (List.mem_cons_of_mem _ hj))
      refine ⟨c', by simpa using hrun, hinv', hmono, ?_⟩
      intro j hj ch hch
      rw [List.mem_cons] at hj
      rcases hj with hj | hj
      · rw [hj, h0] at hch; cases hch
      · exact hst j hj ch hch
    | some ch =>
      have hd : c0.chs.getD i [] = ch := by
        rw [List.getD_eq_getElem?_getD, h0]; rfl
      rw [hd]
      have hci : c.chs[i]? = some ch := by
        rw [hsame i (List.mem_cons_self _ _)]; exact h0
      obtain ⟨c1, hrun1, hinv1, hmono1, hst1, hother⟩ :=
        drain_channel lib N Sent hrt i ch c hinv hci
      obtain ⟨c', hrun, hinv', hmono, hst⟩ := ih hnd.2 c1 hinv1 (by
        intro j hj
        have hji : j ≠ i := fun h => hnd.1 (h ▸ hj)
        rw [hother j hji]
        exact hsame j (List.mem_cons_of_mem _ hj))
      refine ⟨c', ?_, hinv', fun e he => hmono e (hmono1 e he), ?_⟩
      · rw [runCollector_append lib _ _ c c1 hrun1]
        exact hrun
      · intro j hj ch' hch'
        rw [List.mem_cons] at hj
        rcases hj with hj | hj
        · rw [hj, h0] at hch'
          cases hch'
          intro lg hlg
          exact hmono _ (hst1 lg hlg)
        · exact hst j hj ch' hch'

theorem keys_sorted_of_entries (t : Fs2BpTree)
    (h : (t.bpt.entries.map Prod.fst).Sorted (· ≤ ·)) : (t.Keys).Sorted (· ≤ ·) := by
  unfold Fs2BpTree.Keys BpTree.Keys
  exact List.Pairwise.sublist (List.dedup_sublist _) h

theorem totalKeys_le_sent (lib : GraphLib) (N : Nat) (Sent : SubGraph → Prop)
    (c : ParHashCollector) (hinv : CollectorInv lib N Sent c) (sgs : List SubGraph)
    (hsent : ∀ sg, Sent sg → sg ∈ sgs) :
    totalKeys (c.graphs.map Fs2BpTree.Keys) ≤ sgs.length := by
  obtain ⟨h1, h2, h3, h4, h5, h6⟩ := hinv
  have hkey : ∀ (i : Nat) (t : Fs2BpTree) (k : Bytes), c.graphs[i]? = some t → k ∈ t.Keys →
      shardOf N k = i ∧ ∃ sg, Sent sg ∧ k = lib.ShortLabel sg := by
    intro i t k ht hk
    unfold Fs2BpTree.Keys BpTree.Keys at hk
    rw [List.mem_dedup, List.mem_map] at hk
    obtain ⟨e, he, hek⟩ := hk
    obtain ⟨sg, hs, heq, hsh⟩ := h5 i t e ht he
    rw [hek] at hsh
    refine ⟨hsh, sg, hs, ?_⟩
    rw [← hek, heq]
  have hnd : (c.graphs.map Fs2BpTree.Keys).flatten.Nodup := by
    rw [List.nodup_flatten]
    constructor
    · intro l hl
      obtain ⟨t, _, rfl⟩ := List.mem_map.1 hl
      exact List.nodup_dedup _
    · rw [List.pairwise_map, List.pairwise_iff_getElem]
      intro i j hi hj hij
      intro k hki hkj
      have e1 := (hkey i _ k (List.getElem?_eq_getElem hi) hki).1
      have e2 := (hkey j _ k (List.getElem?_eq_getElem hj) hkj).1
      omega
  have hsub : (c.graphs.map Fs2BpTree.Keys).flatten ⊆ sgs.map lib.ShortLabel := by
    intro k hk
    rw [List.mem_flatten] at hk
    obtain ⟨l, hl, hkl⟩ := hk
    obtain ⟨t, ht, rfl⟩ := List.mem_map.1 hl
    obtain ⟨i, hi, hit⟩ := List.getElem_of_mem ht
    obtain ⟨_, sg, hs, hksg⟩ := hkey i t k (by rw [List.getElem?_eq_getElem hi, hit]) hkl
    rw [List.mem_map]
    exact ⟨sg, hsent sg hs, hksg.symm⟩
  have hlen := (hnd.subperm hsub).length_le
  rw [List.length_flatten, List.length_map] at hlen
  exact hlen
/-! ## C25: a graph in which every color has the frequency 1 -/

theorem receive_of_empty (lib : GraphLib) (c : ParHashCollector) (i : Nat)
    (h : ∀ ch, c.chs[i]? = some ch → ch = []) : c.receive lib i = some c := by
  unfold ParHashCollector.receive
  split
  · rename_i lg pending tree u hch hg hun
    exact absurd (h _ hch) (List.cons_ne_nil _ _)
  · rfl

theorem receiveAll_fresh (lib : GraphLib) (N : Nat) (idxs : List Nat) :
    (MakeParHashCollector N).receiveAll lib idxs = some (MakeParHashCollector N) := by
  unfold ParHashCollector.receiveAll
  induction idxs with
  | nil => rfl
  | cons i rest ih =>
    rw [List.map_cons, runCollector, receive_of_empty lib (MakeParHashCollector N) i]
    · exact ih
    · intro ch hch
      obtain ⟨hlt, he⟩ := List.getElem?_eq_some.1 hch
      have hx : ch ∈ List.replicate N ([] : List labelGraph) := by
        rw [← he]; exact List.getElem_mem hlt
      exact List.eq_of_mem_replicate hx

theorem drainKeys_fresh (N fuel : Nat) (hfuel : 1 ≤ fuel) :
    drainKeys fuel (keysFromTrees (MakeParHashCollector N).graphs) = .ok [] := by
  have hall : ∀ s ∈ (MakeParHashCollector N).graphs.map Fs2BpTree.Keys, s = [] := by
    intro s hs
    obtain ⟨t, ht, rfl⟩ := List.mem_map.1 hs
    unfold MakeParHashCollector at ht
    simp only at ht
    rw [List.eq_of_mem_replicate ht]
    rfl
  have htotal : totalKeys ((MakeParHashCollector N).graphs.map Fs2BpTree.Keys) = 0 := by
    unfold totalKeys
    apply List.sum_eq_zero
    intro x hx
    obtain ⟨s, hs, rfl⟩ := List.mem_map.1 hx
    rw [hall s hs]
    rfl
  obtain ⟨out, hout, _, _, hmem⟩ := drainKeys_spec fuel
    ((MakeParHashCollector N).graphs.map Fs2BpTree.Keys) none
    (fun s hs => by rw [hall s hs]; exact List.sorted_nil)
    (fun s hs x hx => by rw [hall s hs] at hx; exact absurd hx (List.not_mem_nil _))
    (fun l hl => Option.noConfusion hl) (by omega)
  have hnil : out = [] := by
    rw [List.eq_nil_iff_forall_not_mem]
    intro x hx
    obtain ⟨⟨s, hs, hxs⟩, _⟩ := (hmem x).1 hx
    rw [hall s hs] at hxs
    exact List.not_mem_nil _ hxs
  rw [keysFromTrees_eq, hout, hnil]

/-- C25 (counterexample): on the path `a→b→c` with all colors distinct and
the support 2, `initial` stores nothing and returns no starting point, and
`sample(1)` ends in the fatal error of `randomInitialPartition`: `Report` is
not closed. -/
theorem sample_unique_colors_counterexample :
    (∀ c, 0 ≤ c → c ≤ 4 → pathGraph.ColorFrequency c = 1) ∧
    RandomWalkMiner.initial pathEnv 1 2 10 = .ok (MakeParHashCollector 1, SortedSet.empty) ∧
    RandomWalkMiner.randomInitialPartition (pathEnv.toWalkEnv id (fun _ => 0))
      { Support := 2, MinVertices := 1, startingPoints := SortedSet.empty,
        AllEmbeddings := MakeParHashCollector 1, extended := Fs2Sets.empty,
        supportedExtensions := Fs2Sets.empty } 0 = .error .panic ∧
    RandomWalkMiner.sampleInitial pathEnv id (fun _ => 0) 1 2 1 10 10 10 1 = .error .panic ∧
    ¬ ∃ st, RandomWalkMiner.sampleInitial pathEnv id (fun _ => 0) 1 2 1 10 10 10 1 = .ok st := by
  refine ⟨?_, rfl, rfl, rfl, ?_⟩
  · intro c h0 h4
    show (if 0 ≤ c ∧ c ≤ 4 then (1 : Int) else 0) = 1
    rw [if_pos ⟨h0, h4⟩]
  · rintro ⟨st, hst⟩
    have h : RandomWalkMiner.sampleInitial pathEnv id (fun _ => 0) 1 2 1 10 10 10 1
        = .error .panic := rfl
    rw [h] at hst
    cases hst

/-- C25 (amended): for a graph in which the color of every vertex has the
frequency 1 and a support above 1, `initial` sends nothing, stores nothing
and returns the empty set of starting points; `sample(size)` with `size ≤ 0`
closes `Report` with no label published and no try, and with `size ≥ 1` the
first call of `walk` ends the program in `randomInitialPartition`, with no
label published and `Report` not closed. -/
theorem sample_unique_colors (env : minerEnv) (sched : List Bytes → List Bytes)
    (rand : Nat → Nat) (PLevel : Nat) (Support MinVertices : Int) (ifuel wfuel fuel : Nat)
    (size : Int)
    (hone : ∀ v ∈ env.G.V, env.G.ColorFrequency v.Color = 1) (hS : 1 < Support)
    (hifuel : 1 ≤ ifuel) (hfuel : 1 ≤ fuel) :
    initialSends env.G env.ops Support = [] ∧
    RandomWalkMiner.initial env PLevel Support ifuel
      = .ok (MakeParHashCollector PLevel, SortedSet.empty) ∧
    (∀ t ∈ (MakeParHashCollector PLevel).graphs, t.bpt.entries = []) ∧
    (size ≤ 0 → RandomWalkMiner.sampleInitial env sched rand PLevel Support MinVertices
      ifuel wfuel fuel size = .ok ⟨0, [], 0⟩) ∧
    (1 ≤ size → RandomWalkMiner.sampleInitial env sched rand PLevel Support MinVertices
      ifuel wfuel fuel size = .error .panic) := by
  have hsends : initialSends env.G env.ops Support = [] := by
    unfold initialSends
    rw [List.map_eq_nil_iff, List.filter_eq_nil_iff]
    intro v hv
    rw [hone v hv]
    simp only [decide_eq_true_eq]
    omega
  have hinit : RandomWalkMiner.initial env PLevel Support ifuel
      = .ok (MakeParHashCollector PLevel, SortedSet.empty) := by
    unfold RandomWalkMiner.initial
    rw [hsends]
    have h1 : (MakeParHashCollector PLevel).sendAll env.lib [] = some (MakeParHashCollector PLevel) :=
      rfl
    simp only [h1, receiveAll_fresh, drainKeys_fresh PLevel ifuel hifuel]
    rfl
  refine ⟨hsends, hinit, ?_, ?_, ?_⟩
  · intro t ht
    unfold MakeParHashCollector at ht
    simp only at ht
    rw [List.eq_of_mem_replicate ht]
    rfl
  · intro hsize
    unfold RandomWalkMiner.sampleInitial
    simp only [hinit]
    rw [Int.toNat_eq_zero.2 hsize]
    rfl
  · intro hsize
    unfold RandomWalkMiner.sampleInitial
    simp only [hinit]
    obtain ⟨n, hn⟩ : ∃ n, size.toNat = n + 1 := ⟨size.toNat - 1, by omega⟩
    obtain ⟨f, hf⟩ : ∃ f, fuel = f + 1 := ⟨fuel - 1, by omega⟩
    rw [hn, hf]
    rfl

set_option maxRecDepth 100000 in
theorem sample_unique_colors_witness :
    initialSends pathEnv.G pathEnv.ops 2 = [] ∧
    RandomWalkMiner.initial pathEnv 1 2 10 = .ok (MakeParHashCollector 1, SortedSet.empty) ∧
    (∀ t ∈ (MakeParHashCollector 1).graphs, t.bpt.entries = []) ∧
    ((0 : Int) ≤ 0 → RandomWalkMiner.sampleInitial pathEnv id (fun _ => 0) 1 2 1 10 10 10 0
      = .ok ⟨0, [], 0⟩) ∧
    ((1 : Int) ≤ 0 → RandomWalkMiner.sampleInitial pathEnv id (fun _ => 0) 1 2 1 10 10 10 0
      = .error .panic) :=
  sample_unique_colors pathEnv id (fun _ => 0) 1 2 1 10 10 10 0 (by decide) (by decide)
    (by decide) (by decide)

theorem receiveAll_fullDrain (lib : GraphLib) (c : ParHashCollector) :
    c.receiveAll lib c.fullDrain = c.settle lib := by
  unfold ParHashCollector.receiveAll ParHashCollector.fullDrain ParHashCollector.settle
  rw [List.map_flatMap]
  simp only [List.map_replicate]

/-- C24 (counterexample): `initial` reads the keys right after its last send.
On the path `a→b→c` with the support 1 and one shard it sends the three
single-vertex embeddings; when the goroutine of the shard has received two of
them by then, the starting points returned are two labels and the short label
of the third embedding sent is not among them. -/
theorem initial_startingPoints_counterexample :
    initialSends pathLateEnv.G pathLateEnv.ops 1 =
      [pathOps.VertexSubGraph 0, pathOps.VertexSubGraph 1, pathOps.VertexSubGraph 2] ∧
    toyLib.ShortLabel (pathOps.VertexSubGraph 2) = [2, 255] ∧
    ∃ groups, RandomWalkMiner.initial pathLateEnv 1 1 10
        = .ok (groups, ⟨[[0, 255], [1, 255]]⟩) ∧
      groups.chs = [[⟨[2, 255], pathOps.VertexSubGraph 2⟩]] :=
  ⟨rfl, rfl, _, rfl, rfl⟩

/-- C24 (amended): with at least one shard, a graph library that restores the
sent embeddings from their serializations and gives them non-empty short
labels, and more steps than the graph has vertices: `initial` sends one
single-vertex embedding for every vertex whose color has a frequency of at
least `Support`, in the order of the vertices, and nothing else; it returns,
and the starting points returned are, in strictly ascending order, exactly
the short labels of the sent embeddings that the goroutines of the shards
have stored when the keys are read, so each of them is the short label of a
sent embedding; when the goroutines have received everything sent by then,
every sent embedding is stored and the starting points are exactly the short
labels of the sent embeddings. -/
theorem initial_startingPoints (env : minerEnv) (PLevel : Nat) (Support : Int) (fuel : Nat)
    (hP : 1 ≤ PLevel)
    (hrt : ∀ sg ∈ initialSends env.G env.ops Support,
      env.lib.DeserializeSubGraph (env.lib.Serialize sg) = sg)
    (hne : ∀ sg ∈ initialSends env.G env.ops Support, env.lib.ShortLabel sg ≠ [])
    (hfuel : env.G.V.length < fuel) :
    initialSends env.G env.ops Support =
      (env.G.V.filter (fun v => decide (Support ≤ env.G.ColorFrequency v.Color))).map
        (fun v => env.ops.VertexSubGraph v.Idx) ∧
    ∃ sent groups sp,
      (MakeParHashCollector PLevel).sendAll env.lib (initialSends env.G env.ops Support)
        = some sent ∧
      sent.graphs = (MakeParHashCollector PLevel).graphs ∧
      (∀ sg ∈ initialSends env.G env.ops Support,
        ∃ ch, sent.chs[shardOf PLevel (env.lib.ShortLabel sg)]? = some ch ∧
          (⟨env.lib.ShortLabel sg, sg⟩ : labelGraph) ∈ ch) ∧
      sent.receiveAll env.lib (env.received sent) = some groups ∧
      RandomWalkMiner.initial env PLevel Support fuel = .ok (groups, sp) ∧
      sp.items.Sorted (· < ·) ∧
      (∀ k, k ∈ sp.items ↔
        ∃ sg ∈ initialSends env.G env.ops Support,
          Stored env.lib PLevel groups sg ∧ k = env.lib.ShortLabel sg) ∧
      (env.received sent = sent.fullDrain →
        (∀ sg ∈ initialSends env.G env.ops Support, Stored env.lib PLevel groups sg) ∧
        ∀ k, k ∈ sp.items ↔
          ∃ sg ∈ initialSends env.G env.ops Support, k = env.lib.ShortLabel sg) := by
  refine ⟨rfl, ?_⟩
  obtain ⟨sent, hsend, hinv1, hg1, _, hpend⟩ := sendAll_pending env.lib PLevel hP
    (fun sg => sg ∈ initialSends env.G env.ops Support) (initialSends env.G env.ops Support)
    (MakeParHashCollector PLevel) (collectorInv_init env.lib PLevel _) (fun sg h => h)
  obtain ⟨groups, hrecv, hinv, _⟩ := runCollector_inv env.lib PLevel hP
    (fun sg => sg ∈ initialSends env.G env.ops Support) hrt
    ((env.received sent).map CollectorEvent.receive) sent hinv1
    (by
      intro sg hsg
      rw [List.mem_map] at hsg
      obtain ⟨i, _, hi⟩ := hsg
      cases hi)
  have hsorted0 : ∀ t ∈ (MakeParHashCollector PLevel).graphs,
      (t.bpt.entries.map Prod.fst).Sorted (· ≤ ·) := by
    intro t ht
    unfold MakeParHashCollector at ht
    simp only at ht
    rw [List.eq_of_mem_replicate ht]
    exact List.sorted_nil
  have hsorted : ∀ t ∈ groups.graphs, (t.bpt.entries.map Prod.fst).Sorted (· ≤ ·) := by
    apply runCollector_graphs_sorted env.lib _ sent groups hrecv
    rw [hg1]
    exact hsorted0
  have hkeys : ∀ t ∈ groups.graphs, ∀ k ∈ t.Keys,
      ∃ sg ∈ initialSends env.G env.ops Support,
        Stored env.lib PLevel groups sg ∧ k = env.lib.ShortLabel sg := by
    intro t ht k hk
    unfold Fs2BpTree.Keys BpTree.Keys at hk
    rw [List.mem_dedup, List.mem_map] at hk
    obtain ⟨e, he, hek⟩ := hk
    obtain ⟨i, hi, hit⟩ := List.getElem_of_mem ht
    have hget : groups.graphs[i]? = some t := by rw [List.getElem?_eq_getElem hi, hit]
    obtain ⟨sg, hs, heq, hsh⟩ := hinv.2.2.2.2.1 i t e hget he
    refine ⟨sg, hs, ⟨t, ?_, ?_⟩, by rw [← hek, heq]⟩
    · rw [heq] at hsh
      rw [hsh]
      exact hget
    · rw [← heq]
      exact he
  have htotal : totalKeys (groups.graphs.map Fs2BpTree.Keys) < fuel := by
    have h1 := totalKeys_le_sent env.lib PLevel _ groups hinv
      (initialSends env.G env.ops Support) (fun sg h => h)
    have h2 : (initialSends env.G env.ops Support).length ≤ env.G.V.length := by
      unfold initialSends
      rw [List.length_map]
      exact List.length_filter_le _ _
    omega
  obtain ⟨out, hout, hso, _, hmem⟩ := drainKeys_spec fuel (groups.graphs.map Fs2BpTree.Keys) none
    (by
      intro s hs
      obtain ⟨t, ht, rfl⟩ := List.mem_map.1 hs
      exact keys_sorted_of_entries t (hsorted t ht))
    (by
      intro s hs x hx
      obtain ⟨t, ht, rfl⟩ := List.mem_map.1 hs
      obtain ⟨sg, hsg, _, hk⟩ := hkeys t ht x hx
      rw [hk]
      exact hne sg hsg)
    (fun l hl => Option.noConfusion hl) htotal
  obtain ⟨hsp, hspmem⟩ := foldl_add_sorted out SortedSet.empty (by simp [SortedSet.empty])
  have hrecv' : sent.receiveAll env.lib (env.received sent) = some groups := hrecv
  have hiff : ∀ k, k ∈ (out.foldl SortedSet.Add SortedSet.empty).items ↔
      ∃ sg ∈ initialSends env.G env.ops Support,
        Stored env.lib PLevel groups sg ∧ k = env.lib.ShortLabel sg := by
    intro k
    rw [hspmem k, hmem k]
    constructor
    · rintro (h | ⟨⟨s, hs, hks⟩, _⟩)
      · simp [SortedSet.empty] at h
      · obtain ⟨t, ht, rfl⟩ := List.mem_map.1 hs
        exact hkeys t ht k hks
    · rintro ⟨sg, hsg, ⟨t, ht, he⟩, hk⟩
      right
      have htm : t ∈ groups.graphs := by
        obtain ⟨hlt, heq⟩ := List.getElem?_eq_some.1 ht
        rw [← heq]
        exact List.getElem_mem hlt
      have hkt : k ∈ t.Keys := by
        unfold Fs2BpTree.Keys BpTree.Keys
        rw [List.mem_dedup, List.mem_map]
        exact ⟨_, he, hk.symm⟩
      refine ⟨⟨t.Keys, List.mem_map.2 ⟨t, htm, rfl⟩, hkt⟩, ?_⟩
      cases hb : bytesEqual (some k) none with
      | false => rfl
      | true =>
        exact absurd ((bytesEqual_some_none k).1 hb) (by rw [hk]; exact hne sg hsg)
  refine ⟨sent, groups, out.foldl SortedSet.Add SortedSet.empty, hsend, hg1, hpend, hrecv',
    ?_, hsp, hiff, ?_⟩
  · unfold RandomWalkMiner.initial
    simp only [hsend, hrecv']
    rw [keysFromTrees_eq, hout]
  · intro hfull
    have hsettle : sent.settle env.lib = some groups := by
      rw [← receiveAll_fullDrain, ← hfull]
      exact hrecv'
    obtain ⟨groups', hsettle', _, _, hst⟩ := settle_stored env.lib PLevel
      (fun sg => sg ∈ initialSends env.G env.ops Support) hrt sent
      (List.range sent.chs.length) (List.nodup_range _) sent hinv1 (fun i _ => rfl)
    have hsettle'' : sent.settle env.lib = some groups' := hsettle'
    rw [hsettle] at hsettle''
    cases hsettle''
    have hstored : ∀ sg ∈ initialSends env.G env.ops Support,
        Stored env.lib PLevel groups sg := by
      intro sg hsg
      obtain ⟨ch, hch, hmem'⟩ := hpend sg hsg
      exact hst _ (List.mem_range.2 (List.getElem?_eq_some.1 hch).1) ch hch _ hmem'
    refine ⟨hstored, ?_⟩
    intro k
    rw [hiff k]
    constructor
    · rintro ⟨sg, hsg, _, hk⟩
      exact ⟨sg, hsg, hk⟩
    · rintro ⟨sg, hsg, hk⟩
      exact ⟨sg, hsg, hstored sg hsg, hk⟩

set_option maxRecDepth 100000 in
theorem initial_startingPoints_witness :
    RandomWalkMiner.initial toyEnv 1 2 20 = .ok (toyMiner.AllEmbeddings, toyMiner.startingPoints) ∧
    initialSends toyEnv.G toyEnv.ops 2 =
      (toyEnv.G.V.filter (fun v => decide ((2 : Int) ≤ toyEnv.G.ColorFrequency v.Color))).map
        (fun v => toyEnv.ops.VertexSubGraph v.Idx) ∧
    ∃ sent groups sp,
      (MakeParHashCollector 1).sendAll toyEnv.lib (initialSends toyEnv.G toyEnv.ops 2)
        = some sent ∧
      sent.graphs = (MakeParHashCollector 1).graphs ∧
      (∀ sg ∈ initialSends toyEnv.G toyEnv.ops 2,
        ∃ ch, sent.chs[shardOf 1 (toyEnv.lib.ShortLabel sg)]? = some ch ∧
          (⟨toyEnv.lib.ShortLabel sg, sg⟩ : labelGraph) ∈ ch) ∧
      sent.receiveAll toyEnv.lib (toyEnv.received sent) = some groups ∧
      RandomWalkMiner.initial toyEnv 1 2 20 = .ok (groups, sp) ∧
      sp.items.Sorted (· < ·) ∧
      (∀ k, k ∈ sp.items ↔
        ∃ sg ∈ initialSends toyEnv.G toyEnv.ops 2,
          Stored toyEnv.lib 1 groups sg ∧ k = toyEnv.lib.ShortLabel sg) ∧
      (toyEnv.received sent = sent.fullDrain →
        (∀ sg ∈ initialSends toyEnv.G toyEnv.ops 2, Stored toyEnv.lib 1 groups sg) ∧
        ∀ k, k ∈ sp.items ↔
          ∃ sg ∈ initialSends toyEnv.G toyEnv.ops 2, k = toyEnv.lib.ShortLabel sg) :=
  ⟨rfl, initial_startingPoints toyEnv 1 2 20 (by decide) (by decide) (by decide) (by decide)⟩

set_option maxRecDepth 100000 in
/-- C20, counterexample: in `branchGraph` with the support 1, from the state
that `initial` returns, after `extensions` on the partition of the pattern
`a` and then on the partition of the pattern `a→b`, the embeddings `a1→b1`
and `a1→b2` of `a→b` are both stored in `AllEmbeddings`, the edge `b1→c1`
passes the filter of `extend` for the first and extends it to the pattern
`a→b→c`, the edge `b2→d1` passes it for the second and extends it to the
pattern `a→b→d`, and the set stored in `extended` for `a→b` does not hold
both labels: the partition that `MinimumImageSupport` leaves has one
embedding for the vertex `a1`. -/
theorem extended_complete_counterexample :
    ∃ groups sp p1 k1 m1 p2 keys m2,
      RandomWalkMiner.initial branchEnv 1 1 20 = .ok (groups, sp) ∧
      RandomWalkMiner.partition toyLib
        { Support := 1, MinVertices := 1, startingPoints := sp, AllEmbeddings := groups,
          extended := Fs2Sets.empty, supportedExtensions := Fs2Sets.empty } [0, 255] = .ok p1 ∧
      RandomWalkMiner.callExtensions (branchEnv.toWalkEnv id (fun _ => 0))
        { Support := 1, MinVertices := 1, startingPoints := sp, AllEmbeddings := groups,
          extended := Fs2Sets.empty, supportedExtensions := Fs2Sets.empty } p1 = .ok (k1, m1) ∧
      m1.partition toyLib [0, 1, 255, 0, 1, 4] = .ok p2 ∧
      p2.length = 2 ∧
      m1.callExtensions (branchEnv.toWalkEnv id (fun _ => 0)) p2 = .ok (keys, m2) ∧
      Stored toyLib 1 m2.AllEmbeddings (tableEmbedding branchVertices [0, 2] [⟨0, 2, 4⟩]) ∧
      Stored toyLib 1 m2.AllEmbeddings (tableEmbedding branchVertices [0, 3] [⟨0, 3, 4⟩]) ∧
      toyLib.ShortLabel (tableEmbedding branchVertices [0, 2] [⟨0, 2, 4⟩])
        = [0, 1, 255, 0, 1, 4] ∧
      toyLib.ShortLabel (tableEmbedding branchVertices [0, 3] [⟨0, 3, 4⟩])
        = [0, 1, 255, 0, 1, 4] ∧
      PassesFilter branchGraph (tableOps branchVertices) 1
        (tableEmbedding branchVertices [0, 2] [⟨0, 2, 4⟩], ⟨2, 5, 4⟩) ∧
      PassesFilter branchGraph (tableOps branchVertices) 1
        (tableEmbedding branchVertices [0, 3] [⟨0, 3, 4⟩], ⟨3, 6, 4⟩) ∧
      toyLib.ShortLabel ((tableOps branchVertices).EdgeExtend
        (tableEmbedding branchVertices [0, 2] [⟨0, 2, 4⟩]) ⟨2, 5, 4⟩)
          = [0, 1, 2, 255, 0, 1, 4, 1, 2, 4] ∧
      toyLib.ShortLabel ((tableOps branchVertices).EdgeExtend
        (tableEmbedding branchVertices [0, 3] [⟨0, 3, 4⟩]) ⟨3, 6, 4⟩)
          = [0, 1, 3, 255, 0, 1, 4, 1, 2, 4] ∧
      m2.extended.Get exampleCodec [0, 1, 255, 0, 1, 4] = some keys ∧
      ¬ ([0, 1, 2, 255, 0, 1, 4, 1, 2, 4] ∈ keys.items ∧
        [0, 1, 3, 255, 0, 1, 4, 1, 2, 4] ∈ keys.items) :=
  ⟨_, _, _, _, _, _, _, _, rfl, rfl, rfl, rfl, rfl, rfl,
    ⟨_, rfl, by decide⟩, ⟨_, rfl, by decide⟩, rfl, rfl,
    ⟨by decide, ⟨⟨2, 2, 1⟩, ⟨5, 5, 2⟩, by rfl, by rfl, by decide, by decide⟩, by rfl⟩,
    ⟨by decide, ⟨⟨3, 3, 1⟩, ⟨6, 6, 3⟩, by rfl, by rfl, by decide, by decide⟩, by rfl⟩,
    rfl, rfl, rfl, by decide⟩

end Graple
